import Mathlib

/-! # Program 3: bipartite matching by shortest augmenting paths

A shallow embedding of `Node`, `Edge`, `Graph` and the driver loop of
`p3-network-flow-bipartite-matching`, followed by the properties proved
about them.

Conventions of the embedding.

* `std::vector<T>` is a `List T`; `int` is `Int` (no value in these programs
  comes near the machine bounds).
* An access the C++ standard leaves undefined (`v[i]` with `i` outside
  `0 .. size-1`, `front()`/`back()` of an empty vector) yields `none`
  (`Outcome.undef` inside the loops that carry fuel).
* Loops whose trip count is not fixed in advance take a fuel argument;
  `Outcome.fuel` says the fuel ran out before the loop did.
-/

namespace P3

/-! ## Data model -/

/-- Node of the graph (`Node.h`): name, index and level. -/
structure Node where
  name : String
  index : Int
  level : Int
deriving DecidableEq

/-- Edge of the graph (`Edge.h`): source index, destination index, flow flag. -/
structure Edge where
  source : Int
  destination : Int
  flow : Bool
deriving DecidableEq

/-- Graph (`Graph.h`): the four private vectors of the class. -/
structure Graph where
  edges : List Edge
  nodes : List Node
  residualGraph : List (List Int)
  levelGraph : List (List Int)
deriving DecidableEq

/-- Result of running a loop of the program with a fuel bound. -/
inductive Outcome (α : Type) where
  | done : α → Outcome α
  | undef : Outcome α
  | fuel : Outcome α
deriving DecidableEq

/-- Sequencing of outcomes: the first failure wins. -/
def Outcome.bind {α β : Type} (x : Outcome α) (f : α → Outcome β) : Outcome β :=
  match x with
  | Outcome.done a => f a
  | Outcome.undef => Outcome.undef
  | Outcome.fuel => Outcome.fuel

/-- An undefined access inside a fuelled loop. -/
def Outcome.ofOption {α : Type} : Option α → Outcome α
  | some a => Outcome.done a
  | none => Outcome.undef

/-- The constant `SINK_NODE_INDEX` of `Graph.cpp`. -/
def SINK_NODE_INDEX : Int := -1

/-! ## Vector primitives -/

/-- Read `v[i]` for an `int` index: defined only for `0 ≤ i < v.size()`. -/
def vget {α : Type} (v : List α) (i : Int) : Option α :=
  if i < 0 then none else v[i.toNat]?

/-- Write `v[i] = x` for an `int` index: defined only for `0 ≤ i < v.size()`. -/
def vset {α : Type} (v : List α) (i : Int) (x : α) : Option (List α) :=
  if i < 0 then none
  else if i.toNat < v.length then some (v.set i.toNat x) else none

/-- The call `v[i].push_back(x)` on a vector of vectors. -/
def pushBackAt (v : List (List Int)) (i : Int) (x : Int) : Option (List (List Int)) :=
  match vget v i with
  | none => none
  | some row => vset v i (row ++ [x])

/-- The call `v.resize(n)` on a vector of vectors: keep the first `n` rows, pad with empty rows. -/
def resize (v : List (List Int)) (n : Nat) : List (List Int) :=
  v.take n ++ List.replicate (n - v.length) []

/-! ## Node and edge functions of `Graph` -/

/-- The default-constructed graph. -/
def Graph.empty : Graph := ⟨[], [], [], []⟩

/-- The method `Graph::addNode`. -/
def Graph.addNode (g : Graph) (node : Node) : Graph :=
  { g with nodes := g.nodes ++ [node] }

/-- The method `Graph::getNode`: out of range falls back to the first node. -/
def Graph.getNode (g : Graph) (index : Int) : Option Node :=
  if index < 0 ∨ index ≥ (g.nodes.length : Int) then g.nodes.head?
  else g.nodes[index.toNat]?

/-- The method `Graph::addEdge`. -/
def Graph.addEdge (g : Graph) (source destination : Int) (hasFlow : Bool) : Graph :=
  { g with edges := g.edges ++ [⟨source, destination, hasFlow⟩] }

/-! ## Residual graph -/

/-- First loop of `createResidualGraph`: `residualGraph[0].push_back(i)` for `i = 1 .. leftPartition`. -/
def connectSource (leftPartition : Nat) (r : List (List Int)) : Option (List (List Int)) :=
  (List.range leftPartition).foldlM (fun acc (k : Nat) => pushBackAt acc 0 ((k : Int) + 1)) r

/-- Second loop of `createResidualGraph`: one `push_back` per edge, in edge order. -/
def connectEdges (es : List Edge) (r : List (List Int)) : Option (List (List Int)) :=
  es.foldlM (fun acc e => pushBackAt acc e.source e.destination) r

/-- Third loop of `createResidualGraph`: `residualGraph[i].push_back(totalNodes + 1)`
for `i = leftPartition + 1 .. totalNodes`. -/
def connectSink (leftPartition totalNodes : Nat) (r : List (List Int)) : Option (List (List Int)) :=
  (List.range (totalNodes - leftPartition)).foldlM
    (fun acc (k : Nat) => pushBackAt acc ((leftPartition : Int) + 1 + (k : Int)) ((totalNodes : Int) + 1)) r

/-- The method `Graph::createResidualGraph`. -/
def Graph.createResidualGraph (g : Graph) : Option Graph :=
  let totalNodes := g.nodes.length
  let leftPartition := totalNodes / 2
  let totalResidualGraphNodes := totalNodes + 2
  let r0 := resize g.residualGraph totalResidualGraphNodes
  match connectSource leftPartition r0 with
  | none => none
  | some r1 =>
    match connectEdges g.edges r1 with
    | none => none
    | some r2 =>
      match connectSink leftPartition totalNodes r2 with
      | none => none
      | some r3 =>
        let sinkNodeIndex : Int := (totalNodes : Int) + 1
        match pushBackAt r3 sinkNodeIndex (-1) with
        | none => none
        | some r4 =>
          let sourceNode : Node := ⟨"", 0, 0⟩
          let sinkNode : Node := ⟨"", sinkNodeIndex, 0⟩
          some { g with residualGraph := r4, nodes := (sourceNode :: g.nodes) ++ [sinkNode] }

/-- One step of the loop of `Graph::updateResidualGraph`: when `nextNode` is found in
`residualGraph[currentNode]`, erase it there and append `currentNode` to `residualGraph[nextNode]`. -/
def reverseStep (r : List (List Int)) (currentNode nextNode : Int) : Option (List (List Int)) :=
  match vget r currentNode with
  | none => none
  | some row =>
    if nextNode ∈ row then
      match vset r currentNode (row.erase nextNode) with
      | none => none
      | some r1 => pushBackAt r1 nextNode currentNode
    else some r

/-- The consecutive pairs `(path[i], path[i+1])` visited by the loops over an augmenting path. -/
def pathSteps (path : List Int) : List (Int × Int) :=
  path.zip path.tail

/-- The method `Graph::updateResidualGraph`. The loop bound `size() - 1` is unsigned, so an
empty path reads `augmentingPath[0]`, which is undefined. -/
def Graph.updateResidualGraph (g : Graph) (augmentingPath : List Int) : Option Graph :=
  if augmentingPath = [] then none
  else
    match (pathSteps augmentingPath).foldlM (fun acc p => reverseStep acc p.1 p.2) g.residualGraph with
    | none => none
    | some r => some { g with residualGraph := r }

/-! ## Level graph -/

/-- Local state of `Graph::createLevelGraph` while the breadth-first loop runs. -/
structure BfsState where
  nodes : List Node
  levelGraph : List (List Int)
  visited : List Bool
  nodeQueue : List Node
  hasPathToSink : Bool
deriving DecidableEq

/-- The method `Node::setLevel` applied to `nodes[i]`. -/
def setLevelAt (nodes : List Node) (i : Int) (level : Int) : Option (List Node) :=
  match vget nodes i with
  | none => none
  | some nd => vset nodes i { nd with level := level }

/-- The inner `for` loop of `createLevelGraph`, from index `i` with `remaining` iterations
left (`numAdjacentNodes` is fixed before the loop, the row is re-read at every iteration
because `currentLevelGraph` is a reference into `levelGraph`). -/
def scanAdjacent (currentLevel currentIndex : Int) : Nat → Nat → BfsState → Option BfsState
  | 0, _, s => some s
  | remaining + 1, i, s =>
    match vget s.levelGraph currentIndex with
    | none => none
    | some row =>
      match row[i]? with
      | none => none
      | some adjancentIndex =>
        if adjancentIndex = SINK_NODE_INDEX then
          some { s with hasPathToSink := true }
        else
          match vget s.visited adjancentIndex with
          | none => none
          | some false =>
            match vset s.visited adjancentIndex true with
            | none => none
            | some visited1 =>
              match setLevelAt s.nodes adjancentIndex (currentLevel + 1) with
              | none => none
              | some nodes1 =>
                match vget nodes1 adjancentIndex with
                | none => none
                | some nd =>
                  scanAdjacent currentLevel currentIndex remaining (i + 1)
                    { s with visited := visited1, nodes := nodes1, nodeQueue := s.nodeQueue ++ [nd] }
          | some true =>
            match vget s.nodes adjancentIndex with
            | none => none
            | some nd =>
              if nd.level < currentLevel + 1 then
                match vset s.levelGraph currentIndex (row.eraseIdx i) with
                | none => none
                | some levelGraph1 =>
                  scanAdjacent currentLevel currentIndex remaining (i + 1)
                    { s with levelGraph := levelGraph1 }
              else
                scanAdjacent currentLevel currentIndex remaining (i + 1) s

/-- One iteration of the `while (!nodeQueue.empty())` loop, for the node at the front. -/
def bfsVisit (currentNode : Node) (rest : List Node) (s : BfsState) : Option BfsState :=
  let currentLevel := currentNode.level
  let currentIndex := currentNode.index
  let s0 := { s with nodeQueue := rest }
  match vget s0.levelGraph currentIndex with
  | none => none
  | some currentLevelGraph =>
    let numAdjacentNodes := currentLevelGraph.length
    match scanAdjacent currentLevel currentIndex numAdjacentNodes 0 s0 with
    | none => none
    | some s1 =>
      match vset s1.visited currentIndex true with
      | none => none
      | some visited1 => some { s1 with visited := visited1 }

/-- The `while (!nodeQueue.empty())` loop of `createLevelGraph`. -/
def bfsLoop : Nat → BfsState → Outcome BfsState
  | 0, s =>
    match s.nodeQueue with
    | [] => Outcome.done s
    | _ :: _ => Outcome.fuel
  | fuel + 1, s =>
    match s.nodeQueue with
    | [] => Outcome.done s
    | currentNode :: rest =>
      match bfsVisit currentNode rest s with
      | none => Outcome.undef
      | some s1 => bfsLoop fuel s1

/-- The method `Graph::createLevelGraph`. Every push onto the queue marks an unvisited node,
so the loop runs at most `nodes.size() + 1` times and the fuel given here is never used up
(see `bfsLoop_enough_fuel` and `createLevelGraph_ne_fuel`). -/
def Graph.createLevelGraph (g : Graph) : Outcome (Bool × Graph) :=
  match g.nodes with
  | [] => Outcome.done (false, g)
  | first :: _ =>
    let s0 : BfsState :=
      { nodes := g.nodes
        levelGraph := g.residualGraph
        visited := List.replicate g.nodes.length false
        nodeQueue := [first]
        hasPathToSink := false }
    match bfsLoop (g.nodes.length + 1) s0 with
    | Outcome.done s => Outcome.done (s.hasPathToSink, { g with nodes := s.nodes, levelGraph := s.levelGraph })
    | Outcome.undef => Outcome.undef
    | Outcome.fuel => Outcome.fuel

/-- One step of the loop of `Graph::updateLevelGraph`: erase `nextNode` from
`levelGraph[currentNode]` when it is there. -/
def eraseStep (l : List (List Int)) (currentNode nextNode : Int) : Option (List (List Int)) :=
  match vget l currentNode with
  | none => none
  | some row =>
    if nextNode ∈ row then vset l currentNode (row.erase nextNode) else some l

/-- The method `Graph::updateLevelGraph`. -/
def Graph.updateLevelGraph (g : Graph) (augmentingPath : List Int) : Option Graph :=
  if augmentingPath = [] then none
  else
    match (pathSteps augmentingPath).foldlM (fun acc p => eraseStep acc p.1 p.2) g.levelGraph with
    | none => none
    | some l => some { g with levelGraph := l }

/-- The method `Graph::getLevelGraphAt`: out of range falls back to the first row. -/
def Graph.getLevelGraphAt (g : Graph) (index : Int) : Option (List Int) :=
  if index < 0 ∨ index ≥ (g.levelGraph.length : Int) then g.levelGraph.head?
  else g.levelGraph[index.toNat]?

/-! ## Flow -/

/-- Body of the inner loop of `Graph::augmentFlow` for one edge record. -/
def augmentEdge (currentNode nextNode : Int) (edge : Edge) : Edge :=
  if edge.source = currentNode ∧ edge.destination = nextNode then { edge with flow := true }
  else if edge.source = nextNode ∧ edge.destination = currentNode then { edge with flow := false }
  else edge

/-- The method `Graph::augmentFlow`. -/
def Graph.augmentFlow (g : Graph) (augmentingPath : List Int) : Option Graph :=
  if augmentingPath = [] then none
  else
    some { g with
      edges := (pathSteps augmentingPath).foldl (fun es p => es.map (augmentEdge p.1 p.2)) g.edges }

/-- The method `Graph::removeNodeAndIncomingEdges`. -/
def Graph.removeNodeAndIncomingEdges (g : Graph) (nodeIndex : Int) : Option Graph :=
  match vset g.levelGraph nodeIndex [] with
  | none => none
  | some l => some { g with levelGraph := l.map (fun row => row.erase nodeIndex) }

/-! ## The driver (`P3.cpp`) -/

/-- Input loading of `main`: nodes get the ids `1 .. nodeCount` in reading order, every edge
pair is converted to 0-based positions and looked up with `getNode`. -/
def loadGraph (names : List String) (edgePairs : List (Int × Int)) : Option Graph :=
  let g0 : Graph :=
    (names.enum).foldl (fun g p => g.addNode ⟨p.2, (p.1 : Int) + 1, 0⟩) Graph.empty
  edgePairs.foldlM
    (fun g p =>
      match g.getNode (p.1 - 1), g.getNode (p.2 - 1) with
      | some a, some b => some (g.addEdge a.index b.index false)
      | _, _ => none)
    g0

/-- Local variables of the inner `while` loop of `main`. -/
structure Search where
  graph : Graph
  currentNode : Int
  currentPath : List Int
deriving DecidableEq

/-- Body of the inner `while` loop of `main`: augment, retreat or advance. -/
def searchStep (nodeCount : Int) (s : Search) : Option Search :=
  if s.currentNode = nodeCount + 1 then
    let currentPath := s.currentPath ++ [s.currentNode]
    match s.graph.augmentFlow currentPath with
    | none => none
    | some g1 =>
      match g1.updateResidualGraph currentPath with
      | none => none
      | some g2 =>
        match g2.updateLevelGraph currentPath with
        | none => none
        | some g3 => some ⟨g3, 0, []⟩
  else
    match s.graph.getLevelGraphAt s.currentNode with
    | none => none
    | some [] =>
      match s.graph.removeNodeAndIncomingEdges s.currentNode with
      | none => none
      | some g1 =>
        match s.currentPath.getLast? with
        | none => none
        | some previous => some ⟨g1, previous, s.currentPath.dropLast⟩
    | some (next :: _) => some ⟨s.graph, next, s.currentPath ++ [s.currentNode]⟩

/-- The inner loop `while (!graph.getLevelGraphAt(0).empty())` of `main`. -/
def searchLoop (nodeCount : Int) : Nat → Search → Outcome Graph
  | 0, _ => Outcome.fuel
  | fuel + 1, s =>
    match s.graph.getLevelGraphAt 0 with
    | none => Outcome.undef
    | some [] => Outcome.done s.graph
    | some (_ :: _) =>
      match searchStep nodeCount s with
      | none => Outcome.undef
      | some s1 => searchLoop nodeCount fuel s1

/-- The outer loop `while (true)` of `main`. The second component of the result counts the
calls of `createLevelGraph` (a ghost counter, not a variable of the program). -/
def driverLoop (nodeCount : Int) : Nat → Graph → Nat → Outcome (Graph × Nat)
  | 0, _, _ => Outcome.fuel
  | fuel + 1, g, calls =>
    match g.createLevelGraph with
    | Outcome.undef => Outcome.undef
    | Outcome.fuel => Outcome.fuel
    | Outcome.done (false, g1) => Outcome.done (g1, calls + 1)
    | Outcome.done (true, g1) =>
      match g1.getNode 0 with
      | none => Outcome.undef
      | some source =>
        match searchLoop nodeCount fuel ⟨g1, source.index, []⟩ with
        | Outcome.undef => Outcome.undef
        | Outcome.fuel => Outcome.fuel
        | Outcome.done g2 => driverLoop nodeCount fuel g2 (calls + 1)

/-- The part of `main` between input loading and printing: build the residual graph, then
run the phases. -/
def runMatching (fuel : Nat) (names : List String) (edgePairs : List (Int × Int)) :
    Outcome (Graph × Nat) :=
  match loadGraph names edgePairs with
  | none => Outcome.undef
  | some g =>
    match g.createResidualGraph with
    | none => Outcome.undef
    | some g1 => driverLoop (names.length : Int) fuel g1 0

/-- The printing loop of `main`: the `(source name, destination name)` pairs of the edges
that carry flow, in edge order. -/
def matchedPairs (g : Graph) : Option (List (String × String)) :=
  (g.edges.filter (fun e => e.flow)).mapM
    (fun e =>
      match g.getNode e.source, g.getNode e.destination with
      | some a, some b => some (a.name, b.name)
      | _, _ => none)

/-- The value of `matchCount` printed by `main`. -/
def matchCount (g : Graph) : Nat :=
  (g.edges.filter (fun e => e.flow)).length


/-- Append every `(row, value)` pair of `ps`, in order, to the row it names: what a loop of
`push_back` calls amounts to when every row index is in range. -/
def pushAll (ps : List (Nat × Int)) (r : List (List Int)) : List (List Int) :=
  ps.foldl (fun acc p => acc.set p.1 (acc[p.1]?.getD [] ++ [p.2])) r

/-! ## Specification-level definitions -/

/-- A set of edge pairs is a matching when no left endpoint and no right endpoint repeats. -/
def isMatchingPairs (m : List (Int × Int)) : Bool :=
  decide ((m.map Prod.fst).Nodup) && decide ((m.map Prod.snd).Nodup)

/-- Size of a maximum matching of the bipartite graph given by `edgePairs`, by exhaustive
search over the sub-lists of the edge list. -/
def maxMatchingSize (edgePairs : List (Int × Int)) : Nat :=
  ((edgePairs.sublists.filter isMatchingPairs).map List.length).foldl max 0

/-- The list `path` walks along arcs of the adjacency `r`: each node is followed by one of
its neighbours. -/
def isPathIn (r : List (List Int)) (path : List Int) : Bool :=
  (pathSteps path).all (fun p => (vget r p.1).any (fun row => decide (p.2 ∈ row)))

/-- Node names of the six-node input on which the level-graph construction goes wrong. -/
def failingNames : List String := ["A", "B", "C", "X", "Y", "Z"]

/-- Edge list (1-based pairs, in file order) of the six-node input: A-X, A-Y, A-Z, B-X, B-Y, C-X. -/
def failingEdges : List (Int × Int) := [(1, 4), (1, 5), (1, 6), (2, 4), (2, 5), (3, 4)]

/-- The graph state of the six-node input after `createResidualGraph`. -/
def failingStart : Graph :=
  { edges := [⟨1, 4, false⟩, ⟨1, 5, false⟩, ⟨1, 6, false⟩, ⟨2, 4, false⟩, ⟨2, 5, false⟩, ⟨3, 4, false⟩]
    nodes := [⟨"", 0, 0⟩, ⟨"A", 1, 0⟩, ⟨"B", 2, 0⟩, ⟨"C", 3, 0⟩, ⟨"X", 4, 0⟩, ⟨"Y", 5, 0⟩,
      ⟨"Z", 6, 0⟩, ⟨"", 7, 0⟩]
    residualGraph := [[1, 2, 3], [4, 5, 6], [4, 5], [4], [7], [7], [7], [-1]]
    levelGraph := [] }

/-- The graph state of the six-node input when its first phase ends: A-X and B-Y carry flow. -/
def failingAfterPhaseOne : Graph :=
  { edges := [⟨1, 4, true⟩, ⟨1, 5, false⟩, ⟨1, 6, false⟩, ⟨2, 4, false⟩, ⟨2, 5, true⟩, ⟨3, 4, false⟩]
    nodes := [⟨"", 0, 0⟩, ⟨"A", 1, 1⟩, ⟨"B", 2, 1⟩, ⟨"C", 3, 1⟩, ⟨"X", 4, 2⟩, ⟨"Y", 5, 2⟩,
      ⟨"Z", 6, 2⟩, ⟨"", 7, 3⟩]
    residualGraph := [[3], [5, 6, 0], [4, 0], [4], [1], [2], [7], [-1, 4, 5]]
    levelGraph := [[], [5, 6], [], [], [], [], [7], [-1]] }

/-- The four-node graph of the first scenario (A, B on the left, X, Y on the right; edges
A-X, A-Y, B-X) as loaded by `main`. -/
def scenarioOneLoaded : Graph :=
  { edges := [⟨1, 3, false⟩, ⟨1, 4, false⟩, ⟨2, 3, false⟩]
    nodes := [⟨"A", 1, 0⟩, ⟨"B", 2, 0⟩, ⟨"X", 3, 0⟩, ⟨"Y", 4, 0⟩]
    residualGraph := []
    levelGraph := [] }

/-- The graph of the first scenario after `createResidualGraph`. -/
def scenarioOneResidual : Graph :=
  { edges := [⟨1, 3, false⟩, ⟨1, 4, false⟩, ⟨2, 3, false⟩]
    nodes := [⟨"", 0, 0⟩, ⟨"A", 1, 0⟩, ⟨"B", 2, 0⟩, ⟨"X", 3, 0⟩, ⟨"Y", 4, 0⟩, ⟨"", 5, 0⟩]
    residualGraph := [[1, 2], [3, 4], [3], [5], [5], [-1]]
    levelGraph := [] }

/-- The graph of the first scenario when the driver stops. -/
def scenarioOneFinal : Graph :=
  { edges := [⟨1, 3, false⟩, ⟨1, 4, true⟩, ⟨2, 3, true⟩]
    nodes := [⟨"", 0, 0⟩, ⟨"A", 1, 3⟩, ⟨"B", 2, 1⟩, ⟨"X", 3, 2⟩, ⟨"Y", 4, 4⟩, ⟨"", 5, 5⟩]
    residualGraph := [[], [0, 3], [0], [2], [1], [-1, 3, 4]]
    levelGraph := [[], [0, 3], [0], [2], [1], [-1, 3, 4]] }

/-- The graph of the second scenario (A on the left, X, Y on the right; edges A-X, A-Y) when
the driver stops. -/
def scenarioTwoFinal : Graph :=
  { edges := [⟨1, 2, true⟩, ⟨1, 3, false⟩]
    nodes := [⟨"", 0, 0⟩, ⟨"A", 1, 1⟩, ⟨"X", 2, 2⟩, ⟨"Y", 3, 2⟩, ⟨"", 4, 3⟩]
    residualGraph := [[], [3, 0], [1], [4], [-1, 2]]
    levelGraph := [[], [3, 0], [1], [4], [-1, 2]] }

/-- Every node record sits at the position its `index` field names. -/
def Aligned (nodes : List Node) : Prop :=
  ∀ (k : Nat) (nd : Node), nodes[k]? = some nd → nd.index = (k : Int)

/-! ## Auxiliary notions used in the proofs about the driver -/

/-- The adjacency row of node `u`, empty when `u` is out of range. -/
def rowOf (r : List (List Int)) (u : Int) : List Int :=
  (vget r u).getD []

/-- The level stored in the node record at position `u` (0 when out of range). -/
def levelOf (nodes : List Node) (u : Int) : Int :=
  ((vget nodes u).map Node.level).getD 0

/-- Node `u` is marked in the `visited` vector. -/
def IsVisited (visited : List Bool) (u : Int) : Prop :=
  vget visited u = some true

/-- What scanning (part of) the row of `u` at level `Lu` may change in the breadth-first
state: marks and levels are only added, rows other than `u` stay, row `u` only loses
entries that were already visited at a lower level, the queue only grows by freshly marked
nodes of level `Lu + 1`. -/
structure ScanExt (u Lu : Int) (s s1 : BfsState) : Prop where
  visited_length : s1.visited.length = s.visited.length
  nodes_length : s1.nodes.length = s.nodes.length
  levelGraph_length : s1.levelGraph.length = s.levelGraph.length
  aligned : Aligned s.nodes → Aligned s1.nodes
  visited_mono : ∀ v, IsVisited s.visited v → IsVisited s1.visited v
  nodes_frozen : ∀ v, IsVisited s.visited v → vget s1.nodes v = vget s.nodes v
  nodes_same : ∀ v, ¬ IsVisited s1.visited v → vget s1.nodes v = vget s.nodes v
  level_new : ∀ v, IsVisited s1.visited v → ¬ IsVisited s.visited v → levelOf s1.nodes v = Lu + 1
  visited_new : ∀ v, IsVisited s1.visited v → ¬ IsVisited s.visited v →
    v ∈ rowOf s.levelGraph u ∧ ∃ q ∈ s1.nodeQueue, q.index = v
  row_other : ∀ w, w ≠ u → rowOf s1.levelGraph w = rowOf s.levelGraph w
  row_self : (rowOf s1.levelGraph u).Sublist (rowOf s.levelGraph u)
  row_keep : ∀ x ∈ rowOf s.levelGraph u, x ∉ rowOf s1.levelGraph u →
    IsVisited s.visited x ∧ levelOf s.nodes x < Lu + 1
  queue : ∃ new, s1.nodeQueue = s.nodeQueue ++ new ∧
    ∀ q ∈ new, q.level = Lu + 1 ∧ IsVisited s1.visited q.index ∧ ¬ IsVisited s.visited q.index ∧
      vget s1.nodes q.index = some q ∧ q.index ∈ rowOf s.levelGraph u
  hasPath : s1.hasPathToSink = s.hasPathToSink

/-- A walk along level-graph arcs in which every arc leads from a visited node to a visited
node exactly one level deeper. -/
inductive GoodPath (s : BfsState) : Int → Int → Prop
  | refl (a : Int) : GoodPath s a a
  | snoc {a x y : Int} : GoodPath s a x → y ∈ rowOf s.levelGraph x → IsVisited s.visited x →
      IsVisited s.visited y → levelOf s.nodes y = levelOf s.nodes x + 1 → GoodPath s a y

/-- Invariant of the breadth-first loop of `createLevelGraph` once the source has been
scanned; `res` is the residual graph the level graph was copied from and `t` the sink. -/
structure BfsInv (res : List (List Int)) (t : Int) (n : Nat) (s : BfsState) : Prop where
  aligned : Aligned s.nodes
  nodes_length : s.nodes.length = n
  visited_length : s.visited.length = n
  levelGraph_length : s.levelGraph.length = res.length
  source_visited : IsVisited s.visited 0
  queue_visited : ∀ q ∈ s.nodeQueue, IsVisited s.visited q.index ∧ vget s.nodes q.index = some q
  queue_sorted : s.nodeQueue.Pairwise (fun a b => a.level ≤ b.level)
  queue_bound : ∀ q ∈ s.nodeQueue, ∀ v, IsVisited s.visited v → levelOf s.nodes v ≤ q.level + 1
  closed : ∀ u, IsVisited s.visited u → (∀ q ∈ s.nodeQueue, q.index ≠ u) → u ≠ t →
    ∀ x ∈ rowOf s.levelGraph u, IsVisited s.visited x ∧ levelOf s.nodes x = levelOf s.nodes u + 1
  sub : ∀ u, (rowOf s.levelGraph u).Sublist (rowOf res u)
  sink_row : rowOf s.levelGraph t = rowOf res t
  paths : ∀ v, IsVisited s.visited v → GoodPath s 0 v
  has_sink : s.hasPathToSink = true → IsVisited s.visited t

/-- A walk along the arcs of an adjacency structure. -/
inductive LevelPath (lg : List (List Int)) : Int → Int → Prop
  | refl (a : Int) : LevelPath lg a a
  | cons {a x b : Int} : x ∈ rowOf lg a → LevelPath lg x b → LevelPath lg a b

/-- Shape of the residual graph that `createLevelGraph` relies on; `t` is the sink. -/
structure ResInv (t : Int) (g : Graph) : Prop where
  aligned : Aligned g.nodes
  sizes : g.residualGraph.length = g.nodes.length
  sink_range : 0 < t ∧ t < (g.nodes.length : Int)
  no_sentinel : ∀ u, u ≠ t → SINK_NODE_INDEX ∉ rowOf g.residualGraph u
  sink_row : ∃ tail, rowOf g.residualGraph t = SINK_NODE_INDEX :: tail
  source_row : (0 : Int) ∉ rowOf g.residualGraph 0

/-- What a phase relies on after `createLevelGraph`: every level-graph row is a sub-list of
the residual row, and the nodes reachable from the source sit in a set `V` of in-range nodes,
closed under level-graph arcs, along which the level grows by exactly one. -/
structure LevelInv (t : Int) (g : Graph) : Prop where
  sizes : g.levelGraph.length = g.residualGraph.length
  sub : ∀ u, (rowOf g.levelGraph u).Sublist (rowOf g.residualGraph u)
  layered : ∃ V : Int → Prop, V 0 ∧ (∀ u, V u → 0 ≤ u ∧ u < (g.levelGraph.length : Int)) ∧
    ∀ u, V u → u ≠ t → ∀ x ∈ rowOf g.levelGraph u,
      V x ∧ levelOf g.nodes x = levelOf g.nodes u + 1

/-- Invariant of the inner loop of `main` during one phase; `t` is the sink and `V` the set of
nodes the breadth-first traversal of this phase has marked. -/
structure SearchInv (t : Int) (V : Int → Prop) (s : Search) : Prop where
  res : ResInv t s.graph
  sizes : s.graph.levelGraph.length = s.graph.residualGraph.length
  sub : ∀ u, (rowOf s.graph.levelGraph u).Sublist (rowOf s.graph.residualGraph u)
  source : V 0
  range : ∀ u, V u → 0 ≤ u ∧ u < (s.graph.levelGraph.length : Int)
  layered : ∀ u, V u → u ≠ t → ∀ x ∈ rowOf s.graph.levelGraph u,
    V x ∧ levelOf s.graph.nodes x = levelOf s.graph.nodes u + 1
  chain : List.Chain' (fun x y => y ∈ rowOf s.graph.levelGraph x) (s.currentPath ++ [s.currentNode])
  increasing : (s.currentPath ++ [s.currentNode]).Pairwise
    (fun x y => levelOf s.graph.nodes x < levelOf s.graph.nodes y)
  inV : ∀ x ∈ s.currentPath ++ [s.currentNode], V x
  not_sink : ∀ x ∈ s.currentPath, x ≠ t
  head : (s.currentPath ++ [s.currentNode]).head? = some 0

/-- A valid bipartite input for `nodeCount` nodes: every edge pair leads from the left
partition `1 .. nodeCount/2` to the right partition `nodeCount/2 + 1 .. nodeCount`, and no
pair is listed twice. -/
def ValidInput (nodeCount : Nat) (edgePairs : List (Int × Int)) : Prop :=
  (∀ p ∈ edgePairs, 1 ≤ p.1 ∧ p.1 ≤ ((nodeCount / 2 : Nat) : Int) ∧
    ((nodeCount / 2 : Nat) : Int) < p.2 ∧ p.2 ≤ (nodeCount : Int)) ∧ edgePairs.Nodup

instance (nodeCount : Nat) (edgePairs : List (Int × Int)) :
    Decidable (ValidInput nodeCount edgePairs) := by
  unfold ValidInput
  infer_instance

/-- The node records `main` creates for a list of names: ids `1, 2, ...` in order, level 0. -/
def loadedNodes (names : List String) : List Node :=
  names.enum.map (fun p => (⟨p.2, (p.1 : Int) + 1, 0⟩ : Node))

/-- The edge list holds a record from `a` to `b` whose flow flag is `f`. -/
def HasEdge (es : List Edge) (a b : Int) (f : Bool) : Prop :=
  ∃ e ∈ es, e.source = a ∧ e.destination = b ∧ e.flow = f

/-- What the loop of `augmentFlow` does to one edge record over all steps of the path. -/
def augmentAlong (steps : List (Int × Int)) (e : Edge) : Edge :=
  steps.foldl (fun e q => augmentEdge q.1 q.2 e) e

/-- Agreement between the flow flags and the residual graph on a bipartite input with left
partition `1..L`, right partition `L+1..N` and sink `N+1`: the edges that carry flow form a
matching, and every residual arc is justified by the flags. -/
structure MatchInv (L N : Nat) (g : Graph) : Prop where
  size : g.residualGraph.length = N + 2
  left_le : L ≤ N
  endpoints : ∀ a b f, HasEdge g.edges a b f →
    1 ≤ a ∧ a ≤ (L : Int) ∧ (L : Int) < b ∧ b ≤ (N : Int)
  pairs_nodup : (g.edges.map (fun e => (e.source, e.destination))).Nodup
  source_nodup : (rowOf g.residualGraph 0).Nodup
  left_nodup : ∀ a, 1 ≤ a → a ≤ (L : Int) → (rowOf g.residualGraph a).Nodup
  source_row : ∀ a ∈ rowOf g.residualGraph 0,
    1 ≤ a ∧ a ≤ (L : Int) ∧ ∀ b, ¬ HasEdge g.edges a b true
  left_rows : ∀ a, 1 ≤ a → a ≤ (L : Int) → ∀ x ∈ rowOf g.residualGraph a,
    (x = 0 ∧ ∃ b, HasEdge g.edges a b true) ∨ HasEdge g.edges a x false
  right_rows : ∀ b, (L : Int) < b → b ≤ (N : Int) →
    rowOf g.residualGraph b = [(N : Int) + 1] ∨ ∃ a, HasEdge g.edges a b true
  flow_row : ∀ a b, HasEdge g.edges a b true → rowOf g.residualGraph b = [a]
  flow_unique : ∀ a b b', HasEdge g.edges a b true → HasEdge g.edges a b' true → b = b'

/-- One augmentation seen from the matching invariant: `steps` are the arcs of a path without
repeated nodes from the source to the sink, all of them residual arcs of `g`, and `r2` is the
residual graph after `updateResidualGraph`. -/
structure AugCtx (L N : Nat) (g : Graph) (steps : List (Int × Int)) (r2 : List (List Int)) :
    Prop where
  inv : MatchInv L N g
  valid : ∀ x y, (x, y) ∈ steps → y ∈ rowOf g.residualGraph x
  range : ∀ x y, (x, y) ∈ steps → 0 ≤ x ∧ x ≤ (N : Int) ∧ y ≠ 0
  succ_unique : ∀ x y y', (x, y) ∈ steps → (x, y') ∈ steps → y = y'
  pred_unique : ∀ x x' y, (x, y) ∈ steps → (x', y) ∈ steps → x = x'
  no_both : ∀ x y, (x, y) ∈ steps → (y, x) ∉ steps
  has_pred : ∀ x y, (x, y) ∈ steps → x ≠ 0 → ∃ w, (w, x) ∈ steps
  has_succ : ∀ x y, (x, y) ∈ steps → y ≠ (N : Int) + 1 → ∃ z, (y, z) ∈ steps
  length : r2.length = g.residualGraph.length
  row_same : ∀ u, (∀ x, (x, u) ∉ steps) → (∀ y, (u, y) ∉ steps) →
    rowOf r2 u = rowOf g.residualGraph u
  row_inner : ∀ u a b, (a, u) ∈ steps → (u, b) ∈ steps →
    rowOf r2 u = (rowOf g.residualGraph u ++ [a]).erase b
  row_first : ∀ u b, (∀ x, (x, u) ∉ steps) → (u, b) ∈ steps →
    rowOf r2 u = (rowOf g.residualGraph u).erase b

/-- The loop bound `augmentingPath.size() - 1` of `augmentFlow`, `updateResidualGraph` and
`updateLevelGraph`: `size()` is a `size_t`, so the subtraction is done modulo `2^64`. -/
def pathLoopBound (augmentingPath : List Int) : Nat :=
  (augmentingPath.length + 2 ^ 64 - 1) % 2 ^ 64

/-- Spec-level reading of one step of `updateResidualGraph` on rows in range: when `v` occurs
in row `u`, take its first occurrence out of row `u` and put `u` at the end of row `v`;
otherwise change nothing. -/
def specReverseArc (r : List (List Int)) (u v : Int) : List (List Int) :=
  if v ∈ rowOf r u then
    let r1 := r.set u.toNat ((rowOf r u).erase v)
    r1.set v.toNat (rowOf r1 v ++ [u])
  else r

/-- Spec-level reading of one step of `updateLevelGraph` on rows in range: take the first
occurrence of `v` out of row `u` when there is one. -/
def specEraseArc (l : List (List Int)) (u v : Int) : List (List Int) :=
  if v ∈ rowOf l u then l.set u.toNat ((rowOf l u).erase v) else l

/-- Row by row, `l` is a sub-list of `big`: every row of `l` has a row of the same index in
`big` that contains it as a sub-list. -/
def RowsSub (l big : List (List Int)) : Prop :=
  ∀ (n : Nat) (row : List Int), l[n]? = some row →
    ∃ old, big[n]? = some old ∧ row.Sublist old

/-- The graph states at which the outer loop of `main` calls `createLevelGraph` in a run on
the given input: the state `createResidualGraph` leaves, and every state in which an inner
loop ends after a `createLevelGraph` that returned true. -/
inductive PhaseStart (names : List String) (edgePairs : List (Int × Int)) : Graph → Prop
  | first (g g1 : Graph) : loadGraph names edgePairs = some g → g.createResidualGraph = some g1 →
      PhaseStart names edgePairs g1
  | next (g g1 g2 : Graph) (source : Node) (fuel : Nat) : PhaseStart names edgePairs g →
      g.createLevelGraph = Outcome.done (true, g1) → g1.getNode 0 = some source →
      searchLoop (names.length : Int) fuel ⟨g1, source.index, []⟩ = Outcome.done g2 →
      PhaseStart names edgePairs g2

/-- The nodes that can be reached from the source (index 0) along arcs of the adjacency `lg`
by a walk that does not pass through the node `t`. -/
inductive ReachedBefore (lg : List (List Int)) (t : Int) : Int → Prop
  | source : ReachedBefore lg t 0
  | step {u x : Int} : ReachedBefore lg t u → u ≠ t → x ∈ rowOf lg u → ReachedBefore lg t x

/-- The graph of the first scenario when its first phase ends: A-X carries flow. -/
def scenarioOnePhaseTwo : Graph :=
  { edges := [⟨1, 3, true⟩, ⟨1, 4, false⟩, ⟨2, 3, false⟩]
    nodes := [⟨"", 0, 0⟩, ⟨"A", 1, 1⟩, ⟨"B", 2, 1⟩, ⟨"X", 3, 2⟩, ⟨"Y", 4, 2⟩, ⟨"", 5, 3⟩]
    residualGraph := [[2], [4, 0], [3], [1], [5], [-1, 3]]
    levelGraph := [[], [4], [], [], [5], [-1]] }

/-- The graph of the first scenario after the second call of `createLevelGraph`. -/
def scenarioOneLevelTwo : Graph :=
  { edges := [⟨1, 3, true⟩, ⟨1, 4, false⟩, ⟨2, 3, false⟩]
    nodes := [⟨"", 0, 0⟩, ⟨"A", 1, 3⟩, ⟨"B", 2, 1⟩, ⟨"X", 3, 2⟩, ⟨"Y", 4, 4⟩, ⟨"", 5, 5⟩]
    residualGraph := [[2], [4, 0], [3], [1], [5], [-1, 3]]
    levelGraph := [[2], [4], [3], [1], [5], [-1, 3]] }

/-- Body of the printing loop of `main` for one edge: an edge that carries flow adds the
names of its two endpoints to the output and raises `matchCount`. -/
def printEdge (g : Graph) (acc : List (String × String) × Nat) (edge : Edge) :
    Option (List (String × String) × Nat) :=
  if edge.flow then
    match g.getNode edge.source, g.getNode edge.destination with
    | some sourceNode, some destinationNode =>
      some (acc.1 ++ [(sourceNode.name, destinationNode.name)], acc.2 + 1)
    | _, _ => none
  else some acc

/-- The output step of `main`: scan the edge list in order, print the names of the two
endpoints of every edge that carries flow and count those edges. The graph is read through
its `const` getters only; it is returned next to the printed pairs and `matchCount` so that
the step can be run again on what it leaves. -/
def outputStep (g : Graph) : Option (Graph × List (String × String) × Nat) :=
  match g.edges.foldlM (printEdge g) ([], 0) with
  | none => none
  | some r => some (g, r.1, r.2)

/-- The states of the breadth-first loop of `createLevelGraph` called on `g`: the state before
the first iteration, and every state left by an iteration on the node at the front of the
queue. -/
inductive BfsReach (g : Graph) : BfsState → Prop
  | start (first : Node) (rest : List Node) : g.nodes = first :: rest →
      BfsReach g
        { nodes := g.nodes
          levelGraph := g.residualGraph
          visited := List.replicate g.nodes.length false
          nodeQueue := [first]
          hasPathToSink := false }
  | visit (s s1 : BfsState) (q : Node) (rest : List Node) : BfsReach g s →
      s.nodeQueue = q :: rest → bfsVisit q rest s = some s1 → BfsReach g s1

/-- A walk of `n` arcs from `a` to `b` along the adjacency `r` that does not pass through the
node `t`: no arc of the walk starts at `t`. -/
inductive WalkBefore (r : List (List Int)) (t : Int) : Nat → Int → Int → Prop
  | nil (a : Int) : WalkBefore r t 0 a a
  | snoc {n : Nat} {a x y : Int} : WalkBefore r t n a x → x ≠ t → y ∈ rowOf r x →
      WalkBefore r t (n + 1) a y

/-- The facts about depths that the breadth-first loop of `createLevelGraph` keeps, next to
`BfsInv`; `res` is the residual graph, `t` the sink and `c` the level stored for the source. -/
structure BfsDepth (res : List (List Int)) (t c : Int) (s : BfsState) : Prop where
  pruned : ∀ u x, x ∈ rowOf res u → x ∉ rowOf s.levelGraph u →
    IsVisited s.visited u ∧ IsVisited s.visited x ∧ levelOf s.nodes x < levelOf s.nodes u + 1
  source_level : levelOf s.nodes 0 = c
  pred : ∀ v, IsVisited s.visited v → v = 0 ∨
    ∃ u, IsVisited s.visited u ∧ u ≠ t ∧ v ∈ rowOf res u ∧
      levelOf s.nodes v = levelOf s.nodes u + 1
  level_ge : ∀ v, IsVisited s.visited v → c ≤ levelOf s.nodes v

/-- What a completed `createLevelGraph` leaves, in terms of the set `V` of nodes its
breadth-first loop has marked; `t` is the sink and `c` the level stored for the source. -/
structure LevelFacts (t c : Int) (g : Graph) (V : Int → Prop) : Prop where
  sizes : g.levelGraph.length = g.residualGraph.length
  sub : ∀ u, (rowOf g.levelGraph u).Sublist (rowOf g.residualGraph u)
  source : V 0
  source_level : levelOf g.nodes 0 = c
  range : ∀ u, V u → 0 ≤ u ∧ u < (g.levelGraph.length : Int)
  layered : ∀ u, V u → u ≠ t → ∀ x ∈ rowOf g.levelGraph u,
    V x ∧ levelOf g.nodes x = levelOf g.nodes u + 1
  closed : ∀ u, V u → u ≠ t → ∀ x ∈ rowOf g.residualGraph u,
    V x ∧ levelOf g.nodes x ≤ levelOf g.nodes u + 1
  kept : ∀ u, V u → u ≠ t → ∀ x ∈ rowOf g.residualGraph u,
    levelOf g.nodes x = levelOf g.nodes u + 1 → x ∈ rowOf g.levelGraph u
  pred : ∀ v, V v → v = 0 ∨
    ∃ u, V u ∧ u ≠ t ∧ v ∈ rowOf g.residualGraph u ∧ levelOf g.nodes v = levelOf g.nodes u + 1
  level_ge : ∀ v, V v → c ≤ levelOf g.nodes v

/-- The nodes at which the walks of exactly `n` arcs from `a` along the adjacency `r` end
(with repetitions). -/
def walkEnds (r : List (List Int)) : Nat → Int → List Int
  | 0, a => [a]
  | n + 1, a => (walkEnds r n a).flatMap (rowOf r)

/-- Node names of a six-node input in which the second phase leaves stale levels behind the
sink. -/
def staleNames : List String := ["A", "B", "C", "X", "Y", "Z"]

/-- Edge list of that input (1-based pairs, in file order): A-X, A-Y, B-X, C-Z. -/
def staleEdges : List (Int × Int) := [(1, 4), (1, 5), (2, 4), (3, 6)]

/-- The graph of that input after `createResidualGraph`. -/
def staleStart : Graph :=
  { edges := [⟨1, 4, false⟩, ⟨1, 5, false⟩, ⟨2, 4, false⟩, ⟨3, 6, false⟩]
    nodes := [⟨"", 0, 0⟩, ⟨"A", 1, 0⟩, ⟨"B", 2, 0⟩, ⟨"C", 3, 0⟩, ⟨"X", 4, 0⟩, ⟨"Y", 5, 0⟩,
      ⟨"Z", 6, 0⟩, ⟨"", 7, 0⟩]
    residualGraph := [[1, 2, 3], [4, 5], [4], [6], [7], [7], [7], [-1]]
    levelGraph := [] }

/-- The graph of that input after the first call of `createLevelGraph`. -/
def staleLevelOne : Graph :=
  { edges := [⟨1, 4, false⟩, ⟨1, 5, false⟩, ⟨2, 4, false⟩, ⟨3, 6, false⟩]
    nodes := [⟨"", 0, 0⟩, ⟨"A", 1, 1⟩, ⟨"B", 2, 1⟩, ⟨"C", 3, 1⟩, ⟨"X", 4, 2⟩, ⟨"Y", 5, 2⟩,
      ⟨"Z", 6, 2⟩, ⟨"", 7, 3⟩]
    residualGraph := [[1, 2, 3], [4, 5], [4], [6], [7], [7], [7], [-1]]
    levelGraph := [[1, 2, 3], [4, 5], [4], [6], [7], [7], [7], [-1]] }

/-- The graph of that input when its first phase ends: A-X and C-Z carry flow. -/
def stalePhaseTwo : Graph :=
  { edges := [⟨1, 4, true⟩, ⟨1, 5, false⟩, ⟨2, 4, false⟩, ⟨3, 6, true⟩]
    nodes := [⟨"", 0, 0⟩, ⟨"A", 1, 1⟩, ⟨"B", 2, 1⟩, ⟨"C", 3, 1⟩, ⟨"X", 4, 2⟩, ⟨"Y", 5, 2⟩,
      ⟨"Z", 6, 2⟩, ⟨"", 7, 3⟩]
    residualGraph := [[2], [5, 0], [4], [0], [1], [7], [3], [-1, 4, 6]]
    levelGraph := [[], [5], [], [], [], [7], [], [-1]] }

/-- The graph of that input after the second call of `createLevelGraph`. -/
def staleLevelTwo : Graph :=
  { edges := [⟨1, 4, true⟩, ⟨1, 5, false⟩, ⟨2, 4, false⟩, ⟨3, 6, true⟩]
    nodes := [⟨"", 0, 0⟩, ⟨"A", 1, 3⟩, ⟨"B", 2, 1⟩, ⟨"C", 3, 1⟩, ⟨"X", 4, 2⟩, ⟨"Y", 5, 4⟩,
      ⟨"Z", 6, 2⟩, ⟨"", 7, 5⟩]
    residualGraph := [[2], [5, 0], [4], [0], [1], [7], [3], [-1, 4, 6]]
    levelGraph := [[2], [5], [4], [0], [1], [7], [3], [-1, 4, 6]] }

/-- The states of the inner loop of `main` in the phase that starts from the graph `g1` left
by `createLevelGraph`, together with the paths the loop has passed to `augmentFlow` so far in
this phase, in order (a ghost list, not a variable of the program). -/
inductive SearchReach (nodeCount : Int) (g1 : Graph) : Search → List (List Int) → Prop
  | start (source : Node) : g1.getNode 0 = some source →
      SearchReach nodeCount g1 ⟨g1, source.index, []⟩ []
  | step (s s1 : Search) (paths : List (List Int)) (a : Int) (rest : List Int) :
      SearchReach nodeCount g1 s paths → s.graph.getLevelGraphAt 0 = some (a :: rest) →
      searchStep nodeCount s = some s1 →
      SearchReach nodeCount g1 s1
        (if s.currentNode = nodeCount + 1 then paths ++ [s.currentPath ++ [s.currentNode]]
          else paths)

/-- Node `x` can no longer lie inside a path of the search in the level graph `lg`: it has no
arc left, or no node other than the sink `t` has an arc into it. -/
def Blocked (lg : List (List Int)) (t x : Int) : Prop :=
  rowOf lg x = [] ∨ ∀ w, w ≠ t → x ∉ rowOf lg w

/-- Two paths share no node other than the source 0 and the sink `t`. -/
def ShareOnlyEnds (t : Int) (p q : List Int) : Prop :=
  ∀ x, x ∈ p → x ∈ q → x = 0 ∨ x = t

/-- Run `n` iterations of the inner loop of `main` from the state `s`, adding to `paths` every
path passed to `augmentFlow` on the way; `none` when the loop ends or fails earlier. -/
def searchRun (nodeCount : Int) : Nat → Search → List (List Int) →
    Option (Search × List (List Int))
  | 0, s, paths => some (s, paths)
  | n + 1, s, paths =>
    match s.graph.getLevelGraphAt 0 with
    | some (_ :: _) =>
      match searchStep nodeCount s with
      | some s1 =>
        searchRun nodeCount n s1
          (if s.currentNode = nodeCount + 1 then paths ++ [s.currentPath ++ [s.currentNode]]
            else paths)
      | none => none
    | _ => none

/-- The four-node graph with the edges A-X and B-Y after its first `createLevelGraph`. -/
def twoPairsLevelOne : Graph :=
  { edges := [⟨1, 3, false⟩, ⟨2, 4, false⟩]
    nodes := [⟨"", 0, 0⟩, ⟨"A", 1, 1⟩, ⟨"B", 2, 1⟩, ⟨"X", 3, 2⟩, ⟨"Y", 4, 2⟩, ⟨"", 5, 3⟩]
    residualGraph := [[1, 2], [3], [4], [5], [5], [-1]]
    levelGraph := [[1, 2], [3], [4], [5], [5], [-1]] }

/-- Invariant of a phase behind the growth of the sink's level; `nodes` holds the levels that
the phase's `createLevelGraph` stored, `V` the nodes it marked and `Dead` the nodes that the
search has removed. A residual arc out of a marked node climbs at most one level; an arc that
climbs exactly one level is still in the level graph or leads to a removed node; the arcs of
a removed node that climb one level lead to removed nodes. -/
structure BlockInv (t : Int) (V : Int → Prop) (nodes : List Node) (g : Graph)
    (Dead : Int → Prop) : Prop where
  closed : ∀ u, V u → u ≠ t → ∀ v ∈ rowOf g.residualGraph u,
    V v ∧ levelOf nodes v ≤ levelOf nodes u + 1
  kept : ∀ u, V u → u ≠ t → ∀ v ∈ rowOf g.residualGraph u,
    levelOf nodes v = levelOf nodes u + 1 → v ∈ rowOf g.levelGraph u ∨ Dead v
  dead_not_sink : ∀ v, Dead v → v ≠ t
  dead_marked : ∀ v, Dead v → V v
  dead_rows : ∀ v, Dead v → ∀ w ∈ rowOf g.residualGraph v,
    levelOf nodes w = levelOf nodes v + 1 → Dead w

/-- The converse of `MatchInv`: the residual graph holds the arc of every edge without flow,
and the source keeps its arc to every left node that no flow edge leaves. -/
structure FlowInv (L : Nat) (g : Graph) : Prop where
  false_arc : ∀ a b, HasEdge g.edges a b false → b ∈ rowOf g.residualGraph a
  free_left : ∀ a, 1 ≤ a → a ≤ (L : Int) → (∀ b, ¬ HasEdge g.edges a b true) →
    a ∈ rowOf g.residualGraph 0

/-- The graph of the first scenario after the first call of `createLevelGraph`. -/
def scenarioOneLevelOne : Graph :=
  { scenarioOneResidual with
    nodes := [⟨"", 0, 0⟩, ⟨"A", 1, 1⟩, ⟨"B", 2, 1⟩, ⟨"X", 3, 2⟩, ⟨"Y", 4, 2⟩, ⟨"", 5, 3⟩]
    levelGraph := [[1, 2], [3, 4], [3], [5], [5], [-1]] }

/-- The layer of a node id of a bipartite input with left partition `1..L` and right
partition `L+1..N`: 0 for the source, 1 on the left, 2 on the right, 3 for the sink. -/
def layerOf (L N : Nat) (u : Int) : Int :=
  if u ≤ 0 then 0 else if u ≤ (L : Int) then 1 else if u ≤ (N : Int) then 2 else 3

/-- Every entry of the adjacency `res` other than the sentinel is a node id in range whose
rank is one above the rank of the row it stands in. -/
def RankedArcs (rank : Int → Int) (res : List (List Int)) : Prop :=
  ∀ u, 0 ≤ u → u < (res.length : Int) → ∀ x ∈ rowOf res u,
    x = SINK_NODE_INDEX ∨ (0 ≤ x ∧ x < (res.length : Int) ∧ rank x = rank u + 1)

/-- Invariant of the breadth-first loop of `createLevelGraph` on an adjacency with
`RankedArcs`: nothing has been erased, and every marked or queued node has its rank as its
level. -/
structure RankedBfs (rank : Int → Int) (res : List (List Int)) (s : BfsState) : Prop where
  levelGraph_eq : s.levelGraph = res
  nodes_length : s.nodes.length = res.length
  visited_length : s.visited.length = res.length
  aligned : Aligned s.nodes
  visited_level : ∀ x, IsVisited s.visited x → levelOf s.nodes x = rank x
  queue : ∀ q ∈ s.nodeQueue, 0 ≤ q.index ∧ q.index < (res.length : Int) ∧
    q.level = rank q.index ∧ levelOf s.nodes q.index = rank q.index

/-- Between two different node ids of the adjacency `r` there is at most one arc, counting
both directions and repetitions. -/
def SingleArc (r : List (List Int)) : Prop :=
  ∀ u v : Int, 0 ≤ u → u < (r.length : Int) → 0 ≤ v → v < (r.length : Int) → u ≠ v →
    (rowOf r u).count v + (rowOf r v).count u ≤ 1

/-- Run `n` iterations of the `while (!nodeQueue.empty())` loop of `createLevelGraph`;
`none` when the queue empties earlier or a read is undefined. -/
def bfsRun : Nat → BfsState → Option BfsState
  | 0, s => some s
  | n + 1, s =>
    match s.nodeQueue with
    | [] => none
    | currentNode :: rest =>
      match bfsVisit currentNode rest s with
      | none => none
      | some s1 => bfsRun n s1

/-- The state of the breadth-first loop in the second `createLevelGraph` call on the six-node
input when node 2 (B) is at the front of the queue: its row is 4, 0 and both entries are marked. -/
def failingBfsAtB : BfsState :=
  { nodes := [⟨"", 0, 0⟩, ⟨"A", 1, 3⟩, ⟨"B", 2, 5⟩, ⟨"C", 3, 1⟩, ⟨"X", 4, 2⟩, ⟨"Y", 5, 4⟩,
      ⟨"Z", 6, 4⟩, ⟨"", 7, 5⟩]
    levelGraph := [[3], [5, 6], [4, 0], [4], [1], [2], [7], [-1, 4, 5]]
    visited := [true, true, true, true, true, true, true, true]
    nodeQueue := [⟨"B", 2, 5⟩, ⟨"", 7, 5⟩]
    hasPathToSink := false }

/-- The graph of the six-node input after the first call of `createLevelGraph`. -/
def failingLevelOne : Graph :=
  { failingStart with
    nodes := [⟨"", 0, 0⟩, ⟨"A", 1, 1⟩, ⟨"B", 2, 1⟩, ⟨"C", 3, 1⟩, ⟨"X", 4, 2⟩, ⟨"Y", 5, 2⟩,
      ⟨"Z", 6, 2⟩, ⟨"", 7, 3⟩]
    levelGraph := [[1, 2, 3], [4, 5, 6], [4, 5], [4], [7], [7], [7], [-1]] }

/-- Two states of the breadth-first loop of `createLevelGraph` that differ at most in the
names of the nodes and in the levels stored for nodes that are neither marked nor queued. -/
structure SameBfs (s s1 : BfsState) : Prop where
  levelGraph_eq : s1.levelGraph = s.levelGraph
  visited_eq : s1.visited = s.visited
  hasPath_eq : s1.hasPathToSink = s.hasPathToSink
  ids : s1.nodes.map Node.index = s.nodes.map Node.index
  aligned : Aligned s.nodes
  levels : ∀ x, IsVisited s.visited x → levelOf s1.nodes x = levelOf s.nodes x
  queue : s1.nodeQueue.map (fun q => (q.index, q.level))
    = s.nodeQueue.map (fun q => (q.index, q.level))
  queue_levels : ∀ q ∈ s.nodeQueue, levelOf s1.nodes q.index = levelOf s.nodes q.index

/-- What a caller can observe of a `createLevelGraph` call apart from the node records: the
returned boolean and the level graph. -/
def levelResult (r : Outcome (Bool × Graph)) : Outcome (Bool × List (List Int)) :=
  match r with
  | Outcome.done (b, g) => Outcome.done (b, g.levelGraph)
  | Outcome.undef => Outcome.undef
  | Outcome.fuel => Outcome.fuel

/-- A graph built with `addNode` and `addEdge` whose node ids are not the positions of the
nodes: the first node has the id 3 and the third node, whose level is `stale`, has the id 1. -/
def unalignedInput (stale : Int) : Graph :=
  ((((Graph.empty.addNode ⟨"A", 3, 0⟩).addNode ⟨"B", 2, 0⟩).addNode ⟨"X", 1, stale⟩).addNode
    ⟨"Y", 4, 0⟩).addEdge 2 3 false

/-- The state of `unalignedInput stale` after `createResidualGraph`. -/
def unalignedGraph (stale : Int) : Graph :=
  { edges := [⟨2, 3, false⟩]
    nodes := [⟨"", 0, 0⟩, ⟨"A", 3, 0⟩, ⟨"B", 2, 0⟩, ⟨"X", 1, stale⟩, ⟨"Y", 4, 0⟩, ⟨"", 5, 0⟩]
    residualGraph := [[1, 2], [], [3], [5], [5], [-1]]
    levelGraph := [] }

/-- The state `scenarioOnePhaseTwo` with other node names, other stale levels for all nodes
but the source, and another previous level graph. -/
def scenarioOneStale : Graph :=
  { edges := [⟨1, 3, true⟩, ⟨1, 4, false⟩, ⟨2, 3, false⟩]
    nodes := [⟨"s", 0, 0⟩, ⟨"A", 1, 7⟩, ⟨"B", 2, -3⟩, ⟨"X", 3, 0⟩, ⟨"Y", 4, 9⟩, ⟨"t", 5, 1⟩]
    residualGraph := [[2], [4, 0], [3], [1], [5], [-1, 3]]
    levelGraph := [[5], [], [1, 2]] }

/-- Node names of an input file in which one edge line is repeated. -/
def repeatedEdgeNames : List String := ["A", "B", "X", "Y"]

/-- Edge lines of that input file: A-X, and B-X twice. -/
def repeatedEdgePairs : List (Int × Int) := [(1, 3), (2, 3), (2, 3)]

/-- The graph of that input after `createResidualGraph` and the first `createLevelGraph`. -/
def repeatedEdgeLevelOne : Graph :=
  { edges := [⟨1, 3, false⟩, ⟨2, 3, false⟩, ⟨2, 3, false⟩]
    nodes := [⟨"", 0, 0⟩, ⟨"A", 1, 1⟩, ⟨"B", 2, 1⟩, ⟨"X", 3, 2⟩, ⟨"Y", 4, 0⟩, ⟨"", 5, 3⟩]
    residualGraph := [[1, 2], [3], [3, 3], [5], [5], [-1]]
    levelGraph := [[1, 2], [3], [3, 3], [5], [5], [-1]] }

/-- The graph of that input when the inner loop of `main`, after augmenting along 0, 1, 3, 5,
has walked along 0, 2 to node 3 (X), whose level-graph row is now empty. -/
def repeatedEdgeAtX : Graph :=
  { edges := [⟨1, 3, true⟩, ⟨2, 3, false⟩, ⟨2, 3, false⟩]
    nodes := [⟨"", 0, 0⟩, ⟨"A", 1, 1⟩, ⟨"B", 2, 1⟩, ⟨"X", 3, 2⟩, ⟨"Y", 4, 0⟩, ⟨"", 5, 3⟩]
    residualGraph := [[2], [0], [3, 3], [1], [5], [-1, 3]]
    levelGraph := [[2], [], [3, 3], [], [5], [-1]] }

/-- The number of `createLevelGraph` calls that the outer loop of `main` makes from the graph
`g` within the given fuel, counted whether the run then completes, becomes undefined or runs
out of fuel: the call that returns false, the call that is undefined and the call after which
the inner loop does not end are counted like every other call. (A ghost count; for a completed
run it is the count that `driverLoop` returns.) -/
def driverCalls (nodeCount : Int) : Nat → Graph → Nat
  | 0, _ => 0
  | fuel + 1, g =>
    match g.createLevelGraph with
    | Outcome.done (true, g1) =>
      match g1.getNode 0 with
      | none => 1
      | some source =>
        match searchLoop nodeCount fuel ⟨g1, source.index, []⟩ with
        | Outcome.done g2 => 1 + driverCalls nodeCount fuel g2
        | _ => 1
    | _ => 1

/-- The number of `createLevelGraph` calls of a run of `main` within the given fuel, counted
whether the run completes or not. -/
def runCalls (fuel : Nat) (names : List String) (edgePairs : List (Int × Int)) : Nat :=
  match loadGraph names edgePairs with
  | none => 0
  | some g =>
    match g.createResidualGraph with
    | none => 0
    | some g1 => driverCalls (names.length : Int) fuel g1

end P3

namespace P2

/-- A point of `Point.h`: its two coordinates and the index stored by `setIndex`. The
coordinates range over an ordered ring `α`, so that every operation on them is exact. -/
structure Point (α : Type) where
  x : α
  y : α
  index : Int
deriving DecidableEq

/-- A `double` that holds a distance: `numeric_limits<double>::max()`, taken to lie above
every distance between two points, or the exact square root of `square`. Keeping the square
instead of the root leaves every comparison of the program computable. -/
inductive Distance (α : Type) where
  | max : Distance α
  | root (square : α) : Distance α
deriving DecidableEq

/-- The test `a < b` on two distances: roots compare as their squares do. -/
def Distance.lt {α : Type} [LinearOrderedRing α] : Distance α → Distance α → Bool
  | Distance.root a, Distance.root b => decide (a < b)
  | Distance.root _, Distance.max => true
  | Distance.max, _ => false

/-- The test `c < d` of a coordinate difference `c` against a distance `d`: a root of `s` lies
above `c` exactly when `c` is negative or `c * c < s`. -/
def Distance.above {α : Type} [LinearOrderedRing α] (c : α) : Distance α → Bool
  | Distance.max => true
  | Distance.root s => decide (c < 0 ∨ c * c < s)

/-- `Point::compareX`. -/
def Point.compareX {α : Type} [LinearOrderedRing α] (a b : Point α) : Bool :=
  decide (a.x < b.x)

/-- `Point::compareY`. -/
def Point.compareY {α : Type} [LinearOrderedRing α] (a b : Point α) : Bool :=
  decide (a.y < b.y)

/-- `Point::calculateDistance`: the square root of `dx * dx + dy * dy`. -/
def Point.calculateDistance {α : Type} [LinearOrderedRing α] (a b : Point α) : Distance α :=
  let dx := a.x - b.x
  let dy := a.y - b.y
  Distance.root (dx * dx + dy * dy)

/-- `ClosestPairAlgorithm::getMinimumValue`. -/
def getMinimumValue {α : Type} [LinearOrderedRing α] (firstValue secondValue : Distance α) :
    Distance α :=
  if Distance.lt firstValue secondValue then firstValue else secondValue

/-- `PointSet::operator[]`: the point at `index`, or the front point when `index` is out of
bounds; `none` where `front()` is called on an empty vector. -/
def PointSet.subscript {α : Type} (points : List (Point α)) (index : Int) : Option (Point α) :=
  if 0 ≤ index ∧ index < (points.length : Int) then points[index.toNat]? else points.head?

/-- What a call `sort(begin, end, compare)` guarantees about the vector it leaves: `sorted`
holds the elements of `points` in some order in which no element is `compare`-below an
element before it. `std::sort` leaves the order of elements with equal keys open, so the call
is a relation between the vector before and the vector after, not a function. -/
def IsSortOutput {α : Type} (compare : Point α → Point α → Bool)
    (points sorted : List (Point α)) : Prop :=
  sorted.Perm points ∧ sorted.Pairwise (fun a b => compare b a = false)

/-- The loop of `findClosestPairDistance` that stores in every point its position, counting
from `i`. -/
def setIndexFrom {α : Type} : Int → List (Point α) → List (Point α)
  | _, [] => []
  | i, p :: rest => { p with index := i } :: setIndexFrom (i + 1) rest

/-- `ClosestPairAlgorithm::bruteForceClosestPairDistance`: `i` runs from `leftIndex` to
`rightIndex` and `j` from `i + 1` to `rightIndex`. -/
def bruteForceClosestPairDistance {α : Type} [LinearOrderedRing α] (points : List (Point α))
    (leftIndex rightIndex : Int) : Option (Distance α) :=
  (List.range (rightIndex - leftIndex + 1).toNat).foldlM
    (fun outer (a : Nat) =>
      (List.range (rightIndex - (leftIndex + a)).toNat).foldlM
        (fun minDistance (b : Nat) =>
          match PointSet.subscript points (leftIndex + a),
            PointSet.subscript points (leftIndex + a + 1 + b) with
          | some pi, some pj => some (getMinimumValue (Point.calculateDistance pi pj) minDistance)
          | _, _ => none)
        outer)
    Distance.max

/-- The four locals filled by the partition loop of `findClosestPairRecursive`. -/
structure Split (α : Type) where
  leftSortedPointsY : List (Point α)
  rightSortedPointsY : List (Point α)
  leftIndexY : Int
  rightIndexY : Int
deriving DecidableEq

/-- One iteration of the partition loop on the point `p = sortedPointsY[i]`. The point just
added is the one at `leftIndexY` (or `rightIndexY`), so `setIndex` acts on it. -/
def splitStep {α : Type} [LinearOrderedRing α] (midPoint : Point α) (mid : Int) (s : Split α)
    (p : Point α) : Split α :=
  if (p.x < midPoint.x ∨ (p.x = midPoint.x ∧ p.y ≤ midPoint.y)) ∧ s.leftIndexY < mid then
    { s with
      leftSortedPointsY := s.leftSortedPointsY ++ [{ p with index := s.leftIndexY }]
      leftIndexY := s.leftIndexY + 1 }
  else
    { s with
      rightSortedPointsY := s.rightSortedPointsY ++ [{ p with index := s.rightIndexY }]
      rightIndexY := s.rightIndexY + 1 }

/-- The points `sortedPointsY[i]` visited by a loop with the bounds
`i <= rightIndex - leftIndex` and `i < sortedPointsY.size()`. -/
def visitedPoints {α : Type} (sortedPointsY : List (Point α)) (leftIndex rightIndex : Int) :
    List (Point α) :=
  sortedPointsY.take (rightIndex - leftIndex + 1).toNat

/-- The inner loop of the strip scan for `strip[i] = p`: `rest` holds `strip[i + 1]` onwards,
and the loop stops at the first `strip[j]` with `strip[j].y - p.y` not below `minDistance`. -/
def stripInner {α : Type} [LinearOrderedRing α] (p : Point α) :
    List (Point α) → Distance α → Distance α
  | [], minDistance => minDistance
  | q :: rest, minDistance =>
    if Distance.above (q.y - p.y) minDistance then
      stripInner p rest (getMinimumValue (Point.calculateDistance p q) minDistance)
    else minDistance

/-- The outer loop of the strip scan. -/
def stripScan {α : Type} [LinearOrderedRing α] : List (Point α) → Distance α → Distance α
  | [], minDistance => minDistance
  | p :: rest, minDistance => stripScan rest (stripInner p rest minDistance)

/-- `ClosestPairAlgorithm::findClosestPairRecursive`, without its printing. `fuel` bounds the
depth of the recursion; `none` stands for an undefined read or for exhausted fuel. -/
def findClosestPairRecursive {α : Type} [LinearOrderedRing α] :
    Nat → List (Point α) → List (Point α) → Int → Int → Option (Distance α)
  | 0, _, _, _, _ => none
  | fuel + 1, sortedPointsX, sortedPointsY, leftIndex, rightIndex =>
    if rightIndex - leftIndex ≤ 2 then
      bruteForceClosestPairDistance sortedPointsX leftIndex rightIndex
    else
      let mid := (leftIndex + rightIndex).tdiv 2
      match PointSet.subscript sortedPointsX mid with
      | none => none
      | some midPoint =>
        let split := (visitedPoints sortedPointsY leftIndex rightIndex).foldl
          (splitStep midPoint mid) ⟨[], [], 0, 0⟩
        match findClosestPairRecursive fuel sortedPointsX split.leftSortedPointsY leftIndex mid,
          findClosestPairRecursive fuel sortedPointsX split.rightSortedPointsY (mid + 1)
            rightIndex with
        | some leftDistance, some rightDistance =>
          let minDistance := getMinimumValue leftDistance rightDistance
          let strip := (visitedPoints sortedPointsY leftIndex rightIndex).filter
            (fun p => Distance.above (abs (p.x - midPoint.x)) minDistance)
          some (stripScan strip minDistance)
        | _, _ => none

/-- `ClosestPairAlgorithm::findClosestPairDistance`, from the point where the two `sort` calls
have left the vectors `sortedPointsX` and `sortedPointsY` (see `IsSortOutput`). The recursion
halves its range, so a depth of `pointSet.length` is never reached. -/
def findClosestPairDistance {α : Type} [LinearOrderedRing α]
    (pointSet sortedPointsX sortedPointsY : List (Point α)) : Option (Distance α) :=
  if (pointSet.length : Int) < 2 then some Distance.max
  else
    findClosestPairRecursive pointSet.length (setIndexFrom 0 sortedPointsX)
      (setIndexFrom 0 sortedPointsY) 0 ((pointSet.length : Int) - 1)

/-- The call `findClosestPairDistance(pointSet)` can end with `result`: some vectors that
`sort` with `Point::compareX` and `sort` with `Point::compareY` can leave lead to it. -/
def CanReturn {α : Type} [LinearOrderedRing α] (pointSet : List (Point α))
    (result : Option (Distance α)) : Prop :=
  ∃ sortedPointsX sortedPointsY, IsSortOutput Point.compareX pointSet sortedPointsX ∧
    IsSortOutput Point.compareY pointSet sortedPointsY ∧
    findClosestPairDistance pointSet sortedPointsX sortedPointsY = result

/-- Spec-level reference for the closest-pair claims: the least distance over all pairs of
points at different positions, `Distance.max` when there is no pair. -/
def specClosestPairDistance {α : Type} [LinearOrderedRing α] : List (Point α) → Distance α
  | [] => Distance.max
  | p :: rest =>
    rest.foldl (fun m q => getMinimumValue (Point.calculateDistance p q) m)
      (specClosestPairDistance rest)

/-- Seven points with pairwise different coordinates: the closest pair is (10, 6), (11, 5). -/
def sevenPoints : List (Point Int) :=
  [⟨0, 0, 0⟩, ⟨10, 6, 0⟩, ⟨11, 5, 0⟩, ⟨50, 1, 0⟩, ⟨100, 2, 0⟩, ⟨200, 3, 0⟩, ⟨300, 4, 0⟩]

/-- The seven points in the order of their second coordinates. -/
def sevenSortedY : List (Point Int) :=
  [⟨0, 0, 0⟩, ⟨50, 1, 0⟩, ⟨100, 2, 0⟩, ⟨200, 3, 0⟩, ⟨300, 4, 0⟩, ⟨11, 5, 0⟩, ⟨10, 6, 0⟩]

end P2

namespace P1

/-- The fields of a `People` object that the matching reads and writes: the count, one
preference queue per person (front first) and the `matchedPet` vector. Names are left out. -/
structure People where
  peopleCount : Int
  peoplePreferences : List (List Int)
  matchedPet : List Int
deriving DecidableEq

/-- The fields of a `Pet` object that the matching reads and writes: the count, one rank list
per pet and the `matchedPeople` vector. Names and the raw preference lists are left out. -/
structure Pet where
  petCount : Int
  petPreferenceRanks : List (List Int)
  matchedPeople : List Int
deriving DecidableEq

/-- `People::isValidPeopleIndex`. -/
def People.isValidPeopleIndex (people : People) (peopleIndex : Int) : Bool :=
  decide (0 ≤ peopleIndex ∧ peopleIndex < (people.peoplePreferences.length : Int))

/-- `People::getPeoplePreference`: the front of the person's queue, which is popped, or -1
with the object unchanged. -/
def People.getPeoplePreference (people : People) (peopleIndex : Int) : Int × People :=
  if people.isValidPeopleIndex peopleIndex then
    match people.peoplePreferences[peopleIndex.toNat]? with
    | some (petIndex :: rest) =>
      (petIndex,
        { people with peoplePreferences := people.peoplePreferences.set peopleIndex.toNat rest })
    | _ => (-1, people)
  else (-1, people)

/-- `People::getMatchedPet`; `none` for a read outside the vector. -/
def People.getMatchedPet (people : People) (peopleIndex : Int) : Option Int :=
  P3.vget people.matchedPet peopleIndex

/-- `People::setMatchedPet`; `none` for a write outside the vector. -/
def People.setMatchedPet (people : People) (peopleIndex petIndex : Int) : Option People :=
  match P3.vset people.matchedPet peopleIndex petIndex with
  | none => none
  | some matchedPet => some { people with matchedPet := matchedPet }

/-- `Pet::getMatchedPerson`; `none` for a read outside the vector. -/
def Pet.getMatchedPerson (pets : Pet) (petIndex : Int) : Option Int :=
  P3.vget pets.matchedPeople petIndex

/-- `Pet::setMatchedPerson`; `none` for a write outside the vector. -/
def Pet.setMatchedPerson (pets : Pet) (petIndex personIndex : Int) : Option Pet :=
  match P3.vset pets.matchedPeople petIndex personIndex with
  | none => none
  | some matchedPeople => some { pets with matchedPeople := matchedPeople }

/-- `Pet::comparePetPreferenceRank`: whether the pet ranks the proposed person strictly before
its matched person; `none` for a read outside a vector. -/
def Pet.comparePetPreferenceRank (pets : Pet) (petIndex proposedPersonIndex : Int) :
    Option Bool :=
  match P3.vget pets.petPreferenceRanks petIndex, pets.getMatchedPerson petIndex with
  | some ranks, some matched =>
    match P3.vget ranks proposedPersonIndex, P3.vget ranks matched with
    | some proposedRank, some matchedRank => some (decide (proposedRank < matchedRank))
    | _, _ => none
  | _, _ => none

/-- The inner loop of `Pet::loadData` on one preference line: the entry `preference - 1` of
the rank list receives the running rank. -/
def fillRanks : List Int → Int → List Int → Option (List Int)
  | petPreferenceRankList, _, [] => some petPreferenceRankList
  | petPreferenceRankList, rank, preference :: rest =>
    match P3.vset petPreferenceRankList (preference - 1) rank with
    | none => none
    | some filled => fillRanks filled (rank + 1) rest

/-- The rank list that `Pet::loadData` stores for one preference line: a vector of `petCount`
zeros, filled with the ranks 1, 2, ... -/
def rankListOf (petCount : Nat) (preferences : List Int) : Option (List Int) :=
  fillRanks (List.replicate petCount 0) 1 preferences

/-- What one iteration of the loop of `performStableMatching` does. -/
inductive Step where
  | undef : Step
  | exhausted (people : People) : Step
  | next (people : People) (pets : Pet) (unmatchedPeople : List Int) : Step
deriving DecidableEq

/-- One iteration of the loop of `performStableMatching`, for the person `currentPerson` just
popped and the rest `unmatchedPeople` of the queue: `exhausted` is `return false`, `undef` an
access outside a vector. -/
def proposeStep (people : People) (pets : Pet) (currentPerson : Int)
    (unmatchedPeople : List Int) : Step :=
  match people.getPeoplePreference currentPerson with
  | (answer, people1) =>
    if answer = -1 then Step.exhausted people1
    else
      let preferredPetIndex := answer - 1
      match pets.getMatchedPerson preferredPetIndex with
      | none => Step.undef
      | some currentPetMaster =>
        if currentPetMaster = -1 then
          match pets.setMatchedPerson preferredPetIndex currentPerson,
            people1.setMatchedPet currentPerson preferredPetIndex with
          | some pets1, some people2 => Step.next people2 pets1 unmatchedPeople
          | _, _ => Step.undef
        else
          match pets.comparePetPreferenceRank preferredPetIndex currentPerson with
          | none => Step.undef
          | some true =>
            match people1.setMatchedPet currentPetMaster (-1) with
            | none => Step.undef
            | some people2 =>
              match pets.setMatchedPerson preferredPetIndex currentPerson,
                people2.setMatchedPet currentPerson preferredPetIndex with
              | some pets1, some people3 =>
                Step.next people3 pets1 (unmatchedPeople ++ [currentPetMaster])
              | _, _ => Step.undef
          | some false => Step.next people1 pets (unmatchedPeople ++ [currentPerson])

/-- The `while` loop of `performStableMatching`. The result holds the returned boolean, the
two objects as the loop leaves them, and the number of iterations that made a proposal, counted
from `proposals`. -/
def matchingLoop : Nat → People → Pet → List Int → Nat → P3.Outcome (Bool × People × Pet × Nat)
  | 0, _, _, _, _ => P3.Outcome.fuel
  | _ + 1, people, pets, [], proposals => P3.Outcome.done (true, people, pets, proposals)
  | fuel + 1, people, pets, currentPerson :: unmatchedPeople, proposals =>
    match proposeStep people pets currentPerson unmatchedPeople with
    | Step.undef => P3.Outcome.undef
    | Step.exhausted people1 => P3.Outcome.done (false, people1, pets, proposals)
    | Step.next people1 pets1 queue => matchingLoop fuel people1 pets1 queue (proposals + 1)

/-- `performStableMatching`: the queue starts with the people 0, 1, ..., `peopleCount - 1`. -/
def performStableMatching (fuel : Nat) (people : People) (pets : Pet) :
    P3.Outcome (Bool × People × Pet × Nat) :=
  matchingLoop fuel people pets
    ((List.range people.peopleCount.toNat).map (fun (i : Nat) => (i : Int))) 0

/-- The numbers 1, ..., n in which the data file names the pets and the people. -/
def numbersUpTo (n : Nat) : List Int :=
  (List.range n).map (fun (k : Nat) => (k : Int) + 1)

/-- The rank `petPreferenceRanks[q][i]` (0 outside the vectors). -/
def rankOf (ranks : List (List Int)) (q i : Int) : Int :=
  (P3.vget (P3.rowOf ranks q) i).getD 0

/-- The preconditions of the matching claims: `n` people and `n` pets, every preference queue
a permutation of 1..n, every rank list built by `Pet::loadData` from a permutation of 1..n,
and nobody matched. -/
structure ValidInstance (n : Nat) (people : People) (pets : Pet) : Prop where
  people_count : people.peopleCount = (n : Int)
  pet_count : pets.petCount = (n : Int)
  preferences_length : people.peoplePreferences.length = n
  preferences_perm : ∀ row ∈ people.peoplePreferences, row.Perm (numbersUpTo n)
  ranks : ∃ lines : List (List Int), (∀ line ∈ lines, line.Perm (numbersUpTo n)) ∧
    lines.map (rankListOf n) = pets.petPreferenceRanks.map some
  ranks_length : pets.petPreferenceRanks.length = n
  unmatched_people : people.matchedPet = List.replicate n (-1)
  unmatched_pets : pets.matchedPeople = List.replicate n (-1)

/-- An instance with three people and three pets (the preference lines of the pets are
2 1 3, 1 2 3 and 1 2 3). -/
def threePeople : People :=
  { peopleCount := 3
    peoplePreferences := [[1, 2, 3], [1, 3, 2], [1, 2, 3]]
    matchedPet := [-1, -1, -1] }

/-- The pets of the instance `threePeople`. -/
def threePets : Pet :=
  { petCount := 3
    petPreferenceRanks := [[2, 1, 3], [1, 2, 3], [1, 2, 3]]
    matchedPeople := [-1, -1, -1] }

/-- The pet numbered `v` in the data file holds somebody whom it ranks at least as well as the
person `i`. -/
def Held (matchedPeople : List Int) (ranks : List (List Int)) (i v : Int) : Prop :=
  ∃ m, P3.vget matchedPeople (v - 1) = some m ∧ m ≠ -1 ∧
    rankOf ranks (v - 1) m ≤ rankOf ranks (v - 1) i

/-- The invariant of the loop of `performStableMatching`, relative to the preference queues
`original` at the start: a person's queue is what is left of the original one, a matched
person holds the pet proposed to last, every pet a person has proposed to holds somebody it
ranks at least as well, both `matched` vectors agree, the queue holds the unmatched people
once each, and every proposal has removed one queue entry. -/
structure MatchingInv (n : Nat) (original ranks : List (List Int)) (people : People)
    (pets : Pet) (queue : List Int) (proposals : Nat) : Prop where
  prefs_length : people.peoplePreferences.length = n
  matchedPet_length : people.matchedPet.length = n
  matchedPeople_length : pets.matchedPeople.length = n
  ranks_eq : pets.petPreferenceRanks = ranks
  proposed : ∀ i : Int, 0 ≤ i → i < (n : Int) → ∃ before : List Int,
    P3.rowOf original i = before ++ P3.rowOf people.peoplePreferences i ∧
    (∀ q, P3.vget people.matchedPet i = some q → q ≠ -1 → before.getLast? = some (q + 1)) ∧
    (∀ v ∈ before, Held pets.matchedPeople ranks i v)
  person_side : ∀ i q, P3.vget people.matchedPet i = some q → q ≠ -1 →
    P3.vget pets.matchedPeople q = some i
  pet_side : ∀ q i, P3.vget pets.matchedPeople q = some i → i ≠ -1 →
    P3.vget people.matchedPet i = some q
  queue_nodup : queue.Nodup
  queue_mem : ∀ i, i ∈ queue ↔ P3.vget people.matchedPet i = some (-1)
  count : proposals + (people.peoplePreferences.map List.length).sum = n * n

/-- The facts about the front person `cur` of the queue that all three branches of an
iteration share. -/
structure Proposal (n : Nat) (original ranks : List (List Int)) (people : People) (pets : Pet)
    (cur : Int) (v : Int) (L : List Int) (m : Int) (before : List Int) : Prop where
  cur_nonneg : 0 ≤ cur
  cur_lt : cur < (n : Int)
  row : P3.rowOf people.peoplePreferences cur = v :: L
  pet_nonneg : 0 ≤ v - 1
  pet_lt : v - 1 < (n : Int)
  holder : P3.vget pets.matchedPeople (v - 1) = some m
  unmatched : P3.vget people.matchedPet cur = some (-1)
  split : P3.rowOf original cur = before ++ v :: L
  held : ∀ w ∈ before, Held pets.matchedPeople ranks cur w
  fresh : v ∉ before
  pop : people.getPeoplePreference cur
    = (v, { people with peoplePreferences := people.peoplePreferences.set cur.toNat L })
  total : ((people.peoplePreferences.set cur.toNat L).map List.length).sum + 1
    = (people.peoplePreferences.map List.length).sum

end P1

/-! # Properties -/

namespace P3

theorem searchLoop_add_fuel (nodeCount : Int) (fuel extra : Nat) (s : Search)
    (h : searchLoop nodeCount fuel s ≠ Outcome.fuel) :
    searchLoop nodeCount (fuel + extra) s = searchLoop nodeCount fuel s := by
  induction fuel generalizing s with
  | zero => simp [searchLoop] at h
  | succ f ih =>
    rw [Nat.add_right_comm]
    simp only [searchLoop] at h ⊢
    split
    · rfl
    · rfl
    · rename_i hrow
      rw [hrow] at h
      simp only at h
      cases hstep : searchStep nodeCount s with
      | none => rfl
      | some s1 =>
        rw [hstep] at h
        exact ih s1 h

theorem driverLoop_add_fuel (nodeCount : Int) (fuel extra : Nat) (g : Graph) (calls : Nat)
    (h : driverLoop nodeCount fuel g calls ≠ Outcome.fuel) :
    driverLoop nodeCount (fuel + extra) g calls = driverLoop nodeCount fuel g calls := by
  induction fuel generalizing g calls with
  | zero => simp [driverLoop] at h
  | succ f ih =>
    rw [Nat.add_right_comm]
    simp only [driverLoop] at h ⊢
    cases hc : g.createLevelGraph with
    | undef => rfl
    | fuel => rfl
    | done r =>
      obtain ⟨b, g1⟩ := r
      rw [hc] at h
      cases b with
      | false => rfl
      | true =>
        simp only at h ⊢
        cases hn : g1.getNode 0 with
        | none => rfl
        | some source =>
          rw [hn] at h
          simp only at h ⊢
          cases hs : searchLoop nodeCount f ⟨g1, source.index, []⟩ with
          | undef => rw [searchLoop_add_fuel nodeCount f extra _ (by rw [hs]; simp), hs]
          | fuel => rw [hs] at h; simp at h
          | done g2 =>
            rw [searchLoop_add_fuel nodeCount f extra _ (by rw [hs]; simp), hs]
            rw [hs] at h
            exact ih g2 _ h

theorem vget_natCast {α : Type} (v : List α) (n : Nat) : vget v (n : Int) = v[n]? := by
  simp [vget]

theorem vset_natCast {α : Type} (v : List α) (n : Nat) (x : α) (h : n < v.length) :
    vset v (n : Int) x = some (v.set n x) := by
  simp [vset, h]

theorem pushBackAt_natCast (r : List (List Int)) (n : Nat) (x : Int) (h : n < r.length) :
    pushBackAt r (n : Int) x = some (r.set n (r[n]?.getD [] ++ [x])) := by
  simp [pushBackAt, vget_natCast, List.getElem?_eq_getElem h, vset_natCast _ _ _ h]

theorem length_pushAll (ps : List (Nat × Int)) (r : List (List Int)) :
    (pushAll ps r).length = r.length := by
  induction ps generalizing r with
  | nil => rfl
  | cons p ps ih =>
    have := ih (r.set p.1 (r[p.1]?.getD [] ++ [p.2]))
    simpa [pushAll] using this

theorem foldlM_pushBackAt (ps : List (Nat × Int)) (r : List (List Int))
    (h : ∀ p ∈ ps, p.1 < r.length) :
    ps.foldlM (fun acc p => pushBackAt acc (p.1 : Int) p.2) r = some (pushAll ps r) := by
  induction ps generalizing r with
  | nil => rfl
  | cons p ps ih =>
    have hp : p.1 < r.length := h p (List.mem_cons_self _ _)
    rw [List.foldlM_cons, pushBackAt_natCast r p.1 p.2 hp]
    simp only [Option.bind_eq_bind, Option.some_bind]
    rw [ih]
    · rfl
    · intro q hq
      rw [List.length_set]
      exact h q (List.mem_cons_of_mem _ hq)

theorem getElem?_pushAll (ps : List (Nat × Int)) (r : List (List Int)) (j : Nat) :
    (pushAll ps r)[j]? =
      (r[j]?).map (fun row => row ++ (ps.filter (fun p => p.1 = j)).map Prod.snd) := by
  induction ps generalizing r with
  | nil => simp [pushAll]
  | cons p ps ih =>
    have hstep : pushAll (p :: ps) r = pushAll ps (r.set p.1 (r[p.1]?.getD [] ++ [p.2])) := rfl
    rw [hstep, ih]
    by_cases hj : p.1 = j
    · subst hj
      by_cases hlt : p.1 < r.length
      · simp [List.getElem?_set, hlt, List.getElem?_eq_getElem hlt]
      · have : r[p.1]? = none := List.getElem?_eq_none (Nat.le_of_not_lt hlt)
        simp [List.getElem?_set, hlt, this]
    · simp [List.getElem?_set_ne hj, hj]

theorem connectSource_eq (leftPartition : Nat) (r : List (List Int)) (h : 0 < r.length) :
    connectSource leftPartition r
      = some (pushAll ((List.range leftPartition).map (fun (k : Nat) => (0, (k : Int) + 1))) r) := by
  rw [← foldlM_pushBackAt]
  · rw [List.foldlM_map]
    rfl
  · intro p hp
    simp only [List.mem_map] at hp
    obtain ⟨k, -, rfl⟩ := hp
    exact h

theorem connectEdges_eq (es : List Edge) (r : List (List Int))
    (h : ∀ e ∈ es, 0 ≤ e.source ∧ e.source.toNat < r.length) :
    connectEdges es r
      = some (pushAll (es.map (fun e => (e.source.toNat, e.destination))) r) := by
  rw [← foldlM_pushBackAt]
  · rw [List.foldlM_map]
    unfold connectEdges
    induction es generalizing r with
    | nil => rfl
    | cons e es ih =>
      have he := h e (List.mem_cons_self _ _)
      simp only [List.foldlM_cons, Int.toNat_of_nonneg he.1]
      cases hpb : pushBackAt r e.source e.destination with
      | none => rfl
      | some r1 =>
        simp only [Option.bind_eq_bind, Option.some_bind]
        apply ih
        intro e1 he1
        have hlen : r1.length = r.length := by
          rw [← Int.toNat_of_nonneg he.1, pushBackAt_natCast _ _ _ he.2] at hpb
          cases hpb
          simp
        rw [hlen]
        exact h e1 (List.mem_cons_of_mem _ he1)
  · intro p hp
    simp only [List.mem_map] at hp
    obtain ⟨e, he, rfl⟩ := hp
    exact (h e he).2

theorem connectSink_eq (leftPartition totalNodes : Nat) (r : List (List Int))
    (hle : leftPartition ≤ totalNodes) (h : totalNodes < r.length) :
    connectSink leftPartition totalNodes r
      = some (pushAll ((List.range (totalNodes - leftPartition)).map
          (fun (k : Nat) => (leftPartition + 1 + k, (totalNodes : Int) + 1))) r) := by
  rw [← foldlM_pushBackAt]
  · rw [List.foldlM_map]
    have hf : (fun (acc : List (List Int)) (k : Nat) =>
          pushBackAt acc ((leftPartition : Int) + 1 + (k : Int)) ((totalNodes : Int) + 1))
        = (fun acc (k : Nat) => pushBackAt acc ((leftPartition + 1 + k : Nat) : Int) ((totalNodes : Int) + 1)) := by
      funext acc k
      push_cast
      rfl
    unfold connectSink
    rw [hf]
  · intro p hp
    simp only [List.mem_map, List.mem_range] at hp
    obtain ⟨k, hk, rfl⟩ := hp
    simp only
    omega

/-- All `push_back` calls of `createResidualGraph`, in program order. -/
theorem createResidualGraph_eq (g : Graph) (hres : g.residualGraph = [])
    (hedges : ∀ e ∈ g.edges, 1 ≤ e.source ∧ e.source ≤ (g.nodes.length : Int)) :
    g.createResidualGraph = some
      { g with
        residualGraph :=
          pushAll
            ((List.range (g.nodes.length / 2)).map (fun (k : Nat) => (0, (k : Int) + 1))
              ++ g.edges.map (fun e => (e.source.toNat, e.destination))
              ++ (List.range (g.nodes.length - g.nodes.length / 2)).map
                  (fun (k : Nat) => (g.nodes.length / 2 + 1 + k, (g.nodes.length : Int) + 1))
              ++ [(g.nodes.length + 1, -1)])
            (List.replicate (g.nodes.length + 2) [])
        nodes := (⟨"", 0, 0⟩ :: g.nodes) ++ [⟨"", (g.nodes.length : Int) + 1, 0⟩] } := by
  have hr0 : resize g.residualGraph (g.nodes.length + 2) = List.replicate (g.nodes.length + 2) [] := by
    simp [resize, hres]
  unfold Graph.createResidualGraph
  simp only [hr0]
  rw [connectSource_eq _ _ (by simp)]
  simp only
  rw [connectEdges_eq]
  · simp only
    rw [connectSink_eq _ _ _ (Nat.div_le_self _ _) (by simp [length_pushAll])]
    simp only
    have hsink : ((g.nodes.length : Int) + 1) = ((g.nodes.length + 1 : Nat) : Int) := by push_cast; rfl
    rw [hsink, pushBackAt_natCast _ _ _ (by simp [length_pushAll])]
    simp only [pushAll, List.foldl_append, List.foldl_cons, List.foldl_nil]
  · intro e he
    have := hedges e he
    simp only [length_pushAll, List.length_replicate]
    omega

theorem filter_range_offset (a i n : Nat) :
    (List.range n).filter (fun k => decide (a + k = i))
      = if a ≤ i ∧ i < a + n then [i - a] else [] := by
  induction n with
  | zero => simp
  | succ n ih =>
    rw [List.range_succ, List.filter_append, ih]
    by_cases h1 : a ≤ i ∧ i < a + n
    · have h2 : a ≤ i ∧ i < a + (n + 1) := ⟨h1.1, by omega⟩
      have h3 : ¬ (a + n = i) := by omega
      simp [h1, h2, h3]
    · by_cases h4 : a + n = i
      · have h2 : a ≤ i ∧ i < a + (n + 1) := by omega
        have h5 : i - a = n := by omega
        simp [h1, h2, h4, h5]
      · have h2 : ¬ (a ≤ i ∧ i < a + (n + 1)) := by omega
        simp [h1, h2, h4]

/-- The rows of the residual graph that `createResidualGraph` builds on a freshly loaded graph
whose edge endpoints lie in `1..N`. -/
theorem createResidualGraph_rows (g : Graph) (hres : g.residualGraph = [])
    (hedges : ∀ e ∈ g.edges, 1 ≤ e.source ∧ e.source ≤ (g.nodes.length : Int)
      ∧ 1 ≤ e.destination ∧ e.destination ≤ (g.nodes.length : Int)) :
    ∃ g1, g.createResidualGraph = some g1 ∧
      g1.residualGraph.length = g.nodes.length + 2 ∧
      g1.residualGraph[0]? = some ((List.range (g.nodes.length / 2)).map (fun (k : Nat) => (k : Int) + 1)) ∧
      (∀ i : Nat, 1 ≤ i → i ≤ g.nodes.length →
        g1.residualGraph[i]? = some
          (((g.edges.filter (fun e => decide (e.source = (i : Int)))).map Edge.destination)
            ++ (if g.nodes.length / 2 < i then [(g.nodes.length : Int) + 1] else []))) ∧
      g1.residualGraph[g.nodes.length + 1]? = some [-1] := by
  refine ⟨_, createResidualGraph_eq g hres (fun e he => ⟨(hedges e he).1, (hedges e he).2.1⟩), ?_, ?_, ?_, ?_⟩
  · simp [length_pushAll]
  · rw [getElem?_pushAll]
    have h2 : (g.edges.filter (fun e => decide (e.source.toNat = 0))) = [] := by
      rw [List.filter_eq_nil_iff]
      intro e he
      have := hedges e he
      simp only [decide_eq_true_eq]
      omega
    simp [List.filter_map, Function.comp_def, h2, filter_range_offset]
    intro e he
    have := hedges e he
    omega
  · intro i hi1 hi2
    rw [getElem?_pushAll]
    have h1 : ¬ (0 = i) := by omega
    have h2 : (g.edges.filter (fun e => decide (e.source.toNat = i)))
        = g.edges.filter (fun e => decide (e.source = (i : Int))) := by
      apply List.filter_congr
      intro e he
      have := hedges e he
      simp only [decide_eq_decide]
      omega
    have h4 : ¬ (g.nodes.length + 1 = i) := by omega
    have hlt : i < g.nodes.length + 2 := by omega
    simp only [List.getElem?_replicate, hlt, if_true, Option.map_some', List.nil_append,
      List.filter_append, List.filter_map, Function.comp_def, h1, decide_False, List.filter_false,
      List.map_nil, h2, List.map_append, List.map_map, filter_range_offset, List.filter_cons,
      h4, List.filter_nil, List.append_nil, Option.some.injEq]
    by_cases h5 : g.nodes.length / 2 < i
    · have h6 : g.nodes.length / 2 + 1 ≤ i ∧ i < g.nodes.length / 2 + 1 + (g.nodes.length - g.nodes.length / 2) := by
        omega
      simp [h5, h6]
    · have h6 : ¬ (g.nodes.length / 2 + 1 ≤ i ∧ i < g.nodes.length / 2 + 1 + (g.nodes.length - g.nodes.length / 2)) := by
        omega
      simp [h5, h6]
  · rw [getElem?_pushAll]
    have h2 : (g.edges.filter (fun e => decide (e.source.toNat = g.nodes.length + 1))) = [] := by
      rw [List.filter_eq_nil_iff]
      intro e he
      have := hedges e he
      simp only [decide_eq_true_eq]
      omega
    have h6 : ¬ (g.nodes.length / 2 + 1 ≤ g.nodes.length + 1 ∧ g.nodes.length + 1 < g.nodes.length / 2 + 1 + (g.nodes.length - g.nodes.length / 2)) := by
      have := Nat.div_le_self g.nodes.length 2
      omega
    simp [List.filter_map, Function.comp_def, h2, filter_range_offset, h6]
    intro
    omega

theorem runMatching_add_fuel (fuel extra : Nat) (names : List String) (edgePairs : List (Int × Int))
    (h : runMatching fuel names edgePairs ≠ Outcome.fuel) :
    runMatching (fuel + extra) names edgePairs = runMatching fuel names edgePairs := by
  unfold runMatching at h ⊢
  cases hl : loadGraph names edgePairs with
  | none => rfl
  | some g =>
    rw [hl] at h
    simp only at h ⊢
    cases hr : g.createResidualGraph with
    | none => rfl
    | some g1 =>
      rw [hr] at h
      exact driverLoop_add_fuel _ _ _ _ _ h

/-- C9: on a freshly loaded graph with `N` nodes whose edge endpoints lie in `1..N`,
`createResidualGraph` succeeds and builds `N+2` adjacency rows: row `0` is `[1, ..., N/2]`,
row `i` for `1 ≤ i ≤ N` lists the destinations of the edges with source `i` in insertion
order, followed by `N+1` exactly when `i > N/2`, and row `N+1` is `[-1]`. -/
theorem createResidualGraph_adjacency (g : Graph) (hres : g.residualGraph = [])
    (hedges : ∀ e ∈ g.edges, 1 ≤ e.source ∧ e.source ≤ (g.nodes.length : Int)
      ∧ 1 ≤ e.destination ∧ e.destination ≤ (g.nodes.length : Int)) :
    ∃ g1, g.createResidualGraph = some g1 ∧
      g1.residualGraph.length = g.nodes.length + 2 ∧
      g1.residualGraph[0]? = some ((List.range (g.nodes.length / 2)).map (fun (k : Nat) => (k : Int) + 1)) ∧
      (∀ i : Nat, 1 ≤ i → i ≤ g.nodes.length →
        g1.residualGraph[i]? = some
          (((g.edges.filter (fun e => decide (e.source = (i : Int)))).map Edge.destination)
            ++ (if g.nodes.length / 2 < i then [(g.nodes.length : Int) + 1] else []))) ∧
      g1.residualGraph[g.nodes.length + 1]? = some [-1] := by
  obtain ⟨g1, hrun, hlen, hrow0, hrows, hsink⟩ := createResidualGraph_rows g hres hedges
  exact ⟨g1, hrun, hlen, hrow0, hrows, hsink⟩

/-- C9 (witness): the four-node graph of the first scenario. -/
theorem createResidualGraph_adjacency_witness :
    scenarioOneLoaded.residualGraph = [] ∧
    (∀ e ∈ scenarioOneLoaded.edges, 1 ≤ e.source ∧ e.source ≤ (scenarioOneLoaded.nodes.length : Int)
      ∧ 1 ≤ e.destination ∧ e.destination ≤ (scenarioOneLoaded.nodes.length : Int)) ∧
    ∃ g1, scenarioOneLoaded.createResidualGraph = some g1 ∧
      g1.residualGraph.length = scenarioOneLoaded.nodes.length + 2 ∧
      g1.residualGraph[0]? = some ((List.range (scenarioOneLoaded.nodes.length / 2)).map
        (fun (k : Nat) => (k : Int) + 1)) ∧
      (∀ i : Nat, 1 ≤ i → i ≤ scenarioOneLoaded.nodes.length →
        g1.residualGraph[i]? = some
          (((scenarioOneLoaded.edges.filter (fun e => decide (e.source = (i : Int)))).map Edge.destination)
            ++ (if scenarioOneLoaded.nodes.length / 2 < i
                then [(scenarioOneLoaded.nodes.length : Int) + 1] else []))) ∧
      g1.residualGraph[scenarioOneLoaded.nodes.length + 1]? = some [-1] :=
  ⟨rfl, by decide, createResidualGraph_adjacency scenarioOneLoaded rfl (by decide)⟩

/-- The node list that `createResidualGraph` leaves when the loaded nodes carry the ids `1..N`
in order. -/
theorem createResidualGraph_nodes (g g1 : Graph)
    (hids : ∀ k : Nat, k < g.nodes.length → (g.nodes[k]?).map Node.index = some ((k : Int) + 1))
    (hrun : g.createResidualGraph = some g1) :
    g1.nodes.length = g.nodes.length + 2 ∧
    g1.nodes.head? = some ⟨"", 0, 0⟩ ∧
    g1.nodes.getLast? = some ⟨"", (g.nodes.length : Int) + 1, 0⟩ ∧
    g1.nodes = (⟨"", 0, 0⟩ :: g.nodes) ++ [⟨"", (g.nodes.length : Int) + 1, 0⟩] ∧
    ∀ i : Nat, i ≤ g.nodes.length + 1 → (g1.nodes[i]?).map Node.index = some (i : Int) := by
  have hnodes : g1.nodes = (⟨"", 0, 0⟩ :: g.nodes) ++ [⟨"", (g.nodes.length : Int) + 1, 0⟩] := by
    unfold Graph.createResidualGraph at hrun
    simp only at hrun
    split at hrun
    · cases hrun
    · split at hrun
      · cases hrun
      · split at hrun
        · cases hrun
        · split at hrun
          · cases hrun
          · cases hrun
            rfl
  have hlast : g1.nodes.getLast? = some ⟨"", (g.nodes.length : Int) + 1, 0⟩ := by
    rw [hnodes, List.getLast?_concat]
  refine ⟨by simp [hnodes], by simp [hnodes], hlast, hnodes, ?_⟩
  intro i hi
  rw [hnodes]
  rcases Nat.eq_zero_or_pos i with h0 | hpos
  · subst h0
    simp
  · obtain ⟨k, rfl⟩ : ∃ k, i = k + 1 := ⟨i - 1, by omega⟩
    rw [List.cons_append, List.getElem?_cons_succ]
    by_cases hk : k < g.nodes.length
    · rw [List.getElem?_append_left hk, hids k hk]
      push_cast
      rfl
    · have hk2 : k = g.nodes.length := by omega
      subst hk2
      rw [List.getElem?_append_right (Nat.le_refl _)]
      simp

/-- C10: when the `N` loaded nodes carry the ids `1..N` in order, `createResidualGraph` leaves
a node list of length `N+2` whose first element is the source (empty name, id 0, level 0),
whose last element is the sink (id `N+1`), with the loaded nodes unchanged in between, so
that `nodes[i].index = i` for every `i` in `0..N+1`. -/
theorem createResidualGraph_nodes_aligned (g g1 : Graph)
    (hids : ∀ k : Nat, k < g.nodes.length → (g.nodes[k]?).map Node.index = some ((k : Int) + 1))
    (hrun : g.createResidualGraph = some g1) :
    g1.nodes.length = g.nodes.length + 2 ∧
    g1.nodes.head? = some ⟨"", 0, 0⟩ ∧
    g1.nodes.getLast? = some ⟨"", (g.nodes.length : Int) + 1, 0⟩ ∧
    g1.nodes = (⟨"", 0, 0⟩ :: g.nodes) ++ [⟨"", (g.nodes.length : Int) + 1, 0⟩] ∧
    ∀ i : Nat, i ≤ g.nodes.length + 1 → (g1.nodes[i]?).map Node.index = some (i : Int) := by
  obtain ⟨hlen, hhead, hlast, hnodes, hidx⟩ := createResidualGraph_nodes g g1 hids hrun
  exact ⟨hlen, hhead, hlast, hnodes, hidx⟩

/-- C10 (witness): the four-node graph of the first scenario. -/
theorem createResidualGraph_nodes_aligned_witness :
    (∀ k : Nat, k < scenarioOneLoaded.nodes.length →
      (scenarioOneLoaded.nodes[k]?).map Node.index = some ((k : Int) + 1)) ∧
    scenarioOneLoaded.createResidualGraph = some scenarioOneResidual ∧
    scenarioOneResidual.nodes.length = scenarioOneLoaded.nodes.length + 2 ∧
    scenarioOneResidual.nodes.head? = some ⟨"", 0, 0⟩ ∧
    scenarioOneResidual.nodes.getLast? = some ⟨"", (scenarioOneLoaded.nodes.length : Int) + 1, 0⟩ ∧
    scenarioOneResidual.nodes
      = (⟨"", 0, 0⟩ :: scenarioOneLoaded.nodes) ++ [⟨"", (scenarioOneLoaded.nodes.length : Int) + 1, 0⟩] ∧
    ∀ i : Nat, i ≤ scenarioOneLoaded.nodes.length + 1 →
      (scenarioOneResidual.nodes[i]?).map Node.index = some (i : Int) :=
  ⟨by decide, by decide,
    createResidualGraph_nodes_aligned scenarioOneLoaded scenarioOneResidual (by decide) (by decide)⟩

/-- C6: on the node list A, B, X, Y with the edges A-X, A-Y, B-X in this order, the driver
(with any fuel from 10 on) ends after three `createLevelGraph` calls with exactly A-Y and B-X
carrying flow, A-X not; the printing loop lists A / Y, then B / X, and the count is 2. -/
theorem scenario_one_output (extra : Nat) :
    runMatching (10 + extra) ["A", "B", "X", "Y"] [(1, 3), (1, 4), (2, 3)]
      = Outcome.done (scenarioOneFinal, 3) ∧
    scenarioOneFinal.edges = [⟨1, 3, false⟩, ⟨1, 4, true⟩, ⟨2, 3, true⟩] ∧
    matchedPairs scenarioOneFinal = some [("A", "Y"), ("B", "X")] ∧
    matchCount scenarioOneFinal = 2 := by
  have h : runMatching 10 ["A", "B", "X", "Y"] [(1, 3), (1, 4), (2, 3)]
      = Outcome.done (scenarioOneFinal, 3) := by decide
  refine ⟨?_, rfl, by decide, by decide⟩
  rw [runMatching_add_fuel _ _ _ _ (by rw [h]; simp), h]

/-- C8: on the node list A, X, Y with the edges A-X, A-Y in this order, the driver (with any
fuel from 6 on) ends with exactly one edge carrying flow, the first one, A-X; the count is 1. -/
theorem scenario_two_output (extra : Nat) :
    runMatching (6 + extra) ["A", "X", "Y"] [(1, 2), (1, 3)] = Outcome.done (scenarioTwoFinal, 2) ∧
    scenarioTwoFinal.edges = [⟨1, 2, true⟩, ⟨1, 3, false⟩] ∧
    matchedPairs scenarioTwoFinal = some [("A", "X")] ∧
    matchCount scenarioTwoFinal = 1 := by
  have h : runMatching 6 ["A", "X", "Y"] [(1, 2), (1, 3)]
      = Outcome.done (scenarioTwoFinal, 2) := by decide
  refine ⟨?_, rfl, by decide, by decide⟩
  rw [runMatching_add_fuel _ _ _ _ (by rw [h]; simp), h]

/-- C1 (failing input): on the six nodes A, B, C, X, Y, Z with the edges A-X, A-Y, A-Z, B-X,
B-Y, C-X a maximum matching has three edges, yet the first phase ends with two edges carrying
flow and the second `createLevelGraph` call reads past the end of an adjacency row, so the
run has no defined result. -/
theorem maximality_fails_on_six_nodes :
    maxMatchingSize failingEdges = 3 ∧
    (loadGraph failingNames failingEdges).bind Graph.createResidualGraph = some failingStart ∧
    failingStart.createLevelGraph.bind (fun r => searchLoop 6 13 ⟨r.2, 0, []⟩)
      = Outcome.done failingAfterPhaseOne ∧
    matchCount failingAfterPhaseOne = 2 ∧
    runMatching 14 failingNames failingEdges = Outcome.undef := by
  decide

/-- C3 (failing input): on the six-node input the outer loop never reaches its exit: whatever
the fuel, the run is not completed. -/
theorem driver_never_exits_on_six_nodes (fuel : Nat) (r : Graph × Nat) :
    runMatching fuel failingNames failingEdges ≠ Outcome.done r := by
  intro hdone
  have hbig : runMatching 14 failingNames failingEdges = Outcome.undef := by decide
  rcases Nat.le_total fuel 14 with hle | hge
  · obtain ⟨k, hk⟩ := Nat.exists_eq_add_of_le hle
    have := runMatching_add_fuel fuel k failingNames failingEdges (by rw [hdone]; simp)
    rw [← hk, hbig, hdone] at this
    cases this
  · obtain ⟨k, hk⟩ := Nat.exists_eq_add_of_le hge
    have := runMatching_add_fuel 14 k failingNames failingEdges (by rw [hbig]; simp)
    rw [← hk, hbig, hdone] at this
    cases this

/-- C5 (failing input): the state reached by the six-node input when its first phase ends has
the residual path 0, 3, 4, 1, 6, 7 from the source to the sink, yet `createLevelGraph` on it
does not return true: it reads past the end of row 2 after erasing an entry of that row. -/
theorem phase_gate_fails_on_six_nodes :
    failingStart.createLevelGraph.bind (fun r => searchLoop 6 13 ⟨r.2, 0, []⟩)
      = Outcome.done failingAfterPhaseOne ∧
    isPathIn failingAfterPhaseOne.residualGraph [0, 3, 4, 1, 6, 7] = true ∧
    failingAfterPhaseOne.createLevelGraph = Outcome.undef := by
  decide

theorem loadNodes_foldl (l : List (Nat × String)) (g : Graph) :
    l.foldl (fun g p => g.addNode ⟨p.2, (p.1 : Int) + 1, 0⟩) g
      = { g with nodes := g.nodes ++ l.map (fun p => (⟨p.2, (p.1 : Int) + 1, 0⟩ : Node)) } := by
  induction l generalizing g with
  | nil => simp
  | cons p l ih =>
    rw [List.foldl_cons, ih]
    simp [Graph.addNode]

theorem loadGraph_no_edges (names : List String) :
    loadGraph names []
      = some ⟨[], names.enum.map (fun p => (⟨p.2, (p.1 : Int) + 1, 0⟩ : Node)), [], []⟩ := by
  unfold loadGraph
  rw [loadNodes_foldl]
  rfl

theorem aligned_setLevel (nodes : List Node) (k : Nat) (nd : Node) (level : Int)
    (h : Aligned nodes) (hk : nodes[k]? = some nd) :
    Aligned (nodes.set k { nd with level := level }) := by
  intro j x hx
  by_cases hjk : k = j
  · subst hjk
    have hlt : k < nodes.length := by
      obtain ⟨hlt, -⟩ := List.getElem?_eq_some_iff.mp hk
      exact hlt
    rw [List.getElem?_set_self hlt] at hx
    cases hx
    exact h k nd hk
  · rw [List.getElem?_set_ne hjk] at hx
    exact h j x hx

/-- Scanning the source row `[1, ..., L]` when none of its entries is visited yet: every entry
is marked, levelled and queued; nothing is erased and no path to the sink is recorded. -/
theorem scanAdjacent_source_row (n L : Nat) (hL : L < n) (currentLevel : Int) :
    ∀ (remaining i : Nat) (s : BfsState), i + remaining = L →
      vget s.levelGraph 0 = some ((List.range L).map (fun (k : Nat) => (k : Int) + 1)) →
      s.visited.length = n → s.nodes.length = n → Aligned s.nodes →
      (∀ k : Nat, i < k → k ≤ L → s.visited[k]? = some false) →
      (∀ q ∈ s.nodeQueue, ∃ k : Nat, q.index = (k : Int) ∧ 1 ≤ k ∧ k ≤ L) →
      ∃ s1, scanAdjacent currentLevel 0 remaining i s = some s1 ∧
        s1.levelGraph = s.levelGraph ∧ s1.hasPathToSink = s.hasPathToSink ∧
        s1.visited.length = n ∧ s1.nodes.length = n ∧ Aligned s1.nodes ∧
        (∀ q ∈ s1.nodeQueue, ∃ k : Nat, q.index = (k : Int) ∧ 1 ≤ k ∧ k ≤ L) ∧
        s1.nodeQueue.length = s.nodeQueue.length + remaining := by
  intro remaining
  induction remaining with
  | zero =>
    intro i s _ _ hv hn ha _ hq
    exact ⟨s, rfl, rfl, rfl, hv, hn, ha, hq, rfl⟩
  | succ rem ih =>
    intro i s hi hrow hv hn ha hfresh hq
    have hiL : i < L := by omega
    have hadj : ((List.range L).map (fun (k : Nat) => (k : Int) + 1))[i]? = some (((i + 1 : Nat) : Int)) := by
      rw [List.getElem?_map, List.getElem?_range hiL]
      simp
    have hne : ¬ (((i + 1 : Nat) : Int) = SINK_NODE_INDEX) := by
      unfold SINK_NODE_INDEX
      omega
    have hvis : vget s.visited ((i + 1 : Nat) : Int) = some false := by
      rw [vget_natCast]
      exact hfresh (i + 1) (by omega) (by omega)
    have hlt : i + 1 < n := by omega
    obtain ⟨nd, hnd⟩ : ∃ nd, s.nodes[i + 1]? = some nd := by
      have : i + 1 < s.nodes.length := by omega
      exact ⟨s.nodes[i + 1], List.getElem?_eq_getElem this⟩
    have hset : setLevelAt s.nodes ((i + 1 : Nat) : Int) (currentLevel + 1)
        = some (s.nodes.set (i + 1) { nd with level := currentLevel + 1 }) := by
      unfold setLevelAt
      rw [vget_natCast, hnd]
      exact vset_natCast _ _ _ (by omega)
    have hget : vget (s.nodes.set (i + 1) { nd with level := currentLevel + 1 }) ((i + 1 : Nat) : Int)
        = some { nd with level := currentLevel + 1 } := by
      rw [vget_natCast, List.getElem?_set_self (by omega)]
    have hstep : scanAdjacent currentLevel 0 (rem + 1) i s
        = scanAdjacent currentLevel 0 rem (i + 1)
            { s with
              visited := s.visited.set (i + 1) true
              nodes := s.nodes.set (i + 1) { nd with level := currentLevel + 1 }
              nodeQueue := s.nodeQueue ++ [{ nd with level := currentLevel + 1 }] } := by
      rw [scanAdjacent, hrow]
      simp only [hadj, hne, if_false, hvis, vset_natCast _ _ _ (show i + 1 < s.visited.length by omega),
        hset, hget]
    rw [hstep]
    obtain ⟨s1, h1, h2, h3, h4, h5, h6, h7, h8⟩ := ih (i + 1)
      { s with
        visited := s.visited.set (i + 1) true
        nodes := s.nodes.set (i + 1) { nd with level := currentLevel + 1 }
        nodeQueue := s.nodeQueue ++ [{ nd with level := currentLevel + 1 }] }
      (by omega) hrow (by simp [hv]) (by simp [hn]) (aligned_setLevel _ _ _ _ ha hnd)
      (by
        intro k hk1 hk2
        show (s.visited.set (i + 1) true)[k]? = some false
        rw [List.getElem?_set_ne (by omega)]
        exact hfresh k (by omega) hk2)
      (by
        intro q hqm
        rcases List.mem_append.mp hqm with hold | hnew
        · exact hq q hold
        · rw [List.mem_singleton] at hnew
          subst hnew
          exact ⟨i + 1, ha (i + 1) nd hnd, by omega, by omega⟩)
    refine ⟨s1, h1, h2, h3, h4, h5, h6, h7, ?_⟩
    rw [h8]
    simp only [List.length_append, List.length_singleton]
    omega

/-- Draining a queue whose nodes all have an empty adjacency row: every visit succeeds and
changes nothing but the visited flags. -/
theorem bfsLoop_empty_rows (n L : Nat) (hL : L < n) :
    ∀ (fuel : Nat) (s : BfsState), s.nodeQueue.length ≤ fuel →
      (∀ q ∈ s.nodeQueue, ∃ k : Nat, q.index = (k : Int) ∧ 1 ≤ k ∧ k ≤ L) →
      (∀ k : Nat, 1 ≤ k → k ≤ L → s.levelGraph[k]? = some []) →
      s.visited.length = n →
      ∃ s1, bfsLoop fuel s = Outcome.done s1 ∧ s1.hasPathToSink = s.hasPathToSink ∧
        s1.levelGraph = s.levelGraph ∧ s1.nodes = s.nodes := by
  intro fuel
  induction fuel with
  | zero =>
    intro s hlen _ _ _
    have : s.nodeQueue = [] := List.length_eq_zero.mp (Nat.le_zero.mp hlen)
    refine ⟨s, ?_, rfl, rfl, rfl⟩
    rw [bfsLoop, this]
  | succ f ih =>
    intro s hlen hq hrows hv
    cases hqueue : s.nodeQueue with
    | nil =>
      refine ⟨s, ?_, rfl, rfl, rfl⟩
      rw [bfsLoop, hqueue]
    | cons q rest =>
      obtain ⟨k, hk, hk1, hk2⟩ := hq q (by rw [hqueue]; exact List.mem_cons_self _ _)
      have hvisit : bfsVisit q rest s
          = some { s with nodeQueue := rest, visited := s.visited.set k true } := by
        unfold bfsVisit
        simp only [hk, vget_natCast, hrows k hk1 hk2, List.length_nil, scanAdjacent]
        rw [vset_natCast _ _ _ (by omega)]
      rw [bfsLoop, hqueue]
      simp only [hvisit]
      obtain ⟨s1, h1, h2, h3, h4⟩ := ih { s with nodeQueue := rest, visited := s.visited.set k true }
        (by
          rw [hqueue] at hlen
          simp only [List.length_cons] at hlen
          show rest.length ≤ f
          omega)
        (by
          intro q1 hq1
          exact hq q1 (by rw [hqueue]; exact List.mem_cons_of_mem _ hq1))
        hrows (by simp [hv])
      exact ⟨s1, h1, h2, h3, h4⟩

/-- C7: with an empty edge list and any node list, input loading and `createResidualGraph`
succeed, the first `createLevelGraph` call returns false, the driver stops right there (one
call, the search loop is never entered, with any fuel from 1 on) and no edge carries flow. -/
theorem no_edges_first_phase_false (names : List String) :
    ∃ g0 g1 g2, loadGraph names [] = some g0 ∧ g0.createResidualGraph = some g1 ∧
      g1.createLevelGraph = Outcome.done (false, g2) ∧
      (∀ extra : Nat, runMatching (1 + extra) names [] = Outcome.done (g2, 1)) ∧
      g2.edges = [] ∧ matchCount g2 = 0 := by
  have hload := loadGraph_no_edges names
  generalize hg0 : (⟨[], names.enum.map (fun p => (⟨p.2, (p.1 : Int) + 1, 0⟩ : Node)), [], []⟩ : Graph) = g0
    at hload
  have hedges0 : g0.edges = [] := by rw [← hg0]
  have hres0 : g0.residualGraph = [] := by rw [← hg0]
  have hlen0 : g0.nodes.length = names.length := by
    rw [← hg0]
    simp
  have hids : ∀ k : Nat, k < g0.nodes.length → (g0.nodes[k]?).map Node.index = some ((k : Int) + 1) := by
    intro k hk
    rw [← hg0] at hk ⊢
    simp only [List.length_map, List.enum_length] at hk
    simp [List.enum, List.getElem?_enumFrom, List.getElem?_eq_getElem hk]
  obtain ⟨g1, hg1, hrlen, hrow0, hrows, -⟩ := createResidualGraph_rows g0 hres0
    (by rw [hedges0]; intro e he; cases he)
  obtain ⟨hnlen, hhead, -, hnodes, hidx⟩ := createResidualGraph_nodes g0 g1 hids hg1
  have hedges1 : g1.edges = [] := by
    have := createResidualGraph_eq g0 hres0 (by rw [hedges0]; intro e he; cases he)
    rw [hg1] at this
    cases this
    exact hedges0
  have haligned : Aligned g1.nodes := by
    intro k nd hk
    have hklt : k < g1.nodes.length := (List.getElem?_eq_some_iff.mp hk).1
    have := hidx k (by omega)
    rw [hk] at this
    simpa using this
  -- the breadth-first loop
  set n := g0.nodes.length + 2 with hn
  set L := g0.nodes.length / 2 with hLdef
  have hLn : L < n := by
    have := Nat.div_le_self g0.nodes.length 2
    omega
  have hrows0 : ∀ k : Nat, 1 ≤ k → k ≤ L → g1.residualGraph[k]? = some [] := by
    intro k hk1 hk2
    have hkN : k ≤ g0.nodes.length := by
      have := Nat.div_le_self g0.nodes.length 2
      omega
    rw [hrows k hk1 hkN, hedges0]
    have : ¬ (g0.nodes.length / 2 < k) := by omega
    simp [this]
  let s0 : BfsState :=
    { nodes := g1.nodes
      levelGraph := g1.residualGraph
      visited := List.replicate g1.nodes.length false
      nodeQueue := []
      hasPathToSink := false }
  obtain ⟨s1, hs1, hlg1, hhas1, hvis1, hnodes1, -, hq1, hqlen1⟩ :=
    scanAdjacent_source_row n L hLn 0 L 0 s0 (by omega)
      (by
        show vget g1.residualGraph 0 = _
        have : vget g1.residualGraph ((0 : Nat) : Int) = g1.residualGraph[0]? := vget_natCast _ _
        simpa [hrow0] using this)
      (by simp [s0, hnlen, hn]) (by simp [s0, hnlen, hn]) haligned
      (by
        intro k _ hk2
        show (List.replicate g1.nodes.length false)[k]? = some false
        rw [List.getElem?_replicate_of_lt (by omega)])
      (by
        intro q hq
        cases hq)
  obtain ⟨s2, hs2, hhas2, hlg2, hnodes2⟩ :=
    bfsLoop_empty_rows n L hLn (g1.nodes.length) { s1 with visited := s1.visited.set 0 true }
      (by
        show s1.nodeQueue.length ≤ g1.nodes.length
        rw [hqlen1]
        simp only [s0, List.length_nil]
        omega)
      hq1
      (by
        intro k hk1 hk2
        show s1.levelGraph[k]? = some []
        rw [hlg1]
        exact hrows0 k hk1 hk2)
      (by simp [hvis1])
  have hcreate : g1.createLevelGraph
      = Outcome.done (false, { g1 with nodes := s2.nodes, levelGraph := s2.levelGraph }) := by
    unfold Graph.createLevelGraph
    rw [hnodes]
    simp only [List.cons_append]
    rw [← List.cons_append, ← hnodes]
    rw [bfsLoop]
    simp only
    have hvisit : bfsVisit ⟨"", 0, 0⟩ []
        { nodes := g1.nodes, levelGraph := g1.residualGraph,
          visited := List.replicate g1.nodes.length false,
          nodeQueue := [⟨"", 0, 0⟩], hasPathToSink := false }
        = some { s1 with visited := s1.visited.set 0 true } := by
      unfold bfsVisit
      simp only
      have hv0 : vget g1.residualGraph 0 = some ((List.range L).map (fun (k : Nat) => (k : Int) + 1)) := by
        have : vget g1.residualGraph ((0 : Nat) : Int) = g1.residualGraph[0]? := vget_natCast _ _
        simpa [hrow0] using this
      rw [hv0]
      simp only [List.length_map, List.length_range]
      rw [hs1]
      simp only
      have h0 : vset s1.visited 0 true = some (s1.visited.set 0 true) := by
        have : vset s1.visited ((0 : Nat) : Int) true = some (s1.visited.set 0 true) :=
          vset_natCast _ _ _ (by omega)
        simpa using this
      rw [h0]
    rw [hvisit]
    simp only
    rw [hs2]
    simp only [hhas2, hhas1, s0]
  refine ⟨g0, g1, { g1 with nodes := s2.nodes, levelGraph := s2.levelGraph }, hload, hg1, hcreate, ?_, hedges1, ?_⟩
  · intro extra
    unfold runMatching
    rw [hload]
    simp only [hg1]
    rw [Nat.add_comm, driverLoop, hcreate]
  · simp [matchCount, hedges1]

theorem vget_some_bounds {α : Type} {v : List α} {i : Int} {x : α} (h : vget v i = some x) :
    0 ≤ i ∧ i.toNat < v.length := by
  unfold vget at h
  split at h
  · cases h
  · exact ⟨by omega, (List.getElem?_eq_some_iff.mp h).1⟩

theorem vget_eq_getElem? {α : Type} (v : List α) (i : Int) (h : 0 ≤ i) :
    vget v i = v[i.toNat]? := by
  unfold vget
  rw [if_neg (by omega)]

theorem vset_some {α : Type} {v v1 : List α} {i : Int} {x : α} (h : vset v i x = some v1) :
    0 ≤ i ∧ i.toNat < v.length ∧ v1 = v.set i.toNat x := by
  unfold vset at h
  split at h
  · cases h
  · split at h
    · cases h
      exact ⟨by omega, by assumption, rfl⟩
    · cases h

theorem vset_length {α : Type} {v v1 : List α} {i : Int} {x : α} (h : vset v i x = some v1) :
    v1.length = v.length := by
  obtain ⟨-, -, rfl⟩ := vset_some h
  simp

theorem vget_vset_self {α : Type} {v v1 : List α} {i : Int} {x : α} (h : vset v i x = some v1) :
    vget v1 i = some x := by
  obtain ⟨h0, hlt, rfl⟩ := vset_some h
  rw [vget_eq_getElem? _ _ h0, List.getElem?_set_self hlt]

theorem vget_vset_ne {α : Type} {v v1 : List α} {i j : Int} {x : α} (h : vset v i x = some v1)
    (hij : j ≠ i) : vget v1 j = vget v j := by
  obtain ⟨h0, hlt, rfl⟩ := vset_some h
  unfold vget
  split
  · rfl
  · rw [List.getElem?_set_ne]
    omega

theorem vset_of_vget {α : Type} {v : List α} {i : Int} {y : α} (x : α) (h : vget v i = some y) :
    vset v i x = some (v.set i.toNat x) := by
  obtain ⟨h0, hlt⟩ := vget_some_bounds h
  unfold vset
  rw [if_neg (by omega), if_pos hlt]

theorem rowOf_vset_self {r r1 : List (List Int)} {u : Int} {x : List Int}
    (h : vset r u x = some r1) : rowOf r1 u = x := by
  unfold rowOf
  rw [vget_vset_self h]
  rfl

theorem rowOf_vset_ne {r r1 : List (List Int)} {u w : Int} {x : List Int}
    (h : vset r u x = some r1) (hw : w ≠ u) : rowOf r1 w = rowOf r w := by
  unfold rowOf
  rw [vget_vset_ne h hw]

theorem rowOf_of_vget {r : List (List Int)} {u : Int} {x : List Int} (h : vget r u = some x) :
    rowOf r u = x := by
  unfold rowOf
  rw [h]
  rfl

theorem pushBackAt_some {r r1 : List (List Int)} {u x : Int} (h : pushBackAt r u x = some r1) :
    r1.length = r.length ∧ rowOf r1 u = rowOf r u ++ [x] ∧ ∀ w, w ≠ u → rowOf r1 w = rowOf r w := by
  unfold pushBackAt at h
  cases hg : vget r u with
  | none => rw [hg] at h; cases h
  | some row =>
    rw [hg] at h
    simp only at h
    refine ⟨vset_length h, ?_, fun w hw => rowOf_vset_ne h hw⟩
    rw [rowOf_vset_self h, rowOf_of_vget hg]

theorem levelOf_congr {nodes nodes1 : List Node} {v : Int} (h : vget nodes1 v = vget nodes v) :
    levelOf nodes1 v = levelOf nodes v := by
  unfold levelOf
  rw [h]

theorem ScanExt.refl (u Lu : Int) (s : BfsState) : ScanExt u Lu s s where
  visited_length := rfl
  nodes_length := rfl
  levelGraph_length := rfl
  aligned := fun h => h
  visited_mono := fun _ h => h
  nodes_frozen := fun _ _ => rfl
  nodes_same := fun _ _ => rfl
  level_new := fun _ h1 h2 => absurd h1 h2
  visited_new := fun _ h1 h2 => absurd h1 h2
  row_other := fun _ _ => rfl
  row_self := List.Sublist.refl _
  row_keep := fun _ h1 h2 => absurd h1 h2
  queue := ⟨[], by simp, by intro q hq; cases hq⟩
  hasPath := rfl

theorem ScanExt.trans {u Lu : Int} {s s1 s2 : BfsState} (h1 : ScanExt u Lu s s1)
    (h2 : ScanExt u Lu s1 s2) : ScanExt u Lu s s2 where
  visited_length := h2.visited_length.trans h1.visited_length
  nodes_length := h2.nodes_length.trans h1.nodes_length
  levelGraph_length := h2.levelGraph_length.trans h1.levelGraph_length
  aligned := fun h => h2.aligned (h1.aligned h)
  visited_mono := fun v h => h2.visited_mono v (h1.visited_mono v h)
  nodes_frozen := fun v h => (h2.nodes_frozen v (h1.visited_mono v h)).trans (h1.nodes_frozen v h)
  nodes_same := fun v h =>
    (h2.nodes_same v h).trans (h1.nodes_same v (fun hc => h (h2.visited_mono v hc)))
  level_new := by
    intro v hv2 hv0
    by_cases hv1 : IsVisited s1.visited v
    · rw [levelOf_congr (h2.nodes_frozen v hv1)]
      exact h1.level_new v hv1 hv0
    · exact h2.level_new v hv2 hv1
  visited_new := by
    intro v hv2 hv0
    obtain ⟨new2, hq2, -⟩ := h2.queue
    by_cases hv1 : IsVisited s1.visited v
    · obtain ⟨hrow, q, hq, hqi⟩ := h1.visited_new v hv1 hv0
      exact ⟨hrow, q, by rw [hq2]; exact List.mem_append_left _ hq, hqi⟩
    · obtain ⟨hrow, q, hq, hqi⟩ := h2.visited_new v hv2 hv1
      exact ⟨h1.row_self.subset hrow, q, hq, hqi⟩
  row_other := fun w hw => (h2.row_other w hw).trans (h1.row_other w hw)
  row_self := h2.row_self.trans h1.row_self
  row_keep := by
    intro x hx hx2
    by_cases hx1 : x ∈ rowOf s1.levelGraph u
    · obtain ⟨hv1, hl1⟩ := h2.row_keep x hx1 hx2
      by_cases hv0 : IsVisited s.visited x
      · refine ⟨hv0, ?_⟩
        rw [← levelOf_congr (h1.nodes_frozen x hv0)]
        exact hl1
      · have := h1.level_new x hv1 hv0
        omega
    · exact h1.row_keep x hx hx1
  queue := by
    obtain ⟨new1, hq1, hn1⟩ := h1.queue
    obtain ⟨new2, hq2, hn2⟩ := h2.queue
    refine ⟨new1 ++ new2, by rw [hq2, hq1, List.append_assoc], ?_⟩
    intro q hq
    rcases List.mem_append.mp hq with hq | hq
    · obtain ⟨a, b, c, d, e⟩ := hn1 q hq
      exact ⟨a, h2.visited_mono _ b, c, (h2.nodes_frozen _ b).trans d, e⟩
    · obtain ⟨a, b, c, d, e⟩ := hn2 q hq
      exact ⟨a, b, fun hc => c (h1.visited_mono _ hc), d, h1.row_self.subset e⟩
  hasPath := h2.hasPath.trans h1.hasPath

theorem setLevelAt_some {nodes nodes1 : List Node} {i level : Int}
    (h : setLevelAt nodes i level = some nodes1) :
    ∃ nd, vget nodes i = some nd ∧ nodes1 = nodes.set i.toNat { nd with level := level } ∧
      vget nodes1 i = some { nd with level := level } ∧
      (∀ j, j ≠ i → vget nodes1 j = vget nodes j) ∧ nodes1.length = nodes.length := by
  unfold setLevelAt at h
  cases hg : vget nodes i with
  | none => rw [hg] at h; cases h
  | some nd =>
    rw [hg] at h
    simp only at h
    exact ⟨nd, rfl, (vset_some h).2.2, vget_vset_self h, fun j hj => vget_vset_ne h hj, vset_length h⟩

theorem scanExt_visit {u Lu adj : Int} {s : BfsState} {visited1 : List Bool} {nodes1 : List Node}
    {nd : Node} (hal : Aligned s.nodes) (hvis : vget s.visited adj = some false)
    (hv1 : vset s.visited adj true = some visited1)
    (hset : setLevelAt s.nodes adj (Lu + 1) = some nodes1)
    (hnd : vget nodes1 adj = some nd) (hadj : adj ∈ rowOf s.levelGraph u) :
    ScanExt u Lu s { s with visited := visited1, nodes := nodes1, nodeQueue := s.nodeQueue ++ [nd] } := by
  obtain ⟨nd0, hnd0, hnodes1, hself, hother, hlen⟩ := setLevelAt_some hset
  have hndeq : nd = { nd0 with level := Lu + 1 } := by
    rw [hself] at hnd
    cases hnd
    rfl
  obtain ⟨hadj0, hadjlt⟩ := vget_some_bounds hnd0
  have hnd0' : s.nodes[adj.toNat]? = some nd0 := by
    rw [← vget_eq_getElem? _ _ hadj0]
    exact hnd0
  have hidx : nd0.index = adj := by
    rw [hal adj.toNat nd0 hnd0']
    exact Int.toNat_of_nonneg hadj0
  have hne : ∀ v, IsVisited s.visited v → v ≠ adj := by
    intro v hv heq
    subst heq
    unfold IsVisited at hv
    rw [hvis] at hv
    cases hv
  refine
    { visited_length := vset_length hv1
      nodes_length := hlen
      levelGraph_length := rfl
      aligned := ?_
      visited_mono := ?_
      nodes_frozen := ?_
      nodes_same := ?_
      level_new := ?_
      visited_new := ?_
      row_other := fun _ _ => rfl
      row_self := List.Sublist.refl _
      row_keep := fun _ h1 h2 => absurd h1 h2
      queue := ⟨[nd], rfl, ?_⟩
      hasPath := rfl }
  · intro _
    show Aligned nodes1
    rw [hnodes1]
    exact aligned_setLevel _ _ _ _ hal hnd0'
  · intro v hv
    show vget visited1 v = some true
    rw [vget_vset_ne hv1 (hne v hv)]
    exact hv
  · intro v hv
    exact hother v (hne v hv)
  · intro v hv
    apply hother
    intro heq
    subst heq
    exact hv (vget_vset_self hv1)
  · intro v hv1' hv0
    have hveq : v = adj := by
      by_contra hvne
      apply hv0
      unfold IsVisited at hv1' ⊢
      rw [← vget_vset_ne hv1 hvne]
      exact hv1'
    subst hveq
    show levelOf nodes1 v = Lu + 1
    unfold levelOf
    rw [hself]
    rfl
  · intro v hv1' hv0
    have hveq : v = adj := by
      by_contra hvne
      apply hv0
      unfold IsVisited at hv1' ⊢
      rw [← vget_vset_ne hv1 hvne]
      exact hv1'
    subst hveq
    refine ⟨hadj, nd, ?_, ?_⟩
    · show nd ∈ s.nodeQueue ++ [nd]
      simp
    · rw [hndeq]
      exact hidx
  · intro q hq
    rw [List.mem_singleton] at hq
    subst hq
    rw [hndeq]
    refine ⟨rfl, ?_, ?_, ?_, ?_⟩
    · show vget visited1 nd0.index = some true
      rw [hidx]
      exact vget_vset_self hv1
    · show ¬ IsVisited s.visited nd0.index
      rw [hidx]
      intro hc
      exact hne adj hc rfl
    · have h := hself
      rw [← hidx] at h
      exact h
    · show nd0.index ∈ _
      rw [hidx]
      exact hadj

theorem scanExt_erase (Lu : Int) {u adj : Int} {s : BfsState} {row : List Int} {i : Nat}
    {lg1 : List (List Int)} (hrow : vget s.levelGraph u = some row)
    (hlg : vset s.levelGraph u (row.eraseIdx i) = some lg1)
    (hadj : row[i]? = some adj) (hvis : IsVisited s.visited adj)
    (hlow : levelOf s.nodes adj < Lu + 1) :
    ScanExt u Lu s { s with levelGraph := lg1 } := by
  refine
    { visited_length := rfl
      nodes_length := rfl
      levelGraph_length := vset_length hlg
      aligned := fun h => h
      visited_mono := fun _ h => h
      nodes_frozen := fun _ _ => rfl
      nodes_same := fun _ _ => rfl
      level_new := fun _ h1 h2 => absurd h1 h2
      visited_new := fun _ h1 h2 => absurd h1 h2
      row_other := fun w hw => rowOf_vset_ne hlg hw
      row_self := ?_
      row_keep := ?_
      queue := ⟨[], by simp, by intro q hq; cases hq⟩
      hasPath := rfl }
  · show (rowOf lg1 u).Sublist _
    rw [rowOf_vset_self hlg, rowOf_of_vget hrow]
    exact List.eraseIdx_sublist _ _
  · intro x hx hx1
    have hx1' : x ∉ row.eraseIdx i := by
      have : rowOf lg1 u = row.eraseIdx i := rowOf_vset_self hlg
      rw [← this]
      exact hx1
    rw [rowOf_of_vget hrow] at hx
    obtain ⟨j, hj⟩ := List.getElem?_of_mem hx
    have hji : j = i := by
      by_contra hne
      exact hx1' (List.mem_eraseIdx_iff_getElem?.mpr ⟨j, hne, hj⟩)
    subst hji
    rw [hadj] at hj
    cases hj
    exact ⟨hvis, hlow⟩

/-- Once the row of `u` is shorter than the index range still to be scanned (an entry was
erased before the last iteration), the scan reads past the end of the row. -/
theorem scanAdjacent_short (u Lu : Int) : ∀ (r i : Nat) (s : BfsState), 0 < r →
    (rowOf s.levelGraph u).length < i + r → SINK_NODE_INDEX ∉ rowOf s.levelGraph u →
    scanAdjacent Lu u r i s = none := by
  intro r
  induction r with
  | zero => intro i s h; omega
  | succ r ih =>
    intro i s _ hlen hsink
    rw [scanAdjacent]
    cases hrow : vget s.levelGraph u with
    | none => rfl
    | some row =>
      rw [rowOf_of_vget hrow] at hlen hsink
      simp only
      cases hadj : row[i]? with
      | none => rfl
      | some adj =>
        have hilt : i < row.length := (List.getElem?_eq_some_iff.mp hadj).1
        have hmem : adj ∈ row := List.getElem?_mem hadj
        have hne : ¬ (adj = SINK_NODE_INDEX) := fun h => hsink (h ▸ hmem)
        have hr : 0 < r := by omega
        simp only [hne, if_false]
        cases hvis : vget s.visited adj with
        | none => rfl
        | some b =>
          cases b with
          | false =>
            simp only
            cases hv1 : vset s.visited adj true with
            | none => rfl
            | some visited1 =>
              simp only
              cases hset : setLevelAt s.nodes adj (Lu + 1) with
              | none => rfl
              | some nodes1 =>
                simp only
                cases hnd : vget nodes1 adj with
                | none => rfl
                | some nd =>
                  simp only
                  apply ih _ _ hr
                  · show (rowOf s.levelGraph u).length < _
                    rw [rowOf_of_vget hrow]
                    omega
                  · show SINK_NODE_INDEX ∉ rowOf s.levelGraph u
                    rw [rowOf_of_vget hrow]
                    exact hsink
          | true =>
            simp only
            cases hnd : vget s.nodes adj with
            | none => rfl
            | some nd =>
              simp only
              split
              · cases hlg : vset s.levelGraph u (row.eraseIdx i) with
                | none => rfl
                | some lg1 =>
                  simp only
                  apply ih _ _ hr
                  · show (rowOf lg1 u).length < _
                    rw [rowOf_vset_self hlg]
                    have := List.length_eraseIdx_le row i
                    omega
                  · show SINK_NODE_INDEX ∉ rowOf lg1 u
                    rw [rowOf_vset_self hlg]
                    exact fun h => hsink (List.mem_of_mem_eraseIdx h)
              · apply ih _ _ hr
                · rw [rowOf_of_vget hrow]
                  omega
                · rw [rowOf_of_vget hrow]
                  exact hsink

/-- A successful scan of a row without the sentinel: afterwards every entry left in the row is
a visited node of level `Lu + 1`, and the state changed as `ScanExt` allows. -/
theorem scanAdjacent_spec (u Lu : Int) : ∀ (r i : Nat) (s s1 : BfsState),
    scanAdjacent Lu u r i s = some s1 →
    Aligned s.nodes →
    SINK_NODE_INDEX ∉ rowOf s.levelGraph u →
    (rowOf s.levelGraph u).length = i + r →
    (∀ v, IsVisited s.visited v → levelOf s.nodes v ≤ Lu + 1) →
    (∀ j x, j < i → (rowOf s.levelGraph u)[j]? = some x →
      IsVisited s.visited x ∧ levelOf s.nodes x = Lu + 1) →
    ScanExt u Lu s s1 ∧
    (∀ x ∈ rowOf s1.levelGraph u, IsVisited s1.visited x ∧ levelOf s1.nodes x = Lu + 1) ∧
    (∀ v, IsVisited s1.visited v → levelOf s1.nodes v ≤ Lu + 1) := by
  intro r
  induction r with
  | zero =>
    intro i s s1 h _ _ hlen hbound hgood
    rw [scanAdjacent] at h
    cases h
    refine ⟨ScanExt.refl _ _ _, ?_, hbound⟩
    intro x hx
    obtain ⟨j, hj⟩ := List.getElem?_of_mem hx
    have hjlt : j < (rowOf s.levelGraph u).length := (List.getElem?_eq_some_iff.mp hj).1
    exact hgood j x (by omega) hj
  | succ r ih =>
    intro i s s1 h hal hsink hlen hbound hgood
    rw [scanAdjacent] at h
    cases hrow : vget s.levelGraph u with
    | none => rw [hrow] at h; cases h
    | some row =>
      have hrowOf : rowOf s.levelGraph u = row := rowOf_of_vget hrow
      rw [hrow] at h
      simp only at h
      cases hadj : row[i]? with
      | none => rw [hadj] at h; cases h
      | some adj =>
        have hmem : adj ∈ row := List.getElem?_mem hadj
        have hne : ¬ (adj = SINK_NODE_INDEX) := fun hc => hsink (by rw [hrowOf]; exact hc ▸ hmem)
        rw [hadj] at h
        simp only [hne, if_false] at h
        cases hvis : vget s.visited adj with
        | none => rw [hvis] at h; cases h
        | some b =>
          rw [hvis] at h
          cases b with
          | false =>
            simp only at h
            cases hv1 : vset s.visited adj true with
            | none => rw [hv1] at h; cases h
            | some visited1 =>
              rw [hv1] at h
              simp only at h
              cases hset : setLevelAt s.nodes adj (Lu + 1) with
              | none => rw [hset] at h; cases h
              | some nodes1 =>
                rw [hset] at h
                simp only at h
                cases hnd : vget nodes1 adj with
                | none => rw [hnd] at h; cases h
                | some nd =>
                  rw [hnd] at h
                  simp only at h
                  have hext := scanExt_visit (u := u) hal hvis hv1 hset hnd (by rw [hrowOf]; exact hmem)
                  have hnotvis : ¬ IsVisited s.visited adj := by
                    intro hc
                    unfold IsVisited at hc
                    rw [hvis] at hc
                    cases hc
                  have hbound1 : ∀ v, IsVisited visited1 v → levelOf nodes1 v ≤ Lu + 1 := by
                    intro v hv
                    by_cases hv0 : IsVisited s.visited v
                    · rw [levelOf_congr (hext.nodes_frozen v hv0)]
                      exact hbound v hv0
                    · exact le_of_eq (hext.level_new v hv hv0)
                  obtain ⟨hext2, hrows, hb2⟩ := ih (i + 1) _ s1 h (hext.aligned hal)
                    (by exact hsink) (by show (rowOf s.levelGraph u).length = _; omega) hbound1
                    (by
                      intro j x hj hx
                      show IsVisited visited1 x ∧ levelOf nodes1 x = Lu + 1
                      rcases Nat.lt_succ_iff_lt_or_eq.mp hj with hlt | heq
                      · obtain ⟨g1, g2⟩ := hgood j x hlt hx
                        exact ⟨hext.visited_mono x g1, by rw [levelOf_congr (hext.nodes_frozen x g1)]; exact g2⟩
                      · subst heq
                        have hxa : x = adj := by
                          have hx' : row[j]? = some x := by rw [← hrowOf]; exact hx
                          rw [hadj] at hx'
                          cases hx'
                          rfl
                        subst hxa
                        have hvx : IsVisited visited1 x := vget_vset_self hv1
                        exact ⟨hvx, hext.level_new x hvx hnotvis⟩)
                  exact ⟨hext.trans hext2, hrows, hb2⟩
          | true =>
            simp only at h
            cases hnd : vget s.nodes adj with
            | none => rw [hnd] at h; cases h
            | some nd =>
              rw [hnd] at h
              simp only at h
              have hlev : levelOf s.nodes adj = nd.level := by
                unfold levelOf
                rw [hnd]
                rfl
              by_cases hlow : nd.level < Lu + 1
              · rw [if_pos hlow] at h
                cases hlg : vset s.levelGraph u (row.eraseIdx i) with
                | none => rw [hlg] at h; cases h
                | some lg1 =>
                  rw [hlg] at h
                  simp only at h
                  have hext := scanExt_erase Lu hrow hlg hadj hvis (by rw [hlev]; exact hlow)
                  have hrow1 : rowOf lg1 u = row.eraseIdx i := rowOf_vset_self hlg
                  have hilt : i < row.length := (List.getElem?_eq_some_iff.mp hadj).1
                  rcases Nat.eq_zero_or_pos r with hr0 | hrpos
                  · subst hr0
                    rw [scanAdjacent] at h
                    cases h
                    refine ⟨hext, ?_, hbound⟩
                    intro x hx
                    have hx' : x ∈ row.eraseIdx i := by rw [← hrow1]; exact hx
                    obtain ⟨j, hji, hj⟩ := List.mem_eraseIdx_iff_getElem?.mp hx'
                    have hjlt : j < row.length := (List.getElem?_eq_some_iff.mp hj).1
                    rw [hrowOf] at hlen
                    exact hgood j x (by omega) (by rw [hrowOf]; exact hj)
                  · have hnone := scanAdjacent_short u Lu r (i + 1) { s with levelGraph := lg1 } hrpos
                      (by
                        show (rowOf lg1 u).length < _
                        rw [hrow1, List.length_eraseIdx_of_lt hilt]
                        rw [hrowOf] at hlen
                        omega)
                      (by
                        show SINK_NODE_INDEX ∉ rowOf lg1 u
                        rw [hrow1]
                        exact fun hc => hsink (by rw [hrowOf]; exact List.mem_of_mem_eraseIdx hc))
                    rw [hnone] at h
                    cases h
              · rw [if_neg hlow] at h
                have hvis' : IsVisited s.visited adj := hvis
                have hle := hbound adj hvis'
                exact ih (i + 1) s s1 h hal hsink (by omega) hbound
                  (by
                    intro j x hj hx
                    rcases Nat.lt_succ_iff_lt_or_eq.mp hj with hlt | heq
                    · exact hgood j x hlt hx
                    · subst heq
                      have hxa : x = adj := by
                        have hx' : row[j]? = some x := by rw [← hrowOf]; exact hx
                        rw [hadj] at hx'
                        cases hx'
                        rfl
                      subst hxa
                      exact ⟨hvis', by omega⟩)

theorem isVisited_vset {visited visited1 : List Bool} {u : Int}
    (h : vset visited u true = some visited1) (v : Int) :
    IsVisited visited1 v ↔ v = u ∨ IsVisited visited v := by
  unfold IsVisited
  by_cases hv : v = u
  · subst hv
    simp [vget_vset_self h]
  · rw [vget_vset_ne h hv]
    simp [hv]

theorem GoodPath.mono (s s1 : BfsState)
    (hrow : ∀ x y, IsVisited s.visited x → IsVisited s.visited y →
      levelOf s.nodes y = levelOf s.nodes x + 1 → y ∈ rowOf s.levelGraph x → y ∈ rowOf s1.levelGraph x)
    (hvis : ∀ v, IsVisited s.visited v → IsVisited s1.visited v)
    (hlev : ∀ v, IsVisited s.visited v → levelOf s1.nodes v = levelOf s.nodes v)
    {a b : Int} (h : GoodPath s a b) : GoodPath s1 a b := by
  induction h with
  | refl => exact GoodPath.refl _
  | snoc _ hy hvx hvy hl ih =>
    exact GoodPath.snoc ih (hrow _ _ hvx hvy hl hy) (hvis _ hvx) (hvis _ hvy)
      (by rw [hlev _ hvx, hlev _ hvy]; exact hl)

theorem GoodPath.scan {u Lu : Int} {s s1 : BfsState} (hext : ScanExt u Lu s s1)
    (hlu : levelOf s.nodes u = Lu) {a b : Int} (h : GoodPath s a b) : GoodPath s1 a b := by
  apply GoodPath.mono s s1 _ hext.visited_mono (fun v hv => levelOf_congr (hext.nodes_frozen v hv)) h
  intro x y _ hvy hl hy
  by_cases hxu : x = u
  · subst hxu
    by_contra hny
    have := (hext.row_keep y hy hny).2
    omega
  · rw [hext.row_other x hxu]
    exact hy

/-- The invariant of the breadth-first loop holds again after the row of `u` has been scanned
and `u` marked. -/
theorem bfs_after_scan {res : List (List Int)} {t u Lu : Int} {n : Nat} {s s1 : BfsState}
    {visited1 : List Bool}
    (hext : ScanExt u Lu s s1)
    (hgood : ∀ x ∈ rowOf s1.levelGraph u, IsVisited s1.visited x ∧ levelOf s1.nodes x = Lu + 1)
    (hbound1 : ∀ v, IsVisited s1.visited v → levelOf s1.nodes v ≤ Lu + 1)
    (hv : vset s1.visited u true = some visited1)
    (hut : u ≠ t)
    (hal : Aligned s.nodes)
    (hn1 : s.nodes.length = n) (hn2 : s.visited.length = n)
    (hn3 : s.levelGraph.length = res.length)
    (hsrc : u = 0 ∨ IsVisited s.visited 0)
    (hq : ∀ q ∈ s.nodeQueue, IsVisited s.visited q.index ∧ vget s.nodes q.index = some q)
    (hsorted : s.nodeQueue.Pairwise (fun a b => a.level ≤ b.level))
    (hlow : ∀ q ∈ s.nodeQueue, Lu ≤ q.level)
    (hclosed : ∀ w, IsVisited s.visited w → (∀ q ∈ s.nodeQueue, q.index ≠ w) → w ≠ u → w ≠ t →
      ∀ x ∈ rowOf s.levelGraph w, IsVisited s.visited x ∧ levelOf s.nodes x = levelOf s.nodes w + 1)
    (hsub : ∀ w, (rowOf s.levelGraph w).Sublist (rowOf res w))
    (hsink : rowOf s.levelGraph t = rowOf res t)
    (hpaths : ∀ v, IsVisited s.visited v → GoodPath s 0 v)
    (hpu : GoodPath s 0 u)
    (hlu : levelOf s.nodes u = Lu) (hlu1 : levelOf s1.nodes u = Lu)
    (hhas : s.hasPathToSink = true → IsVisited s.visited t) :
    BfsInv res t n { s1 with visited := visited1 } := by
  obtain ⟨new, hqueue, hnew⟩ := hext.queue
  have hvis2 : ∀ v, IsVisited s1.visited v → IsVisited visited1 v :=
    fun v h => (isVisited_vset hv v).mpr (Or.inr h)
  have hu2 : IsVisited visited1 u := (isVisited_vset hv u).mpr (Or.inl rfl)
  have hqlev : ∀ q ∈ s.nodeQueue, q.level ≤ Lu + 1 := by
    intro q hqm
    obtain ⟨hqv, hqr⟩ := hq q hqm
    have h1 := hbound1 q.index (hext.visited_mono _ hqv)
    rw [levelOf_congr (hext.nodes_frozen _ hqv)] at h1
    unfold levelOf at h1
    rw [hqr] at h1
    exact h1
  have hp12 : ∀ {a b : Int}, GoodPath s1 a b → GoodPath { s1 with visited := visited1 } a b := by
    intro a b h
    exact GoodPath.mono s1 { s1 with visited := visited1 } (fun _ _ _ _ _ h => h) hvis2 (fun _ _ => rfl) h
  refine
    { aligned := hext.aligned hal
      nodes_length := hext.nodes_length.trans hn1
      visited_length := (vset_length hv).trans (hext.visited_length.trans hn2)
      levelGraph_length := hext.levelGraph_length.trans hn3
      source_visited := ?_
      queue_visited := ?_
      queue_sorted := ?_
      queue_bound := ?_
      closed := ?_
      sub := ?_
      sink_row := ?_
      paths := ?_
      has_sink := ?_ }
  · rcases hsrc with h0 | h0
    · rw [← h0]
      exact hu2
    · exact hvis2 0 (hext.visited_mono 0 h0)
  · intro q hqm
    have hqm' : q ∈ s.nodeQueue ++ new := by rw [← hqueue]; exact hqm
    rcases List.mem_append.mp hqm' with h | h
    · obtain ⟨hqv, hqr⟩ := hq q h
      exact ⟨hvis2 _ (hext.visited_mono _ hqv), (hext.nodes_frozen _ hqv).trans hqr⟩
    · obtain ⟨-, b, -, d, -⟩ := hnew q h
      exact ⟨hvis2 _ b, d⟩
  · show s1.nodeQueue.Pairwise _
    rw [hqueue, List.pairwise_append]
    refine ⟨hsorted, ?_, ?_⟩
    · apply List.pairwise_of_forall_mem_list
      intro a ha b hb
      rw [(hnew a ha).1, (hnew b hb).1]
    · intro a ha b hb
      rw [(hnew b hb).1]
      exact hqlev a ha
  · intro q hqm v hv2
    have hqm' : q ∈ s.nodeQueue ++ new := by rw [← hqueue]; exact hqm
    have hql : Lu ≤ q.level := by
      rcases List.mem_append.mp hqm' with h | h
      · exact hlow q h
      · rw [(hnew q h).1]
        omega
    have hvl : levelOf s1.nodes v ≤ Lu + 1 := by
      rcases (isVisited_vset hv v).mp hv2 with h | h
      · rw [h, hlu1]
        omega
      · exact hbound1 v h
    show levelOf s1.nodes v ≤ q.level + 1
    omega
  · intro w hw2 hwq hwt x hx
    by_cases hwu : w = u
    · subst hwu
      obtain ⟨g1, g2⟩ := hgood x hx
      exact ⟨hvis2 x g1, by show levelOf s1.nodes x = levelOf s1.nodes w + 1; rw [g2, hlu1]⟩
    · have hw1 : IsVisited s1.visited w := by
        rcases (isVisited_vset hv w).mp hw2 with h | h
        · exact absurd h hwu
        · exact h
      have hw0 : IsVisited s.visited w := by
        by_contra hc
        obtain ⟨-, q, hqm, hqi⟩ := hext.visited_new w hw1 hc
        exact hwq q hqm hqi
      have hwq0 : ∀ q ∈ s.nodeQueue, q.index ≠ w := by
        intro q hqm
        exact hwq q (by show q ∈ s1.nodeQueue; rw [hqueue]; exact List.mem_append_left _ hqm)
      have hx0 : x ∈ rowOf s.levelGraph w := by
        rw [← hext.row_other w hwu]
        exact hx
      obtain ⟨g1, g2⟩ := hclosed w hw0 hwq0 hwu hwt x hx0
      refine ⟨hvis2 x (hext.visited_mono x g1), ?_⟩
      show levelOf s1.nodes x = levelOf s1.nodes w + 1
      rw [levelOf_congr (hext.nodes_frozen x g1), levelOf_congr (hext.nodes_frozen w hw0)]
      exact g2
  · intro w
    show (rowOf s1.levelGraph w).Sublist _
    by_cases hwu : w = u
    · subst hwu
      exact hext.row_self.trans (hsub w)
    · rw [hext.row_other w hwu]
      exact hsub w
  · show rowOf s1.levelGraph t = _
    rw [hext.row_other t (fun h => hut h.symm)]
    exact hsink
  · intro v hv2
    have hpu2 : GoodPath { s1 with visited := visited1 } 0 u := hp12 (GoodPath.scan hext hlu hpu)
    rcases (isVisited_vset hv v).mp hv2 with h | h
    · rw [h]
      exact hpu2
    · by_cases hv0 : IsVisited s.visited v
      · exact hp12 (GoodPath.scan hext hlu (hpaths v hv0))
      · obtain ⟨hrow, -⟩ := hext.visited_new v h hv0
        have hrow1 : v ∈ rowOf s1.levelGraph u := by
          by_contra hc
          exact hv0 (hext.row_keep v hrow hc).1
        refine GoodPath.snoc hpu2 hrow1 hu2 hv2 ?_
        show levelOf s1.nodes v = levelOf s1.nodes u + 1
        rw [(hgood v hrow1).2, hlu1]
  · intro hh
    have : s.hasPathToSink = true := by
      rw [← hext.hasPath]
      exact hh
    exact hvis2 t (hext.visited_mono t (hhas this))

theorem vget_of_rowOf_ne_nil {r : List (List Int)} {u : Int} (h : rowOf r u ≠ []) :
    vget r u = some (rowOf r u) := by
  unfold rowOf at h ⊢
  cases hg : vget r u with
  | none => rw [hg] at h; exact absurd rfl h
  | some row => rfl

theorem levelOf_of_vget {nodes : List Node} {u : Int} {nd : Node} (h : vget nodes u = some nd) :
    levelOf nodes u = nd.level := by
  unfold levelOf
  rw [h]
  rfl

/-- Visiting the sink: its row starts with the sentinel, so the scan stops at once, records
the path to the sink and changes nothing else. -/
theorem bfsVisit_sink {res : List (List Int)} {t : Int} {n : Nat} {s s2 : BfsState} {q : Node}
    {rest : List Node} {tail : List Int} (hinv : BfsInv res t n s) (hqueue : s.nodeQueue = q :: rest)
    (hqt : q.index = t) (hS3 : rowOf res t = SINK_NODE_INDEX :: tail)
    (h : bfsVisit q rest s = some s2) :
    BfsInv res t n s2 ∧ s2.nodeQueue = rest := by
  have hrow : vget s.levelGraph t = some (SINK_NODE_INDEX :: tail) := by
    have h1 : rowOf s.levelGraph t = SINK_NODE_INDEX :: tail := hinv.sink_row.trans hS3
    have h2 := vget_of_rowOf_ne_nil (r := s.levelGraph) (u := t) (by rw [h1]; simp)
    rw [h1] at h2
    exact h2
  have hqv : IsVisited s.visited t := by
    rw [← hqt]
    exact (hinv.queue_visited q (by rw [hqueue]; exact List.mem_cons_self _ _)).1
  unfold bfsVisit at h
  simp only [hqt, hrow, List.length_cons] at h
  rw [scanAdjacent] at h
  simp only [hrow, List.getElem?_cons_zero, if_true] at h
  cases hv : vset s.visited t true with
  | none => rw [hv] at h; cases h
  | some visited1 =>
    rw [hv] at h
    simp only [Option.some.injEq] at h
    subst h
    have hvis2 : ∀ v, IsVisited visited1 v ↔ IsVisited s.visited v := by
      intro v
      rw [isVisited_vset hv v]
      constructor
      · rintro (h | h)
        · rw [h]; exact hqv
        · exact h
      · exact Or.inr
    have hsub : ∀ a ∈ rest, a ∈ s.nodeQueue := by
      intro a ha
      rw [hqueue]
      exact List.mem_cons_of_mem _ ha
    refine ⟨?_, rfl⟩
    refine
      { aligned := hinv.aligned
        nodes_length := hinv.nodes_length
        visited_length := (vset_length hv).trans hinv.visited_length
        levelGraph_length := hinv.levelGraph_length
        source_visited := (hvis2 0).mpr hinv.source_visited
        queue_visited := fun a ha =>
          ⟨(hvis2 _).mpr (hinv.queue_visited a (hsub a ha)).1, (hinv.queue_visited a (hsub a ha)).2⟩
        queue_sorted := ?_
        queue_bound := fun a ha v hv' => hinv.queue_bound a (hsub a ha) v ((hvis2 v).mp hv')
        closed := ?_
        sub := hinv.sub
        sink_row := hinv.sink_row
        paths := ?_
        has_sink := fun _ => (hvis2 t).mpr hqv }
    · have := hinv.queue_sorted
      rw [hqueue] at this
      exact this.of_cons
    · intro u hu hq hut x hx
      have hq' : ∀ a ∈ s.nodeQueue, a.index ≠ u := by
        intro a ha
        rw [hqueue] at ha
        rcases List.mem_cons.mp ha with h | h
        · rw [h, hqt]
          exact fun hc => hut hc.symm
        · exact hq a h
      obtain ⟨g1, g2⟩ := hinv.closed u ((hvis2 u).mp hu) hq' hut x hx
      exact ⟨(hvis2 x).mpr g1, g2⟩
    · intro v hv'
      exact GoodPath.mono s
        { s with nodeQueue := rest, hasPathToSink := true, visited := visited1 }
        (fun _ _ _ _ _ h => h) (fun w hw => (hvis2 w).mpr hw) (fun _ _ => rfl)
        (hinv.paths v ((hvis2 v).mp hv'))

theorem bfsVisit_some {q : Node} {rest : List Node} {s s2 : BfsState}
    (h : bfsVisit q rest s = some s2) :
    ∃ s1 visited1,
      scanAdjacent q.level q.index (rowOf s.levelGraph q.index).length 0 { s with nodeQueue := rest }
        = some s1 ∧
      vset s1.visited q.index true = some visited1 ∧ s2 = { s1 with visited := visited1 } := by
  unfold bfsVisit at h
  simp only at h
  cases hrow : vget s.levelGraph q.index with
  | none => rw [hrow] at h; cases h
  | some row =>
    rw [hrow] at h
    simp only at h
    cases hs : scanAdjacent q.level q.index row.length 0 { s with nodeQueue := rest } with
    | none => rw [hs] at h; cases h
    | some s1 =>
      rw [hs] at h
      simp only at h
      cases hv : vset s1.visited q.index true with
      | none => rw [hv] at h; cases h
      | some visited1 =>
        rw [hv] at h
        simp only [Option.some.injEq] at h
        exact ⟨s1, visited1, by rw [rowOf_of_vget hrow]; exact hs, hv, h.symm⟩

/-- Visiting a node other than the sink keeps the invariant of the breadth-first loop. -/
theorem bfsVisit_step {res : List (List Int)} {t : Int} {n : Nat} {s s2 : BfsState} {q : Node}
    {rest : List Node} (hS1 : ∀ u, u ≠ t → SINK_NODE_INDEX ∉ rowOf res u)
    (hinv : BfsInv res t n s) (hqueue : s.nodeQueue = q :: rest)
    (hqt : q.index ≠ t) (h : bfsVisit q rest s = some s2) :
    BfsInv res t n s2 := by
  obtain ⟨s1, visited1, hscan, hv, rfl⟩ := bfsVisit_some h
  have hqm : q ∈ s.nodeQueue := by rw [hqueue]; exact List.mem_cons_self _ _
  have hsubq : ∀ a ∈ rest, a ∈ s.nodeQueue := by
    intro a ha
    rw [hqueue]
    exact List.mem_cons_of_mem _ ha
  obtain ⟨hqv, hqr⟩ := hinv.queue_visited q hqm
  have hsorted := hinv.queue_sorted
  rw [hqueue] at hsorted
  have hnosink : SINK_NODE_INDEX ∉ rowOf s.levelGraph q.index :=
    fun hc => hS1 q.index hqt ((hinv.sub q.index).subset hc)
  have hpq : ∀ {a b : Int}, GoodPath s a b → GoodPath { s with nodeQueue := rest } a b :=
    fun h => GoodPath.mono s { s with nodeQueue := rest } (fun _ _ _ _ _ h => h) (fun _ h => h)
      (fun _ _ => rfl) h
  obtain ⟨hext, hgood, hbound1⟩ := scanAdjacent_spec q.index q.level _ 0 _ s1 hscan hinv.aligned
    hnosink (by simp) (hinv.queue_bound q hqm) (by intro j x hj; omega)
  exact bfs_after_scan hext hgood hbound1 hv hqt hinv.aligned hinv.nodes_length
    hinv.visited_length hinv.levelGraph_length (Or.inr hinv.source_visited)
    (fun a ha => hinv.queue_visited a (hsubq a ha)) hsorted.of_cons
    (fun a ha => List.rel_of_pairwise_cons hsorted ha)
    (by
      intro w hw hwq hwu hwt
      apply hinv.closed w hw _ hwt
      intro a ha
      rw [hqueue] at ha
      rcases List.mem_cons.mp ha with h | h
      · rw [h]
        exact fun hc => hwu hc.symm
      · exact hwq a h)
    hinv.sub hinv.sink_row (fun v hv' => hpq (hinv.paths v hv')) (hpq (hinv.paths _ hqv))
    (levelOf_of_vget hqr)
    (by rw [levelOf_congr (hext.nodes_frozen _ hqv)]; exact levelOf_of_vget hqr)
    hinv.has_sink

/-- The first visit of the breadth-first loop (the source, nothing marked yet) establishes
the invariant. -/
theorem bfsVisit_first {res : List (List Int)} {t : Int} {nodes : List Node} {first : Node}
    {visited : List Bool} {s2 : BfsState}
    (hS1 : ∀ u, u ≠ t → SINK_NODE_INDEX ∉ rowOf res u) (hS2 : (0 : Int) ∉ rowOf res 0)
    (ht : t ≠ 0) (hal : Aligned nodes) (hfirst : vget nodes 0 = some first)
    (hnone : ∀ v, ¬ IsVisited visited v) (hvlen : visited.length = nodes.length)
    (h : bfsVisit first []
      { nodes := nodes, levelGraph := res, visited := visited, nodeQueue := [first],
        hasPathToSink := false } = some s2) :
    BfsInv res t nodes.length s2 := by
  have hidx : first.index = 0 := by
    have := hal 0 first (by rw [← vget_natCast]; exact hfirst)
    simpa using this
  obtain ⟨s1, visited1, hscan, hv, rfl⟩ := bfsVisit_some h
  rw [hidx] at hscan hv
  simp only at hscan
  obtain ⟨hext, hgood, hbound1⟩ := scanAdjacent_spec 0 first.level _ 0 _ s1 hscan hal
    (hS1 0 (fun hc => ht hc.symm)) (by simp) (fun v hv' => absurd hv' (hnone v))
    (by intro j x hj; omega)
  have h0 : ¬ IsVisited s1.visited 0 := by
    intro hc
    exact hS2 (hext.visited_new 0 hc (hnone 0)).1
  exact bfs_after_scan hext hgood hbound1 hv (fun hc => ht hc.symm) hal rfl hvlen rfl (Or.inl rfl)
    (by intro a ha; cases ha) List.Pairwise.nil (by intro a ha; cases ha)
    (fun w hw => absurd hw (hnone w)) (fun _ => List.Sublist.refl _) rfl
    (fun v hv' => absurd hv' (hnone v)) (GoodPath.refl 0) (levelOf_of_vget hfirst)
    (by rw [levelOf_congr (hext.nodes_same 0 h0)]; exact levelOf_of_vget hfirst)
    (by intro hc; cases hc)

/-- The breadth-first loop keeps its invariant and ends with an empty queue. -/
theorem bfsLoop_inv {res : List (List Int)} {t : Int} {n : Nat} {tail : List Int}
    (hS1 : ∀ u, u ≠ t → SINK_NODE_INDEX ∉ rowOf res u)
    (hS3 : rowOf res t = SINK_NODE_INDEX :: tail) :
    ∀ (fuel : Nat) (s s2 : BfsState), BfsInv res t n s → bfsLoop fuel s = Outcome.done s2 →
      BfsInv res t n s2 ∧ s2.nodeQueue = [] := by
  intro fuel
  induction fuel with
  | zero =>
    intro s s2 hinv h
    rw [bfsLoop] at h
    cases hq : s.nodeQueue with
    | nil =>
      rw [hq] at h
      cases h
      exact ⟨hinv, hq⟩
    | cons q rest =>
      rw [hq] at h
      cases h
  | succ f ih =>
    intro s s2 hinv h
    rw [bfsLoop] at h
    cases hq : s.nodeQueue with
    | nil =>
      rw [hq] at h
      cases h
      exact ⟨hinv, hq⟩
    | cons q rest =>
      rw [hq] at h
      simp only at h
      cases hvis : bfsVisit q rest s with
      | none => rw [hvis] at h; cases h
      | some s1 =>
        rw [hvis] at h
        simp only at h
        by_cases hqt : q.index = t
        · exact ih s1 s2 (bfsVisit_sink hinv hq hqt hS3 hvis).1 h
        · exact ih s1 s2 (bfsVisit_step hS1 hinv hq hqt hvis) h

theorem LevelPath.snoc {lg : List (List Int)} {a x y : Int} (h : LevelPath lg a x)
    (hy : y ∈ rowOf lg x) : LevelPath lg a y := by
  induction h with
  | refl => exact LevelPath.cons hy (LevelPath.refl _)
  | cons hx _ ih => exact LevelPath.cons hx (ih hy)

theorem GoodPath.levelPath {s : BfsState} {a b : Int} (h : GoodPath s a b) :
    LevelPath s.levelGraph a b := by
  induction h with
  | refl => exact LevelPath.refl _
  | snoc _ hy _ _ _ ih => exact ih.snoc hy

theorem not_isVisited_replicate (n : Nat) (v : Int) : ¬ IsVisited (List.replicate n false) v := by
  unfold IsVisited vget
  split
  · simp
  · rw [List.getElem?_replicate]
    split <;> simp

/-- What `createLevelGraph` returns on a well-shaped residual graph when it runs to the end:
edges and residual graph are untouched, the level graph is layered, and `true` is returned
only when the level graph has a walk from the source to the sink. -/
theorem createLevelGraph_spec {t : Int} {g g1 : Graph} {b : Bool} (hres : ResInv t g)
    (h : g.createLevelGraph = Outcome.done (b, g1)) :
    g1.edges = g.edges ∧ g1.residualGraph = g.residualGraph ∧ g1.nodes.length = g.nodes.length ∧
      ResInv t g1 ∧ LevelInv t g1 ∧ (b = true → LevelPath g1.levelGraph 0 t) := by
  obtain ⟨tail, hS3⟩ := hres.sink_row
  unfold Graph.createLevelGraph at h
  split at h
  · rename_i hnil
    have := hres.sink_range
    rw [hnil] at this
    simp only [List.length_nil, Nat.cast_zero] at this
    omega
  · rename_i first rest hnodes
    simp only at h
    rw [bfsLoop] at h
    simp only at h
    have hfirst : vget g.nodes 0 = some first := by
      rw [hnodes]
      simp [vget]
    cases hvis : bfsVisit first []
        { nodes := g.nodes, levelGraph := g.residualGraph,
          visited := List.replicate g.nodes.length false, nodeQueue := [first],
          hasPathToSink := false } with
    | none => rw [hvis] at h; cases h
    | some s1 =>
      rw [hvis] at h
      simp only at h
      have hinv1 := bfsVisit_first hres.no_sentinel hres.source_row (ne_of_gt hres.sink_range.1)
        hres.aligned hfirst (not_isVisited_replicate _) (by simp) hvis
      cases hloop : bfsLoop g.nodes.length s1 with
      | undef => rw [hloop] at h; cases h
      | fuel => rw [hloop] at h; cases h
      | done s2 =>
        rw [hloop] at h
        simp only [Outcome.done.injEq, Prod.mk.injEq] at h
        obtain ⟨hb, hg1⟩ := h
        obtain ⟨hinv, hqueue⟩ := bfsLoop_inv hres.no_sentinel hS3 _ s1 s2 hinv1 hloop
        subst hg1
        refine ⟨rfl, rfl, hinv.nodes_length, ?_, ?_, ?_⟩
        · exact
            { aligned := hinv.aligned
              sizes := hres.sizes.trans hinv.nodes_length.symm
              sink_range := by
                show 0 < t ∧ t < ((s2.nodes.length : Nat) : Int)
                rw [hinv.nodes_length]
                exact hres.sink_range
              no_sentinel := hres.no_sentinel
              sink_row := hres.sink_row
              source_row := hres.source_row }
        · refine
            { sizes := hinv.levelGraph_length
              sub := hinv.sub
              layered := ⟨IsVisited s2.visited, hinv.source_visited, ?_, ?_⟩ }
          · intro u hu
            obtain ⟨h0, hlt⟩ := vget_some_bounds hu
            refine ⟨h0, ?_⟩
            show u < ((s2.levelGraph.length : Nat) : Int)
            rw [hinv.levelGraph_length, hres.sizes, ← hinv.visited_length]
            omega
          · intro u hu hut x hx
            exact hinv.closed u hu (by rw [hqueue]; intro q hq; cases hq) hut x hx
        · intro hbt
          rw [← hb] at hbt
          exact (hinv.paths t (hinv.has_sink hbt)).levelPath

theorem reverseStep_some {r r2 : List (List Int)} {a b : Int} (h : reverseStep r a b = some r2) :
    r2.length = r.length ∧
    ((b ∉ rowOf r a ∧ r2 = r) ∨
      (b ∈ rowOf r a ∧ ∃ r1, vset r a ((rowOf r a).erase b) = some r1 ∧ pushBackAt r1 b a = some r2)) := by
  unfold reverseStep at h
  cases hg : vget r a with
  | none => rw [hg] at h; cases h
  | some row =>
    rw [hg] at h
    simp only at h
    have hrow : rowOf r a = row := rowOf_of_vget hg
    by_cases hb : b ∈ row
    · rw [if_pos hb] at h
      cases hs : vset r a (row.erase b) with
      | none => rw [hs] at h; cases h
      | some r1 =>
        rw [hs] at h
        simp only at h
        refine ⟨(pushBackAt_some h).1.trans (vset_length hs), Or.inr ⟨by rw [hrow]; exact hb, r1, ?_, h⟩⟩
        rw [hrow]
        exact hs
    · rw [if_neg hb] at h
      cases h
      exact ⟨rfl, Or.inl ⟨by rw [hrow]; exact hb, rfl⟩⟩

/-- Row-wise effect of one residual reversal. -/
theorem reverseStep_rows {r r2 : List (List Int)} {a b : Int} (h : reverseStep r a b = some r2) :
    (b ∉ rowOf r a ∧ r2 = r) ∨
    (b ∈ rowOf r a ∧
      (∀ u, u ≠ a → u ≠ b → rowOf r2 u = rowOf r u) ∧
      (a ≠ b → rowOf r2 a = (rowOf r a).erase b ∧ rowOf r2 b = rowOf r b ++ [a]) ∧
      (a = b → rowOf r2 a = (rowOf r a).erase b ++ [a])) := by
  rcases (reverseStep_some h).2 with h1 | ⟨hb, r1, hs, hp⟩
  · exact Or.inl h1
  · obtain ⟨-, hpb, hpo⟩ := pushBackAt_some hp
    refine Or.inr ⟨hb, ?_, ?_, ?_⟩
    · intro u hua hub
      rw [hpo u hub, rowOf_vset_ne hs hua]
    · intro hab
      refine ⟨?_, ?_⟩
      · rw [hpo a hab, rowOf_vset_self hs]
      · rw [hpb, rowOf_vset_ne hs (fun hc => hab hc.symm)]
    · intro hab
      subst hab
      rw [hpb, rowOf_vset_self hs]

theorem eraseStep_rows {l l2 : List (List Int)} {a b : Int} (h : eraseStep l a b = some l2) :
    l2.length = l.length ∧ rowOf l2 a = (rowOf l a).erase b ∧ ∀ u, u ≠ a → rowOf l2 u = rowOf l u := by
  unfold eraseStep at h
  cases hg : vget l a with
  | none => rw [hg] at h; cases h
  | some row =>
    rw [hg] at h
    simp only at h
    have hrow : rowOf l a = row := rowOf_of_vget hg
    by_cases hb : b ∈ row
    · rw [if_pos hb] at h
      exact ⟨vset_length h, by rw [rowOf_vset_self h, hrow], fun u hu => rowOf_vset_ne h hu⟩
    · rw [if_neg hb] at h
      cases h
      exact ⟨rfl, by rw [hrow, List.erase_of_not_mem hb], fun _ _ => rfl⟩

/-- One step of `updateResidualGraph` and the same step of `updateLevelGraph` keep every
level-graph row a sub-list of the residual row. -/
theorem sub_step {r r2 l l2 : List (List Int)} {a b : Int}
    (hsub : ∀ u, (rowOf l u).Sublist (rowOf r u))
    (hr : reverseStep r a b = some r2) (hl : eraseStep l a b = some l2) :
    ∀ u, (rowOf l2 u).Sublist (rowOf r2 u) := by
  obtain ⟨-, hla, hlo⟩ := eraseStep_rows hl
  intro u
  rcases reverseStep_rows hr with ⟨hnb, rfl⟩ | ⟨hb, ho, hne, heq⟩
  · by_cases hua : u = a
    · subst hua
      rw [hla]
      exact (List.erase_sublist _ _).trans (hsub u)
    · rw [hlo u hua]
      exact hsub u
  · by_cases hua : u = a
    · subst hua
      rw [hla]
      by_cases hab : u = b
      · rw [heq hab]
        exact ((hsub u).erase b).trans (List.sublist_append_left _ _)
      · rw [(hne hab).1]
        exact (hsub u).erase b
    · rw [hlo u hua]
      by_cases hub : u = b
      · subst hub
        rw [(hne (fun hc => hua hc.symm)).2]
        exact (hsub u).trans (List.sublist_append_left _ _)
      · rw [ho u hua hub]
        exact hsub u

theorem sub_fold (steps : List (Int × Int)) : ∀ {r r2 l l2 : List (List Int)},
    (∀ u, (rowOf l u).Sublist (rowOf r u)) →
    steps.foldlM (fun acc p => reverseStep acc p.1 p.2) r = some r2 →
    steps.foldlM (fun acc p => eraseStep acc p.1 p.2) l = some l2 →
    ∀ u, (rowOf l2 u).Sublist (rowOf r2 u) := by
  induction steps with
  | nil =>
    intro r r2 l l2 hsub hr hl
    simp only [List.foldlM_nil, Option.pure_def, Option.some.injEq] at hr hl
    subst hr
    subst hl
    exact hsub
  | cons p steps ih =>
    intro r r2 l l2 hsub hr hl
    simp only [List.foldlM_cons, Option.bind_eq_bind] at hr hl
    cases hr1 : reverseStep r p.1 p.2 with
    | none => rw [hr1] at hr; cases hr
    | some r1 =>
      cases hl1 : eraseStep l p.1 p.2 with
      | none => rw [hl1] at hl; cases hl
      | some l1 =>
        rw [hr1] at hr
        rw [hl1] at hl
        exact ih (sub_step hsub hr1 hl1) hr hl

theorem reverse_fold (steps : List (Int × Int)) : ∀ {r r2 : List (List Int)},
    steps.foldlM (fun acc p => reverseStep acc p.1 p.2) r = some r2 →
    r2.length = r.length ∧
    (∀ u x, x ∈ rowOf r2 u → x ∈ rowOf r u ∨ ∃ p ∈ steps, p.2 = u ∧ x = p.1) ∧
    (∀ u, (∀ p ∈ steps, p.1 ≠ u) → ∃ suffix, rowOf r2 u = rowOf r u ++ suffix) ∧
    (∀ u, (∀ p ∈ steps, p.1 ≠ u ∧ p.2 ≠ u) → rowOf r2 u = rowOf r u) := by
  induction steps with
  | nil =>
    intro r r2 h
    simp only [List.foldlM_nil, Option.pure_def, Option.some.injEq] at h
    subst h
    exact ⟨rfl, fun _ _ hx => Or.inl hx, fun _ _ => ⟨[], by simp⟩, fun _ _ => rfl⟩
  | cons p steps ih =>
    intro r r2 h
    simp only [List.foldlM_cons, Option.bind_eq_bind] at h
    cases h1 : reverseStep r p.1 p.2 with
    | none => rw [h1] at h; cases h
    | some r1 =>
      rw [h1] at h
      obtain ⟨ihlen, ihmem, ihsuf, ihsame⟩ := ih h
      have hlen1 := (reverseStep_some h1).1
      have hrows := reverseStep_rows h1
      refine ⟨ihlen.trans hlen1, ?_, ?_, ?_⟩
      · intro u x hx
        rcases ihmem u x hx with hx1 | ⟨q, hq, hq2, hq1⟩
        · rcases hrows with ⟨-, rfl⟩ | ⟨-, ho, hne, heq⟩
          · exact Or.inl hx1
          · by_cases hab : p.1 = p.2
            · by_cases hua : u = p.1
              · subst hua
                rw [heq hab] at hx1
                rcases List.mem_append.mp hx1 with hm | hm
                · exact Or.inl (List.mem_of_mem_erase hm)
                · rw [List.mem_singleton] at hm
                  exact Or.inr ⟨p, List.mem_cons_self _ _, hab.symm, hm⟩
              · rw [ho u hua (fun hc => hua (hc.trans hab.symm))] at hx1
                exact Or.inl hx1
            · by_cases hua : u = p.1
              · subst hua
                rw [(hne hab).1] at hx1
                exact Or.inl (List.mem_of_mem_erase hx1)
              · by_cases hub : u = p.2
                · subst hub
                  rw [(hne hab).2] at hx1
                  rcases List.mem_append.mp hx1 with hm | hm
                  · exact Or.inl hm
                  · rw [List.mem_singleton] at hm
                    exact Or.inr ⟨p, List.mem_cons_self _ _, rfl, hm⟩
                · rw [ho u hua hub] at hx1
                  exact Or.inl hx1
        · exact Or.inr ⟨q, List.mem_cons_of_mem _ hq, hq2, hq1⟩
      · intro u hu
        have hpu : p.1 ≠ u := hu p (List.mem_cons_self _ _)
        obtain ⟨suffix, hs⟩ := ihsuf u (fun q hq => hu q (List.mem_cons_of_mem _ hq))
        rcases hrows with ⟨-, rfl⟩ | ⟨-, ho, hne, -⟩
        · exact ⟨suffix, hs⟩
        · by_cases hub : u = p.2
          · subst hub
            rw [hs, (hne hpu).2]
            exact ⟨[p.1] ++ suffix, by simp⟩
          · rw [hs, ho u (fun hc => hpu hc.symm) hub]
            exact ⟨suffix, rfl⟩
      · intro u hu
        obtain ⟨hp1, hp2⟩ := hu p (List.mem_cons_self _ _)
        rw [ihsame u (fun q hq => hu q (List.mem_cons_of_mem _ hq))]
        rcases hrows with ⟨-, rfl⟩ | ⟨-, ho, -, -⟩
        · rfl
        · exact ho u (fun hc => hp1 hc.symm) (fun hc => hp2 hc.symm)

theorem erase_fold (steps : List (Int × Int)) : ∀ {l l2 : List (List Int)},
    steps.foldlM (fun acc p => eraseStep acc p.1 p.2) l = some l2 →
    l2.length = l.length ∧ ∀ u, (rowOf l2 u).Sublist (rowOf l u) := by
  induction steps with
  | nil =>
    intro l l2 h
    simp only [List.foldlM_nil, Option.pure_def, Option.some.injEq] at h
    subst h
    exact ⟨rfl, fun _ => List.Sublist.refl _⟩
  | cons p steps ih =>
    intro l l2 h
    simp only [List.foldlM_cons, Option.bind_eq_bind] at h
    cases h1 : eraseStep l p.1 p.2 with
    | none => rw [h1] at h; cases h
    | some l1 =>
      rw [h1] at h
      obtain ⟨ihlen, ihsub⟩ := ih h
      obtain ⟨hlen1, ha, ho⟩ := eraseStep_rows h1
      refine ⟨ihlen.trans hlen1, ?_⟩
      intro u
      refine (ihsub u).trans ?_
      by_cases hu : u = p.1
      · subst hu
        rw [ha]
        exact List.erase_sublist _ _
      · rw [ho u hu]

theorem getLevelGraphAt_eq {g : Graph} {u : Int} (h0 : 0 ≤ u) (hlt : u < (g.levelGraph.length : Int)) :
    g.getLevelGraphAt u = some (rowOf g.levelGraph u) := by
  unfold Graph.getLevelGraphAt
  rw [if_neg (by omega)]
  unfold rowOf
  rw [vget_eq_getElem? _ _ h0]
  have : u.toNat < g.levelGraph.length := by omega
  rw [List.getElem?_eq_getElem this]
  rfl

theorem rowOf_map_erase (l : List (List Int)) (c u : Int) :
    rowOf (l.map (fun row => row.erase c)) u = (rowOf l u).erase c := by
  unfold rowOf vget
  split
  · rfl
  · rw [List.getElem?_map]
    cases l[u.toNat]? <;> rfl

theorem removeNode_rows {g g1 : Graph} {c : Int} (h : g.removeNodeAndIncomingEdges c = some g1) :
    g1.edges = g.edges ∧ g1.nodes = g.nodes ∧ g1.residualGraph = g.residualGraph ∧
    g1.levelGraph.length = g.levelGraph.length ∧ rowOf g1.levelGraph c = [] ∧
    ∀ u, u ≠ c → rowOf g1.levelGraph u = (rowOf g.levelGraph u).erase c := by
  unfold Graph.removeNodeAndIncomingEdges at h
  cases hs : vset g.levelGraph c [] with
  | none => rw [hs] at h; cases h
  | some l =>
    rw [hs] at h
    simp only [Option.some.injEq] at h
    subst h
    refine ⟨rfl, rfl, rfl, ?_, ?_, ?_⟩
    · simp [vset_length hs]
    · show rowOf (l.map _) c = []
      rw [rowOf_map_erase, rowOf_vset_self hs]
      rfl
    · intro u hu
      show rowOf (l.map _) u = _
      rw [rowOf_map_erase, rowOf_vset_ne hs hu]

theorem pathSteps_cons_cons (a b : Int) (l : List Int) :
    pathSteps (a :: b :: l) = (a, b) :: pathSteps (b :: l) := rfl

theorem mem_pathSteps : ∀ {l : List Int} {p : Int × Int}, p ∈ pathSteps l →
    p.1 ∈ l.dropLast ∧ p.2 ∈ l.tail
  | [], p, h => by cases h
  | [a], p, h => by cases h
  | a :: b :: l, p, h => by
    rw [pathSteps_cons_cons] at h
    rcases List.mem_cons.mp h with h1 | h1
    · subst h1
      simp
    · obtain ⟨i1, i2⟩ := mem_pathSteps h1
      refine ⟨?_, ?_⟩
      · rw [List.dropLast_cons₂]
        exact List.mem_cons_of_mem _ i1
      · exact List.mem_of_mem_tail i2

theorem LevelPath.remove {lg lg1 : List (List Int)} {c : Int} (hc : rowOf lg c = [])
    (hrows : ∀ u, u ≠ c → rowOf lg1 u = (rowOf lg u).erase c) {a b : Int}
    (h : LevelPath lg a b) (hcb : c ≠ b) : LevelPath lg1 a b := by
  induction h with
  | refl => exact LevelPath.refl _
  | @cons a x b hx hp ih =>
    have hac : a ≠ c := by
      intro hac
      rw [hac, hc] at hx
      cases hx
    have hxc : x ≠ c := by
      intro hxc
      subst hxc
      cases hp with
      | refl => exact hcb rfl
      | cons hz _ =>
        rw [hc] at hz
        cases hz
    refine LevelPath.cons ?_ (ih hcb)
    rw [hrows a hac]
    exact (List.mem_erase_of_ne hxc).mpr hx

theorem levelPath_source_row {lg : List (List Int)} {t : Int} (ht : t ≠ 0)
    (h : LevelPath lg 0 t) : rowOf lg 0 ≠ [] := by
  cases h with
  | refl => exact absurd rfl ht
  | cons hx _ =>
    intro hc
    rw [hc] at hx
    cases hx

/-- Advance and retreat steps of the search keep the invariant, leave the residual graph
alone and do not destroy a walk from the source to the sink. -/
theorem searchStep_move {t : Int} {V : Int → Prop} {nodeCount : Int} {s s1 : Search}
    (hinv : SearchInv t V s) (hcur : s.currentNode ≠ nodeCount + 1) (ht : nodeCount + 1 = t)
    (h : searchStep nodeCount s = some s1) :
    SearchInv t V s1 ∧ s1.graph.residualGraph = s.graph.residualGraph ∧
      s1.graph.edges = s.graph.edges ∧
      (LevelPath s.graph.levelGraph 0 t → LevelPath s1.graph.levelGraph 0 t) := by
  have hVcur : V s.currentNode := hinv.inV _ (by simp)
  obtain ⟨hc0, hclt⟩ := hinv.range _ hVcur
  have hcurt : s.currentNode ≠ t := by rw [← ht]; exact hcur
  have hpw := List.pairwise_append.mp hinv.increasing
  unfold searchStep at h
  rw [if_neg hcur, getLevelGraphAt_eq hc0 hclt] at h
  cases hrow : rowOf s.graph.levelGraph s.currentNode with
  | nil =>
    rw [hrow] at h
    simp only at h
    cases hrem : s.graph.removeNodeAndIncomingEdges s.currentNode with
    | none => rw [hrem] at h; cases h
    | some g1 =>
      rw [hrem] at h
      simp only at h
      cases hlast : s.currentPath.getLast? with
      | none => rw [hlast] at h; cases h
      | some previous =>
        rw [hlast] at h
        simp only [Option.some.injEq] at h
        subst h
        obtain ⟨hedges, hnodes, hres, hlen, hrowc, hrows⟩ := removeNode_rows hrem
        have hpath : s.currentPath.dropLast ++ [previous] = s.currentPath :=
          List.dropLast_append_getLast? previous hlast
        have hsubrow : ∀ u, (rowOf g1.levelGraph u).Sublist (rowOf s.graph.levelGraph u) := by
          intro u
          by_cases hu : u = s.currentNode
          · rw [hu, hrowc]
            exact List.nil_sublist _
          · rw [hrows u hu]
            exact List.erase_sublist _ _
        have hne : ∀ x ∈ s.currentPath, x ≠ s.currentNode := by
          intro x hx hxc
          have := hpw.2.2 x hx s.currentNode (by simp)
          rw [hxc] at this
          exact lt_irrefl _ this
        refine ⟨?_, hres, hedges, ?_⟩
        · refine
            { res := ?_
              sizes := by show g1.levelGraph.length = g1.residualGraph.length; rw [hlen, hres]; exact hinv.sizes
              sub := fun u => by
                show (rowOf g1.levelGraph u).Sublist (rowOf g1.residualGraph u)
                rw [hres]
                exact (hsubrow u).trans (hinv.sub u)
              source := hinv.source
              range := fun u hu => by
                show 0 ≤ u ∧ u < ((g1.levelGraph.length : Nat) : Int)
                rw [hlen]
                exact hinv.range u hu
              layered := fun u hu hut x hx => by
                show V x ∧ levelOf g1.nodes x = levelOf g1.nodes u + 1
                rw [hnodes]
                exact hinv.layered u hu hut x ((hsubrow u).subset hx)
              chain := ?_
              increasing := ?_
              inV := ?_
              not_sink := fun x hx => hinv.not_sink x (List.mem_of_mem_dropLast hx)
              head := ?_ }
          · have := hinv.res
            exact
              { aligned := by rw [hnodes]; exact this.aligned
                sizes := by rw [hres, hnodes]; exact this.sizes
                sink_range := by rw [hnodes]; exact this.sink_range
                no_sentinel := by rw [hres]; exact this.no_sentinel
                sink_row := by rw [hres]; exact this.sink_row
                source_row := by rw [hres]; exact this.source_row }
          · show List.Chain' _ (s.currentPath.dropLast ++ [previous])
            rw [hpath]
            refine List.Chain'.imp ?_ (List.Chain'.iff_mem.mp hinv.chain.left_of_append)
            intro x y ⟨hx, hy, hxy⟩
            show y ∈ rowOf g1.levelGraph x
            rw [hrows x (hne x hx)]
            exact (List.mem_erase_of_ne (hne y hy)).mpr hxy
          · show List.Pairwise _ (s.currentPath.dropLast ++ [previous])
            rw [hpath, hnodes]
            exact hpw.1
          · intro x hx
            have hx' : x ∈ s.currentPath.dropLast ++ [previous] := hx
            rw [hpath] at hx'
            exact hinv.inV x (List.mem_append_left _ hx')
          · show (s.currentPath.dropLast ++ [previous]).head? = some 0
            rw [hpath]
            have hh := hinv.head
            cases hp : s.currentPath with
            | nil => rw [hp] at hlast; cases hlast
            | cons a l =>
              rw [hp] at hh
              simpa using hh
        · intro hp
          exact hp.remove hrow hrows (fun hc => hcurt hc)
  | cons next rest =>
    rw [hrow] at h
    simp only [Option.some.injEq] at h
    subst h
    obtain ⟨hVn, hlev⟩ := hinv.layered _ hVcur hcurt next (by rw [hrow]; exact List.mem_cons_self _ _)
    refine ⟨?_, rfl, rfl, fun hp => hp⟩
    refine
      { res := hinv.res
        sizes := hinv.sizes
        sub := hinv.sub
        source := hinv.source
        range := hinv.range
        layered := hinv.layered
        chain := ?_
        increasing := ?_
        inV := ?_
        not_sink := ?_
        head := ?_ }
    · show List.Chain' _ ((s.currentPath ++ [s.currentNode]) ++ [next])
      refine hinv.chain.append (List.chain'_singleton _) ?_
      intro x hx y hy
      rw [List.getLast?_concat] at hx
      cases hx
      cases hy
      rw [hrow]
      exact List.mem_cons_self _ _
    · show List.Pairwise _ ((s.currentPath ++ [s.currentNode]) ++ [next])
      rw [List.pairwise_append]
      refine ⟨hinv.increasing, List.pairwise_singleton _ _, ?_⟩
      intro x hx y hy
      rw [List.mem_singleton] at hy
      subst hy
      show levelOf s.graph.nodes x < levelOf s.graph.nodes y
      rcases List.mem_append.mp hx with hx1 | hx1
      · have := hpw.2.2 x hx1 s.currentNode (by simp)
        omega
      · rw [List.mem_singleton] at hx1
        subst hx1
        omega
    · intro x hx
      have hx' : x ∈ (s.currentPath ++ [s.currentNode]) ++ [next] := hx
      rcases List.mem_append.mp hx' with hx1 | hx1
      · exact hinv.inV x hx1
      · rw [List.mem_singleton] at hx1
        subst hx1
        exact hVn
    · intro x hx
      have hx' : x ∈ s.currentPath ++ [s.currentNode] := hx
      rcases List.mem_append.mp hx' with hx1 | hx1
      · exact hinv.not_sink x hx1
      · rw [List.mem_singleton] at hx1
        subst hx1
        exact hcurt
    · show ((s.currentPath ++ [s.currentNode]) ++ [next]).head? = some 0
      have hh := hinv.head
      rw [List.head?_append, hh]
      rfl

theorem augmentFlow_some {g g1 : Graph} {p : List Int} (h : g.augmentFlow p = some g1) :
    p ≠ [] ∧ g1 = { g with
      edges := (pathSteps p).foldl (fun es q => es.map (augmentEdge q.1 q.2)) g.edges } := by
  unfold Graph.augmentFlow at h
  split at h
  · cases h
  · rename_i hp
    simp only [Option.some.injEq] at h
    exact ⟨hp, h.symm⟩

theorem updateResidualGraph_some {g g1 : Graph} {p : List Int}
    (h : g.updateResidualGraph p = some g1) :
    ∃ r, (pathSteps p).foldlM (fun acc q => reverseStep acc q.1 q.2) g.residualGraph = some r ∧
      g1 = { g with residualGraph := r } := by
  unfold Graph.updateResidualGraph at h
  split at h
  · cases h
  · cases hf : (pathSteps p).foldlM (fun acc q => reverseStep acc q.1 q.2) g.residualGraph with
    | none => rw [hf] at h; cases h
    | some r =>
      rw [hf] at h
      simp only [Option.some.injEq] at h
      exact ⟨r, rfl, h.symm⟩

theorem updateLevelGraph_some {g g1 : Graph} {p : List Int}
    (h : g.updateLevelGraph p = some g1) :
    ∃ l, (pathSteps p).foldlM (fun acc q => eraseStep acc q.1 q.2) g.levelGraph = some l ∧
      g1 = { g with levelGraph := l } := by
  unfold Graph.updateLevelGraph at h
  split at h
  · cases h
  · cases hf : (pathSteps p).foldlM (fun acc q => eraseStep acc q.1 q.2) g.levelGraph with
    | none => rw [hf] at h; cases h
    | some l =>
      rw [hf] at h
      simp only [Option.some.injEq] at h
      exact ⟨l, rfl, h.symm⟩

/-- The augment branch of the search step, unfolded. -/
theorem searchStep_augment_some {nodeCount : Int} {s s1 : Search}
    (hcur : s.currentNode = nodeCount + 1) (h : searchStep nodeCount s = some s1) :
    ∃ r l,
      (pathSteps (s.currentPath ++ [s.currentNode])).foldlM
        (fun acc q => reverseStep acc q.1 q.2) s.graph.residualGraph = some r ∧
      (pathSteps (s.currentPath ++ [s.currentNode])).foldlM
        (fun acc q => eraseStep acc q.1 q.2) s.graph.levelGraph = some l ∧
      s1 = ⟨{ edges := (pathSteps (s.currentPath ++ [s.currentNode])).foldl
                (fun es q => es.map (augmentEdge q.1 q.2)) s.graph.edges
              nodes := s.graph.nodes
              residualGraph := r
              levelGraph := l }, 0, []⟩ := by
  unfold searchStep at h
  rw [if_pos hcur] at h
  simp only at h
  cases h1 : s.graph.augmentFlow (s.currentPath ++ [s.currentNode]) with
  | none => rw [h1] at h; cases h
  | some g1 =>
    rw [h1] at h
    simp only at h
    cases h2 : g1.updateResidualGraph (s.currentPath ++ [s.currentNode]) with
    | none => rw [h2] at h; cases h
    | some g2 =>
      rw [h2] at h
      simp only at h
      cases h3 : g2.updateLevelGraph (s.currentPath ++ [s.currentNode]) with
      | none => rw [h3] at h; cases h
      | some g3 =>
        rw [h3] at h
        simp only [Option.some.injEq] at h
        obtain ⟨-, rfl⟩ := augmentFlow_some h1
        obtain ⟨r, hr, rfl⟩ := updateResidualGraph_some h2
        obtain ⟨l, hl, rfl⟩ := updateLevelGraph_some h3
        exact ⟨r, l, hr, hl, h.symm⟩

/-- Shape of the path handed to the augmentation: it starts at the source, its first arc is
a residual arc out of the source, and the source does not occur again. -/
theorem augment_path_shape {t : Int} {V : Int → Prop} {s : Search} (hinv : SearchInv t V s)
    (hcur : s.currentNode = t) :
    ∃ p1 rest, s.currentPath ++ [s.currentNode] = 0 :: p1 :: rest ∧
      p1 ∈ rowOf s.graph.levelGraph 0 ∧ (∀ y ∈ p1 :: rest, y ≠ 0) ∧
      (∀ q ∈ pathSteps (s.currentPath ++ [s.currentNode]), V q.1 ∧ q.1 ≠ t ∧ q.2 ≠ 0) := by
  have ht0 : t ≠ 0 := ne_of_gt hinv.res.sink_range.1
  have hh := hinv.head
  have hsteps : ∀ q ∈ pathSteps (s.currentPath ++ [s.currentNode]),
      q.1 ∈ s.currentPath ∧ q.2 ∈ (s.currentPath ++ [s.currentNode]).tail := by
    intro q hq
    have := mem_pathSteps hq
    rw [List.dropLast_concat] at this
    exact this
  cases hp : s.currentPath with
  | nil =>
    rw [hp] at hh
    simp only [List.nil_append, List.head?_cons, Option.some.injEq] at hh
    exact absurd (hcur.symm.trans hh) ht0
  | cons a rest0 =>
    rw [hp] at hh
    simp only [List.cons_append, List.head?_cons, Option.some.injEq] at hh
    subst hh
    have hpw := hinv.increasing
    have hch := hinv.chain
    rw [hp] at hpw hch hsteps
    simp only [List.cons_append] at hpw hch hsteps
    have hne : ∀ y ∈ rest0 ++ [s.currentNode], y ≠ 0 := by
      intro y hy hy0
      have := (List.pairwise_cons.mp hpw).1 y hy
      rw [hy0] at this
      exact lt_irrefl _ this
    cases hr : rest0 ++ [s.currentNode] with
    | nil => simp at hr
    | cons p1 rest =>
      rw [hr] at hch hne hsteps
      refine ⟨p1, rest, by simp [hr], hch.rel_head, hne, ?_⟩
      intro q hq
      have hq' : q ∈ pathSteps (0 :: p1 :: rest) := by
        rw [← hr]
        simpa using hq
      obtain ⟨h1, h2⟩ := hsteps q hq'
      refine ⟨hinv.inV q.1 (by rw [hp]; exact List.mem_append_left _ h1), ?_, ?_⟩
      · exact hinv.not_sink q.1 (by rw [hp]; exact h1)
      · exact hne q.2 h2

/-- The augment step of the search keeps the invariant and removes exactly one entry from
the residual row of the source. -/
theorem searchStep_augment {t : Int} {V : Int → Prop} {nodeCount : Int} {s s1 : Search}
    (hinv : SearchInv t V s) (hcur : s.currentNode = nodeCount + 1) (ht : nodeCount + 1 = t)
    (h : searchStep nodeCount s = some s1) :
    SearchInv t V s1 ∧
      (rowOf s1.graph.residualGraph 0).length + 1 = (rowOf s.graph.residualGraph 0).length := by
  obtain ⟨r, l, hr, hl, rfl⟩ := searchStep_augment_some hcur h
  obtain ⟨p1, rest, hfull, hp1, hne0, hsteps⟩ := augment_path_shape hinv (hcur.trans ht)
  obtain ⟨hrlen, hrmem, hrsuf, -⟩ := reverse_fold _ hr
  obtain ⟨hllen, hlsub⟩ := erase_fold _ hl
  have hres := hinv.res
  refine ⟨?_, ?_⟩
  · refine
      { res := ?_
        sizes := by show l.length = r.length; rw [hllen, hrlen]; exact hinv.sizes
        sub := sub_fold _ hinv.sub hr hl
        source := hinv.source
        range := fun u hu => by
          show 0 ≤ u ∧ u < ((l.length : Nat) : Int)
          rw [hllen]
          exact hinv.range u hu
        layered := fun u hu hut x hx => hinv.layered u hu hut x ((hlsub u).subset hx)
        chain := List.chain'_singleton _
        increasing := List.pairwise_singleton _ _
        inV := fun x hx => by
          have : x = 0 := by simpa using hx
          rw [this]
          exact hinv.source
        not_sink := fun x hx => by cases hx
        head := rfl }
    exact
      { aligned := hres.aligned
        sizes := hrlen.trans hres.sizes
        sink_range := hres.sink_range
        no_sentinel := by
          intro u hut hc
          rcases hrmem u _ hc with h1 | ⟨q, hq, -, hq1⟩
          · exact hres.no_sentinel u hut h1
          · have := (hinv.range q.1 (hsteps q hq).1).1
            rw [← hq1] at this
            unfold SINK_NODE_INDEX at this
            omega
        sink_row := by
          obtain ⟨tail, htail⟩ := hres.sink_row
          obtain ⟨suffix, hs⟩ := hrsuf t (fun q hq => (hsteps q hq).2.1)
          exact ⟨tail ++ suffix, by rw [hs, htail]; rfl⟩
        source_row := by
          intro hc
          rcases hrmem 0 _ hc with h1 | ⟨q, hq, hq2, -⟩
          · exact hres.source_row h1
          · exact (hsteps q hq).2.2 hq2 }
  · show (rowOf r 0).length + 1 = _
    rw [hfull, pathSteps_cons_cons] at hr
    simp only [List.foldlM_cons, Option.bind_eq_bind] at hr
    cases hr1 : reverseStep s.graph.residualGraph 0 p1 with
    | none => rw [hr1] at hr; cases hr
    | some r1 =>
      rw [hr1] at hr
      have hp1res : p1 ∈ rowOf s.graph.residualGraph 0 := (hinv.sub 0).subset hp1
      have hp10 : (0 : Int) ≠ p1 := fun hc => hne0 p1 (List.mem_cons_self _ _) hc.symm
      have hrow1 : rowOf r1 0 = (rowOf s.graph.residualGraph 0).erase p1 := by
        rcases reverseStep_rows hr1 with ⟨hn, -⟩ | ⟨-, -, hne, -⟩
        · exact absurd hp1res hn
        · exact (hne hp10).1
      obtain ⟨-, -, -, hsame⟩ := reverse_fold _ hr
      have hrow2 : rowOf r 0 = rowOf r1 0 := by
        apply hsame
        intro q hq
        obtain ⟨h1, h2⟩ := mem_pathSteps hq
        exact ⟨hne0 q.1 (List.mem_of_mem_dropLast h1), hne0 q.2 (List.mem_of_mem_tail h2)⟩
      rw [hrow2, hrow1, List.length_erase_of_mem hp1res]
      have := List.length_pos_of_mem hp1res
      omega

/-- A completed inner loop leaves a well-shaped residual graph whose source row did not grow,
and shrank when the phase started with a walk from the source to the sink. -/
theorem searchLoop_spec {t : Int} {V : Int → Prop} {nodeCount : Int} (ht : nodeCount + 1 = t) :
    ∀ (fuel : Nat) (s : Search) (g2 : Graph), SearchInv t V s →
      searchLoop nodeCount fuel s = Outcome.done g2 →
      ResInv t g2 ∧
      (rowOf g2.residualGraph 0).length ≤ (rowOf s.graph.residualGraph 0).length ∧
      (LevelPath s.graph.levelGraph 0 t →
        (rowOf g2.residualGraph 0).length < (rowOf s.graph.residualGraph 0).length) := by
  intro fuel
  induction fuel with
  | zero =>
    intro s g2 _ h
    rw [searchLoop] at h
    cases h
  | succ f ih =>
    intro s g2 hinv h
    have ht0 : t ≠ 0 := ne_of_gt hinv.res.sink_range.1
    obtain ⟨h00, h0lt⟩ := hinv.range 0 hinv.source
    rw [searchLoop, getLevelGraphAt_eq h00 h0lt] at h
    cases hrow : rowOf s.graph.levelGraph 0 with
    | nil =>
      rw [hrow] at h
      simp only [Outcome.done.injEq] at h
      subst h
      exact ⟨hinv.res, le_refl _, fun hp => absurd hrow (levelPath_source_row ht0 hp)⟩
    | cons x xs =>
      rw [hrow] at h
      simp only at h
      cases hstep : searchStep nodeCount s with
      | none => rw [hstep] at h; cases h
      | some s1 =>
        rw [hstep] at h
        simp only at h
        by_cases hcur : s.currentNode = nodeCount + 1
        · obtain ⟨hinv1, hlen⟩ := searchStep_augment hinv hcur ht hstep
          obtain ⟨i1, i2, -⟩ := ih s1 g2 hinv1 h
          exact ⟨i1, by omega, fun _ => by omega⟩
        · obtain ⟨hinv1, hres, -, hpath⟩ := searchStep_move hinv hcur ht hstep
          obtain ⟨i1, i2, i3⟩ := ih s1 g2 hinv1 h
          rw [hres] at i2 i3
          exact ⟨i1, i2, fun hp => i3 (hpath hp)⟩

theorem getNode_zero {t : Int} {g : Graph} (hres : ResInv t g) :
    ∃ source, g.getNode 0 = some source ∧ source.index = 0 := by
  have hr := hres.sink_range
  have hlen : 0 < g.nodes.length := by omega
  refine ⟨g.nodes[0], ?_, ?_⟩
  · unfold Graph.getNode
    rw [if_neg (by omega)]
    exact List.getElem?_eq_getElem hlen
  · have := hres.aligned 0 g.nodes[0] (List.getElem?_eq_getElem hlen)
    simpa using this

/-- Every phase that finds a path removes an entry from the residual row of the source, so
the number of `createLevelGraph` calls of a completed run is bounded by the length of that
row at the start, plus the calls made before, plus one. -/
theorem driverLoop_calls {t : Int} {nodeCount : Int} (ht : nodeCount + 1 = t) (B : Nat) :
    ∀ (fuel : Nat) (g : Graph) (calls : Nat) (g2 : Graph) (k : Nat), ResInv t g →
      calls + (rowOf g.residualGraph 0).length ≤ B →
      driverLoop nodeCount fuel g calls = Outcome.done (g2, k) → k ≤ B + 1 := by
  intro fuel
  induction fuel with
  | zero =>
    intro g calls g2 k _ _ h
    rw [driverLoop] at h
    cases h
  | succ f ih =>
    intro g calls g2 k hres hB h
    rw [driverLoop] at h
    cases hc : g.createLevelGraph with
    | undef => rw [hc] at h; cases h
    | fuel => rw [hc] at h; cases h
    | done r =>
      obtain ⟨b, g1⟩ := r
      rw [hc] at h
      obtain ⟨-, hres1, -, hri1, hli1, hpath⟩ := createLevelGraph_spec hres hc
      cases b with
      | false =>
        simp only [Outcome.done.injEq, Prod.mk.injEq] at h
        omega
      | true =>
        simp only at h
        obtain ⟨source, hsrc, hidx⟩ := getNode_zero hri1
        rw [hsrc] at h
        simp only [hidx] at h
        cases hs : searchLoop nodeCount f ⟨g1, 0, []⟩ with
        | undef => rw [hs] at h; cases h
        | fuel => rw [hs] at h; cases h
        | done g3 =>
          rw [hs] at h
          simp only at h
          obtain ⟨V, hV0, hVr, hVl⟩ := hli1.layered
          have hinv : SearchInv t V ⟨g1, 0, []⟩ :=
            { res := hri1
              sizes := hli1.sizes
              sub := hli1.sub
              source := hV0
              range := hVr
              layered := hVl
              chain := List.chain'_singleton _
              increasing := List.pairwise_singleton _ _
              inV := fun x hx => by
                have : x = 0 := by simpa using hx
                rw [this]
                exact hV0
              not_sink := fun x hx => by cases hx
              head := rfl }
          obtain ⟨hres3, -, hlt⟩ := searchLoop_spec ht f _ g3 hinv hs
          have hlt' := hlt (hpath rfl)
          simp only [hres1] at hlt'
          exact ih g3 (calls + 1) g2 k hres3 (by omega) h

theorem loadedNodes_getElem? (names : List String) (k : Nat) (hk : k < names.length) :
    (loadedNodes names)[k]? = some ⟨names[k], (k : Int) + 1, 0⟩ := by
  simp [loadedNodes, List.enum, List.getElem?_enumFrom, List.getElem?_eq_getElem hk]

theorem loadedNodes_length (names : List String) : (loadedNodes names).length = names.length := by
  simp [loadedNodes]

theorem loadEdges_foldlM (names : List String) :
    ∀ (pairs : List (Int × Int)) (g : Graph), g.nodes = loadedNodes names →
      (∀ p ∈ pairs, 1 ≤ p.1 ∧ p.1 ≤ (names.length : Int) ∧ 1 ≤ p.2 ∧ p.2 ≤ (names.length : Int)) →
      pairs.foldlM
        (fun g p =>
          match g.getNode (p.1 - 1), g.getNode (p.2 - 1) with
          | some a, some b => some (g.addEdge a.index b.index false)
          | _, _ => none) g
        = some { g with edges := g.edges ++ pairs.map (fun p => (⟨p.1, p.2, false⟩ : Edge)) } := by
  intro pairs
  induction pairs with
  | nil =>
    intro g _ _
    simp
  | cons p pairs ih =>
    intro g hnodes hp
    obtain ⟨h1, h2, h3, h4⟩ := hp p (List.mem_cons_self _ _)
    have hget : ∀ a : Int, 1 ≤ a → a ≤ (names.length : Int) →
        ∃ nd, g.getNode (a - 1) = some nd ∧ nd.index = a := by
      intro a ha1 ha2
      have hk : (a - 1).toNat < names.length := by omega
      refine ⟨⟨names[(a - 1).toNat], (((a - 1).toNat : Nat) : Int) + 1, 0⟩, ?_, ?_⟩
      · unfold Graph.getNode
        rw [hnodes, loadedNodes_length, if_neg (by omega)]
        exact loadedNodes_getElem? names _ hk
      · show (((a - 1).toNat : Nat) : Int) + 1 = a
        omega
    obtain ⟨na, hna, hia⟩ := hget p.1 h1 h2
    obtain ⟨nb, hnb, hib⟩ := hget p.2 h3 h4
    rw [List.foldlM_cons]
    simp only [hna, hnb, hia, hib, Option.bind_eq_bind, Option.some_bind]
    rw [ih (g.addEdge p.1 p.2 false) hnodes (fun q hq => hp q (List.mem_cons_of_mem _ hq))]
    simp [Graph.addEdge]

theorem loadGraph_valid (names : List String) (pairs : List (Int × Int))
    (hp : ∀ p ∈ pairs, 1 ≤ p.1 ∧ p.1 ≤ (names.length : Int) ∧ 1 ≤ p.2 ∧ p.2 ≤ (names.length : Int)) :
    loadGraph names pairs
      = some ⟨pairs.map (fun p => (⟨p.1, p.2, false⟩ : Edge)), loadedNodes names, [], []⟩ := by
  unfold loadGraph
  rw [loadNodes_foldl]
  simp only
  rw [loadEdges_foldlM names pairs _ (by simp [Graph.empty, loadedNodes]) hp]
  simp [Graph.empty, loadedNodes]

theorem validInput_range {n : Nat} {pairs : List (Int × Int)} (h : ValidInput n pairs) :
    ∀ p ∈ pairs, 1 ≤ p.1 ∧ p.1 ≤ (n : Int) ∧ 1 ≤ p.2 ∧ p.2 ≤ (n : Int) := by
  intro p hp
  obtain ⟨h1, h2, h3, h4⟩ := h.1 p hp
  have := Nat.div_le_self n 2
  omega

theorem rowOf_natCast (r : List (List Int)) (k : Nat) : rowOf r (k : Int) = (r[k]?).getD [] := by
  unfold rowOf
  rw [vget_natCast]

theorem rowOf_out_of_range (r : List (List Int)) (u : Int)
    (h : u < 0 ∨ (r.length : Int) ≤ u) : rowOf r u = [] := by
  unfold rowOf vget
  split
  · rfl
  · rw [List.getElem?_eq_none (by omega)]
    rfl

/-- The residual graph built from a freshly loaded graph whose edge endpoints lie in `1..N`
has the shape the phases rely on, and its source row has `N/2` entries. -/
theorem createResidualGraph_resInv (names : List String) (es : List Edge) (g1 : Graph)
    (hedges : ∀ e ∈ es, 1 ≤ e.source ∧ e.source ≤ (names.length : Int)
      ∧ 1 ≤ e.destination ∧ e.destination ≤ (names.length : Int))
    (h : (⟨es, loadedNodes names, [], []⟩ : Graph).createResidualGraph = some g1) :
    ResInv ((names.length : Int) + 1) g1 ∧ g1.edges = es ∧
      (rowOf g1.residualGraph 0).length = names.length / 2 := by
  have hlen0 : (⟨es, loadedNodes names, [], []⟩ : Graph).nodes.length = names.length :=
    loadedNodes_length names
  obtain ⟨g1', hg1', hrlen, hrow0, hrows, hsink⟩ :=
    createResidualGraph_rows ⟨es, loadedNodes names, [], []⟩ rfl
      (by intro e he; rw [hlen0]; exact hedges e he)
  rw [h] at hg1'
  cases hg1'
  rw [hlen0] at hrlen hrow0 hrows hsink
  simp only at hrows
  obtain ⟨hnlen, -, -, -, hidx⟩ :=
    createResidualGraph_nodes ⟨es, loadedNodes names, [], []⟩ g1
      (by
        intro k hk
        rw [hlen0] at hk
        show Option.map Node.index (loadedNodes names)[k]? = _
        rw [loadedNodes_getElem? names k hk]
        rfl)
      h
  rw [hlen0] at hnlen hidx
  have hedges1 : g1.edges = es := by
    have := createResidualGraph_eq ⟨es, loadedNodes names, [], []⟩ rfl
      (by intro e he; rw [hlen0]; exact ⟨(hedges e he).1, (hedges e he).2.1⟩)
    rw [h] at this
    cases this
    rfl
  have hr0 : rowOf g1.residualGraph 0
      = (List.range (names.length / 2)).map (fun (k : Nat) => (k : Int) + 1) := by
    have := rowOf_natCast g1.residualGraph 0
    rw [hrow0] at this
    simpa using this
  refine ⟨?_, hedges1, by rw [hr0]; simp⟩
  refine
    { aligned := ?_
      sizes := by rw [hrlen, hnlen]
      sink_range := by rw [hnlen]; push_cast; omega
      no_sentinel := ?_
      sink_row := ?_
      source_row := ?_ }
  · intro k nd hk
    have hklt : k < g1.nodes.length := (List.getElem?_eq_some_iff.mp hk).1
    have := hidx k (by omega)
    rw [hk] at this
    simpa using this
  · intro u hu hc
    by_cases hrange : u < 0 ∨ (g1.residualGraph.length : Int) ≤ u
    · rw [rowOf_out_of_range _ _ hrange] at hc
      cases hc
    · rw [hrlen] at hrange
      obtain ⟨k, rfl⟩ : ∃ k : Nat, u = (k : Int) := ⟨u.toNat, by omega⟩
      rcases Nat.eq_zero_or_pos k with hk0 | hkpos
      · subst hk0
        rw [show ((0 : Nat) : Int) = 0 from rfl, hr0] at hc
        simp only [List.mem_map, List.mem_range] at hc
        obtain ⟨j, -, hj⟩ := hc
        unfold SINK_NODE_INDEX at hj
        omega
      · have hkN : k ≤ names.length := by
          push_cast at hrange hu
          omega
        rw [rowOf_natCast, hrows k hkpos hkN] at hc
        simp only [Option.getD_some, List.mem_append, List.mem_map, List.mem_filter] at hc
        rcases hc with ⟨e, ⟨he, -⟩, hd⟩ | hc
        · have := hedges e he
          unfold SINK_NODE_INDEX at hd
          omega
        · split at hc
          · rw [List.mem_singleton] at hc
            unfold SINK_NODE_INDEX at hc
            omega
          · cases hc
  · refine ⟨[], ?_⟩
    have := rowOf_natCast g1.residualGraph (names.length + 1)
    rw [hsink] at this
    push_cast at this
    rw [this]
    rfl
  · rw [hr0]
    simp only [List.mem_map, List.mem_range, not_exists, not_and]
    intro j _
    omega

theorem reverseStep_valid {r r1 : List (List Int)} {x y : Int} (h : reverseStep r x y = some r1)
    (hy : y ∈ rowOf r x) (hxy : x ≠ y) :
    rowOf r1 x = (rowOf r x).erase y ∧ rowOf r1 y = rowOf r y ++ [x] ∧
      ∀ u, u ≠ x → u ≠ y → rowOf r1 u = rowOf r u := by
  rcases reverseStep_rows h with ⟨hn, -⟩ | ⟨-, ho, hne, -⟩
  · exact absurd hy hn
  · exact ⟨(hne hxy).1, (hne hxy).2, ho⟩

/-- Closed form of `updateResidualGraph` along a path without repeated nodes whose arcs are
all residual arcs: a node of the path loses its successor and gains its predecessor. -/
theorem reverse_fold_rows : ∀ (Q : List Int) (r r2 : List (List Int)), Q.Nodup →
    List.Chain' (fun x y => y ∈ rowOf r x) Q →
    (pathSteps Q).foldlM (fun acc q => reverseStep acc q.1 q.2) r = some r2 →
    ∀ u,
      ((∀ x, (x, u) ∉ pathSteps Q) → (∀ y, (u, y) ∉ pathSteps Q) → rowOf r2 u = rowOf r u) ∧
      (∀ a b, (a, u) ∈ pathSteps Q → (u, b) ∈ pathSteps Q →
        rowOf r2 u = (rowOf r u ++ [a]).erase b) ∧
      (∀ b, (∀ x, (x, u) ∉ pathSteps Q) → (u, b) ∈ pathSteps Q →
        rowOf r2 u = (rowOf r u).erase b) ∧
      (∀ a, (a, u) ∈ pathSteps Q → (∀ y, (u, y) ∉ pathSteps Q) → rowOf r2 u = rowOf r u ++ [a])
  | [], r, r2, _, _, h => by
    simp only [pathSteps, List.tail_nil, List.zip_nil_right, List.foldlM_nil, Option.pure_def,
      Option.some.injEq] at h
    subst h
    intro u
    refine ⟨fun _ _ => rfl, ?_, ?_, ?_⟩
    · intro a b ha _
      simp [pathSteps] at ha
    · intro b _ hb
      simp [pathSteps] at hb
    · intro a ha _
      simp [pathSteps] at ha
  | [x], r, r2, _, _, h => by
    simp only [pathSteps, List.tail_cons, List.zip_nil_right, List.foldlM_nil, Option.pure_def,
      Option.some.injEq] at h
    subst h
    intro u
    refine ⟨fun _ _ => rfl, ?_, ?_, ?_⟩
    · intro a b ha _
      simp [pathSteps] at ha
    · intro b _ hb
      simp [pathSteps] at hb
    · intro a ha _
      simp [pathSteps] at ha
  | x :: y :: rest, r, r2, hnd, hch, h => by
    rw [pathSteps_cons_cons] at h ⊢
    simp only [List.foldlM_cons, Option.bind_eq_bind] at h
    cases h1 : reverseStep r x y with
    | none => rw [h1] at h; cases h
    | some r1 =>
      rw [h1] at h
      simp only [Option.some_bind] at h
      have hxy : x ≠ y := by
        intro hc
        rw [hc] at hnd
        simp at hnd
      have hx_rest : x ∉ y :: rest := (List.nodup_cons.mp hnd).1
      have hy_rest : y ∉ rest := (List.nodup_cons.mp (List.nodup_cons.mp hnd).2).1
      obtain ⟨hrx, hry, hro⟩ := reverseStep_valid h1 (List.chain'_cons.mp hch).1 hxy
      have hch1 : List.Chain' (fun a b => b ∈ rowOf r1 a) (y :: rest) := by
        have hc0 := List.Chain'.iff_mem.mp (List.chain'_cons.mp hch).2
        refine List.Chain'.imp ?_ hc0
        intro a b ⟨ha, _, hab⟩
        have hax : a ≠ x := fun hc => hx_rest (hc ▸ ha)
        by_cases hay : a = y
        · rw [hay, hry]
          rw [hay] at hab
          exact List.mem_append_left _ hab
        · rw [hro a hax hay]
          exact hab
      have ih := reverse_fold_rows (y :: rest) r1 r2 (List.nodup_cons.mp hnd).2 hch1 h
      -- facts about the remaining steps
      have hS' : ∀ a b, (a, b) ∈ pathSteps (y :: rest) → a ∈ y :: rest ∧ b ∈ rest := by
        intro a b hab
        obtain ⟨i1, i2⟩ := mem_pathSteps hab
        exact ⟨List.mem_of_mem_dropLast i1, i2⟩
      intro u
      obtain ⟨ih1, ih2, ih3, ih4⟩ := ih u
      by_cases hux : u = x
      · subst hux
        have hnp : ∀ a, (a, u) ∉ pathSteps (y :: rest) :=
          fun a hc => hx_rest (List.mem_cons_of_mem _ (hS' a u hc).2)
        have hns : ∀ b, (u, b) ∉ pathSteps (y :: rest) := fun b hc => hx_rest (hS' u b hc).1
        have hrow : rowOf r2 u = (rowOf r u).erase y := by rw [ih1 hnp hns, hrx]
        refine ⟨?_, ?_, ?_, ?_⟩
        · intro _ hs
          exact absurd (List.mem_cons_self _ _) (hs y)
        · intro a b ha _
          rcases List.mem_cons.mp ha with hc | hc
          · simp only [Prod.mk.injEq] at hc
            exact absurd hc.2 hxy
          · exact absurd hc (hnp a)
        · intro b _ hb
          rcases List.mem_cons.mp hb with hc | hc
          · simp only [Prod.mk.injEq] at hc
            rw [hc.2]
            exact hrow
          · exact absurd hc (hns b)
        · intro a ha _
          rcases List.mem_cons.mp ha with hc | hc
          · simp only [Prod.mk.injEq] at hc
            exact absurd hc.2 hxy
          · exact absurd hc (hnp a)
      · by_cases huy : u = y
        · subst huy
          have hnp : ∀ a, (a, u) ∉ pathSteps (u :: rest) := fun a hc => hy_rest (hS' a u hc).2
          refine ⟨?_, ?_, ?_, ?_⟩
          · intro hp _
            exact absurd (List.mem_cons_self _ _) (hp x)
          · intro a b ha hb
            have hax : a = x := by
              rcases List.mem_cons.mp ha with hc | hc
              · simp only [Prod.mk.injEq] at hc
                exact hc.1
              · exact absurd hc (hnp a)
            have hb' : (u, b) ∈ pathSteps (u :: rest) := by
              rcases List.mem_cons.mp hb with hc | hc
              · simp only [Prod.mk.injEq] at hc
                exact absurd hc.1 hux
              · exact hc
            rw [ih3 b hnp hb', hry, hax]
          · intro b hp _
            exact absurd (List.mem_cons_self _ _) (hp x)
          · intro a ha hs
            have hax : a = x := by
              rcases List.mem_cons.mp ha with hc | hc
              · simp only [Prod.mk.injEq] at hc
                exact hc.1
              · exact absurd hc (hnp a)
            rw [ih1 hnp (fun b hc => hs b (List.mem_cons_of_mem _ hc)), hry, hax]
        · have hstep : ∀ a b, (a, b) ∈ (x, y) :: pathSteps (y :: rest) → (a = u ∨ b = u) →
              (a, b) ∈ pathSteps (y :: rest) := by
            intro a b hab hor
            rcases List.mem_cons.mp hab with hc | hc
            · simp only [Prod.mk.injEq] at hc
              rcases hor with h' | h'
              · exact absurd (h'.symm.trans hc.1) hux
              · exact absurd (h'.symm.trans hc.2) huy
            · exact hc
          rw [← hro u hux huy]
          refine ⟨?_, ?_, ?_, ?_⟩
          · intro hp hs
            exact ih1 (fun a hc => hp a (List.mem_cons_of_mem _ hc))
              (fun b hc => hs b (List.mem_cons_of_mem _ hc))
          · intro a b ha hb
            exact ih2 a b (hstep a u ha (Or.inr rfl)) (hstep u b hb (Or.inl rfl))
          · intro b hp hb
            exact ih3 b (fun a hc => hp a (List.mem_cons_of_mem _ hc)) (hstep u b hb (Or.inl rfl))
          · intro a ha hs
            exact ih4 a (hstep a u ha (Or.inr rfl)) (fun b hc => hs b (List.mem_cons_of_mem _ hc))

theorem augment_fold_map (steps : List (Int × Int)) (es : List Edge) :
    steps.foldl (fun es q => es.map (augmentEdge q.1 q.2)) es = es.map (augmentAlong steps) := by
  induction steps generalizing es with
  | nil =>
    have : augmentAlong [] = id := rfl
    rw [this, List.map_id]
    rfl
  | cons q steps ih =>
    rw [List.foldl_cons, ih, List.map_map]
    rfl

theorem augmentEdge_endpoints (u v : Int) (e : Edge) :
    (augmentEdge u v e).source = e.source ∧ (augmentEdge u v e).destination = e.destination := by
  unfold augmentEdge
  split
  · exact ⟨rfl, rfl⟩
  · split <;> exact ⟨rfl, rfl⟩

theorem augmentAlong_endpoints (steps : List (Int × Int)) (e : Edge) :
    (augmentAlong steps e).source = e.source ∧ (augmentAlong steps e).destination = e.destination := by
  induction steps generalizing e with
  | nil => exact ⟨rfl, rfl⟩
  | cons q steps ih =>
    have h1 := ih (augmentEdge q.1 q.2 e)
    have h2 := augmentEdge_endpoints q.1 q.2 e
    exact ⟨h1.1.trans h2.1, h1.2.trans h2.2⟩

theorem augmentAlong_untouched (steps : List (Int × Int)) (e : Edge)
    (h : ∀ q ∈ steps, q ≠ (e.source, e.destination) ∧ q ≠ (e.destination, e.source)) :
    augmentAlong steps e = e := by
  induction steps with
  | nil => rfl
  | cons q steps ih =>
    obtain ⟨h1, h2⟩ := h q (List.mem_cons_self _ _)
    have hq : augmentEdge q.1 q.2 e = e := by
      unfold augmentEdge
      rw [if_neg (fun hc => h1 (Prod.ext hc.1.symm hc.2.symm))]
      rw [if_neg (fun hc => h2 (Prod.ext hc.2.symm hc.1.symm))]
    show augmentAlong steps (augmentEdge q.1 q.2 e) = e
    rw [hq]
    exact ih (fun p hp => h p (List.mem_cons_of_mem _ hp))

theorem augmentAlong_forward (steps : List (Int × Int)) (e : Edge)
    (h1 : (e.source, e.destination) ∈ steps) (h2 : (e.destination, e.source) ∉ steps) :
    (augmentAlong steps e).flow = true := by
  induction steps generalizing e with
  | nil => cases h1
  | cons q steps ih =>
    have hend := augmentEdge_endpoints q.1 q.2 e
    show (augmentAlong steps (augmentEdge q.1 q.2 e)).flow = true
    by_cases hin : (e.source, e.destination) ∈ steps
    · apply ih
      · rw [hend.1, hend.2]
        exact hin
      · rw [hend.1, hend.2]
        exact fun hc => h2 (List.mem_cons_of_mem _ hc)
    · have hq : q = (e.source, e.destination) := by
        rcases List.mem_cons.mp h1 with hc | hc
        · exact hc.symm
        · exact absurd hc hin
      have hflow : (augmentEdge q.1 q.2 e).flow = true := by
        unfold augmentEdge
        rw [hq, if_pos ⟨rfl, rfl⟩]
      rw [augmentAlong_untouched]
      · exact hflow
      · intro p hp
        rw [hend.1, hend.2]
        exact ⟨fun hc => hin (hc ▸ hp), fun hc => h2 (List.mem_cons_of_mem _ (hc ▸ hp))⟩

theorem augmentAlong_backward (steps : List (Int × Int)) (e : Edge)
    (h1 : (e.destination, e.source) ∈ steps) (h2 : (e.source, e.destination) ∉ steps) :
    (augmentAlong steps e).flow = false := by
  induction steps generalizing e with
  | nil => cases h1
  | cons q steps ih =>
    have hend := augmentEdge_endpoints q.1 q.2 e
    show (augmentAlong steps (augmentEdge q.1 q.2 e)).flow = false
    by_cases hin : (e.destination, e.source) ∈ steps
    · apply ih
      · rw [hend.1, hend.2]
        exact hin
      · rw [hend.1, hend.2]
        exact fun hc => h2 (List.mem_cons_of_mem _ hc)
    · have hq : q = (e.destination, e.source) := by
        rcases List.mem_cons.mp h1 with hc | hc
        · exact hc.symm
        · exact absurd hc hin
      have hne : ¬ (e.source = q.1 ∧ e.destination = q.2) := by
        intro hc
        apply h2
        rw [show (e.source, e.destination) = q from Prod.ext hc.1 hc.2]
        exact List.mem_cons_self _ _
      have hflow : (augmentEdge q.1 q.2 e).flow = false := by
        unfold augmentEdge
        rw [if_neg hne, if_pos (by rw [hq]; exact ⟨rfl, rfl⟩)]
      rw [augmentAlong_untouched]
      · exact hflow
      · intro p hp
        rw [hend.1, hend.2]
        exact ⟨fun hc => h2 (List.mem_cons_of_mem _ (hc ▸ hp)), fun hc => hin (hc ▸ hp)⟩

/-- Edge records after `augmentFlow`, in terms of the records before: a record on a step of
the path carries flow, a record on a reversed step does not, any other record is as before
(for a path that never uses an arc in both directions). -/
theorem hasEdge_augment (steps : List (Int × Int)) (es : List Edge)
    (hboth : ∀ a b, (a, b) ∈ steps → (b, a) ∉ steps) (a b : Int) (f : Bool) :
    HasEdge (es.map (augmentAlong steps)) a b f ↔
      ∃ f0, HasEdge es a b f0 ∧
        f = (if (a, b) ∈ steps then true else if (b, a) ∈ steps then false else f0) := by
  constructor
  · rintro ⟨e1, he1, hs, hd, hf⟩
    obtain ⟨e, he, rfl⟩ := List.mem_map.mp he1
    obtain ⟨i1, i2⟩ := augmentAlong_endpoints steps e
    rw [i1] at hs
    rw [i2] at hd
    refine ⟨e.flow, ⟨e, he, hs, hd, rfl⟩, ?_⟩
    rw [← hf]
    by_cases hab : (a, b) ∈ steps
    · rw [if_pos hab]
      apply augmentAlong_forward
      · rw [hs, hd]; exact hab
      · rw [hs, hd]; exact hboth a b hab
    · rw [if_neg hab]
      by_cases hba : (b, a) ∈ steps
      · rw [if_pos hba]
        apply augmentAlong_backward
        · rw [hs, hd]; exact hba
        · rw [hs, hd]; exact hab
      · rw [if_neg hba, augmentAlong_untouched]
        intro q hq
        rw [hs, hd]
        exact ⟨fun hc => hab (hc ▸ hq), fun hc => hba (hc ▸ hq)⟩
  · rintro ⟨f0, ⟨e, he, hs, hd, hf0⟩, hf⟩
    obtain ⟨i1, i2⟩ := augmentAlong_endpoints steps e
    refine ⟨augmentAlong steps e, List.mem_map_of_mem _ he, i1.trans hs, i2.trans hd, ?_⟩
    rw [hf]
    by_cases hab : (a, b) ∈ steps
    · rw [if_pos hab]
      apply augmentAlong_forward
      · rw [hs, hd]; exact hab
      · rw [hs, hd]; exact hboth a b hab
    · rw [if_neg hab]
      by_cases hba : (b, a) ∈ steps
      · rw [if_pos hba]
        apply augmentAlong_backward
        · rw [hs, hd]; exact hba
        · rw [hs, hd]; exact hab
      · rw [if_neg hba, augmentAlong_untouched, hf0]
        intro q hq
        rw [hs, hd]
        exact ⟨fun hc => hab (hc ▸ hq), fun hc => hba (hc ▸ hq)⟩

theorem pathSteps_snd_not_head {a : Int} {l : List Int} (hnd : (a :: l).Nodup) {x y : Int}
    (h : (x, y) ∈ pathSteps (a :: l)) : y ≠ a := by
  intro hc
  have := (mem_pathSteps h).2
  simp only [List.tail_cons] at this
  exact (List.nodup_cons.mp hnd).1 (hc ▸ this)

theorem pathSteps_fst_mem {l : List Int} {x y : Int} (h : (x, y) ∈ pathSteps l) : x ∈ l :=
  List.mem_of_mem_dropLast (mem_pathSteps h).1

theorem pathSteps_succ_unique : ∀ {Q : List Int}, Q.Nodup → ∀ {x y y' : Int},
    (x, y) ∈ pathSteps Q → (x, y') ∈ pathSteps Q → y = y'
  | [], _, _, _, _, h, _ => by cases h
  | [_], _, _, _, _, h, _ => by cases h
  | a :: b :: rest, hnd, x, y, y', h1, h2 => by
    rw [pathSteps_cons_cons] at h1 h2
    have hnd' := (List.nodup_cons.mp hnd).2
    have ha : a ∉ b :: rest := (List.nodup_cons.mp hnd).1
    rcases List.mem_cons.mp h1 with c1 | c1 <;> rcases List.mem_cons.mp h2 with c2 | c2
    · simp only [Prod.mk.injEq] at c1 c2
      rw [c1.2, c2.2]
    · simp only [Prod.mk.injEq] at c1
      exact absurd (c1.1 ▸ pathSteps_fst_mem c2) ha
    · simp only [Prod.mk.injEq] at c2
      exact absurd (c2.1 ▸ pathSteps_fst_mem c1) ha
    · exact pathSteps_succ_unique hnd' c1 c2

theorem pathSteps_pred_unique : ∀ {Q : List Int}, Q.Nodup → ∀ {x x' y : Int},
    (x, y) ∈ pathSteps Q → (x', y) ∈ pathSteps Q → x = x'
  | [], _, _, _, _, h, _ => by cases h
  | [_], _, _, _, _, h, _ => by cases h
  | a :: b :: rest, hnd, x, x', y, h1, h2 => by
    rw [pathSteps_cons_cons] at h1 h2
    have hnd' := (List.nodup_cons.mp hnd).2
    rcases List.mem_cons.mp h1 with c1 | c1 <;> rcases List.mem_cons.mp h2 with c2 | c2
    · simp only [Prod.mk.injEq] at c1 c2
      rw [c1.1, c2.1]
    · simp only [Prod.mk.injEq] at c1
      exact absurd c1.2 (pathSteps_snd_not_head hnd' c2)
    · simp only [Prod.mk.injEq] at c2
      exact absurd c2.2 (pathSteps_snd_not_head hnd' c1)
    · exact pathSteps_pred_unique hnd' c1 c2

theorem pathSteps_no_both : ∀ {Q : List Int}, Q.Nodup → ∀ {x y : Int},
    (x, y) ∈ pathSteps Q → (y, x) ∉ pathSteps Q
  | [], _, _, _, h, _ => by cases h
  | [_], _, _, _, h, _ => by cases h
  | a :: b :: rest, hnd, x, y, h1, h2 => by
    rw [pathSteps_cons_cons] at h1 h2
    have hnd' := (List.nodup_cons.mp hnd).2
    have ha : a ∉ b :: rest := (List.nodup_cons.mp hnd).1
    have hsnd : ∀ {u v : Int}, (u, v) ∈ pathSteps (b :: rest) → v ≠ a := by
      intro u v huv hc
      have := (mem_pathSteps huv).2
      exact ha (List.mem_cons_of_mem _ (hc ▸ this))
    rcases List.mem_cons.mp h1 with c1 | c1 <;> rcases List.mem_cons.mp h2 with c2 | c2
    · simp only [Prod.mk.injEq] at c1 c2
      exact ha (by rw [← c1.1, c2.2]; exact List.mem_cons_self _ _)
    · simp only [Prod.mk.injEq] at c1
      exact hsnd c2 c1.1
    · simp only [Prod.mk.injEq] at c2
      exact hsnd c1 c2.1
    · exact pathSteps_no_both hnd' c1 c2

theorem pathSteps_has_succ : ∀ {Q : List Int} {u : Int}, u ∈ Q.dropLast →
    ∃ y, (u, y) ∈ pathSteps Q
  | [], _, h => by cases h
  | [_], _, h => by cases h
  | a :: b :: rest, u, h => by
    rw [List.dropLast_cons₂] at h
    rcases List.mem_cons.mp h with c | c
    · exact ⟨b, by rw [c, pathSteps_cons_cons]; exact List.mem_cons_self _ _⟩
    · obtain ⟨y, hy⟩ := pathSteps_has_succ c
      exact ⟨y, by rw [pathSteps_cons_cons]; exact List.mem_cons_of_mem _ hy⟩

theorem pathSteps_has_pred : ∀ {Q : List Int} {u : Int}, u ∈ Q.tail →
    ∃ x, (x, u) ∈ pathSteps Q
  | [], _, h => by cases h
  | [_], _, h => by cases h
  | a :: b :: rest, u, h => by
    simp only [List.tail_cons] at h
    rcases List.mem_cons.mp h with c | c
    · exact ⟨a, by rw [c, pathSteps_cons_cons]; exact List.mem_cons_self _ _⟩
    · obtain ⟨x, hx⟩ := pathSteps_has_pred (Q := b :: rest) (by simpa using c)
      exact ⟨x, by rw [pathSteps_cons_cons]; exact List.mem_cons_of_mem _ hx⟩

theorem pathSteps_chain {R : Int → Int → Prop} : ∀ {Q : List Int}, List.Chain' R Q →
    ∀ {x y : Int}, (x, y) ∈ pathSteps Q → R x y
  | [], _, _, _, h => by cases h
  | [_], _, _, _, h => by cases h
  | a :: b :: rest, hch, x, y, h => by
    rw [pathSteps_cons_cons] at h
    rcases List.mem_cons.mp h with c | c
    · simp only [Prod.mk.injEq] at c
      rw [c.1, c.2]
      exact (List.chain'_cons.mp hch).1
    · exact pathSteps_chain (List.chain'_cons.mp hch).2 c

theorem MatchInv.functional {L N : Nat} {g : Graph} (h : MatchInv L N g) {a b : Int} {f f1 : Bool}
    (h1 : HasEdge g.edges a b f) (h2 : HasEdge g.edges a b f1) : f = f1 := by
  obtain ⟨e, he, hs, hd, hf⟩ := h1
  obtain ⟨e1, he1, hs1, hd1, hf1⟩ := h2
  have := List.inj_on_of_nodup_map h.pairs_nodup he he1
    (by simp only [hs, hd, hs1, hd1])
  rw [← hf, ← hf1, this]

section Augment

variable {L N : Nat} {g : Graph} {steps : List (Int × Int)} {r2 : List (List Int)}

/-- New flags after `augmentFlow`: a record that carries flow is on a step of the path or
carried flow before and is not on a reversed step. -/
theorem AugCtx.new_true (c : AugCtx L N g steps r2) {a b : Int}
    (h : HasEdge (g.edges.map (augmentAlong steps)) a b true) :
    (a, b) ∈ steps ∨ (HasEdge g.edges a b true ∧ (b, a) ∉ steps ∧ (a, b) ∉ steps) := by
  obtain ⟨f0, h0, hf⟩ := (hasEdge_augment steps g.edges c.no_both a b true).mp h
  by_cases hab : (a, b) ∈ steps
  · exact Or.inl hab
  · rw [if_neg hab] at hf
    by_cases hba : (b, a) ∈ steps
    · rw [if_pos hba] at hf
      cases hf
    · rw [if_neg hba] at hf
      rw [← hf] at h0
      exact Or.inr ⟨h0, hba, hab⟩

theorem AugCtx.old_edge (c : AugCtx L N g steps r2) {a b : Int} {f : Bool}
    (h : HasEdge (g.edges.map (augmentAlong steps)) a b f) : ∃ f0, HasEdge g.edges a b f0 := by
  obtain ⟨f0, h0, -⟩ := (hasEdge_augment steps g.edges c.no_both a b f).mp h
  exact ⟨f0, h0⟩

theorem AugCtx.forward (c : AugCtx L N g steps r2) {a b : Int} {f0 : Bool}
    (h : HasEdge g.edges a b f0) (hs : (a, b) ∈ steps) :
    HasEdge (g.edges.map (augmentAlong steps)) a b true :=
  (hasEdge_augment steps g.edges c.no_both a b true).mpr ⟨f0, h, by rw [if_pos hs]⟩

theorem AugCtx.backward (c : AugCtx L N g steps r2) {a b : Int} {f0 : Bool}
    (h : HasEdge g.edges a b f0) (hs : (b, a) ∈ steps) :
    HasEdge (g.edges.map (augmentAlong steps)) a b false :=
  (hasEdge_augment steps g.edges c.no_both a b false).mpr
    ⟨f0, h, by rw [if_neg (c.no_both b a hs), if_pos hs]⟩

theorem AugCtx.untouched (c : AugCtx L N g steps r2) {a b : Int} {f0 : Bool}
    (h : HasEdge g.edges a b f0) (h1 : (a, b) ∉ steps) (h2 : (b, a) ∉ steps) :
    HasEdge (g.edges.map (augmentAlong steps)) a b f0 :=
  (hasEdge_augment steps g.edges c.no_both a b f0).mpr ⟨f0, h, by rw [if_neg h1, if_neg h2]⟩

/-- Kind of every step of the path: out of the source into an unmatched left node, along an
edge without flow from left to right, or back from a right node to the sink or to the left
node it is matched with. -/
theorem AugCtx.typing (c : AugCtx L N g steps r2) {x y : Int} (h : (x, y) ∈ steps) :
    (x = 0 ∧ 1 ≤ y ∧ y ≤ (L : Int) ∧ ∀ b, ¬ HasEdge g.edges y b true) ∨
    (1 ≤ x ∧ x ≤ (L : Int) ∧ HasEdge g.edges x y false) ∨
    ((L : Int) < x ∧ x ≤ (N : Int) ∧ rowOf g.residualGraph x = [y] ∧
      (y = (N : Int) + 1 ∨ HasEdge g.edges y x true)) := by
  obtain ⟨hx0, hxN, hy0⟩ := c.range x y h
  have hy := c.valid x y h
  rcases lt_trichotomy x 0 with h1 | h1 | h1
  · omega
  · subst h1
    obtain ⟨i1, i2, i3⟩ := c.inv.source_row y hy
    exact Or.inl ⟨rfl, i1, i2, i3⟩
  · by_cases hxL : x ≤ (L : Int)
    · rcases c.inv.left_rows x (by omega) hxL y hy with ⟨hc, -⟩ | hc
      · exact absurd hc hy0
      · exact Or.inr (Or.inl ⟨by omega, hxL, hc⟩)
    · refine Or.inr (Or.inr ⟨by omega, hxN, ?_⟩)
      rcases c.inv.right_rows x (by omega) hxN with hr | ⟨a, ha⟩
      · rw [hr] at hy ⊢
        rw [List.mem_singleton] at hy
        exact ⟨by rw [hy], Or.inl hy⟩
      · have hr := c.inv.flow_row a x ha
        rw [hr] at hy ⊢
        rw [List.mem_singleton] at hy
        rw [hy]
        exact ⟨rfl, Or.inr ha⟩

/-- A left node reached by a step is entered from the source (and is unmatched) or from the
right node it is matched with. -/
theorem AugCtx.into_left (c : AugCtx L N g steps r2) {w a : Int} (h : (w, a) ∈ steps)
    (ha : a ≤ (L : Int)) :
    (w = 0 ∧ ∀ b, ¬ HasEdge g.edges a b true) ∨
    ((L : Int) < w ∧ w ≤ (N : Int) ∧ HasEdge g.edges a w true) := by
  rcases c.typing h with ⟨h0, -, -, hn⟩ | ⟨-, -, he⟩ | ⟨h1, h2, -, ht | he⟩
  · exact Or.inl ⟨h0, hn⟩
  · have := (c.inv.endpoints _ _ _ he).2.2.1
    omega
  · omega
  · exact Or.inr ⟨h1, h2, he⟩

/-- A right node reached by a step is entered from a left node along an edge without flow. -/
theorem AugCtx.into_right (c : AugCtx L N g steps r2) {w b : Int} (h : (w, b) ∈ steps)
    (hb1 : (L : Int) < b) (hb2 : b ≤ (N : Int)) :
    1 ≤ w ∧ w ≤ (L : Int) ∧ HasEdge g.edges w b false := by
  rcases c.typing h with ⟨-, -, h2, -⟩ | ⟨h1, h2, he⟩ | ⟨-, -, -, ht | he⟩
  · omega
  · exact ⟨h1, h2, he⟩
  · omega
  · have := (c.inv.endpoints _ _ _ he).2.1
    omega

end Augment

section Augment

variable {L N : Nat} {g : Graph} {steps : List (Int × Int)} {r2 : List (List Int)}

theorem AugCtx.row_zero (c : AugCtx L N g steps r2) :
    ((∀ y, (0, y) ∉ steps) ∧ rowOf r2 0 = rowOf g.residualGraph 0) ∨
    ∃ y, (0, y) ∈ steps ∧ rowOf r2 0 = (rowOf g.residualGraph 0).erase y := by
  have hnp : ∀ x, (x, (0 : Int)) ∉ steps := fun x hx => (c.range x 0 hx).2.2 rfl
  by_cases hs : ∃ y, (0, y) ∈ steps
  · obtain ⟨y, hy⟩ := hs
    exact Or.inr ⟨y, hy, c.row_first 0 y hnp hy⟩
  · have hns : ∀ y, ((0 : Int), y) ∉ steps := fun y hy => hs ⟨y, hy⟩
    exact Or.inl ⟨hns, c.row_same 0 hnp hns⟩

theorem AugCtx.inner_cases (c : AugCtx L N g steps r2) {u : Int} (h1 : 1 ≤ u)
    (h2 : u ≤ (N : Int)) :
    ((∀ x, (x, u) ∉ steps) ∧ (∀ y, (u, y) ∉ steps) ∧ rowOf r2 u = rowOf g.residualGraph u) ∨
    ∃ a b, (a, u) ∈ steps ∧ (u, b) ∈ steps ∧
      rowOf r2 u = (rowOf g.residualGraph u ++ [a]).erase b := by
  by_cases hp : ∃ a, (a, u) ∈ steps
  · obtain ⟨a, ha⟩ := hp
    obtain ⟨b, hb⟩ := c.has_succ a u ha (by omega)
    exact Or.inr ⟨a, b, ha, hb, c.row_inner u a b ha hb⟩
  · by_cases hs : ∃ b, (u, b) ∈ steps
    · obtain ⟨b, hb⟩ := hs
      obtain ⟨a, ha⟩ := c.has_pred u b hb (by omega)
      exact absurd ⟨a, ha⟩ hp
    · exact Or.inl ⟨fun x hx => hp ⟨x, hx⟩, fun y hy => hs ⟨y, hy⟩,
        c.row_same u (fun x hx => hp ⟨x, hx⟩) (fun y hy => hs ⟨y, hy⟩)⟩

/-- The predecessor of a left node on the path is not yet in the residual row of that node. -/
theorem AugCtx.pred_fresh_left (c : AugCtx L N g steps r2) {w a : Int} (h : (w, a) ∈ steps)
    (ha1 : 1 ≤ a) (ha2 : a ≤ (L : Int)) : w ∉ rowOf g.residualGraph a := by
  intro hw
  rcases c.into_left h ha2 with ⟨h0, hn⟩ | ⟨h1, -, he⟩
  · rcases c.inv.left_rows a ha1 ha2 w hw with ⟨-, b, hb⟩ | hf
    · exact hn b hb
    · have := (c.inv.endpoints _ _ _ hf).2.2.1
      omega
  · rcases c.inv.left_rows a ha1 ha2 w hw with ⟨h0, -⟩ | hf
    · omega
    · have := c.inv.functional he hf
      cases this

theorem AugCtx.source_after (c : AugCtx L N g steps r2) :
    (rowOf r2 0).Nodup ∧
    ∀ a ∈ rowOf r2 0, 1 ≤ a ∧ a ≤ (L : Int) ∧
      ∀ b, ¬ HasEdge (g.edges.map (augmentAlong steps)) a b true := by
  have hsub : ∀ a ∈ rowOf r2 0, a ∈ rowOf g.residualGraph 0 := by
    intro a ha
    rcases c.row_zero with ⟨-, hr⟩ | ⟨y, -, hr⟩
    · rw [hr] at ha
      exact ha
    · rw [hr] at ha
      exact List.mem_of_mem_erase ha
  refine ⟨?_, ?_⟩
  · rcases c.row_zero with ⟨-, hr⟩ | ⟨y, -, hr⟩
    · rw [hr]
      exact c.inv.source_nodup
    · rw [hr]
      exact c.inv.source_nodup.erase y
  · intro a ha
    obtain ⟨i1, i2, i3⟩ := c.inv.source_row a (hsub a ha)
    refine ⟨i1, i2, ?_⟩
    intro b hb
    rcases c.new_true hb with hs | ⟨ho, -, -⟩
    · obtain ⟨w, hw⟩ := c.has_pred a b hs (by omega)
      rcases c.into_left hw i2 with ⟨h0, -⟩ | ⟨-, -, he⟩
      · subst h0
        rcases c.row_zero with ⟨hn, -⟩ | ⟨y, hy, hr⟩
        · exact hn a hw
        · have hya : a = y := c.succ_unique 0 a y hw hy
          rw [hr, ← hya] at ha
          exact (List.Nodup.not_mem_erase c.inv.source_nodup) ha
      · exact i3 w he
    · exact i3 b ho

theorem AugCtx.left_after (c : AugCtx L N g steps r2) (a : Int) (ha1 : 1 ≤ a)
    (ha2 : a ≤ (L : Int)) :
    (rowOf r2 a).Nodup ∧
    ∀ x ∈ rowOf r2 a,
      (x = 0 ∧ ∃ b, HasEdge (g.edges.map (augmentAlong steps)) a b true) ∨
        HasEdge (g.edges.map (augmentAlong steps)) a x false := by
  have haN : a ≤ (N : Int) := by
    have := c.inv.left_le
    omega
  rcases c.inner_cases ha1 haN with ⟨hnp, hns, hr⟩ | ⟨p, b, hp, hb, hr⟩
  · rw [hr]
    refine ⟨c.inv.left_nodup a ha1 ha2, ?_⟩
    intro x hx
    rcases c.inv.left_rows a ha1 ha2 x hx with ⟨h0, b, he⟩ | he
    · exact Or.inl ⟨h0, b, c.untouched he (hns b) (hnp b)⟩
    · exact Or.inr (c.untouched he (hns x) (hnp x))
  · have hfresh := c.pred_fresh_left hp ha1 ha2
    have hnd : (rowOf g.residualGraph a ++ [p]).Nodup := by
      rw [List.nodup_append]
      refine ⟨c.inv.left_nodup a ha1 ha2, List.nodup_singleton _, ?_⟩
      intro x hx1 hx2
      rw [List.mem_singleton] at hx2
      exact hfresh (hx2 ▸ hx1)
    have hbe : HasEdge g.edges a b false := by
      rcases c.typing hb with ⟨h0, -⟩ | ⟨-, -, he⟩ | ⟨h1, -⟩
      · omega
      · exact he
      · omega
    have hnew : HasEdge (g.edges.map (augmentAlong steps)) a b true := c.forward hbe hb
    rw [hr]
    refine ⟨hnd.erase b, ?_⟩
    intro x hx
    have hxb : x ≠ b := fun hc => (List.Nodup.not_mem_erase hnd) (hc ▸ hx)
    have hx' := List.mem_of_mem_erase hx
    rcases List.mem_append.mp hx' with hx1 | hx1
    · rcases c.inv.left_rows a ha1 ha2 x hx1 with ⟨h0, -⟩ | he
      · exact Or.inl ⟨h0, b, hnew⟩
      · refine Or.inr (c.untouched he (fun hc => hxb (c.succ_unique a x b hc hb)) ?_)
        intro hc
        have hxp : x = p := c.pred_unique x p a hc hp
        rw [hxp] at hx1
        exact hfresh hx1
    · rw [List.mem_singleton] at hx1
      subst hx1
      rcases c.into_left hp ha2 with ⟨h0, -⟩ | ⟨-, -, he⟩
      · exact Or.inl ⟨h0, b, hnew⟩
      · exact Or.inr (c.backward he hp)

end Augment

section Augment

variable {L N : Nat} {g : Graph} {steps : List (Int × Int)} {r2 : List (List Int)}

theorem AugCtx.right_after (c : AugCtx L N g steps r2) (b : Int) (hb1 : (L : Int) < b)
    (hb2 : b ≤ (N : Int)) :
    rowOf r2 b = [(N : Int) + 1] ∨
      ∃ a, HasEdge (g.edges.map (augmentAlong steps)) a b true := by
  rcases c.inner_cases (u := b) (by omega) hb2 with ⟨hnp, hns, hr⟩ | ⟨p, y, hp, -, -⟩
  · rcases c.inv.right_rows b hb1 hb2 with h | ⟨a, ha⟩
    · exact Or.inl (hr.trans h)
    · exact Or.inr ⟨a, c.untouched ha (hnp a) (hns a)⟩
  · obtain ⟨-, -, he⟩ := c.into_right hp hb1 hb2
    exact Or.inr ⟨p, c.forward he hp⟩

theorem AugCtx.flow_row_after (c : AugCtx L N g steps r2) (a b : Int)
    (h : HasEdge (g.edges.map (augmentAlong steps)) a b true) : rowOf r2 b = [a] := by
  obtain ⟨f0, h0⟩ := c.old_edge h
  obtain ⟨ha1, ha2, hb1, hb2⟩ := c.inv.endpoints _ _ _ h0
  rcases c.new_true h with hs | ⟨ho, hba, hab⟩
  · obtain ⟨y, hy⟩ := c.has_succ a b hs (by omega)
    have hrow : rowOf g.residualGraph b = [y] := by
      rcases c.typing hy with ⟨h0', -⟩ | ⟨-, h2, -⟩ | ⟨-, -, hr, -⟩
      · omega
      · omega
      · exact hr
    rw [c.row_inner b a y hs hy, hrow]
    simp
  · have hrow := c.inv.flow_row a b ho
    rcases c.inner_cases (u := b) (by omega) hb2 with ⟨-, -, hr⟩ | ⟨p, y, -, hy, -⟩
    · exact hr.trans hrow
    · have hmem := c.valid b y hy
      rw [hrow, List.mem_singleton] at hmem
      rw [hmem] at hy
      exact absurd hy hba

theorem AugCtx.flow_unique_after (c : AugCtx L N g steps r2) (a b b1 : Int)
    (h : HasEdge (g.edges.map (augmentAlong steps)) a b true)
    (h1 : HasEdge (g.edges.map (augmentAlong steps)) a b1 true) : b = b1 := by
  obtain ⟨f0, h0⟩ := c.old_edge h
  obtain ⟨ha1, ha2, -, -⟩ := c.inv.endpoints _ _ _ h0
  have key : ∀ {x y : Int}, (a, x) ∈ steps → HasEdge g.edges a y true → (y, a) ∉ steps → False := by
    intro x y hs ho hn
    obtain ⟨w, hw⟩ := c.has_pred a x hs (by omega)
    rcases c.into_left hw ha2 with ⟨-, hnone⟩ | ⟨-, -, he⟩
    · exact hnone y ho
    · have := c.inv.flow_unique a w y he ho
      rw [this] at hw
      exact hn hw
  rcases c.new_true h with hs | ⟨ho, hba, -⟩ <;> rcases c.new_true h1 with hs1 | ⟨ho1, hba1, -⟩
  · exact c.succ_unique a b b1 hs hs1
  · exact (key hs ho1 hba1).elim
  · exact (key hs1 ho hba).elim
  · exact c.inv.flow_unique a b b1 ho ho1

/-- An augmentation along a path without repeated nodes keeps the matching invariant. -/
theorem AugCtx.matchInv (c : AugCtx L N g steps r2) (nodes : List Node) (l : List (List Int)) :
    MatchInv L N ⟨g.edges.map (augmentAlong steps), nodes, r2, l⟩ where
  size := c.length.trans c.inv.size
  left_le := c.inv.left_le
  endpoints := fun a b f h => by
    obtain ⟨f0, h0⟩ := c.old_edge h
    exact c.inv.endpoints a b f0 h0
  pairs_nodup := by
    show ((g.edges.map (augmentAlong steps)).map (fun e => (e.source, e.destination))).Nodup
    rw [List.map_map]
    have : ((fun e : Edge => (e.source, e.destination)) ∘ augmentAlong steps)
        = (fun e : Edge => (e.source, e.destination)) := by
      funext e
      simp only [Function.comp]
      rw [(augmentAlong_endpoints steps e).1, (augmentAlong_endpoints steps e).2]
    rw [this]
    exact c.inv.pairs_nodup
  source_nodup := c.source_after.1
  left_nodup := fun a h1 h2 => (c.left_after a h1 h2).1
  source_row := c.source_after.2
  left_rows := fun a h1 h2 => (c.left_after a h1 h2).2
  right_rows := c.right_after
  flow_row := c.flow_row_after
  flow_unique := c.flow_unique_after

end Augment

theorem MatchInv.congr {L N : Nat} {g g1 : Graph} (h : MatchInv L N g)
    (he : g1.edges = g.edges) (hr : g1.residualGraph = g.residualGraph) : MatchInv L N g1 where
  size := by rw [hr]; exact h.size
  left_le := h.left_le
  endpoints := by rw [he]; exact h.endpoints
  pairs_nodup := by rw [he]; exact h.pairs_nodup
  source_nodup := by rw [hr]; exact h.source_nodup
  left_nodup := by rw [hr]; exact h.left_nodup
  source_row := by rw [he, hr]; exact h.source_row
  left_rows := by rw [he, hr]; exact h.left_rows
  right_rows := by rw [he, hr]; exact h.right_rows
  flow_row := by rw [he, hr]; exact h.flow_row
  flow_unique := by rw [he]; exact h.flow_unique

/-- The augment step of the search keeps the matching invariant. -/
theorem searchStep_augment_match {L N : Nat} {V : Int → Prop} {nodeCount : Int} {s s1 : Search}
    (hinv : SearchInv ((N : Int) + 1) V s) (hM : MatchInv L N s.graph)
    (hcur : s.currentNode = nodeCount + 1) (ht : nodeCount + 1 = (N : Int) + 1)
    (h : searchStep nodeCount s = some s1) : MatchInv L N s1.graph := by
  obtain ⟨r, l, hr, hl, rfl⟩ := searchStep_augment_some hcur h
  obtain ⟨p1, rest, hfull, -, -, hsteps⟩ := augment_path_shape hinv (hcur.trans ht)
  have hnd : (s.currentPath ++ [s.currentNode]).Nodup := by
    refine List.Pairwise.imp ?_ hinv.increasing
    intro a b hab hc
    rw [hc] at hab
    exact lt_irrefl _ hab
  have hchain : List.Chain' (fun x y => y ∈ rowOf s.graph.residualGraph x)
      (s.currentPath ++ [s.currentNode]) :=
    List.Chain'.imp (fun a b hab => (hinv.sub a).subset hab) hinv.chain
  have hrows := reverse_fold_rows _ _ _ hnd hchain hr
  have hlen := (reverse_fold _ hr).1
  have hctx : AugCtx L N s.graph (pathSteps (s.currentPath ++ [s.currentNode])) r :=
    { inv := hM
      valid := fun x y hxy => pathSteps_chain hchain hxy
      range := fun x y hxy => by
        obtain ⟨hV, hxt, hy0⟩ := hsteps (x, y) hxy
        obtain ⟨h0, hlt⟩ := hinv.range x hV
        rw [hinv.sizes, hM.size] at hlt
        push_cast at hlt
        exact ⟨h0, by omega, hy0⟩
      succ_unique := fun x y y' h1 h2 => pathSteps_succ_unique hnd h1 h2
      pred_unique := fun x x' y h1 h2 => pathSteps_pred_unique hnd h1 h2
      no_both := fun x y h1 => pathSteps_no_both hnd h1
      has_pred := fun x y hxy hx0 => by
        apply pathSteps_has_pred
        have hx := pathSteps_fst_mem hxy
        rw [hfull] at hx ⊢
        rcases List.mem_cons.mp hx with hc | hc
        · exact absurd hc hx0
        · exact hc
      has_succ := fun x y hxy hyt => by
        apply pathSteps_has_succ
        rw [List.dropLast_concat]
        have hy := List.mem_of_mem_tail (mem_pathSteps hxy).2
        rcases List.mem_append.mp hy with hc | hc
        · exact hc
        · rw [List.mem_singleton] at hc
          exact absurd (hc.trans (hcur.trans ht)) hyt
      length := hlen
      row_same := fun u => (hrows u).1
      row_inner := fun u => (hrows u).2.1
      row_first := fun u => (hrows u).2.2.1 }
  have := hctx.matchInv s.graph.nodes l
  rw [← augment_fold_map] at this
  exact this

theorem searchLoop_match {L N : Nat} {V : Int → Prop} {nodeCount : Int}
    (ht : nodeCount + 1 = (N : Int) + 1) :
    ∀ (fuel : Nat) (s : Search) (g2 : Graph), SearchInv ((N : Int) + 1) V s →
      MatchInv L N s.graph → searchLoop nodeCount fuel s = Outcome.done g2 → MatchInv L N g2 := by
  intro fuel
  induction fuel with
  | zero =>
    intro s g2 _ _ h
    rw [searchLoop] at h
    cases h
  | succ f ih =>
    intro s g2 hinv hM h
    obtain ⟨h00, h0lt⟩ := hinv.range 0 hinv.source
    rw [searchLoop, getLevelGraphAt_eq h00 h0lt] at h
    cases hrow : rowOf s.graph.levelGraph 0 with
    | nil =>
      rw [hrow] at h
      simp only [Outcome.done.injEq] at h
      subst h
      exact hM
    | cons x xs =>
      rw [hrow] at h
      simp only at h
      cases hstep : searchStep nodeCount s with
      | none => rw [hstep] at h; cases h
      | some s1 =>
        rw [hstep] at h
        simp only at h
        by_cases hcur : s.currentNode = nodeCount + 1
        · exact ih s1 g2 (searchStep_augment hinv hcur ht hstep).1
            (searchStep_augment_match hinv hM hcur ht hstep) h
        · obtain ⟨hinv1, hres, hedges, -⟩ := searchStep_move hinv hcur ht hstep
          exact ih s1 g2 hinv1 (hM.congr hedges hres) h

theorem driverLoop_match {L N : Nat} {nodeCount : Int} (ht : nodeCount + 1 = (N : Int) + 1) :
    ∀ (fuel : Nat) (g : Graph) (calls : Nat) (g2 : Graph) (k : Nat), ResInv ((N : Int) + 1) g →
      MatchInv L N g → driverLoop nodeCount fuel g calls = Outcome.done (g2, k) →
      MatchInv L N g2 := by
  intro fuel
  induction fuel with
  | zero =>
    intro g calls g2 k _ _ h
    rw [driverLoop] at h
    cases h
  | succ f ih =>
    intro g calls g2 k hres hM h
    rw [driverLoop] at h
    cases hc : g.createLevelGraph with
    | undef => rw [hc] at h; cases h
    | fuel => rw [hc] at h; cases h
    | done r =>
      obtain ⟨b, g1⟩ := r
      rw [hc] at h
      obtain ⟨hedges1, hres1, -, hri1, hli1, -⟩ := createLevelGraph_spec hres hc
      have hM1 : MatchInv L N g1 := hM.congr hedges1 hres1
      cases b with
      | false =>
        simp only [Outcome.done.injEq, Prod.mk.injEq] at h
        rw [← h.1]
        exact hM1
      | true =>
        simp only at h
        obtain ⟨source, hsrc, hidx⟩ := getNode_zero hri1
        rw [hsrc] at h
        simp only [hidx] at h
        cases hs : searchLoop nodeCount f ⟨g1, 0, []⟩ with
        | undef => rw [hs] at h; cases h
        | fuel => rw [hs] at h; cases h
        | done g3 =>
          rw [hs] at h
          simp only at h
          obtain ⟨V, hV0, hVr, hVl⟩ := hli1.layered
          have hinv : SearchInv ((N : Int) + 1) V ⟨g1, 0, []⟩ :=
            { res := hri1
              sizes := hli1.sizes
              sub := hli1.sub
              source := hV0
              range := hVr
              layered := hVl
              chain := List.chain'_singleton _
              increasing := List.pairwise_singleton _ _
              inV := fun x hx => by
                have : x = 0 := by simpa using hx
                rw [this]
                exact hV0
              not_sink := fun x hx => by cases hx
              head := rfl }
          obtain ⟨hres3, -, -⟩ := searchLoop_spec ht f _ g3 hinv hs
          exact ih g3 (calls + 1) g2 k hres3 (searchLoop_match ht f _ g3 hinv hM1 hs) h

theorem hasEdge_loaded (pairs : List (Int × Int)) (a b : Int) (f : Bool) :
    HasEdge (pairs.map (fun p => (⟨p.1, p.2, false⟩ : Edge))) a b f ↔ (a, b) ∈ pairs ∧ f = false := by
  unfold HasEdge
  constructor
  · rintro ⟨e, he, hs, hd, hf⟩
    obtain ⟨p, hp, rfl⟩ := List.mem_map.mp he
    simp only at hs hd hf
    exact ⟨by rw [← hs, ← hd]; exact hp, hf.symm⟩
  · rintro ⟨hp, hf⟩
    exact ⟨⟨a, b, false⟩, List.mem_map.mpr ⟨(a, b), hp, rfl⟩, rfl, rfl, hf.symm⟩

/-- After `createResidualGraph` on a valid bipartite input no edge carries flow and the
residual graph agrees with the flags. -/
theorem createResidualGraph_matchInv (names : List String) (pairs : List (Int × Int))
    (g1 : Graph) (hvalid : ValidInput names.length pairs)
    (h : (⟨pairs.map (fun p => (⟨p.1, p.2, false⟩ : Edge)), loadedNodes names, [], []⟩ :
      Graph).createResidualGraph = some g1) :
    MatchInv (names.length / 2) names.length g1 := by
  have hrange := validInput_range hvalid
  have hedges : ∀ e ∈ pairs.map (fun p => (⟨p.1, p.2, false⟩ : Edge)),
      1 ≤ e.source ∧ e.source ≤ (names.length : Int) ∧ 1 ≤ e.destination ∧
        e.destination ≤ (names.length : Int) := by
    intro e he
    obtain ⟨p, hp, rfl⟩ := List.mem_map.mp he
    exact hrange p hp
  have hlen0 : (⟨pairs.map (fun p => (⟨p.1, p.2, false⟩ : Edge)), loadedNodes names, [], []⟩ :
      Graph).nodes.length = names.length := loadedNodes_length names
  obtain ⟨hres, hedges1, -⟩ := createResidualGraph_resInv names _ g1 hedges h
  obtain ⟨g1', hg1', hrlen, hrow0, hrows, -⟩ :=
    createResidualGraph_rows ⟨_, loadedNodes names, [], []⟩ rfl
      (by intro e he; rw [hlen0]; exact hedges e he)
  rw [h] at hg1'
  cases hg1'
  rw [hlen0] at hrlen hrow0 hrows
  simp only at hrows
  have hr0 : rowOf g1.residualGraph 0
      = (List.range (names.length / 2)).map (fun (k : Nat) => (k : Int) + 1) := by
    have := rowOf_natCast g1.residualGraph 0
    rw [hrow0] at this
    simpa using this
  have hrow : ∀ a : Int, 1 ≤ a → a ≤ (names.length : Int) →
      rowOf g1.residualGraph a
        = (((pairs.map (fun p => (⟨p.1, p.2, false⟩ : Edge))).filter
              (fun e => decide (e.source = a))).map Edge.destination)
          ++ (if names.length / 2 < a.toNat then [(names.length : Int) + 1] else []) := by
    intro a ha1 ha2
    have hcast : a = ((a.toNat : Nat) : Int) := by omega
    have := rowOf_natCast g1.residualGraph a.toNat
    rw [hrows a.toNat (by omega) (by omega), ← hcast] at this
    simpa using this
  have hLN := Nat.div_le_self names.length 2
  refine
    { size := hrlen
      left_le := hLN
      endpoints := ?_
      pairs_nodup := ?_
      source_nodup := ?_
      left_nodup := ?_
      source_row := ?_
      left_rows := ?_
      right_rows := ?_
      flow_row := ?_
      flow_unique := ?_ }
  · intro a b f hab
    rw [hedges1] at hab
    exact hvalid.1 (a, b) ((hasEdge_loaded pairs a b f).mp hab).1
  · rw [hedges1, List.map_map]
    have : ((fun e : Edge => (e.source, e.destination)) ∘ fun p : Int × Int => (⟨p.1, p.2, false⟩ : Edge))
        = id := by
      funext p
      rfl
    rw [this, List.map_id]
    exact hvalid.2
  · rw [hr0]
    exact List.Nodup.map (fun a b hab => by simpa using hab) (List.nodup_range _)
  · intro a ha1 ha2
    rw [hrow a ha1 (by omega), if_neg (by omega), List.append_nil]
    refine List.Nodup.map_on ?_ (List.Nodup.filter _ ?_)
    · intro e he e1 he1 hd
      obtain ⟨hem, hes⟩ := List.mem_filter.mp he
      obtain ⟨hem1, hes1⟩ := List.mem_filter.mp he1
      obtain ⟨p, -, rfl⟩ := List.mem_map.mp hem
      obtain ⟨p1, -, rfl⟩ := List.mem_map.mp hem1
      simp only [decide_eq_true_eq] at hes hes1
      simp only at hd
      rw [Edge.mk.injEq]
      exact ⟨hes.trans hes1.symm, hd, rfl⟩
    · exact List.Nodup.map (fun p q hpq => by
        rw [Edge.mk.injEq] at hpq
        exact Prod.ext hpq.1 hpq.2.1) hvalid.2
  · intro a ha
    rw [hr0] at ha
    obtain ⟨k, hk, rfl⟩ := List.mem_map.mp ha
    rw [List.mem_range] at hk
    refine ⟨by omega, by omega, ?_⟩
    intro b hb
    rw [hedges1] at hb
    have := ((hasEdge_loaded pairs _ b true).mp hb).2
    cases this
  · intro a ha1 ha2 x hx
    rw [hrow a ha1 (by omega), if_neg (by omega), List.append_nil] at hx
    obtain ⟨e, he, rfl⟩ := List.mem_map.mp hx
    obtain ⟨hem, hes⟩ := List.mem_filter.mp he
    simp only [decide_eq_true_eq] at hes
    obtain ⟨p, hp, rfl⟩ := List.mem_map.mp hem
    refine Or.inr ?_
    rw [hedges1]
    exact (hasEdge_loaded pairs a p.2 false).mpr ⟨by rw [← hes]; exact hp, rfl⟩
  · intro b hb1 hb2
    refine Or.inl ?_
    rw [hrow b (by omega) hb2, if_pos (by omega)]
    have : (pairs.map (fun p => (⟨p.1, p.2, false⟩ : Edge))).filter (fun e => decide (e.source = b))
        = [] := by
      rw [List.filter_eq_nil_iff]
      intro e he
      obtain ⟨p, hp, rfl⟩ := List.mem_map.mp he
      have := hvalid.1 p hp
      simp only [decide_eq_true_eq]
      omega
    rw [this]
    rfl
  · intro a b hab
    rw [hedges1] at hab
    have := ((hasEdge_loaded pairs a b true).mp hab).2
    cases this
  · intro a b b1 hab
    rw [hedges1] at hab
    have := ((hasEdge_loaded pairs a b true).mp hab).2
    cases this

theorem length_le_one_of_all_eq {α : Type} {l : List α} (hnd : l.Nodup)
    (h : ∀ x ∈ l, ∀ y ∈ l, x = y) : l.length ≤ 1 := by
  match l, hnd, h with
  | [], _, _ => simp
  | [_], _, _ => simp
  | a :: b :: rest, hnd, h =>
    have hab : a = b := h a (List.mem_cons_self _ _) b (List.mem_cons_of_mem _ (List.mem_cons_self _ _))
    rw [hab] at hnd
    simp at hnd

/-- Under the matching invariant no node is an endpoint of two edges that carry flow. -/
theorem MatchInv.flow_degree {L N : Nat} {g : Graph} (h : MatchInv L N g) (id : Int) :
    (g.edges.filter
      (fun e => e.flow && (decide (e.source = id) || decide (e.destination = id)))).length ≤ 1 := by
  rw [← List.length_map _ (fun e : Edge => (e.source, e.destination))]
  apply length_le_one_of_all_eq
  · exact List.Nodup.sublist ((List.filter_sublist _).map _) h.pairs_nodup
  · intro x hx y hy
    obtain ⟨e, he, rfl⟩ := List.mem_map.mp hx
    obtain ⟨e1, he1, rfl⟩ := List.mem_map.mp hy
    obtain ⟨hem, hep⟩ := List.mem_filter.mp he
    obtain ⟨hem1, hep1⟩ := List.mem_filter.mp he1
    simp only [Bool.and_eq_true, Bool.or_eq_true, decide_eq_true_eq] at hep hep1
    have hE : HasEdge g.edges e.source e.destination true := ⟨e, hem, rfl, rfl, hep.1⟩
    have hE1 : HasEdge g.edges e1.source e1.destination true := ⟨e1, hem1, rfl, rfl, hep1.1⟩
    obtain ⟨i1, i2, i3, i4⟩ := h.endpoints _ _ _ hE
    obtain ⟨j1, j2, j3, j4⟩ := h.endpoints _ _ _ hE1
    have hr := h.flow_row _ _ hE
    have hr1 := h.flow_row _ _ hE1
    rcases hep.2 with hs | hd <;> rcases hep1.2 with hs1 | hd1
    · have hss : e.source = e1.source := hs.trans hs1.symm
      have := h.flow_unique e.source e.destination e1.destination hE (hss ▸ hE1)
      exact Prod.ext hss this
    · omega
    · omega
    · have hdd : e.destination = e1.destination := hd.trans hd1.symm
      rw [hdd, hr1] at hr
      simp only [List.cons.injEq, and_true] at hr
      exact Prod.ext hr.symm hdd

/-- C2: on a valid bipartite input, when the driver has terminated, the edges that carry flow
form a matching: no node id is the source or the destination of more than one of them. -/
theorem conservation (names : List String) (edgePairs : List (Int × Int)) (fuel : Nat)
    (g : Graph) (calls : Nat) (hvalid : ValidInput names.length edgePairs)
    (hrun : runMatching fuel names edgePairs = Outcome.done (g, calls)) (id : Int) :
    (g.edges.filter
      (fun e => e.flow && (decide (e.source = id) || decide (e.destination = id)))).length ≤ 1 := by
  have hrange := validInput_range hvalid
  unfold runMatching at hrun
  rw [loadGraph_valid names edgePairs hrange] at hrun
  simp only at hrun
  cases hc : (⟨edgePairs.map (fun p => (⟨p.1, p.2, false⟩ : Edge)), loadedNodes names, [], []⟩ :
      Graph).createResidualGraph with
  | none => rw [hc] at hrun; cases hrun
  | some g1 =>
    rw [hc] at hrun
    simp only at hrun
    obtain ⟨hres, -, -⟩ := createResidualGraph_resInv names _ g1
      (by
        intro e he
        obtain ⟨p, hp, rfl⟩ := List.mem_map.mp he
        exact hrange p hp)
      hc
    have hM := createResidualGraph_matchInv names edgePairs g1 hvalid hc
    exact (driverLoop_match rfl fuel g1 0 g calls hres hM hrun).flow_degree id

/-- C2 (witness): the first scenario; node 3 (X) is the destination of the one flow edge B-X. -/
theorem conservation_witness :
    ValidInput ["A", "B", "X", "Y"].length [(1, 3), (1, 4), (2, 3)] ∧
    runMatching 10 ["A", "B", "X", "Y"] [(1, 3), (1, 4), (2, 3)] = Outcome.done (scenarioOneFinal, 3) ∧
    (scenarioOneFinal.edges.filter
      (fun e => e.flow && (decide (e.source = 3) || decide (e.destination = 3)))).length ≤ 1 :=
  ⟨by decide, by decide,
    conservation ["A", "B", "X", "Y"] [(1, 3), (1, 4), (2, 3)] 10 scenarioOneFinal 3 (by decide)
      (by decide) 3⟩

/-- Marking an entry never raises the number of unmarked entries. -/
theorem vset_true_count_le {v v1 : List Bool} {i : Int} (h : vset v i true = some v1) :
    v1.count false ≤ v.count false := by
  obtain ⟨_, hlt, rfl⟩ := vset_some h
  rw [List.count_set _ _ _ _ hlt]
  simp

/-- Marking an unmarked entry lowers the number of unmarked entries by one. -/
theorem vset_true_count_lt {v v1 : List Bool} {i : Int} (hg : vget v i = some false)
    (h : vset v i true = some v1) : v1.count false + 1 = v.count false := by
  obtain ⟨h0, hlt, rfl⟩ := vset_some h
  rw [vget_eq_getElem? _ _ h0] at hg
  obtain ⟨_, hi⟩ := List.getElem?_eq_some_iff.mp hg
  have hmem : false ∈ v := hi ▸ List.getElem_mem _
  have hpos : 0 < v.count false := List.count_pos_iff.mpr hmem
  rw [List.count_set _ _ _ _ hlt, hi]
  simp
  omega

/-- The inner loop of `createLevelGraph` pushes a node only when it marks it: unmarked entries
plus queued nodes do not grow. -/
theorem scanAdjacent_potential (u Lu : Int) : ∀ (r i : Nat) (s s1 : BfsState),
    scanAdjacent Lu u r i s = some s1 →
    s1.visited.count false + s1.nodeQueue.length ≤ s.visited.count false + s.nodeQueue.length := by
  intro r
  induction r with
  | zero =>
    intro i s s1 h
    rw [scanAdjacent] at h
    cases h
    exact le_refl _
  | succ r ih =>
    intro i s s1 h
    rw [scanAdjacent] at h
    cases hrow : vget s.levelGraph u with
    | none => rw [hrow] at h; cases h
    | some row =>
      rw [hrow] at h
      simp only at h
      cases hadj : row[i]? with
      | none => rw [hadj] at h; cases h
      | some adj =>
        rw [hadj] at h
        simp only at h
        by_cases hsink : adj = SINK_NODE_INDEX
        · rw [if_pos hsink] at h
          cases h
          exact le_refl _
        · rw [if_neg hsink] at h
          cases hvis : vget s.visited adj with
          | none => rw [hvis] at h; cases h
          | some b =>
            rw [hvis] at h
            cases b with
            | false =>
              simp only at h
              cases hv1 : vset s.visited adj true with
              | none => rw [hv1] at h; cases h
              | some visited1 =>
                rw [hv1] at h
                simp only at h
                cases hset : setLevelAt s.nodes adj (Lu + 1) with
                | none => rw [hset] at h; cases h
                | some nodes1 =>
                  rw [hset] at h
                  simp only at h
                  cases hnd : vget nodes1 adj with
                  | none => rw [hnd] at h; cases h
                  | some nd =>
                    rw [hnd] at h
                    simp only at h
                    have h1 := ih (i + 1) _ s1 h
                    have h2 := vset_true_count_lt hvis hv1
                    simp only [List.length_append, List.length_singleton] at h1
                    omega
            | true =>
              simp only at h
              cases hnd : vget s.nodes adj with
              | none => rw [hnd] at h; cases h
              | some nd =>
                rw [hnd] at h
                simp only at h
                by_cases hlt : nd.level < Lu + 1
                · rw [if_pos hlt] at h
                  cases hl1 : vset s.levelGraph u (row.eraseIdx i) with
                  | none => rw [hl1] at h; cases h
                  | some levelGraph1 =>
                    rw [hl1] at h
                    simp only at h
                    exact ih (i + 1) { s with levelGraph := levelGraph1 } s1 h
                · rw [if_neg hlt] at h
                  exact ih (i + 1) _ s1 h

/-- One iteration of the `while` loop of `createLevelGraph` takes a node off the queue and
pushes only nodes it marks. -/
theorem bfsVisit_potential {q : Node} {rest : List Node} {s s2 : BfsState}
    (h : bfsVisit q rest s = some s2) :
    s2.visited.count false + s2.nodeQueue.length ≤ s.visited.count false + rest.length := by
  obtain ⟨s1, visited1, hs, hv, rfl⟩ := bfsVisit_some h
  have h1 := scanAdjacent_potential _ _ _ _ _ _ hs
  have h2 := vset_true_count_le hv
  simp only at h1 ⊢
  omega

/-- The `while` loop of `createLevelGraph` ends within as many iterations as there are
unmarked entries and queued nodes. -/
theorem bfsLoop_enough_fuel : ∀ (fuel : Nat) (s : BfsState),
    s.visited.count false + s.nodeQueue.length ≤ fuel → bfsLoop fuel s ≠ Outcome.fuel := by
  intro fuel
  induction fuel with
  | zero =>
    intro s hle
    have hq : s.nodeQueue = [] := List.length_eq_zero.mp (by omega)
    rw [bfsLoop, hq]
    intro hc
    cases hc
  | succ fuel ih =>
    intro s hle
    rw [bfsLoop]
    cases hq : s.nodeQueue with
    | nil =>
      intro hc
      cases hc
    | cons q rest =>
      simp only
      cases hv : bfsVisit q rest s with
      | none =>
        intro hc
        cases hc
      | some s1 =>
        simp only
        apply ih
        have h1 := bfsVisit_potential hv
        rw [hq, List.length_cons] at hle
        omega

/-- The method `createLevelGraph` always returns in the model: its loop never uses up the
iterations it is given. -/
theorem createLevelGraph_ne_fuel (g : Graph) : g.createLevelGraph ≠ Outcome.fuel := by
  unfold Graph.createLevelGraph
  cases hn : g.nodes with
  | nil =>
    intro hc
    cases hc
  | cons first tl =>
    simp only
    have hf := bfsLoop_enough_fuel ((first :: tl).length + 1)
      { nodes := first :: tl
        levelGraph := g.residualGraph
        visited := List.replicate (first :: tl).length false
        nodeQueue := [first]
        hasPathToSink := false }
      (by simp)
    cases hb : bfsLoop ((first :: tl).length + 1)
      { nodes := first :: tl
        levelGraph := g.residualGraph
        visited := List.replicate (first :: tl).length false
        nodeQueue := [first]
        hasPathToSink := false } with
    | done s =>
      intro hc
      cases hc
    | undef =>
      intro hc
      cases hc
    | fuel => exact absurd hb hf

/-- The early return of `createLevelGraph` on an empty node list. -/
theorem createLevelGraph_nil (g : Graph) (h : g.nodes = []) :
    g.createLevelGraph = Outcome.done (false, g) := by
  unfold Graph.createLevelGraph
  rw [h]

/-- C16: on a graph whose node list is empty `createLevelGraph` returns false and leaves the
nodes, the edges, the residual graph and the level graph as they were. -/
theorem createLevelGraph_empty_nodes (g : Graph) (h : g.nodes = []) :
    g.createLevelGraph = Outcome.done (false, g) := by
  unfold Graph.createLevelGraph
  rw [h]

/-- C16 (witness): a graph without nodes whose other three vectors are not empty. -/
theorem createLevelGraph_empty_nodes_witness :
    (⟨[⟨1, 2, true⟩], [], [[1], [0]], [[5]]⟩ : Graph).nodes = [] ∧
    (⟨[⟨1, 2, true⟩], [], [[1], [0]], [[5]]⟩ : Graph).createLevelGraph
      = Outcome.done (false, ⟨[⟨1, 2, true⟩], [], [[1], [0]], [[5]]⟩) :=
  ⟨rfl, createLevelGraph_empty_nodes _ rfl⟩

/-- The guard shared by `getNode` and `getLevelGraphAt`: an index inside the vector is read,
any other index falls back to the first element. -/
theorem fallback_read {α : Type} (first : α) (rest : List α) (i : Int) :
    ((0 ≤ i ∧ i < ((first :: rest).length : Int)) →
      ∃ x, (first :: rest)[i.toNat]? = some x ∧
        (if i < 0 ∨ i ≥ ((first :: rest).length : Int) then (first :: rest).head?
          else (first :: rest)[i.toNat]?) = some x) ∧
    (¬ (0 ≤ i ∧ i < ((first :: rest).length : Int)) →
      (if i < 0 ∨ i ≥ ((first :: rest).length : Int) then (first :: rest).head?
        else (first :: rest)[i.toNat]?) = some first) := by
  constructor
  · intro hin
    have hlt : i.toNat < (first :: rest).length := by
      have := hin.2
      omega
    refine ⟨(first :: rest)[i.toNat], List.getElem?_eq_getElem hlt, ?_⟩
    rw [if_neg (by omega)]
    exact List.getElem?_eq_getElem hlt
  · intro hout
    rw [if_pos (by omega)]
    rfl

/-- C17: on a non-empty node list `getNode i` is `nodes[i]` when `0 ≤ i < nodes.size()` and
the first node for every other `i`; on a non-empty level graph `getLevelGraphAt i` is
`levelGraph[i]` when `0 ≤ i < levelGraph.size()` and `levelGraph[0]` for every other `i`,
the sentinel `-1` included. -/
theorem out_of_range_fallback (g : Graph) (i : Int) :
    (∀ first rest, g.nodes = first :: rest →
      ((0 ≤ i ∧ i < (g.nodes.length : Int)) →
        ∃ nd, g.nodes[i.toNat]? = some nd ∧ g.getNode i = some nd) ∧
      (¬ (0 ≤ i ∧ i < (g.nodes.length : Int)) → g.getNode i = some first)) ∧
    (∀ first rest, g.levelGraph = first :: rest →
      ((0 ≤ i ∧ i < (g.levelGraph.length : Int)) →
        ∃ row, g.levelGraph[i.toNat]? = some row ∧ g.getLevelGraphAt i = some row) ∧
      (¬ (0 ≤ i ∧ i < (g.levelGraph.length : Int)) → g.getLevelGraphAt i = some first) ∧
      g.getLevelGraphAt SINK_NODE_INDEX = some first) := by
  constructor
  · intro first rest h
    unfold Graph.getNode
    rw [h]
    exact fallback_read first rest i
  · intro first rest h
    unfold Graph.getLevelGraphAt
    rw [h]
    exact ⟨(fallback_read first rest i).1, (fallback_read first rest i).2, rfl⟩

/-- C17 (witness): on the final graph of the first scenario index 7 is out of range and falls
back to the source node and to row 0, index 3 is read in place. -/
theorem out_of_range_fallback_witness :
    scenarioOneFinal.getNode 7 = some ⟨"", 0, 0⟩ ∧
    scenarioOneFinal.getLevelGraphAt 7 = some [] ∧
    scenarioOneFinal.getLevelGraphAt SINK_NODE_INDEX = some [] ∧
    (∃ nd, scenarioOneFinal.nodes[(3 : Int).toNat]? = some nd ∧
      scenarioOneFinal.getNode 3 = some nd) :=
  ⟨((out_of_range_fallback scenarioOneFinal 7).1 _ _ rfl).2 (by decide),
    ((out_of_range_fallback scenarioOneFinal 7).2 _ _ rfl).2.1 (by decide),
    ((out_of_range_fallback scenarioOneFinal 7).2 _ _ rfl).2.2,
    ((out_of_range_fallback scenarioOneFinal 3).1 _ _ rfl).1 (by decide)⟩

/-- The breadth-first construction touches the nodes and the level graph only. -/
theorem createLevelGraph_frame {g g1 : Graph} {b : Bool}
    (h : g.createLevelGraph = Outcome.done (b, g1)) :
    g1.edges = g.edges ∧ g1.residualGraph = g.residualGraph := by
  unfold Graph.createLevelGraph at h
  cases hn : g.nodes with
  | nil =>
    rw [hn] at h
    cases h
    exact ⟨rfl, rfl⟩
  | cons first tl =>
    rw [hn] at h
    simp only at h
    split at h
    · cases h
      exact ⟨rfl, rfl⟩
    · cases h
    · cases h

/-- The method `createResidualGraph` touches the residual graph and the nodes only. -/
theorem createResidualGraph_frame {g g1 : Graph} (h : g.createResidualGraph = some g1) :
    g1.edges = g.edges ∧ g1.levelGraph = g.levelGraph := by
  unfold Graph.createResidualGraph at h
  simp only at h
  split at h
  · cases h
  · split at h
    · cases h
    · split at h
      · cases h
      · split at h
        · cases h
        · cases h
          exact ⟨rfl, rfl⟩

/-- C20: `createResidualGraph`, `createLevelGraph`, `updateResidualGraph`, `updateLevelGraph`
and `removeNodeAndIncomingEdges` return the edge list they were given; `augmentFlow` keeps
the number of edge records, their order and the source and destination of each record, so
only a flow flag can differ, and only after `augmentFlow`. -/
theorem edges_frame (g g1 : Graph) :
    (g.createResidualGraph = some g1 → g1.edges = g.edges) ∧
    (∀ b, g.createLevelGraph = Outcome.done (b, g1) → g1.edges = g.edges) ∧
    (∀ path, g.updateResidualGraph path = some g1 → g1.edges = g.edges) ∧
    (∀ path, g.updateLevelGraph path = some g1 → g1.edges = g.edges) ∧
    (∀ nodeIndex, g.removeNodeAndIncomingEdges nodeIndex = some g1 → g1.edges = g.edges) ∧
    (∀ path, g.augmentFlow path = some g1 →
      g1.edges.length = g.edges.length ∧
      ∀ k : Nat, (g1.edges[k]?).map (fun e => (e.source, e.destination))
        = (g.edges[k]?).map (fun e => (e.source, e.destination))) := by
  refine ⟨fun h => (createResidualGraph_frame h).1, fun b h => (createLevelGraph_frame h).1,
    ?_, ?_, fun c h => (removeNode_rows h).1, ?_⟩
  · intro path h
    obtain ⟨r, -, rfl⟩ := updateResidualGraph_some h
    rfl
  · intro path h
    obtain ⟨l, -, rfl⟩ := updateLevelGraph_some h
    rfl
  · intro path h
    obtain ⟨-, rfl⟩ := augmentFlow_some h
    simp only [augment_fold_map]
    refine ⟨List.length_map _ _, ?_⟩
    intro k
    rw [List.getElem?_map]
    cases g.edges[k]? with
    | none => rfl
    | some e =>
      simp only [Option.map_some']
      rw [(augmentAlong_endpoints _ e).1, (augmentAlong_endpoints _ e).2]

/-- C20 (witness): augmenting the first scenario along the path 0, 1, 3, 5 keeps the three
edge records in place and only sets the flag of the record 1 → 3. -/
theorem edges_frame_witness :
    scenarioOneResidual.augmentFlow [0, 1, 3, 5]
      = some { scenarioOneResidual with
          edges := [⟨1, 3, true⟩, ⟨1, 4, false⟩, ⟨2, 3, false⟩] } ∧
    ({ scenarioOneResidual with
        edges := [⟨1, 3, true⟩, ⟨1, 4, false⟩, ⟨2, 3, false⟩] } : Graph).edges.length
      = scenarioOneResidual.edges.length :=
  ⟨by decide, ((edges_frame scenarioOneResidual _).2.2.2.2.2 [0, 1, 3, 5] (by decide)).1⟩

/-- For a non-empty path the loop bound is the number of consecutive pairs, which is what
the loops over `pathSteps` run through. -/
theorem pathLoopBound_eq_steps (a : Int) (rest : List Int) (h : (a :: rest).length < 2 ^ 64) :
    pathLoopBound (a :: rest) = (pathSteps (a :: rest)).length := by
  unfold pathLoopBound pathSteps
  simp only [List.length_cons, List.tail_cons, List.length_zip] at h ⊢
  rw [Nat.min_eq_right (by omega)]
  omega

/-- C15 (failing input): for the empty path the loop bound wraps around to `2^64 - 1`, so the
loop body runs and its first statement reads `augmentingPath[0]` of an empty vector: none of
the three functions is a no-op there. A path of one node does leave the graph as it is. -/
theorem empty_path_reads_out_of_bounds (g : Graph) :
    pathLoopBound [] = 18446744073709551615 ∧
    vget ([] : List Int) 0 = none ∧
    g.augmentFlow [] = none ∧ g.updateResidualGraph [] = none ∧ g.updateLevelGraph [] = none ∧
    (∀ x, pathLoopBound [x] = 0 ∧ g.augmentFlow [x] = some g ∧
      g.updateResidualGraph [x] = some g ∧ g.updateLevelGraph [x] = some g) := by
  refine ⟨by simp [pathLoopBound], rfl, rfl, rfl, rfl, ?_⟩
  intro x
  refine ⟨by norm_num [pathLoopBound], rfl, rfl, rfl⟩

theorem vget_in_range {α : Type} {v : List α} {i : Int} (h0 : 0 ≤ i) (hlt : i < (v.length : Int)) :
    ∃ x, vget v i = some x := by
  have h : i.toNat < v.length := by omega
  exact ⟨v[i.toNat], by rw [vget_eq_getElem? _ _ h0]; exact List.getElem?_eq_getElem h⟩

theorem vget_rowOf_in_range {r : List (List Int)} {u : Int} (h0 : 0 ≤ u)
    (hlt : u < (r.length : Int)) : vget r u = some (rowOf r u) := by
  obtain ⟨x, hx⟩ := vget_in_range h0 hlt
  rw [rowOf_of_vget hx, hx]

theorem vset_in_range {α : Type} {v : List α} {i : Int} (x : α) (h0 : 0 ≤ i)
    (hlt : i < (v.length : Int)) : vset v i x = some (v.set i.toNat x) := by
  unfold vset
  rw [if_neg (by omega), if_pos (by omega)]

/-- On rows in range a step of `updateResidualGraph` is defined and does what the spec-level
step says. -/
theorem reverseStep_in_range {r : List (List Int)} {u v : Int}
    (hu : 0 ≤ u ∧ u < (r.length : Int)) (hv : 0 ≤ v ∧ v < (r.length : Int)) :
    reverseStep r u v = some (specReverseArc r u v) ∧ (specReverseArc r u v).length = r.length := by
  unfold reverseStep specReverseArc
  rw [vget_rowOf_in_range hu.1 hu.2]
  simp only
  by_cases hmem : v ∈ rowOf r u
  · rw [if_pos hmem, if_pos hmem, vset_in_range _ hu.1 hu.2]
    simp only
    have hv1 : v < ((r.set u.toNat ((rowOf r u).erase v)).length : Int) := by
      rw [List.length_set]
      exact hv.2
    unfold pushBackAt
    rw [vget_rowOf_in_range hv.1 hv1]
    simp only
    rw [vset_in_range _ hv.1 hv1]
    simp
  · rw [if_neg hmem, if_neg hmem]
    exact ⟨rfl, rfl⟩

/-- On a row in range a step of `updateLevelGraph` is defined and does what the spec-level
step says. -/
theorem eraseStep_in_range {l : List (List Int)} {u : Int} (v : Int)
    (hu : 0 ≤ u ∧ u < (l.length : Int)) :
    eraseStep l u v = some (specEraseArc l u v) ∧ (specEraseArc l u v).length = l.length := by
  unfold eraseStep specEraseArc
  rw [vget_rowOf_in_range hu.1 hu.2]
  simp only
  by_cases hmem : v ∈ rowOf l u
  · rw [if_pos hmem, if_pos hmem, vset_in_range _ hu.1 hu.2]
    simp
  · rw [if_neg hmem, if_neg hmem]
    exact ⟨rfl, rfl⟩

theorem reverse_fold_in_range (steps : List (Int × Int)) : ∀ (r : List (List Int)),
    (∀ p ∈ steps, (0 ≤ p.1 ∧ p.1 < (r.length : Int)) ∧ (0 ≤ p.2 ∧ p.2 < (r.length : Int))) →
    steps.foldlM (fun acc p => reverseStep acc p.1 p.2) r
      = some (steps.foldl (fun acc p => specReverseArc acc p.1 p.2) r) := by
  induction steps with
  | nil =>
    intro r _
    rfl
  | cons p rest ih =>
    intro r h
    have hp := h p (List.mem_cons_self _ _)
    obtain ⟨h1, h2⟩ := reverseStep_in_range hp.1 hp.2
    rw [List.foldlM_cons, List.foldl_cons, h1]
    simp only [Option.bind_eq_bind, Option.some_bind]
    apply ih
    intro q hq
    rw [h2]
    exact h q (List.mem_cons_of_mem _ hq)

theorem erase_fold_in_range (steps : List (Int × Int)) : ∀ (l : List (List Int)),
    (∀ p ∈ steps, 0 ≤ p.1 ∧ p.1 < (l.length : Int)) →
    steps.foldlM (fun acc p => eraseStep acc p.1 p.2) l
      = some (steps.foldl (fun acc p => specEraseArc acc p.1 p.2) l) := by
  induction steps with
  | nil =>
    intro l _
    rfl
  | cons p rest ih =>
    intro l h
    have hp := h p (List.mem_cons_self _ _)
    obtain ⟨h1, h2⟩ := eraseStep_in_range p.2 hp
    rw [List.foldlM_cons, List.foldl_cons, h1]
    simp only [Option.bind_eq_bind, Option.some_bind]
    apply ih
    intro q hq
    rw [h2]
    exact h q (List.mem_cons_of_mem _ hq)

theorem pathSteps_mem_path {path : List Int} {p : Int × Int} (h : p ∈ pathSteps path) :
    p.1 ∈ path ∧ p.2 ∈ path :=
  ⟨List.mem_of_mem_dropLast (mem_pathSteps h).1, List.mem_of_mem_tail (mem_pathSteps h).2⟩

/-- C12: on a path of at least two node ids, all of them indices of the residual graph,
`updateResidualGraph` is defined and its result is the residual graph after the consecutive
pairs `(u, v)` have been handled one after the other as the spec says: when `v` occurs in row
`u`, its first occurrence leaves row `u` and `u` is appended to row `v`, otherwise nothing
changes. Edges, nodes and level graph stay. -/
theorem updateResidualGraph_post (g : Graph) (path : List Int) (hlen : 2 ≤ path.length)
    (hrange : ∀ x ∈ path, 0 ≤ x ∧ x < (g.residualGraph.length : Int)) :
    g.updateResidualGraph path = some { g with
      residualGraph :=
        (pathSteps path).foldl (fun acc p => specReverseArc acc p.1 p.2) g.residualGraph } := by
  unfold Graph.updateResidualGraph
  have hne : path ≠ [] := by
    intro hc
    rw [hc] at hlen
    simp at hlen
  rw [if_neg hne, reverse_fold_in_range (pathSteps path) g.residualGraph
    (fun p hp => ⟨hrange _ (pathSteps_mem_path hp).1, hrange _ (pathSteps_mem_path hp).2⟩)]

/-- C12 (witness): the first augmenting path of the first scenario. The arcs 0 → 1, 1 → 3 and
3 → 5 are turned around; row 5 has no entry 2, so the last pair changes nothing. -/
theorem updateResidualGraph_post_witness :
    scenarioOneResidual.updateResidualGraph [0, 1, 3, 5, 2]
      = some { scenarioOneResidual with residualGraph := [[2], [4, 0], [3], [1], [5], [-1, 3]] } :=
  (updateResidualGraph_post scenarioOneResidual [0, 1, 3, 5, 2] (by decide) (by decide)).trans
    (by decide)

/-- C13: on a path of at least two node ids, all of them indices of the level graph,
`updateLevelGraph` is defined and its result is the level graph after the first occurrence of
`v` has been taken out of row `u` for every consecutive pair `(u, v)` in order; nothing is
added, so the number of rows stays, every row is a sub-list of what it was, and the row of a
node that is not the first component of a pair is unchanged. -/
theorem updateLevelGraph_post (g : Graph) (path : List Int) (hlen : 2 ≤ path.length)
    (hrange : ∀ x ∈ path, 0 ≤ x ∧ x < (g.levelGraph.length : Int)) :
    ∃ l, l = (pathSteps path).foldl (fun acc p => specEraseArc acc p.1 p.2) g.levelGraph ∧
      g.updateLevelGraph path = some { g with levelGraph := l } ∧
      l.length = g.levelGraph.length ∧
      (∀ n : Nat, ∀ row, l[n]? = some row →
        ∃ old, g.levelGraph[n]? = some old ∧ row.Sublist old) ∧
      (∀ n : Nat, (∀ p ∈ pathSteps path, p.1 ≠ (n : Int)) → l[n]? = g.levelGraph[n]?) := by
  have hne : path ≠ [] := by
    intro hc
    rw [hc] at hlen
    simp at hlen
  have hfold := erase_fold_in_range (pathSteps path) g.levelGraph
    (fun p hp => hrange _ (pathSteps_mem_path hp).1)
  obtain ⟨hlength, hsub⟩ := erase_fold (pathSteps path) hfold
  refine ⟨_, rfl, ?_, hlength, ?_, ?_⟩
  · unfold Graph.updateLevelGraph
    rw [if_neg hne, hfold]
  · intro n row hrow
    have hn : n < g.levelGraph.length := by
      rw [← hlength]
      exact (List.getElem?_eq_some_iff.mp hrow).1
    refine ⟨g.levelGraph[n], List.getElem?_eq_getElem hn, ?_⟩
    have h := hsub (n : Int)
    rw [rowOf_natCast, rowOf_natCast, hrow, List.getElem?_eq_getElem hn] at h
    exact h
  · intro n hn
    have hkeep : ∀ (steps : List (Int × Int)) (l : List (List Int)),
        (∀ p ∈ steps, p.1 ≠ (n : Int)) →
        (steps.foldl (fun acc p => specEraseArc acc p.1 p.2) l)[n]? = l[n]? := by
      intro steps
      induction steps with
      | nil =>
        intro l _
        rfl
      | cons p rest ih =>
        intro l h
        rw [List.foldl_cons, ih _ (fun q hq => h q (List.mem_cons_of_mem _ hq))]
        unfold specEraseArc
        split
        · have hp := h p (List.mem_cons_self _ _)
          rw [List.getElem?_set_ne]
          intro hc
          apply hp
          by_cases h0 : 0 ≤ p.1
          · omega
          · exfalso
            rename_i hmem
            rw [rowOf_out_of_range _ _ (Or.inl (by omega))] at hmem
            cases hmem
        · rfl
    exact hkeep _ _ hn

/-- C13 (witness): the first augmenting path of the first scenario on the level graph
`[[1, 2], [3, 4], [3], [5], [5], [-1]]`: rows 0, 1 and 3 lose one entry, the others stay. -/
theorem updateLevelGraph_post_witness :
    ∃ l, l = [[2], [4], [3], [], [5], [-1]] ∧
      ({ scenarioOneResidual with levelGraph := scenarioOneResidual.residualGraph } :
        Graph).updateLevelGraph [0, 1, 3, 5]
        = some { scenarioOneResidual with levelGraph := l } := by
  obtain ⟨l, hl, hrun, -⟩ := updateLevelGraph_post
    { scenarioOneResidual with levelGraph := scenarioOneResidual.residualGraph } [0, 1, 3, 5]
    (by decide) (by decide)
  exact ⟨l, hl.trans (by decide), hrun⟩

/-- C14 (failing input): `main` reads an input file in which the edge B-X is listed twice. In
the first phase, after the augmentation along 0, 1, 3, 5, the inner loop walks along 0, 2 to
node 3, finds its level-graph row empty and calls `removeNodeAndIncomingEdges(3)`. The call
erases one entry 3 from the row `[3, 3]` of node 2, so an edge into the removed node is still
in the level graph, against the `@post` of the method (the node and its incoming edges are
removed). -/
theorem removeNode_leaves_incoming_edge :
    (loadGraph repeatedEdgeNames repeatedEdgePairs).bind Graph.createResidualGraph
      = some { repeatedEdgeLevelOne with
          nodes := [⟨"", 0, 0⟩, ⟨"A", 1, 0⟩, ⟨"B", 2, 0⟩, ⟨"X", 3, 0⟩, ⟨"Y", 4, 0⟩, ⟨"", 5, 0⟩]
          levelGraph := [] } ∧
    ({ repeatedEdgeLevelOne with
        nodes := [⟨"", 0, 0⟩, ⟨"A", 1, 0⟩, ⟨"B", 2, 0⟩, ⟨"X", 3, 0⟩, ⟨"Y", 4, 0⟩, ⟨"", 5, 0⟩]
        levelGraph := [] } : Graph).createLevelGraph
      = Outcome.done (true, repeatedEdgeLevelOne) ∧
    searchRun 4 6 ⟨repeatedEdgeLevelOne, 0, []⟩ []
      = some (⟨repeatedEdgeAtX, 3, [0, 2]⟩, [[0, 1, 3, 5]]) ∧
    repeatedEdgeAtX.getLevelGraphAt 0 = some [2] ∧
    repeatedEdgeAtX.getLevelGraphAt 3 = some [] ∧
    (0 ≤ (3 : Int) ∧ (3 : Int) < (repeatedEdgeAtX.levelGraph.length : Int)) ∧
    repeatedEdgeAtX.removeNodeAndIncomingEdges 3
      = some { repeatedEdgeAtX with levelGraph := [[2], [], [3], [], [5], [-1]] } ∧
    searchStep 4 ⟨repeatedEdgeAtX, 3, [0, 2]⟩
      = some ⟨{ repeatedEdgeAtX with levelGraph := [[2], [], [3], [], [5], [-1]] }, 2, [0]⟩ ∧
    (3 : Int) ∈ rowOf [[2], [], [3], [], [5], [-1]] 2 ∧
    runMatching 20 repeatedEdgeNames repeatedEdgePairs
      = Outcome.done ({ repeatedEdgeAtX with
          nodes := [⟨"", 0, 0⟩, ⟨"A", 1, 3⟩, ⟨"B", 2, 1⟩, ⟨"X", 3, 2⟩, ⟨"Y", 4, 0⟩, ⟨"", 5, 3⟩]
          levelGraph := [[2], [], [3, 3], [1], [5], [-1, 3]] }, 2) := by
  decide

/-- What `removeNodeAndIncomingEdges` does: for a node index inside the level graph it is
defined; afterwards the row of the node is empty, every other row is the former row without
its first occurrence of the node (the other entries in their order), and when no row held the
node more than once no row contains it any more. Edges, nodes and residual graph stay. -/
theorem removeNodeAndIncomingEdges_post (g : Graph) (nodeIndex : Int)
    (hrange : 0 ≤ nodeIndex ∧ nodeIndex < (g.levelGraph.length : Int)) :
    ∃ g1, g.removeNodeAndIncomingEdges nodeIndex = some g1 ∧
      g1.edges = g.edges ∧ g1.nodes = g.nodes ∧ g1.residualGraph = g.residualGraph ∧
      g1.levelGraph.length = g.levelGraph.length ∧
      g1.levelGraph[nodeIndex.toNat]? = some [] ∧
      (∀ n : Nat, (n : Int) ≠ nodeIndex →
        g1.levelGraph[n]? = (g.levelGraph[n]?).map (fun row => row.erase nodeIndex)) ∧
      ((∀ row ∈ g.levelGraph, row.count nodeIndex ≤ 1) →
        ∀ row ∈ g1.levelGraph, nodeIndex ∉ row) := by
  have hlt : nodeIndex.toNat < g.levelGraph.length := by omega
  refine ⟨{ g with levelGraph :=
      (g.levelGraph.set nodeIndex.toNat []).map (fun row => row.erase nodeIndex) }, ?_, rfl, rfl,
    rfl, by simp, ?_, ?_, ?_⟩
  · unfold Graph.removeNodeAndIncomingEdges
    rw [vset_in_range _ hrange.1 hrange.2]
  · simp only [List.getElem?_map]
    rw [List.getElem?_set_self hlt]
    rfl
  · intro n hn
    simp only [List.getElem?_map]
    rw [List.getElem?_set_ne (by omega)]
  · intro hcount row hrow hmem
    simp only [List.mem_map] at hrow
    obtain ⟨old, hold, rfl⟩ := hrow
    have hpos : 0 < (old.erase nodeIndex).count nodeIndex := List.count_pos_iff.mpr hmem
    rw [List.count_erase_self] at hpos
    rcases List.mem_or_eq_of_mem_set hold with h1 | h1
    · have := hcount old h1
      omega
    · rw [h1] at hpos
      simp at hpos

/-- Removing node 3 from the level graph `[[1, 2], [3, 4], [3], [], [5], [-1]]` of the first
scenario, where no row holds a node twice. -/
theorem removeNodeAndIncomingEdges_post_witness :
    ∃ g1, ({ scenarioOneResidual with levelGraph := [[1, 2], [3, 4], [3], [], [5], [-1]] } :
        Graph).removeNodeAndIncomingEdges 3 = some g1 ∧
      g1.levelGraph[(3 : Int).toNat]? = some [] ∧ ∀ row ∈ g1.levelGraph, (3 : Int) ∉ row := by
  obtain ⟨g1, h1, -, -, -, -, h2, -, h3⟩ := removeNodeAndIncomingEdges_post
    { scenarioOneResidual with levelGraph := [[1, 2], [3, 4], [3], [], [5], [-1]] } 3
    (by decide)
  exact ⟨g1, h1, h2, h3 (by decide)⟩

theorem rowsSub_iff (l big : List (List Int)) :
    RowsSub l big ↔ l.length ≤ big.length ∧ ∀ u : Int, (rowOf l u).Sublist (rowOf big u) := by
  constructor
  · intro h
    constructor
    · by_contra hc
      have hlt : big.length < l.length := by omega
      obtain ⟨old, hold, -⟩ := h big.length _ (List.getElem?_eq_getElem hlt)
      have := (List.getElem?_eq_some_iff.mp hold).1
      omega
    · intro u
      by_cases h0 : 0 ≤ u
      · obtain ⟨k, rfl⟩ := Int.eq_ofNat_of_zero_le h0
        rw [rowOf_natCast, rowOf_natCast]
        cases hk : l[k]? with
        | none => simp
        | some row =>
          obtain ⟨old, hold, hsub⟩ := h k row hk
          rw [hold]
          exact hsub
      · rw [rowOf_out_of_range _ _ (Or.inl (by omega))]
        exact List.nil_sublist _
  · rintro ⟨hlen, hsub⟩ n row hrow
    have hn : n < l.length := (List.getElem?_eq_some_iff.mp hrow).1
    have hn1 : n < big.length := by omega
    refine ⟨big[n], List.getElem?_eq_getElem hn1, ?_⟩
    have := hsub (n : Int)
    rw [rowOf_natCast, rowOf_natCast, hrow, List.getElem?_eq_getElem hn1] at this
    exact this

/-- The inner loop of `createLevelGraph` only erases entries of the level graph. -/
theorem scanAdjacent_shrink (u Lu : Int) : ∀ (r i : Nat) (s s1 : BfsState),
    scanAdjacent Lu u r i s = some s1 →
    s1.levelGraph.length = s.levelGraph.length ∧
      ∀ w, (rowOf s1.levelGraph w).Sublist (rowOf s.levelGraph w) := by
  intro r
  induction r with
  | zero =>
    intro i s s1 h
    rw [scanAdjacent] at h
    cases h
    exact ⟨rfl, fun w => List.Sublist.refl _⟩
  | succ r ih =>
    intro i s s1 h
    rw [scanAdjacent] at h
    cases hrow : vget s.levelGraph u with
    | none => rw [hrow] at h; cases h
    | some row =>
      rw [hrow] at h
      simp only at h
      cases hadj : row[i]? with
      | none => rw [hadj] at h; cases h
      | some adj =>
        rw [hadj] at h
        simp only at h
        by_cases hsink : adj = SINK_NODE_INDEX
        · rw [if_pos hsink] at h
          cases h
          exact ⟨rfl, fun w => List.Sublist.refl _⟩
        · rw [if_neg hsink] at h
          cases hvis : vget s.visited adj with
          | none => rw [hvis] at h; cases h
          | some b =>
            rw [hvis] at h
            cases b with
            | false =>
              simp only at h
              cases hv1 : vset s.visited adj true with
              | none => rw [hv1] at h; cases h
              | some visited1 =>
                rw [hv1] at h
                simp only at h
                cases hset : setLevelAt s.nodes adj (Lu + 1) with
                | none => rw [hset] at h; cases h
                | some nodes1 =>
                  rw [hset] at h
                  simp only at h
                  cases hnd : vget nodes1 adj with
                  | none => rw [hnd] at h; cases h
                  | some nd =>
                    rw [hnd] at h
                    simp only at h
                    exact ih (i + 1)
                      { s with visited := visited1, nodes := nodes1, nodeQueue := s.nodeQueue ++ [nd] }
                      s1 h
            | true =>
              simp only at h
              cases hnd : vget s.nodes adj with
              | none => rw [hnd] at h; cases h
              | some nd =>
                rw [hnd] at h
                simp only at h
                by_cases hlt : nd.level < Lu + 1
                · rw [if_pos hlt] at h
                  cases hl1 : vset s.levelGraph u (row.eraseIdx i) with
                  | none => rw [hl1] at h; cases h
                  | some levelGraph1 =>
                    rw [hl1] at h
                    simp only at h
                    obtain ⟨h1, h2⟩ := ih (i + 1) { s with levelGraph := levelGraph1 } s1 h
                    refine ⟨h1.trans (vset_length hl1), ?_⟩
                    intro w
                    refine (h2 w).trans ?_
                    by_cases hw : w = u
                    · subst hw
                      show (rowOf levelGraph1 w).Sublist (rowOf s.levelGraph w)
                      rw [rowOf_vset_self hl1, rowOf_of_vget hrow]
                      exact List.eraseIdx_sublist _ _
                    · show (rowOf levelGraph1 w).Sublist (rowOf s.levelGraph w)
                      rw [rowOf_vset_ne hl1 hw]
                · rw [if_neg hlt] at h
                  exact ih (i + 1) _ s1 h

/-- The `while` loop of `createLevelGraph` only erases entries of the level graph. -/
theorem bfsLoop_shrink : ∀ (fuel : Nat) (s s1 : BfsState), bfsLoop fuel s = Outcome.done s1 →
    s1.levelGraph.length = s.levelGraph.length ∧
      ∀ w, (rowOf s1.levelGraph w).Sublist (rowOf s.levelGraph w) := by
  intro fuel
  induction fuel with
  | zero =>
    intro s s1 h
    rw [bfsLoop] at h
    cases hq : s.nodeQueue with
    | nil =>
      rw [hq] at h
      cases h
      exact ⟨rfl, fun w => List.Sublist.refl _⟩
    | cons q rest =>
      rw [hq] at h
      cases h
  | succ fuel ih =>
    intro s s1 h
    rw [bfsLoop] at h
    cases hq : s.nodeQueue with
    | nil =>
      rw [hq] at h
      cases h
      exact ⟨rfl, fun w => List.Sublist.refl _⟩
    | cons q rest =>
      rw [hq] at h
      simp only at h
      cases hv : bfsVisit q rest s with
      | none => rw [hv] at h; cases h
      | some s2 =>
        rw [hv] at h
        simp only at h
        obtain ⟨sa, visited1, hs, -, rfl⟩ := bfsVisit_some hv
        obtain ⟨h1, h2⟩ := scanAdjacent_shrink _ _ _ _ _ _ hs
        obtain ⟨h3, h4⟩ := ih _ s1 h
        exact ⟨h3.trans h1, fun w => (h4 w).trans (h2 w)⟩

/-- After `createLevelGraph` on a graph with at least one node, the level graph has the rows of
the residual graph with some entries erased. -/
theorem createLevelGraph_shrink {g g1 : Graph} {b : Bool} (hn : g.nodes ≠ [])
    (h : g.createLevelGraph = Outcome.done (b, g1)) :
    g1.levelGraph.length = g.residualGraph.length ∧
      ∀ w, (rowOf g1.levelGraph w).Sublist (rowOf g.residualGraph w) := by
  unfold Graph.createLevelGraph at h
  cases hnodes : g.nodes with
  | nil => exact absurd hnodes hn
  | cons first tl =>
    rw [hnodes] at h
    simp only at h
    split at h
    · rename_i s hb
      cases h
      exact bfsLoop_shrink _ _ _ hb
    · cases h
    · cases h

/-- C19: (1) right after `createLevelGraph` every row of the level graph is a sub-list of the
residual row of the same index; (2) this still holds after a complete augmentation step
(`augmentFlow`, `updateResidualGraph`, `updateLevelGraph` on the same path) and (3) after
`removeNodeAndIncomingEdges`; (4) `updateLevelGraph` and (5) `removeNodeAndIncomingEdges` leave
every level-graph row a sub-list of what it was. In (1) the graph is one whose level graph is
empty as long as it has no node, as it is for every `Graph` object built by the methods. -/
theorem levelGraph_shrinking_subgraph (g g1 : Graph) :
    (∀ b, (g.nodes = [] → g.levelGraph = []) → g.createLevelGraph = Outcome.done (b, g1) →
      RowsSub g1.levelGraph g1.residualGraph) ∧
    (∀ path ga gb, RowsSub g.levelGraph g.residualGraph →
      g.augmentFlow path = some ga → ga.updateResidualGraph path = some gb →
      gb.updateLevelGraph path = some g1 → RowsSub g1.levelGraph g1.residualGraph) ∧
    (∀ nodeIndex, RowsSub g.levelGraph g.residualGraph →
      g.removeNodeAndIncomingEdges nodeIndex = some g1 →
      RowsSub g1.levelGraph g1.residualGraph) ∧
    (∀ path, g.updateLevelGraph path = some g1 → RowsSub g1.levelGraph g.levelGraph) ∧
    (∀ nodeIndex, g.removeNodeAndIncomingEdges nodeIndex = some g1 →
      RowsSub g1.levelGraph g.levelGraph) := by
  have hremove : ∀ nodeIndex, g.removeNodeAndIncomingEdges nodeIndex = some g1 →
      RowsSub g1.levelGraph g.levelGraph := by
    intro c h
    obtain ⟨-, -, -, hlen, hc, hother⟩ := removeNode_rows h
    rw [rowsSub_iff]
    refine ⟨le_of_eq hlen, ?_⟩
    intro u
    by_cases hu : u = c
    · rw [hu, hc]
      exact List.nil_sublist _
    · rw [hother u hu]
      exact List.erase_sublist _ _
  have hupdate : ∀ path, g.updateLevelGraph path = some g1 →
      RowsSub g1.levelGraph g.levelGraph := by
    intro path h
    obtain ⟨l, hl, rfl⟩ := updateLevelGraph_some h
    obtain ⟨hlen, hsub⟩ := erase_fold _ hl
    rw [rowsSub_iff]
    exact ⟨le_of_eq hlen, hsub⟩
  refine ⟨?_, ?_, ?_, hupdate, hremove⟩
  · intro b hempty h
    by_cases hn : g.nodes = []
    · rw [createLevelGraph_nil g hn] at h
      cases h
      rw [hempty hn]
      intro n row hrow
      simp at hrow
    · obtain ⟨hlen, hsub⟩ := createLevelGraph_shrink hn h
      rw [rowsSub_iff, (createLevelGraph_frame h).2]
      exact ⟨le_of_eq hlen, hsub⟩
  · intro path ga gb hsub ha hb hc
    obtain ⟨-, rfl⟩ := augmentFlow_some ha
    obtain ⟨r, hr, rfl⟩ := updateResidualGraph_some hb
    obtain ⟨l, hl, rfl⟩ := updateLevelGraph_some hc
    rw [rowsSub_iff] at hsub ⊢
    refine ⟨?_, sub_fold _ hsub.2 hr hl⟩
    show l.length ≤ r.length
    rw [(erase_fold _ hl).1, (reverse_fold _ hr).1]
    exact hsub.1
  · intro c hsub h
    have h1 := hremove c h
    rw [rowsSub_iff] at hsub h1 ⊢
    rw [(removeNode_rows h).2.2.1]
    exact ⟨h1.1.trans hsub.1, fun u => (h1.2 u).trans (hsub.2 u)⟩

/-- C19 (witness): the first level graph of the first scenario, in which every row is the
whole residual row. -/
theorem levelGraph_shrinking_subgraph_witness :
    scenarioOneResidual.createLevelGraph = Outcome.done (true,
      { scenarioOneResidual with
        nodes := [⟨"", 0, 0⟩, ⟨"A", 1, 1⟩, ⟨"B", 2, 1⟩, ⟨"X", 3, 2⟩, ⟨"Y", 4, 2⟩, ⟨"", 5, 3⟩]
        levelGraph := [[1, 2], [3, 4], [3], [5], [5], [-1]] }) ∧
    RowsSub [[1, 2], [3, 4], [3], [5], [5], [-1]] scenarioOneResidual.residualGraph :=
  ⟨by decide,
    (levelGraph_shrinking_subgraph scenarioOneResidual
      { scenarioOneResidual with
        nodes := [⟨"", 0, 0⟩, ⟨"A", 1, 1⟩, ⟨"B", 2, 1⟩, ⟨"X", 3, 2⟩, ⟨"Y", 4, 2⟩, ⟨"", 5, 3⟩]
        levelGraph := [[1, 2], [3, 4], [3], [5], [5], [-1]] }).1 true (by decide) (by decide)⟩

theorem augmentAlong_append (pre post : List (Int × Int)) (e : Edge) :
    augmentAlong (pre ++ post) e = augmentAlong post (augmentAlong pre e) := by
  unfold augmentAlong
  rw [List.foldl_append]

theorem augmentAlong_cons (p : Int × Int) (post : List (Int × Int)) (e : Edge) :
    augmentAlong (p :: post) e = augmentAlong post (augmentEdge p.1 p.2 e) := rfl

/-- A flag that is set stays set as long as no pair runs against the edge. -/
theorem augmentAlong_keep_true (steps : List (Int × Int)) : ∀ (e : Edge), e.flow = true →
    (e.destination, e.source) ∉ steps → (augmentAlong steps e).flow = true := by
  induction steps with
  | nil =>
    intro e h _
    exact h
  | cons q rest ih =>
    intro e h hno
    rw [augmentAlong_cons]
    have hq : q ≠ (e.destination, e.source) := fun hc => hno (hc ▸ List.mem_cons_self _ _)
    have hrest : (e.destination, e.source) ∉ rest := fun hc => hno (List.mem_cons_of_mem _ hc)
    have hend := augmentEdge_endpoints q.1 q.2 e
    apply ih
    · unfold augmentEdge
      split
      · rfl
      · split
        · rename_i h2
          exact absurd (Prod.ext h2.2.symm h2.1.symm) hq
        · exact h
    · rw [hend.1, hend.2]
      exact hrest

/-- A flag that is clear stays clear as long as no pair runs along the edge. -/
theorem augmentAlong_keep_false (steps : List (Int × Int)) : ∀ (e : Edge), e.flow = false →
    (e.source, e.destination) ∉ steps → (augmentAlong steps e).flow = false := by
  induction steps with
  | nil =>
    intro e h _
    exact h
  | cons q rest ih =>
    intro e h hno
    rw [augmentAlong_cons]
    have hq : q ≠ (e.source, e.destination) := fun hc => hno (hc ▸ List.mem_cons_self _ _)
    have hrest : (e.source, e.destination) ∉ rest := fun hc => hno (List.mem_cons_of_mem _ hc)
    have hend := augmentEdge_endpoints q.1 q.2 e
    apply ih
    · unfold augmentEdge
      split
      · rename_i h1
        exact absurd (Prod.ext h1.1.symm h1.2.symm) hq
      · split
        · rfl
        · exact h
    · rw [hend.1, hend.2]
      exact hrest

/-- A pair along the edge sets the flag, and only a later pair against the edge clears it. -/
theorem augmentAlong_after_forward (pre post : List (Int × Int)) (e : Edge) :
    (augmentAlong (pre ++ (e.source, e.destination) :: post) e).flow = true ∨
      (e.destination, e.source) ∈ post := by
  by_cases hmem : (e.destination, e.source) ∈ post
  · exact Or.inr hmem
  · left
    rw [augmentAlong_append, augmentAlong_cons]
    have hend := augmentAlong_endpoints pre e
    have hend2 := augmentEdge_endpoints e.source e.destination (augmentAlong pre e)
    apply augmentAlong_keep_true
    · unfold augmentEdge
      rw [if_pos ⟨hend.1, hend.2⟩]
    · rw [hend2.1, hend2.2, hend.1, hend.2]
      exact hmem

/-- A pair against an edge that is not a loop clears the flag, and only a later pair along
the edge sets it. -/
theorem augmentAlong_after_backward (pre post : List (Int × Int)) (e : Edge)
    (hloop : e.source ≠ e.destination) :
    (augmentAlong (pre ++ (e.destination, e.source) :: post) e).flow = false ∨
      (e.source, e.destination) ∈ post := by
  by_cases hmem : (e.source, e.destination) ∈ post
  · exact Or.inr hmem
  · left
    rw [augmentAlong_append, augmentAlong_cons]
    have hend := augmentAlong_endpoints pre e
    have hend2 := augmentEdge_endpoints e.destination e.source (augmentAlong pre e)
    apply augmentAlong_keep_false
    · unfold augmentEdge
      rw [if_neg (by rw [hend.1]; exact fun hc => hloop hc.1),
        if_pos ⟨hend.1, hend.2⟩]
    · rw [hend2.1, hend2.2, hend.1, hend.2]
      exact hmem

/-- C11 (counterexample): on the path 3, 3 the only pair is (3, 3); the edge record 3 → 3
equals that pair turned around and no pair follows, yet `augmentFlow` sets its flag instead
of clearing it, because the test for the forward direction comes first. -/
theorem augmentFlow_loop_pair_sets_flag :
    (⟨[⟨3, 3, false⟩], [], [], []⟩ : Graph).augmentFlow [3, 3]
      = some ⟨[⟨3, 3, true⟩], [], [], []⟩ ∧
    ¬ (∀ e ∈ [(⟨3, 3, false⟩ : Edge)], ∀ pre post : List (Int × Int),
        pathSteps [3, 3] = pre ++ (e.destination, e.source) :: post →
        (augmentAlong (pathSteps [3, 3]) e).flow = false ∨ (e.source, e.destination) ∈ post) := by
  refine ⟨by decide, ?_⟩
  intro h
  have h1 := h ⟨3, 3, false⟩ (List.mem_singleton.mpr rfl) [] [] rfl
  revert h1
  decide

/-- C11 (amended): for a path of at least two nodes `augmentFlow` maps every edge record to a
record with the same endpoints, and for every record `e`: a pair equal to (source,
destination) of `e` leaves the flag set unless a later pair is (destination, source); a pair
equal to (destination, source) of an `e` that is not a loop leaves the flag clear unless a
later pair is (source, destination); when no pair matches `e` in either direction, `e` is
unchanged. When the pairs are distinct as unordered pairs, records matched along a pair are
set, records that are not loops and are matched against a pair are clear. -/
theorem augmentFlow_post (g : Graph) (path : List Int) (hlen : 2 ≤ path.length) :
    g.augmentFlow path = some { g with edges := g.edges.map (augmentAlong (pathSteps path)) } ∧
    ∀ e : Edge,
      (augmentAlong (pathSteps path) e).source = e.source ∧
      (augmentAlong (pathSteps path) e).destination = e.destination ∧
      (∀ pre post, pathSteps path = pre ++ (e.source, e.destination) :: post →
        (augmentAlong (pathSteps path) e).flow = true ∨ (e.destination, e.source) ∈ post) ∧
      (∀ pre post, pathSteps path = pre ++ (e.destination, e.source) :: post →
        e.source ≠ e.destination →
        (augmentAlong (pathSteps path) e).flow = false ∨ (e.source, e.destination) ∈ post) ∧
      ((∀ p ∈ pathSteps path, p ≠ (e.source, e.destination) ∧ p ≠ (e.destination, e.source)) →
        augmentAlong (pathSteps path) e = e) ∧
      ((pathSteps path).Pairwise (fun p q => p ≠ q ∧ p ≠ (q.2, q.1)) →
        ((e.source, e.destination) ∈ pathSteps path →
          (augmentAlong (pathSteps path) e).flow = true) ∧
        ((e.destination, e.source) ∈ pathSteps path → e.source ≠ e.destination →
          (augmentAlong (pathSteps path) e).flow = false)) := by
  have hne : path ≠ [] := by
    intro hc
    rw [hc] at hlen
    simp at hlen
  constructor
  · unfold Graph.augmentFlow
    rw [if_neg hne, augment_fold_map]
  · intro e
    refine ⟨(augmentAlong_endpoints _ e).1, (augmentAlong_endpoints _ e).2, ?_, ?_,
      augmentAlong_untouched _ e, ?_⟩
    · intro pre post hsplit
      rw [hsplit]
      exact augmentAlong_after_forward pre post e
    · intro pre post hsplit hloop
      rw [hsplit]
      exact augmentAlong_after_backward pre post e hloop
    · intro hpair
      constructor
      · intro hmem
        obtain ⟨pre, post, hsplit⟩ := List.append_of_mem hmem
        rw [hsplit] at hpair ⊢
        rcases augmentAlong_after_forward pre post e with h | h
        · exact h
        · exfalso
          have h1 := (List.pairwise_cons.mp (List.pairwise_append.mp hpair).2.1).1 _ h
          exact h1.2 rfl
      · intro hmem hloop
        obtain ⟨pre, post, hsplit⟩ := List.append_of_mem hmem
        rw [hsplit] at hpair ⊢
        rcases augmentAlong_after_backward pre post e hloop with h | h
        · exact h
        · exfalso
          have h1 := (List.pairwise_cons.mp (List.pairwise_append.mp hpair).2.1).1 _ h
          exact h1.2 rfl

/-- C11 (witness): the second augmenting path of the first scenario, 0, 2, 3, 1, 4, 5: the
records 2 → 3 and 1 → 4 are set, the record 1 → 3 is cleared by the pair (3, 1). -/
theorem augmentFlow_post_witness :
    ({ scenarioOneResidual with
        edges := [⟨1, 3, true⟩, ⟨1, 4, false⟩, ⟨2, 3, false⟩] } : Graph).augmentFlow
        [0, 2, 3, 1, 4, 5]
      = some { scenarioOneResidual with
          edges := [⟨1, 3, false⟩, ⟨1, 4, true⟩, ⟨2, 3, true⟩] } :=
  (augmentFlow_post { scenarioOneResidual with
      edges := [⟨1, 3, true⟩, ⟨1, 4, false⟩, ⟨2, 3, false⟩] } [0, 2, 3, 1, 4, 5]
    (by decide)).1.trans (by decide)

/-- Every state at which a phase of a run on a valid input starts has the shape of a residual
graph that `createLevelGraph` relies on. -/
theorem phaseStart_resInv {names : List String} {edgePairs : List (Int × Int)} {g : Graph}
    (hvalid : ValidInput names.length edgePairs) (h : PhaseStart names edgePairs g) :
    ResInv ((names.length : Int) + 1) g := by
  have hrange := validInput_range hvalid
  induction h with
  | first g0 g1 hload hres =>
    rw [loadGraph_valid names edgePairs hrange] at hload
    cases hload
    refine (createResidualGraph_resInv names _ _ ?_ hres).1
    intro e he
    obtain ⟨p, hp, rfl⟩ := List.mem_map.mp he
    exact hrange p hp
  | next g g1 g2 source fuel _ hlevel hsource hsearch ih =>
    obtain ⟨-, -, -, hri1, hli1, -⟩ := createLevelGraph_spec ih hlevel
    obtain ⟨source0, hsrc, hidx⟩ := getNode_zero hri1
    rw [hsrc] at hsource
    cases hsource
    rw [hidx] at hsearch
    obtain ⟨V, hV0, hVr, hVl⟩ := hli1.layered
    have hinv : SearchInv ((names.length : Int) + 1) V ⟨_, 0, []⟩ :=
      { res := hri1
        sizes := hli1.sizes
        sub := hli1.sub
        source := hV0
        range := hVr
        layered := hVl
        chain := List.chain'_singleton _
        increasing := List.pairwise_singleton _ _
        inV := fun x hx => by
          have : x = 0 := by simpa using hx
          rw [this]
          exact hV0
        not_sink := fun x hx => by cases hx
        head := rfl }
    exact (searchLoop_spec rfl _ _ _ hinv hsearch).1

/-- C18 (counterexample): in the second phase of the first scenario `createLevelGraph` returns
true and leaves the entry 3 in the row of the sink (node 5), which it never prunes: the level
of node 3 is 2, the level of the sink is 5. In the third phase the source row is empty, node 1
is not reached, and its row keeps the entry 3 although the level of node 1 is 3. -/
theorem unpruned_rows_break_monotone_levels :
    ValidInput ["A", "B", "X", "Y"].length [(1, 3), (1, 4), (2, 3)] ∧
    PhaseStart ["A", "B", "X", "Y"] [(1, 3), (1, 4), (2, 3)] scenarioOnePhaseTwo ∧
    scenarioOnePhaseTwo.createLevelGraph = Outcome.done (true, scenarioOneLevelTwo) ∧
    (3 : Int) ∈ rowOf scenarioOneLevelTwo.levelGraph 5 ∧ (3 : Int) ≠ SINK_NODE_INDEX ∧
    levelOf scenarioOneLevelTwo.nodes 3 = 2 ∧ levelOf scenarioOneLevelTwo.nodes 5 = 5 ∧
    levelOf scenarioOneLevelTwo.nodes 3 ≠ levelOf scenarioOneLevelTwo.nodes 5 + 1 ∧
    PhaseStart ["A", "B", "X", "Y"] [(1, 3), (1, 4), (2, 3)]
      { scenarioOneFinal with levelGraph := [[], [], [], [], [], [-1, 3]] } ∧
    ({ scenarioOneFinal with levelGraph := [[], [], [], [], [], [-1, 3]] } :
      Graph).createLevelGraph = Outcome.done (false, scenarioOneFinal) ∧
    (3 : Int) ∈ rowOf scenarioOneFinal.levelGraph 1 ∧
    levelOf scenarioOneFinal.nodes 3 ≠ levelOf scenarioOneFinal.nodes 1 + 1 := by
  have h0 : PhaseStart ["A", "B", "X", "Y"] [(1, 3), (1, 4), (2, 3)] scenarioOneResidual :=
    PhaseStart.first scenarioOneLoaded scenarioOneResidual (by decide) (by decide)
  have h1 : PhaseStart ["A", "B", "X", "Y"] [(1, 3), (1, 4), (2, 3)] scenarioOnePhaseTwo :=
    PhaseStart.next scenarioOneResidual
      { scenarioOneResidual with
        nodes := [⟨"", 0, 0⟩, ⟨"A", 1, 1⟩, ⟨"B", 2, 1⟩, ⟨"X", 3, 2⟩, ⟨"Y", 4, 2⟩, ⟨"", 5, 3⟩]
        levelGraph := [[1, 2], [3, 4], [3], [5], [5], [-1]] }
      scenarioOnePhaseTwo ⟨"", 0, 0⟩ 20 h0 (by decide) (by decide) (by decide)
  have h2 : PhaseStart ["A", "B", "X", "Y"] [(1, 3), (1, 4), (2, 3)]
      { scenarioOneFinal with levelGraph := [[], [], [], [], [], [-1, 3]] } :=
    PhaseStart.next scenarioOnePhaseTwo scenarioOneLevelTwo _ ⟨"", 0, 0⟩ 20 h1 (by decide)
      (by decide) (by decide)
  exact ⟨by decide, h1, by decide, by decide, by decide, by decide, by decide, by decide, h2,
    by decide, by decide, by decide⟩

/-- C18 (amended): in every phase of a run on a valid bipartite input, right after
`createLevelGraph` returns, every entry `v` in the level-graph row of a node `u` other than
the sink that can be reached from the source along level-graph arcs without passing through
the sink has `level(v) = level(u) + 1`, with the levels stored in the node records at that moment. -/
theorem monotone_levels (names : List String) (edgePairs : List (Int × Int)) (g g1 : Graph)
    (b : Bool) (hvalid : ValidInput names.length edgePairs)
    (hphase : PhaseStart names edgePairs g)
    (hlevel : g.createLevelGraph = Outcome.done (b, g1)) (u v : Int)
    (hreach : ReachedBefore g1.levelGraph ((names.length : Int) + 1) u)
    (hu : u ≠ (names.length : Int) + 1) (hv : v ∈ rowOf g1.levelGraph u) :
    levelOf g1.nodes v = levelOf g1.nodes u + 1 := by
  have hres := phaseStart_resInv hvalid hphase
  obtain ⟨-, -, -, -, hli1, -⟩ := createLevelGraph_spec hres hlevel
  obtain ⟨V, hV0, -, hVl⟩ := hli1.layered
  have hV : ∀ x, ReachedBefore g1.levelGraph ((names.length : Int) + 1) x → V x := by
    intro x hx
    induction hx with
    | source => exact hV0
    | step _ hne hmem ih => exact (hVl _ ih hne _ hmem).1
  exact (hVl u (hV u hreach) hu v hv).2

/-- C18 (witness): in the second level graph of the first scenario node 3 is reached by
0 → 2 → 3, its row holds node 1, and the levels are 2 and 3. -/
theorem monotone_levels_witness :
    ReachedBefore scenarioOneLevelTwo.levelGraph 5 3 ∧
    (1 : Int) ∈ rowOf scenarioOneLevelTwo.levelGraph 3 ∧
    levelOf scenarioOneLevelTwo.nodes 1 = levelOf scenarioOneLevelTwo.nodes 3 + 1 := by
  have h0 : PhaseStart ["A", "B", "X", "Y"] [(1, 3), (1, 4), (2, 3)] scenarioOneResidual :=
    PhaseStart.first scenarioOneLoaded scenarioOneResidual (by decide) (by decide)
  have h1 : PhaseStart ["A", "B", "X", "Y"] [(1, 3), (1, 4), (2, 3)] scenarioOnePhaseTwo :=
    PhaseStart.next scenarioOneResidual
      { scenarioOneResidual with
        nodes := [⟨"", 0, 0⟩, ⟨"A", 1, 1⟩, ⟨"B", 2, 1⟩, ⟨"X", 3, 2⟩, ⟨"Y", 4, 2⟩, ⟨"", 5, 3⟩]
        levelGraph := [[1, 2], [3, 4], [3], [5], [5], [-1]] }
      scenarioOnePhaseTwo ⟨"", 0, 0⟩ 20 h0 (by decide) (by decide) (by decide)
  have hr : ReachedBefore scenarioOneLevelTwo.levelGraph 5 3 :=
    ReachedBefore.step (u := 2)
      (ReachedBefore.step (u := 0) ReachedBefore.source (by decide) (by decide))
      (by decide) (by decide)
  exact ⟨hr, by decide,
    monotone_levels ["A", "B", "X", "Y"] [(1, 3), (1, 4), (2, 3)] scenarioOnePhaseTwo
      scenarioOneLevelTwo true (by decide) h1 (by decide) 3 1 hr (by decide) (by decide)⟩

/-- C21: `createLevelGraph`, `augmentFlow`, `updateLevelGraph` and
`removeNodeAndIncomingEdges` return the residual graph they were given, so among the
operations used after `createResidualGraph` only `updateResidualGraph` can modify it. -/
theorem residualGraph_frame (g g1 : Graph) :
    (∀ b, g.createLevelGraph = Outcome.done (b, g1) → g1.residualGraph = g.residualGraph) ∧
    (∀ path, g.augmentFlow path = some g1 → g1.residualGraph = g.residualGraph) ∧
    (∀ path, g.updateLevelGraph path = some g1 → g1.residualGraph = g.residualGraph) ∧
    (∀ nodeIndex, g.removeNodeAndIncomingEdges nodeIndex = some g1 →
      g1.residualGraph = g.residualGraph) := by
  refine ⟨fun b h => (createLevelGraph_frame h).2, ?_, ?_, fun c h => (removeNode_rows h).2.2.1⟩
  · intro path h
    obtain ⟨-, rfl⟩ := augmentFlow_some h
    rfl
  · intro path h
    obtain ⟨l, -, rfl⟩ := updateLevelGraph_some h
    rfl

/-- C21 (witness): the second `createLevelGraph` of the first scenario keeps the residual
graph, while `updateResidualGraph` on the path 0, 2, 3, 1, 4, 5 changes it. -/
theorem residualGraph_frame_witness :
    scenarioOneLevelTwo.residualGraph = scenarioOnePhaseTwo.residualGraph ∧
    (∃ g1, scenarioOneLevelTwo.updateResidualGraph [0, 2, 3, 1, 4, 5] = some g1 ∧
      g1.residualGraph ≠ scenarioOneLevelTwo.residualGraph) :=
  ⟨(residualGraph_frame scenarioOnePhaseTwo scenarioOneLevelTwo).1 true (by decide),
    ⟨{ scenarioOneLevelTwo with residualGraph := [[], [0, 3], [0], [2], [1], [-1, 3, 4]] },
      by decide, by decide⟩⟩

/-- On a non-empty node list `getNode` always returns a node. -/
theorem getNode_some (g : Graph) (hn : g.nodes ≠ []) (i : Int) : ∃ nd, g.getNode i = some nd := by
  obtain ⟨first, rest, hfr⟩ := List.exists_cons_of_ne_nil hn
  unfold Graph.getNode
  rw [hfr]
  by_cases hin : 0 ≤ i ∧ i < (((first :: rest).length : Nat) : Int)
  · obtain ⟨nd, -, h⟩ := (fallback_read first rest i).1 hin
    exact ⟨nd, h⟩
  · exact ⟨first, (fallback_read first rest i).2 hin⟩

/-- The printing loop from any accumulator: the pairs of `matchedPairs` are appended and each
of them raises the counter by one. -/
theorem printEdge_fold (g : Graph) (hn : g.nodes ≠ []) : ∀ (es : List Edge)
    (acc : List (String × String) × Nat),
    ∃ pairs, (es.filter (fun e => e.flow)).mapM
        (fun e =>
          match g.getNode e.source, g.getNode e.destination with
          | some a, some b => some (a.name, b.name)
          | _, _ => none) = some pairs ∧
      pairs.length = (es.filter (fun e => e.flow)).length ∧
      es.foldlM (printEdge g) acc = some (acc.1 ++ pairs, acc.2 + pairs.length) := by
  intro es
  induction es with
  | nil =>
    intro acc
    exact ⟨[], rfl, rfl, by simp⟩
  | cons e rest ih =>
    intro acc
    by_cases hf : e.flow = true
    · obtain ⟨a, ha⟩ := getNode_some g hn e.source
      obtain ⟨b, hb⟩ := getNode_some g hn e.destination
      obtain ⟨pairs, h1, h2, h3⟩ := ih (acc.1 ++ [(a.name, b.name)], acc.2 + 1)
      refine ⟨(a.name, b.name) :: pairs, ?_, ?_, ?_⟩
      · rw [List.filter_cons_of_pos (by simpa using hf), List.mapM_cons, ha, hb]
        simp only [Option.pure_def, Option.bind_eq_bind, Option.some_bind]
        rw [h1]
        rfl
      · rw [List.filter_cons_of_pos (by simpa using hf)]
        simp [h2]
      · rw [List.foldlM_cons]
        unfold printEdge
        rw [if_pos hf, ha, hb]
        simp only [Option.bind_eq_bind, Option.some_bind]
        have h4 := h3
        unfold printEdge at h4
        rw [h4]
        simp only [List.append_assoc, List.singleton_append, List.length_cons]
        congr 2
        omega
    · obtain ⟨pairs, h1, h2, h3⟩ := ih acc
      refine ⟨pairs, ?_, ?_, ?_⟩
      · rw [List.filter_cons_of_neg (by simpa using hf)]
        exact h1
      · rw [List.filter_cons_of_neg (by simpa using hf)]
        exact h2
      · rw [List.foldlM_cons]
        have h5 : printEdge g acc e = some acc := by
          unfold printEdge
          rw [if_neg hf]
        rw [h5]
        simp only [Option.bind_eq_bind, Option.some_bind]
        exact h3

/-- C22: on a graph with at least one node the output step is defined, returns the graph it
was given, prints the pairs of `matchedPairs` and counts as many matches as there are edges
with the flow flag set; run again on the graph it returned it gives the same pairs and the
same count. -/
theorem output_step_idempotent (g : Graph) (hn : g.nodes ≠ []) :
    ∃ pairs count, outputStep g = some (g, pairs, count) ∧
      (outputStep g).bind (fun r => outputStep r.1) = some (g, pairs, count) ∧
      matchedPairs g = some pairs ∧
      count = (g.edges.filter (fun e => e.flow)).length ∧ count = matchCount g ∧
      pairs.length = count := by
  obtain ⟨pairs, h1, h2, h3⟩ := printEdge_fold g hn g.edges ([], 0)
  have hout : outputStep g = some (g, pairs, pairs.length) := by
    unfold outputStep
    rw [h3]
    simp
  refine ⟨pairs, pairs.length, hout, ?_, h1, h2, h2, rfl⟩
  rw [hout]
  exact hout

/-- C22 (witness): the final graph of the first scenario prints A / Y and B / X and counts 2,
and does so again when asked a second time. -/
theorem output_step_idempotent_witness :
    outputStep scenarioOneFinal = some (scenarioOneFinal, [("A", "Y"), ("B", "X")], 2) ∧
    (outputStep scenarioOneFinal).bind (fun r => outputStep r.1)
      = some (scenarioOneFinal, [("A", "Y"), ("B", "X")], 2) := by
  obtain ⟨pairs, count, h1, h2, -⟩ := output_step_idempotent scenarioOneFinal (by decide)
  have h3 : outputStep scenarioOneFinal = some (scenarioOneFinal, [("A", "Y"), ("B", "X")], 2) := by
    decide
  rw [h3] at h1
  cases h1
  exact ⟨h3, h2⟩

/-- Every state of the breadth-first loop on a well-shaped residual graph is the initial state
or satisfies the loop invariant. -/
theorem bfsReach_inv {t : Int} {g : Graph} (hres : ResInv t g) {s : BfsState}
    (h : BfsReach g s) :
    (∃ first rest, g.nodes = first :: rest ∧
      s = { nodes := g.nodes, levelGraph := g.residualGraph,
            visited := List.replicate g.nodes.length false, nodeQueue := [first],
            hasPathToSink := false }) ∨
    BfsInv g.residualGraph t g.nodes.length s := by
  obtain ⟨tail, hS3⟩ := hres.sink_row
  induction h with
  | start first rest hn => exact Or.inl ⟨first, rest, hn, rfl⟩
  | visit s s1 q rest _ hq hvisit ih =>
    right
    rcases ih with ⟨first, rest0, hn, rfl⟩ | hinv
    · simp only [List.cons.injEq] at hq
      obtain ⟨rfl, rfl⟩ := hq
      have hfirst : vget g.nodes 0 = some first := by
        rw [hn]
        simp [vget]
      exact bfsVisit_first hres.no_sentinel hres.source_row (ne_of_gt hres.sink_range.1)
        hres.aligned hfirst (not_isVisited_replicate _) (by simp) hvisit
    · by_cases hqt : q.index = t
      · exact (bfsVisit_sink hinv hq hqt hS3 hvisit).1
      · exact bfsVisit_step hres.no_sentinel hinv hq hqt hvisit

/-- The depth facts hold again after the row of `u` has been scanned and `u` marked. -/
theorem depth_after_scan {res : List (List Int)} {t c u Lu : Int} {s s1 : BfsState}
    {visited1 : List Bool} (hext : ScanExt u Lu s s1)
    (hv : vset s1.visited u true = some visited1) (hut : u ≠ t)
    (hsub : ∀ w, (rowOf s.levelGraph w).Sublist (rowOf res w))
    (hsrc : u = 0 ∨ IsVisited s.visited 0) (hu : u = 0 ∨ IsVisited s.visited u)
    (hlu : levelOf s.nodes u = Lu) (hlu1 : levelOf s1.nodes u = Lu)
    (hd : BfsDepth res t c s) : BfsDepth res t c { s1 with visited := visited1 } := by
  have hvis2 : ∀ v, IsVisited s1.visited v → IsVisited visited1 v :=
    fun v h => (isVisited_vset hv v).mpr (Or.inr h)
  have hvis02 : ∀ v, IsVisited s.visited v → IsVisited visited1 v :=
    fun v h => hvis2 v (hext.visited_mono v h)
  have hu2 : IsVisited visited1 u := (isVisited_vset hv u).mpr (Or.inl rfl)
  have hfz : ∀ v, IsVisited s.visited v → levelOf s1.nodes v = levelOf s.nodes v :=
    fun v h => levelOf_congr (hext.nodes_frozen v h)
  have hluc : c ≤ Lu := by
    rcases hu with h | h
    · rw [← hlu, h, hd.source_level]
    · rw [← hlu]
      exact hd.level_ge u h
  refine
    { pruned := ?_
      source_level := ?_
      pred := ?_
      level_ge := ?_ }
  · intro w x hx hnx
    show IsVisited visited1 w ∧ IsVisited visited1 x ∧ levelOf s1.nodes x < levelOf s1.nodes w + 1
    have hnx1 : x ∉ rowOf s1.levelGraph w := hnx
    by_cases hwu : w = u
    · subst hwu
      by_cases hx0 : x ∈ rowOf s.levelGraph w
      · obtain ⟨h1, h2⟩ := hext.row_keep x hx0 hnx1
        refine ⟨hu2, hvis02 x h1, ?_⟩
        rw [hfz x h1, hlu1]
        exact h2
      · obtain ⟨h1, h2, h3⟩ := hd.pruned w x hx hx0
        refine ⟨hu2, hvis02 x h2, ?_⟩
        rw [hfz x h2, hfz w h1]
        exact h3
    · rw [hext.row_other w hwu] at hnx1
      obtain ⟨h1, h2, h3⟩ := hd.pruned w x hx hnx1
      refine ⟨hvis02 w h1, hvis02 x h2, ?_⟩
      rw [hfz x h2, hfz w h1]
      exact h3
  · show levelOf s1.nodes 0 = c
    rcases hsrc with h | h
    · rw [← h, hlu1, ← hlu, h]
      exact hd.source_level
    · rw [hfz 0 h]
      exact hd.source_level
  · intro v hv2
    show v = 0 ∨ ∃ w, IsVisited visited1 w ∧ w ≠ t ∧ v ∈ rowOf res w ∧
      levelOf s1.nodes v = levelOf s1.nodes w + 1
    have hold : IsVisited s.visited v → v = 0 ∨ ∃ w, IsVisited visited1 w ∧ w ≠ t ∧
        v ∈ rowOf res w ∧ levelOf s1.nodes v = levelOf s1.nodes w + 1 := by
      intro h
      rcases hd.pred v h with h0 | ⟨w, hw, hwt, hmem, hl⟩
      · exact Or.inl h0
      · exact Or.inr ⟨w, hvis02 w hw, hwt, hmem, by rw [hfz v h, hfz w hw]; exact hl⟩
    by_cases hv0 : IsVisited s.visited v
    · exact hold hv0
    · rcases (isVisited_vset hv v).mp hv2 with h | h
      · rcases hu with h0 | h0
        · exact Or.inl (h.trans h0)
        · exact absurd (h ▸ h0) hv0
      · right
        refine ⟨u, hu2, hut, (hsub u).subset (hext.visited_new v h hv0).1, ?_⟩
        rw [hext.level_new v h hv0, hlu1]
  · intro v hv2
    show c ≤ levelOf s1.nodes v
    by_cases hv0 : IsVisited s.visited v
    · rw [hfz v hv0]
      exact hd.level_ge v hv0
    · rcases (isVisited_vset hv v).mp hv2 with h | h
      · rw [h, hlu1]
        exact hluc
      · rw [hext.level_new v h hv0]
        omega

/-- Visiting a node whose row starts with the sentinel marks the node, records the path to
the sink and leaves the rest of the state alone. -/
theorem bfsVisit_sentinel {s s2 : BfsState} {q : Node} {rest : List Node} {tail : List Int}
    (hrow : vget s.levelGraph q.index = some (SINK_NODE_INDEX :: tail))
    (h : bfsVisit q rest s = some s2) :
    ∃ visited1, vset s.visited q.index true = some visited1 ∧
      s2 = { s with nodeQueue := rest, hasPathToSink := true, visited := visited1 } := by
  unfold bfsVisit at h
  simp only [hrow, List.length_cons] at h
  rw [scanAdjacent] at h
  simp only [hrow, List.getElem?_cons_zero, if_true] at h
  cases hv : vset s.visited q.index true with
  | none => rw [hv] at h; cases h
  | some visited1 =>
    rw [hv] at h
    simp only [Option.some.injEq] at h
    exact ⟨visited1, rfl, h.symm⟩

/-- Every state of the breadth-first loop on a well-shaped residual graph satisfies the depth
facts, with the level stored for the source when the loop starts. -/
theorem bfsReach_depth {t : Int} {g : Graph} (hres : ResInv t g) {s : BfsState}
    (h : BfsReach g s) : BfsDepth g.residualGraph t (levelOf g.nodes 0) s := by
  obtain ⟨tail, hS3⟩ := hres.sink_row
  induction h with
  | start first rest hn =>
    exact
      { pruned := fun u x hx hnx => absurd hx hnx
        source_level := rfl
        pred := fun v hv => absurd hv (not_isVisited_replicate _ v)
        level_ge := fun v hv => absurd hv (not_isVisited_replicate _ v) }
  | visit s s2 q rest hreach hq hvisit ih =>
    rcases bfsReach_inv hres hreach with ⟨first, rest0, hn, rfl⟩ | hinv
    · simp only [List.cons.injEq] at hq
      obtain ⟨rfl, rfl⟩ := hq
      have hfirst : vget g.nodes 0 = some first := by
        rw [hn]
        simp [vget]
      have hidx : first.index = 0 := by
        have := hres.aligned 0 first (by rw [← vget_natCast]; exact hfirst)
        simpa using this
      obtain ⟨s1, visited1, hscan, hv, rfl⟩ := bfsVisit_some hvisit
      rw [hidx] at hscan hv
      simp only at hscan
      obtain ⟨hext, -, -⟩ := scanAdjacent_spec 0 first.level _ 0 _ s1 hscan hres.aligned
        (hres.no_sentinel 0 (fun hc => (ne_of_gt hres.sink_range.1) hc.symm)) (by simp)
        (fun v hv' => absurd hv' (not_isVisited_replicate _ v)) (by intro j x hj; omega)
      have h0 : ¬ IsVisited s1.visited 0 := by
        intro hc
        exact hres.source_row (hext.visited_new 0 hc (not_isVisited_replicate _ 0)).1
      have hd : BfsDepth g.residualGraph t (levelOf g.nodes 0) _ := depth_after_scan hext hv
        (fun hc => (ne_of_gt hres.sink_range.1) hc.symm)
        (fun _ => List.Sublist.refl _) (Or.inl rfl) (Or.inl rfl) (levelOf_of_vget hfirst)
        (by rw [levelOf_congr (hext.nodes_same 0 h0)]; exact levelOf_of_vget hfirst)
        { pruned := fun u x hx hnx => absurd hx hnx
          source_level := rfl
          pred := fun v hv => absurd hv (not_isVisited_replicate _ v)
          level_ge := fun v hv => absurd hv (not_isVisited_replicate _ v) }
      exact hd
    · have hqm : q ∈ s.nodeQueue := by rw [hq]; exact List.mem_cons_self _ _
      obtain ⟨hqv, hqr⟩ := hinv.queue_visited q hqm
      by_cases hqt : q.index = t
      · have hrow : vget s.levelGraph q.index = some (SINK_NODE_INDEX :: tail) := by
          rw [hqt]
          have h1 : rowOf s.levelGraph t = SINK_NODE_INDEX :: tail := hinv.sink_row.trans hS3
          have h2 := vget_of_rowOf_ne_nil (r := s.levelGraph) (u := t) (by rw [h1]; simp)
          rw [h1] at h2
          exact h2
        obtain ⟨visited1, hv, rfl⟩ := bfsVisit_sentinel hrow hvisit
        have hvis2 : ∀ v, IsVisited visited1 v ↔ IsVisited s.visited v := by
          intro v
          rw [isVisited_vset hv v]
          constructor
          · rintro (h | h)
            · rw [h]; exact hqv
            · exact h
          · exact Or.inr
        exact
          { pruned := fun u x hx hnx => by
              obtain ⟨h1, h2, h3⟩ := ih.pruned u x hx hnx
              exact ⟨(hvis2 u).mpr h1, (hvis2 x).mpr h2, h3⟩
            source_level := ih.source_level
            pred := fun v hv' => by
              rcases ih.pred v ((hvis2 v).mp hv') with h0 | ⟨w, hw, hwt, hmem, hl⟩
              · exact Or.inl h0
              · exact Or.inr ⟨w, (hvis2 w).mpr hw, hwt, hmem, hl⟩
            level_ge := fun v hv' => ih.level_ge v ((hvis2 v).mp hv') }
      · obtain ⟨s1, visited1, hscan, hv, rfl⟩ := bfsVisit_some hvisit
        have hnosink : SINK_NODE_INDEX ∉ rowOf s.levelGraph q.index :=
          fun hc => hres.no_sentinel q.index hqt ((hinv.sub q.index).subset hc)
        obtain ⟨hext, -, -⟩ := scanAdjacent_spec q.index q.level _ 0 _ s1 hscan hinv.aligned
          hnosink (by simp) (hinv.queue_bound q hqm) (by intro j x hj; omega)
        have hd : BfsDepth g.residualGraph t (levelOf g.nodes 0) _ := depth_after_scan
          hext hv hqt hinv.sub (Or.inr hinv.source_visited) (Or.inr hqv) (levelOf_of_vget hqr)
          (by rw [levelOf_congr (hext.nodes_frozen _ hqv)]; exact levelOf_of_vget hqr)
          { pruned := ih.pruned
            source_level := ih.source_level
            pred := ih.pred
            level_ge := ih.level_ge }
        exact hd

/-- The breadth-first loop moves from reachable state to reachable state and ends with an
empty queue. -/
theorem bfsLoop_reach {g : Graph} : ∀ (fuel : Nat) (s s2 : BfsState), BfsReach g s →
    bfsLoop fuel s = Outcome.done s2 → BfsReach g s2 ∧ s2.nodeQueue = [] := by
  intro fuel
  induction fuel with
  | zero =>
    intro s s2 hr h
    rw [bfsLoop] at h
    cases hq : s.nodeQueue with
    | nil =>
      rw [hq] at h
      cases h
      exact ⟨hr, hq⟩
    | cons q rest =>
      rw [hq] at h
      cases h
  | succ f ih =>
    intro s s2 hr h
    rw [bfsLoop] at h
    cases hq : s.nodeQueue with
    | nil =>
      rw [hq] at h
      cases h
      exact ⟨hr, hq⟩
    | cons q rest =>
      rw [hq] at h
      simp only at h
      cases hvis : bfsVisit q rest s with
      | none => rw [hvis] at h; cases h
      | some s1 =>
        rw [hvis] at h
        simp only at h
        exact ih s1 s2 (BfsReach.visit s s1 q rest hr hq hvis) h

/-- A completed `createLevelGraph` on a graph with nodes returns the nodes, the level graph
and the flag of a final state of its breadth-first loop. -/
theorem createLevelGraph_reach {g g1 : Graph} {b : Bool} (hn : g.nodes ≠ [])
    (h : g.createLevelGraph = Outcome.done (b, g1)) :
    ∃ s2, BfsReach g s2 ∧ s2.nodeQueue = [] ∧ b = s2.hasPathToSink ∧
      g1 = { g with nodes := s2.nodes, levelGraph := s2.levelGraph } := by
  unfold Graph.createLevelGraph at h
  cases hnodes : g.nodes with
  | nil => exact absurd hnodes hn
  | cons first tl =>
    rw [hnodes] at h
    simp only at h
    split at h
    · rename_i s hb
      simp only [Outcome.done.injEq, Prod.mk.injEq] at h
      have hstart := BfsReach.start (g := g) first tl hnodes
      rw [hnodes] at hstart
      obtain ⟨hr, hq⟩ := bfsLoop_reach _ _ _ hstart hb
      exact ⟨s, hr, hq, h.1.symm, h.2.symm⟩
    · cases h
    · cases h

/-- A completed `createLevelGraph` on a well-shaped residual graph marks a set of nodes for
which the level graph and the stored levels are those of a breadth-first traversal that does
not go past the sink. -/
theorem createLevelGraph_facts {t : Int} {g g1 : Graph} {b : Bool} (hres : ResInv t g)
    (h : g.createLevelGraph = Outcome.done (b, g1)) :
    ∃ V, LevelFacts t (levelOf g.nodes 0) g1 V ∧ (b = true → V t) := by
  have hn : g.nodes ≠ [] := by
    intro hc
    have := hres.sink_range
    rw [hc] at this
    simp only [List.length_nil, Nat.cast_zero] at this
    omega
  obtain ⟨s2, hreach, hqueue, hb, rfl⟩ := createLevelGraph_reach hn h
  have hd := bfsReach_depth hres hreach
  rcases bfsReach_inv hres hreach with ⟨first, rest0, -, rfl⟩ | hinv
  · cases hqueue
  have hnoq : ∀ u, ∀ q ∈ s2.nodeQueue, q.index ≠ u := by
    intro u q hq
    rw [hqueue] at hq
    cases hq
  refine ⟨IsVisited s2.visited, ?_, fun hbt => hinv.has_sink (hb ▸ hbt)⟩
  exact
    { sizes := hinv.levelGraph_length
      sub := hinv.sub
      source := hinv.source_visited
      source_level := hd.source_level
      range := fun u hu => by
        obtain ⟨h0, hlt⟩ := vget_some_bounds hu
        refine ⟨h0, ?_⟩
        show u < ((s2.levelGraph.length : Nat) : Int)
        rw [hinv.levelGraph_length, hres.sizes, ← hinv.visited_length]
        omega
      layered := fun u hu hut x hx => hinv.closed u hu (hnoq u) hut x hx
      closed := fun u hu hut x hx => by
        by_cases hmem : x ∈ rowOf s2.levelGraph u
        · obtain ⟨h1, h2⟩ := hinv.closed u hu (hnoq u) hut x hmem
          exact ⟨h1, le_of_eq h2⟩
        · obtain ⟨-, h2, h3⟩ := hd.pruned u x hx hmem
          refine ⟨h2, ?_⟩
          show levelOf s2.nodes x ≤ levelOf s2.nodes u + 1
          omega
      kept := fun u hu hut x hx hl => by
        by_contra hmem
        have hl1 : levelOf s2.nodes x = levelOf s2.nodes u + 1 := hl
        have := (hd.pruned u x hx hmem).2.2
        omega
      pred := hd.pred
      level_ge := hd.level_ge }

/-- No walk from the source that does not pass through the sink beats the stored levels. -/
theorem walk_level_le {t c : Int} {g : Graph} {V : Int → Prop} (hf : LevelFacts t c g V) :
    ∀ {n : Nat} {a v : Int}, WalkBefore g.residualGraph t n a v → a = 0 →
      V v ∧ levelOf g.nodes v ≤ c + (n : Int) := by
  intro n a v h
  induction h with
  | nil =>
    intro ha
    rw [ha]
    refine ⟨hf.source, ?_⟩
    rw [hf.source_level]
    simp
  | snoc _ hxt hy ih =>
    intro ha
    obtain ⟨h1, h2⟩ := hf.closed _ (ih ha).1 hxt _ hy
    have h3 := (ih ha).2
    refine ⟨h1, ?_⟩
    push_cast
    omega

/-- Every marked node is the end of a walk from the source that does not pass through the
sink and has as many arcs as the stored level says. -/
theorem level_walk {t c : Int} {g : Graph} {V : Int → Prop} (hf : LevelFacts t c g V) :
    ∀ (n : Nat) (v : Int), V v → levelOf g.nodes v = c + (n : Int) →
      WalkBefore g.residualGraph t n 0 v := by
  intro n
  induction n with
  | zero =>
    intro v hv hl
    rcases hf.pred v hv with h0 | ⟨u, hu, -, -, hlu⟩
    · rw [h0]
      exact WalkBefore.nil 0
    · have := hf.level_ge u hu
      simp only [Nat.cast_zero, add_zero] at hl
      omega
  | succ n ih =>
    intro v hv hl
    rcases hf.pred v hv with h0 | ⟨u, hu, hut, hmem, hlu⟩
    · rw [h0, hf.source_level] at hl
      push_cast at hl
      omega
    · refine WalkBefore.snoc (ih u hu ?_) hut hmem
      push_cast at hl
      omega

/-- The three branches of the body of the inner loop of `main`: augment at the sink, retreat
from a node without level-graph arcs, advance along the first level-graph arc. -/
theorem searchStep_cases {nodeCount : Int} {s s1 : Search}
    (h : searchStep nodeCount s = some s1) :
    (s.currentNode = nodeCount + 1 ∧ ∃ r l,
      (pathSteps (s.currentPath ++ [s.currentNode])).foldlM
        (fun acc q => reverseStep acc q.1 q.2) s.graph.residualGraph = some r ∧
      (pathSteps (s.currentPath ++ [s.currentNode])).foldlM
        (fun acc q => eraseStep acc q.1 q.2) s.graph.levelGraph = some l ∧
      s1 = ⟨{ edges := (pathSteps (s.currentPath ++ [s.currentNode])).foldl
                (fun es q => es.map (augmentEdge q.1 q.2)) s.graph.edges
              nodes := s.graph.nodes
              residualGraph := r
              levelGraph := l }, 0, []⟩) ∨
    (s.currentNode ≠ nodeCount + 1 ∧ s.graph.getLevelGraphAt s.currentNode = some [] ∧
      ∃ g1 previous, s.graph.removeNodeAndIncomingEdges s.currentNode = some g1 ∧
        s.currentPath.getLast? = some previous ∧
        s1 = ⟨g1, previous, s.currentPath.dropLast⟩) ∨
    (s.currentNode ≠ nodeCount + 1 ∧ ∃ next rest,
      s.graph.getLevelGraphAt s.currentNode = some (next :: rest) ∧
      s1 = ⟨s.graph, next, s.currentPath ++ [s.currentNode]⟩) := by
  by_cases hcur : s.currentNode = nodeCount + 1
  · exact Or.inl ⟨hcur, searchStep_augment_some hcur h⟩
  · right
    unfold searchStep at h
    rw [if_neg hcur] at h
    cases hrow : s.graph.getLevelGraphAt s.currentNode with
    | none => rw [hrow] at h; cases h
    | some row =>
      rw [hrow] at h
      cases row with
      | nil =>
        left
        simp only at h
        cases hrem : s.graph.removeNodeAndIncomingEdges s.currentNode with
        | none => rw [hrem] at h; cases h
        | some g1 =>
          rw [hrem] at h
          simp only at h
          cases hlast : s.currentPath.getLast? with
          | none => rw [hlast] at h; cases h
          | some previous =>
            rw [hlast] at h
            simp only [Option.some.injEq] at h
            exact ⟨hcur, rfl, g1, previous, rfl, rfl, h.symm⟩
      | cons next rest =>
        right
        simp only [Option.some.injEq] at h
        exact ⟨hcur, next, rest, rfl, h.symm⟩

/-- The inner loop of `main` never writes the node records. -/
theorem searchStep_nodes {nodeCount : Int} {s s1 : Search}
    (h : searchStep nodeCount s = some s1) : s1.graph.nodes = s.graph.nodes := by
  rcases searchStep_cases h with ⟨-, r, l, -, -, rfl⟩ | ⟨-, -, g1, previous, hrem, -, rfl⟩ |
    ⟨-, next, rest, -, rfl⟩
  · rfl
  · exact (removeNode_rows hrem).2.1
  · rfl

theorem searchLoop_nodes {nodeCount : Int} : ∀ (fuel : Nat) (s : Search) (g2 : Graph),
    searchLoop nodeCount fuel s = Outcome.done g2 → g2.nodes = s.graph.nodes := by
  intro fuel
  induction fuel with
  | zero =>
    intro s g2 h
    rw [searchLoop] at h
    cases h
  | succ f ih =>
    intro s g2 h
    rw [searchLoop] at h
    cases hrow : s.graph.getLevelGraphAt 0 with
    | none => rw [hrow] at h; cases h
    | some row =>
      rw [hrow] at h
      cases row with
      | nil =>
        simp only [Outcome.done.injEq] at h
        rw [← h]
      | cons a rest =>
        simp only at h
        cases hstep : searchStep nodeCount s with
        | none => rw [hstep] at h; cases h
        | some s1 =>
          rw [hstep] at h
          simp only at h
          rw [ih s1 g2 h, searchStep_nodes hstep]

/-- At every state at which a phase of a run on a valid input starts, the level stored for the
source is 0. -/
theorem phaseStart_source_level {names : List String} {edgePairs : List (Int × Int)} {g : Graph}
    (hvalid : ValidInput names.length edgePairs) (h : PhaseStart names edgePairs g) :
    levelOf g.nodes 0 = 0 := by
  have hrange := validInput_range hvalid
  induction h with
  | first g0 g1 hload hres =>
    rw [loadGraph_valid names edgePairs hrange] at hload
    cases hload
    have hn := (createResidualGraph_nodes _ g1
      (by
        intro k hk
        have hk1 : k < names.length := by
          rw [← loadedNodes_length names]
          exact hk
        show Option.map Node.index (loadedNodes names)[k]? = _
        rw [loadedNodes_getElem? names k hk1]
        rfl)
      hres).2.2.2.1
    rw [hn]
    simp [levelOf, vget]
  | next g g1 g2 source fuel hphase hlevel hsource hsearch ih =>
    have hres := phaseStart_resInv hvalid hphase
    obtain ⟨V, hf, -⟩ := createLevelGraph_facts hres hlevel
    rw [searchLoop_nodes _ _ _ hsearch]
    show levelOf g1.nodes 0 = 0
    rw [hf.source_level]
    exact ih

/-- C27 (counterexample): on the valid input A, B, C, X, Y, Z with the edges A-X, A-Y, B-X, C-Z
the second `createLevelGraph` returns true; node 6 (Z) is reachable from the source in the
residual graph, its shortest walk has 6 arcs (0, 2, 4, 1, 5, 7, 6, through the sink), and the
level stored for it is still the 2 of the first phase. -/
theorem level_behind_sink_is_stale :
    ValidInput staleNames.length staleEdges ∧
    PhaseStart staleNames staleEdges stalePhaseTwo ∧
    stalePhaseTwo.createLevelGraph = Outcome.done (true, staleLevelTwo) ∧
    (6 : Int) ∈ walkEnds staleLevelTwo.residualGraph 6 0 ∧
    (∀ k < 6, (6 : Int) ∉ walkEnds staleLevelTwo.residualGraph k 0) ∧
    levelOf staleLevelTwo.nodes 6 = 2 := by
  have h0 : PhaseStart staleNames staleEdges staleStart :=
    PhaseStart.first
      ⟨[⟨1, 4, false⟩, ⟨1, 5, false⟩, ⟨2, 4, false⟩, ⟨3, 6, false⟩],
        [⟨"A", 1, 0⟩, ⟨"B", 2, 0⟩, ⟨"C", 3, 0⟩, ⟨"X", 4, 0⟩, ⟨"Y", 5, 0⟩, ⟨"Z", 6, 0⟩], [], []⟩
      staleStart (by decide) (by decide)
  have h1 : PhaseStart staleNames staleEdges stalePhaseTwo :=
    PhaseStart.next staleStart staleLevelOne stalePhaseTwo ⟨"", 0, 0⟩ 30 h0 (by decide)
      (by decide) (by decide)
  exact ⟨by decide, h1, by decide, by decide, by decide, by decide⟩

/-- C27 (amended): in every phase of a run on a valid bipartite input, after `createLevelGraph`
returns, every node that can be reached from the source in the residual graph by a walk that
does not pass through the sink has a stored level equal to the least number of arcs of such
a walk: no such walk has fewer arcs than the level, and one has exactly that many. -/
theorem levels_are_depths (names : List String) (edgePairs : List (Int × Int)) (g g1 : Graph)
    (b : Bool) (hvalid : ValidInput names.length edgePairs)
    (hphase : PhaseStart names edgePairs g)
    (hlevel : g.createLevelGraph = Outcome.done (b, g1)) (v : Int) (n : Nat)
    (hwalk : WalkBefore g1.residualGraph ((names.length : Int) + 1) n 0 v) :
    0 ≤ levelOf g1.nodes v ∧ levelOf g1.nodes v ≤ (n : Int) ∧
      WalkBefore g1.residualGraph ((names.length : Int) + 1) (levelOf g1.nodes v).toNat 0 v := by
  have hres := phaseStart_resInv hvalid hphase
  obtain ⟨V, hf, -⟩ := createLevelGraph_facts hres hlevel
  rw [phaseStart_source_level hvalid hphase] at hf
  obtain ⟨hV, hle⟩ := walk_level_le hf hwalk rfl
  have hge := hf.level_ge v hV
  refine ⟨hge, by omega, ?_⟩
  apply level_walk hf _ v hV
  rw [Int.toNat_of_nonneg hge]
  simp

/-- C27 (witness): in the second phase of the first scenario node 1 (A) is reached by the walk
0, 2, 3, 1 and its stored level is 3. -/
theorem levels_are_depths_witness :
    WalkBefore scenarioOneLevelTwo.residualGraph 5 3 0 1 ∧
    levelOf scenarioOneLevelTwo.nodes 1 = 3 ∧
    (0 ≤ levelOf scenarioOneLevelTwo.nodes 1 ∧ levelOf scenarioOneLevelTwo.nodes 1 ≤ (3 : Nat) ∧
      WalkBefore scenarioOneLevelTwo.residualGraph (((["A", "B", "X", "Y"].length : Nat) : Int) + 1)
        (levelOf scenarioOneLevelTwo.nodes 1).toNat 0 1) := by
  have h0 : PhaseStart ["A", "B", "X", "Y"] [(1, 3), (1, 4), (2, 3)] scenarioOneResidual :=
    PhaseStart.first scenarioOneLoaded scenarioOneResidual (by decide) (by decide)
  have h1 : PhaseStart ["A", "B", "X", "Y"] [(1, 3), (1, 4), (2, 3)] scenarioOnePhaseTwo :=
    PhaseStart.next scenarioOneResidual
      { scenarioOneResidual with
        nodes := [⟨"", 0, 0⟩, ⟨"A", 1, 1⟩, ⟨"B", 2, 1⟩, ⟨"X", 3, 2⟩, ⟨"Y", 4, 2⟩, ⟨"", 5, 3⟩]
        levelGraph := [[1, 2], [3, 4], [3], [5], [5], [-1]] }
      scenarioOnePhaseTwo ⟨"", 0, 0⟩ 20 h0 (by decide) (by decide) (by decide)
  have hw : WalkBefore scenarioOneLevelTwo.residualGraph 5 3 0 1 :=
    WalkBefore.snoc (x := 3)
      (WalkBefore.snoc (x := 2)
        (WalkBefore.snoc (x := 0) (WalkBefore.nil 0) (by decide) (by decide))
        (by decide) (by decide))
      (by decide) (by decide)
  have h := levels_are_depths ["A", "B", "X", "Y"] [(1, 3), (1, 4), (2, 3)] scenarioOnePhaseTwo
    scenarioOneLevelTwo true (by decide) h1 (by decide) 1 3 hw
  exact ⟨hw, by decide, h⟩

/-- Every state at which a phase of a run on a valid input starts satisfies the matching
invariant. -/
theorem phaseStart_matchInv {names : List String} {edgePairs : List (Int × Int)} {g : Graph}
    (hvalid : ValidInput names.length edgePairs) (h : PhaseStart names edgePairs g) :
    MatchInv (names.length / 2) names.length g := by
  have hrange := validInput_range hvalid
  induction h with
  | first g0 g1 hload hres =>
    rw [loadGraph_valid names edgePairs hrange] at hload
    cases hload
    exact createResidualGraph_matchInv names edgePairs g1 hvalid hres
  | next g g1 g2 source fuel hphase hlevel hsource hsearch ih =>
    have hres := phaseStart_resInv hvalid hphase
    obtain ⟨hedges1, hres1, -, hri1, hli1, -⟩ := createLevelGraph_spec hres hlevel
    have hM1 : MatchInv (names.length / 2) names.length g1 := ih.congr hedges1 hres1
    obtain ⟨source0, hsrc, hidx⟩ := getNode_zero hri1
    rw [hsrc] at hsource
    cases hsource
    rw [hidx] at hsearch
    obtain ⟨V, hV0, hVr, hVl⟩ := hli1.layered
    have hinv : SearchInv ((names.length : Int) + 1) V ⟨g1, 0, []⟩ :=
      { res := hri1
        sizes := hli1.sizes
        sub := hli1.sub
        source := hV0
        range := hVr
        layered := hVl
        chain := List.chain'_singleton _
        increasing := List.pairwise_singleton _ _
        inV := fun x hx => by
          have : x = 0 := by simpa using hx
          rw [this]
          exact hV0
        not_sink := fun x hx => by cases hx
        head := rfl }
    exact searchLoop_match rfl fuel _ g2 hinv hM1 hsearch

/-- What a phase of a run on a valid input starts from once `createLevelGraph` has returned:
the level facts for the set of marked nodes, the shape of the residual graph, the matching
invariant and the invariant of the inner loop at its first state. -/
theorem phase_context {names : List String} {edgePairs : List (Int × Int)} {g g1 : Graph}
    {b : Bool} (hvalid : ValidInput names.length edgePairs)
    (hphase : PhaseStart names edgePairs g)
    (hlevel : g.createLevelGraph = Outcome.done (b, g1)) :
    ∃ V, LevelFacts ((names.length : Int) + 1) 0 g1 V ∧
      (b = true → V ((names.length : Int) + 1)) ∧
      ResInv ((names.length : Int) + 1) g1 ∧
      MatchInv (names.length / 2) names.length g1 ∧
      SearchInv ((names.length : Int) + 1) V ⟨g1, 0, []⟩ := by
  have hres := phaseStart_resInv hvalid hphase
  obtain ⟨hedges1, hres1, -, hri1, -, -⟩ := createLevelGraph_spec hres hlevel
  obtain ⟨V, hf, hb⟩ := createLevelGraph_facts hres hlevel
  rw [phaseStart_source_level hvalid hphase] at hf
  refine ⟨V, hf, hb, hri1, (phaseStart_matchInv hvalid hphase).congr hedges1 hres1, ?_⟩
  exact
    { res := hri1
      sizes := hf.sizes
      sub := hf.sub
      source := hf.source
      range := hf.range
      layered := hf.layered
      chain := List.chain'_singleton _
      increasing := List.pairwise_singleton _ _
      inV := fun x hx => by
        have : x = 0 := by simpa using hx
        rw [this]
        exact hf.source
      not_sink := fun x hx => by cases hx
      head := rfl }

/-- Every state of the inner loop satisfies the invariant of the search and the matching
invariant, and carries the node records the phase started with. -/
theorem searchReach_inv {L N : Nat} {V : Int → Prop} {nodeCount : Int} {g1 : Graph}
    (ht : nodeCount + 1 = (N : Int) + 1)
    (hinit : SearchInv ((N : Int) + 1) V ⟨g1, 0, []⟩) (hM : MatchInv L N g1)
    {s : Search} {paths : List (List Int)} (h : SearchReach nodeCount g1 s paths) :
    SearchInv ((N : Int) + 1) V s ∧ MatchInv L N s.graph ∧ s.graph.nodes = g1.nodes := by
  induction h with
  | start source hsource =>
    obtain ⟨source0, hsrc, hidx⟩ := getNode_zero hinit.res
    have h1 : g1.getNode 0 = some source := hsource
    have h2 : g1.getNode 0 = some source0 := hsrc
    rw [h1] at h2
    cases h2
    rw [hidx]
    exact ⟨hinit, hM, rfl⟩
  | step s s1 paths a rest _ _ hstep ih =>
    obtain ⟨hinv, hMs, hnodes⟩ := ih
    refine ⟨?_, ?_, (searchStep_nodes hstep).trans hnodes⟩
    · by_cases hcur : s.currentNode = nodeCount + 1
      · exact (searchStep_augment hinv hcur ht hstep).1
      · exact (searchStep_move hinv hcur ht hstep).1
    · by_cases hcur : s.currentNode = nodeCount + 1
      · exact searchStep_augment_match hinv hMs hcur ht hstep
      · obtain ⟨-, hres, hedges, -⟩ := searchStep_move hinv hcur ht hstep
        exact hMs.congr hedges hres

/-- Along a list whose consecutive entries raise `f` by one, the last entry is as many units
above the first as the list has arcs. -/
theorem steps_level_last (f : Int → Int) : ∀ (path : List Int) (a z : Int),
    (∀ p ∈ pathSteps path, f p.2 = f p.1 + 1) → path.head? = some a → path.getLast? = some z →
    f z = f a + ((path.length : Int) - 1)
  | [], _, _, _, h, _ => by cases h
  | [x], a, z, _, h1, h2 => by
    simp only [List.head?_cons, Option.some.injEq] at h1
    simp only [List.getLast?_singleton, Option.some.injEq] at h2
    rw [← h1, ← h2]
    simp
  | x :: y :: rest, a, z, hs, h1, h2 => by
    simp only [List.head?_cons, Option.some.injEq] at h1
    rw [List.getLast?_cons_cons] at h2
    have h3 := steps_level_last f (y :: rest) y z
      (fun p hp => hs p (by rw [pathSteps_cons_cons]; exact List.mem_cons_of_mem _ hp)) rfl h2
    have h4 := hs (x, y) (by rw [pathSteps_cons_cons]; exact List.mem_cons_self _ _)
    simp only at h4
    rw [← h1, h3, h4]
    simp only [List.length_cons]
    push_cast
    ring

/-- The path the inner loop holds when it stands on the sink: from the source to the sink,
without repeated nodes, one level up at every arc. -/
theorem augmenting_path_levels {t : Int} {V : Int → Prop} {s : Search} (hinv : SearchInv t V s)
    (hcur : s.currentNode = t) (h0 : levelOf s.graph.nodes 0 = 0) :
    (s.currentPath ++ [s.currentNode]).head? = some 0 ∧
    (s.currentPath ++ [s.currentNode]).getLast? = some t ∧
    (s.currentPath ++ [s.currentNode]).Nodup ∧
    (∀ p ∈ pathSteps (s.currentPath ++ [s.currentNode]),
      levelOf s.graph.nodes p.2 = levelOf s.graph.nodes p.1 + 1) ∧
    ((s.currentPath ++ [s.currentNode]).length : Int) - 1 = levelOf s.graph.nodes t := by
  have hnd : (s.currentPath ++ [s.currentNode]).Nodup := by
    refine List.Pairwise.imp ?_ hinv.increasing
    intro a b hab hc
    rw [hc] at hab
    exact lt_irrefl _ hab
  have hlast : (s.currentPath ++ [s.currentNode]).getLast? = some t := by
    rw [List.getLast?_concat, hcur]
  have hsteps : ∀ p ∈ pathSteps (s.currentPath ++ [s.currentNode]),
      levelOf s.graph.nodes p.2 = levelOf s.graph.nodes p.1 + 1 := by
    intro p hp
    have hx : p.1 ∈ s.currentPath := by
      have := (mem_pathSteps hp).1
      rw [List.dropLast_concat] at this
      exact this
    have hrow : p.2 ∈ rowOf s.graph.levelGraph p.1 :=
      pathSteps_chain (R := fun x y => y ∈ rowOf s.graph.levelGraph x) hinv.chain
        (x := p.1) (y := p.2) hp
    exact (hinv.layered p.1 (hinv.inV p.1 (List.mem_append_left _ hx)) (hinv.not_sink p.1 hx)
      p.2 hrow).2
  refine ⟨hinv.head, hlast, hnd, hsteps, ?_⟩
  have := steps_level_last (levelOf s.graph.nodes) _ 0 t hsteps hinv.head hlast
  rw [h0] at this
  omega

/-- C29: in a run on a valid bipartite input, every path passed to `augmentFlow` in a phase
starts at the source 0, ends at the sink `N + 1`, repeats no node, goes up exactly one level
at each consecutive pair under the levels assigned by the `createLevelGraph` of that phase,
and so has as many arcs as the level of the sink in that phase. -/
theorem shortest_augmenting_paths (names : List String) (edgePairs : List (Int × Int))
    (g g1 : Graph) (hvalid : ValidInput names.length edgePairs)
    (hphase : PhaseStart names edgePairs g)
    (hlevel : g.createLevelGraph = Outcome.done (true, g1)) (s : Search)
    (paths : List (List Int)) (hreach : SearchReach (names.length : Int) g1 s paths)
    (path : List Int) (hpath : path ∈ paths) :
    path.head? = some 0 ∧ path.getLast? = some ((names.length : Int) + 1) ∧ path.Nodup ∧
    (∀ p ∈ pathSteps path, levelOf g1.nodes p.2 = levelOf g1.nodes p.1 + 1) ∧
    (path.length : Int) - 1 = levelOf g1.nodes ((names.length : Int) + 1) := by
  obtain ⟨V, hf, -, -, hM, hinit⟩ := phase_context hvalid hphase hlevel
  induction hreach with
  | start source hsource => cases hpath
  | step s s1 paths a rest hprev _ hstep ih =>
    by_cases hcur : s.currentNode = (names.length : Int) + 1
    · rw [if_pos hcur] at hpath
      rcases List.mem_append.mp hpath with h | h
      · exact ih h
      · rw [List.mem_singleton] at h
        obtain ⟨hinv, -, hnodes⟩ := searchReach_inv rfl hinit hM hprev
        have := augmenting_path_levels hinv hcur (by rw [hnodes]; exact hf.source_level)
        rw [hnodes] at this
        rw [h]
        exact this
    · rw [if_neg hcur] at hpath
      exact ih hpath

/-- After the loop of `updateLevelGraph`, an arc of the path that stood at most once in its
row is gone from that row. -/
theorem erase_fold_absent (steps : List (Int × Int)) : ∀ {lg l : List (List Int)},
    steps.foldlM (fun acc p => eraseStep acc p.1 p.2) lg = some l →
    ∀ x y, (x, y) ∈ steps → (rowOf lg x).count y ≤ 1 → y ∉ rowOf l x := by
  induction steps with
  | nil =>
    intro lg l _ x y hxy
    cases hxy
  | cons p rest ih =>
    intro lg l h x y hxy hcount
    rw [List.foldlM_cons] at h
    cases hstep : eraseStep lg p.1 p.2 with
    | none =>
      rw [hstep] at h
      cases h
    | some lg1 =>
      rw [hstep] at h
      simp only [Option.bind_eq_bind, Option.some_bind] at h
      obtain ⟨-, hrow, hother⟩ := eraseStep_rows hstep
      rcases List.mem_cons.mp hxy with hc | hc
      · have hx : x = p.1 := by rw [← hc]
        have hy : y = p.2 := by rw [← hc]
        have h1 : y ∉ rowOf lg1 x := by
          rw [hx, hy, hrow]
          intro hmem
          have hpos : 0 < ((rowOf lg p.1).erase p.2).count p.2 := List.count_pos_iff.mpr hmem
          rw [List.count_erase_self] at hpos
          rw [hx, hy] at hcount
          omega
        exact fun hmem => h1 ((erase_fold rest h).2 x |>.subset hmem)
      · apply ih h x y hc
        have hsub : (rowOf lg1 x).Sublist (rowOf lg x) := by
          by_cases hx : x = p.1
          · rw [hx, hrow]
            exact List.erase_sublist _ _
          · rw [hother x hx]
        exact (hsub.count_le y).trans hcount

/-- Under the matching invariant the residual row of a right node has exactly one entry. -/
theorem MatchInv.right_singleton {L N : Nat} {g : Graph} (h : MatchInv L N g) {b : Int}
    (h1 : (L : Int) < b) (h2 : b ≤ (N : Int)) : ∃ z, rowOf g.residualGraph b = [z] := by
  rcases h.right_rows b h1 h2 with hr | ⟨a, ha⟩
  · exact ⟨_, hr⟩
  · exact ⟨a, h.flow_row a b ha⟩

/-- Under the matching invariant a left node has at most one residual arc into it from a node
other than the sink. -/
theorem MatchInv.left_pred_unique {L N : Nat} {g : Graph} (h : MatchInv L N g) {x w w1 : Int}
    (hx1 : 1 ≤ x) (hx2 : x ≤ (L : Int)) (hw : w ≠ (N : Int) + 1) (hw1 : w1 ≠ (N : Int) + 1)
    (hm : x ∈ rowOf g.residualGraph w) (hm1 : x ∈ rowOf g.residualGraph w1) : w = w1 := by
  have hLN : (L : Int) ≤ (N : Int) := by exact_mod_cast h.left_le
  have hclass : ∀ u, u ≠ (N : Int) + 1 → x ∈ rowOf g.residualGraph u →
      (u = 0 ∧ ∀ b, ¬ HasEdge g.edges x b true) ∨
      ((L : Int) < u ∧ u ≤ (N : Int) ∧ HasEdge g.edges x u true) := by
    intro u hu hmem
    have hrange : 0 ≤ u ∧ u < ((N : Int) + 2) := by
      by_contra hc
      rw [rowOf_out_of_range _ _ (by rw [h.size]; push_cast; omega)] at hmem
      cases hmem
    by_cases hu0 : u = 0
    · left
      rw [hu0] at hmem
      exact ⟨hu0, (h.source_row x hmem).2.2⟩
    · by_cases huL : u ≤ (L : Int)
      · exfalso
        rcases h.left_rows u (by omega) huL x hmem with ⟨hx0, -⟩ | he
        · omega
        · have := h.endpoints u x false he
          omega
      · right
        have hu1 : (L : Int) < u := by omega
        have hu2 : u ≤ (N : Int) := by omega
        rcases h.right_rows u hu1 hu2 with hr | ⟨a, ha⟩
        · rw [hr, List.mem_singleton] at hmem
          omega
        · rw [h.flow_row a u ha, List.mem_singleton] at hmem
          rw [hmem]
          exact ⟨hu1, hu2, ha⟩
  rcases hclass w hw hm with ⟨h0, hno⟩ | ⟨-, -, he⟩
  · rcases hclass w1 hw1 hm1 with ⟨h01, -⟩ | ⟨-, -, he1⟩
    · rw [h0, h01]
    · exact absurd he1 (hno w1)
  · rcases hclass w1 hw1 hm1 with ⟨-, hno1⟩ | ⟨-, -, he1⟩
    · exact absurd he (hno1 w)
    · exact h.flow_unique x w w1 he he1

theorem Blocked.of_rowsSub {lg l : List (List Int)} {t x : Int}
    (hsub : ∀ u, (rowOf l u).Sublist (rowOf lg u)) (h : Blocked lg t x) : Blocked l t x := by
  rcases h with h | h
  · left
    have := hsub x
    rw [h] at this
    exact List.eq_nil_of_sublist_nil this
  · right
    intro w hw hmem
    exact h w hw ((hsub w).subset hmem)

/-- Under the matching invariant the residual rows of the source, the left nodes and the right
nodes hold no entry twice. -/
theorem MatchInv.row_nodup {L N : Nat} {g : Graph} (h : MatchInv L N g) {w : Int}
    (h0 : 0 ≤ w) (hN : w ≤ (N : Int)) : (rowOf g.residualGraph w).Nodup := by
  by_cases hw0 : w = 0
  · rw [hw0]
    exact h.source_nodup
  · by_cases hwL : w ≤ (L : Int)
    · exact h.left_nodup w (by omega) hwL
    · obtain ⟨z, hz⟩ := h.right_singleton (b := w) (by omega) hN
      rw [hz]
      exact List.nodup_singleton z

/-- The body of the inner loop only takes entries out of level-graph rows. -/
theorem searchStep_shrink {nodeCount : Int} {s s1 : Search}
    (h : searchStep nodeCount s = some s1) :
    ∀ u, (rowOf s1.graph.levelGraph u).Sublist (rowOf s.graph.levelGraph u) := by
  rcases searchStep_cases h with ⟨-, r, l, -, hl, rfl⟩ | ⟨-, -, g1, previous, hrem, -, rfl⟩ |
    ⟨-, next, rest, -, rfl⟩
  · exact (erase_fold _ hl).2
  · intro u
    obtain ⟨-, -, -, -, hc, hother⟩ := removeNode_rows hrem
    by_cases hu : u = s.currentNode
    · show (rowOf g1.levelGraph u).Sublist _
      rw [hu, hc]
      exact List.nil_sublist _
    · show (rowOf g1.levelGraph u).Sublist _
      rw [hother u hu]
      exact List.erase_sublist _ _
  · exact fun u => List.Sublist.refl _

/-- After an augmentation every inner node of the path is blocked in the level graph that
`updateLevelGraph` leaves. -/
theorem augment_blocks {L N : Nat} {V : Int → Prop} {s : Search} {l : List (List Int)}
    (hinv : SearchInv ((N : Int) + 1) V s) (hM : MatchInv L N s.graph)
    (hcur : s.currentNode = (N : Int) + 1)
    (hl : (pathSteps (s.currentPath ++ [s.currentNode])).foldlM
      (fun acc q => eraseStep acc q.1 q.2) s.graph.levelGraph = some l)
    {x : Int} (hx : x ∈ s.currentPath) (hx0 : x ≠ 0) : Blocked l ((N : Int) + 1) x := by
  have hxt : x ≠ (N : Int) + 1 := hinv.not_sink x hx
  have hrange : ∀ u, u ∈ s.currentPath → 0 ≤ u ∧ u ≤ (N : Int) := by
    intro u hu
    obtain ⟨h0, hlt⟩ := hinv.range u (hinv.inV u (List.mem_append_left _ hu))
    rw [hinv.sizes, hM.size] at hlt
    have := hinv.not_sink u hu
    push_cast at hlt
    exact ⟨h0, by omega⟩
  have hsubl := (erase_fold _ hl).2
  obtain ⟨p1, rest, hfull, -, -, -⟩ := augment_path_shape hinv hcur
  obtain ⟨y, hy⟩ : ∃ y, (x, y) ∈ pathSteps (s.currentPath ++ [s.currentNode]) :=
    pathSteps_has_succ (by rw [List.dropLast_concat]; exact hx)
  obtain ⟨w, hw⟩ : ∃ w, (w, x) ∈ pathSteps (s.currentPath ++ [s.currentNode]) := by
    apply pathSteps_has_pred
    have hxP : x ∈ s.currentPath ++ [s.currentNode] := List.mem_append_left _ hx
    rw [hfull] at hxP ⊢
    rcases List.mem_cons.mp hxP with hc | hc
    · exact absurd hc hx0
    · exact hc
  have hyrow : y ∈ rowOf s.graph.levelGraph x :=
    pathSteps_chain (R := fun a b => b ∈ rowOf s.graph.levelGraph a) hinv.chain hy
  have hxrow : x ∈ rowOf s.graph.levelGraph w :=
    pathSteps_chain (R := fun a b => b ∈ rowOf s.graph.levelGraph a) hinv.chain hw
  have hwP : w ∈ s.currentPath := by
    have := (mem_pathSteps hw).1
    rw [List.dropLast_concat] at this
    exact this
  by_cases hxL : x ≤ (L : Int)
  · right
    intro w1 hw1 hmem
    have hm1 : x ∈ rowOf s.graph.levelGraph w1 := (hsubl w1).subset hmem
    have hww : w = w1 := hM.left_pred_unique (by have := (hrange x hx).1; omega) hxL
      (hinv.not_sink w hwP) hw1 ((hinv.sub w).subset hxrow) ((hinv.sub w1).subset hm1)
    rw [← hww] at hmem
    refine erase_fold_absent _ hl w x hw ?_ hmem
    have hnd : (rowOf s.graph.levelGraph w).Nodup :=
      (hM.row_nodup (hrange w hwP).1 (hrange w hwP).2).sublist (hinv.sub w)
    exact List.nodup_iff_count_le_one.mp hnd x
  · left
    obtain ⟨z, hz⟩ := hM.right_singleton (b := x) (by omega) (hrange x hx).2
    have hsubz : (rowOf s.graph.levelGraph x).Sublist [z] := by
      rw [← hz]
      exact hinv.sub x
    have hyz : y = z := by
      have := hsubz.subset hyrow
      simpa using this
    have hnoty : y ∉ rowOf l x := by
      refine erase_fold_absent _ hl x y hy ?_
      exact (hsubz.count_le y).trans (by rw [hyz]; simp)
    cases hrow : rowOf l x with
    | nil => rfl
    | cons a tl =>
      exfalso
      have ha : a ∈ rowOf l x := by rw [hrow]; exact List.mem_cons_self _ _
      have haz : a = z := by
        have := hsubz.subset ((hsubl x).subset ha)
        simpa using this
      rw [haz, ← hyz] at ha
      exact hnoty ha

/-- What `searchRun` returns is a state of the inner loop with its list of paths. -/
theorem searchRun_reach {nodeCount : Int} {g1 : Graph} : ∀ (n : Nat) (s : Search)
    (paths : List (List Int)) (s2 : Search) (paths2 : List (List Int)),
    SearchReach nodeCount g1 s paths → searchRun nodeCount n s paths = some (s2, paths2) →
    SearchReach nodeCount g1 s2 paths2 := by
  intro n
  induction n with
  | zero =>
    intro s paths s2 paths2 hr h
    rw [searchRun] at h
    cases h
    exact hr
  | succ n ih =>
    intro s paths s2 paths2 hr h
    rw [searchRun] at h
    cases hrow : s.graph.getLevelGraphAt 0 with
    | none => rw [hrow] at h; cases h
    | some row =>
      rw [hrow] at h
      cases row with
      | nil => cases h
      | cons a rest =>
        simp only at h
        cases hstep : searchStep nodeCount s with
        | none => rw [hstep] at h; cases h
        | some s1 =>
          rw [hstep] at h
          simp only at h
          exact ih s1 _ s2 paths2 (SearchReach.step s s1 paths a rest hr hrow hstep) h

/-- During a phase every inner node of a path already passed to `augmentFlow` stays blocked,
and the paths passed so far share nothing but their ends. -/
theorem searchReach_disjoint {L N : Nat} {V : Int → Prop} {nodeCount : Int} {g1 : Graph}
    (ht : nodeCount + 1 = (N : Int) + 1)
    (hinit : SearchInv ((N : Int) + 1) V ⟨g1, 0, []⟩) (hM : MatchInv L N g1)
    {s : Search} {paths : List (List Int)} (h : SearchReach nodeCount g1 s paths) :
    (∀ path ∈ paths, ∀ x ∈ path, x ≠ 0 → x ≠ (N : Int) + 1 →
      Blocked s.graph.levelGraph ((N : Int) + 1) x) ∧
    paths.Pairwise (ShareOnlyEnds ((N : Int) + 1)) := by
  induction h with
  | start source hsource =>
    exact ⟨fun path hp => absurd hp (List.not_mem_nil path), List.Pairwise.nil⟩
  | step s s1 paths a rest hprev hrow0 hstep ih =>
    obtain ⟨hblocked, hpair⟩ := ih
    obtain ⟨hinv, hMs, -⟩ := searchReach_inv ht hinit hM hprev
    have hshrink := searchStep_shrink hstep
    have hold : ∀ path ∈ paths, ∀ x ∈ path, x ≠ 0 → x ≠ (N : Int) + 1 →
        Blocked s1.graph.levelGraph ((N : Int) + 1) x :=
      fun path hp x hx hx0 hxt => (hblocked path hp x hx hx0 hxt).of_rowsSub hshrink
    by_cases hcur : s.currentNode = nodeCount + 1
    · rw [if_pos hcur]
      have hcurN : s.currentNode = (N : Int) + 1 := hcur.trans ht
      obtain ⟨r, l, -, hl, hs1⟩ := searchStep_augment_some hcur hstep
      have hl1 : s1.graph.levelGraph = l := by rw [hs1]
      constructor
      · intro path hp x hx hx0 hxt
        rcases List.mem_append.mp hp with h | h
        · exact hold path h x hx hx0 hxt
        · rw [List.mem_singleton] at h
          rw [h] at hx
          rcases List.mem_append.mp hx with hc | hc
          · rw [hl1]
            exact augment_blocks hinv hMs hcurN hl hc hx0
          · rw [List.mem_singleton] at hc
            exact absurd (hc.trans hcurN) hxt
      · rw [List.pairwise_append]
        refine ⟨hpair, List.pairwise_singleton _ _, ?_⟩
        intro p hp q hq x hxp hxq
        rw [List.mem_singleton] at hq
        rw [hq] at hxq
        by_contra hne
        push_neg at hne
        have hb := hblocked p hp x hxp hne.1 hne.2
        have hxc : x ∈ s.currentPath := by
          rcases List.mem_append.mp hxq with hc | hc
          · exact hc
          · rw [List.mem_singleton] at hc
            exact absurd (hc.trans hcurN) hne.2
        obtain ⟨p1, rest1, hfull, -, -, -⟩ := augment_path_shape hinv hcurN
        obtain ⟨y, hy⟩ : ∃ y, (x, y) ∈ pathSteps (s.currentPath ++ [s.currentNode]) :=
          pathSteps_has_succ (by rw [List.dropLast_concat]; exact hxc)
        obtain ⟨w, hw⟩ : ∃ w, (w, x) ∈ pathSteps (s.currentPath ++ [s.currentNode]) := by
          apply pathSteps_has_pred
          rw [hfull] at hxq ⊢
          rcases List.mem_cons.mp hxq with hc | hc
          · exact absurd hc hne.1
          · exact hc
        have hyrow : y ∈ rowOf s.graph.levelGraph x :=
          pathSteps_chain (R := fun a b => b ∈ rowOf s.graph.levelGraph a) hinv.chain hy
        have hxrow : x ∈ rowOf s.graph.levelGraph w :=
          pathSteps_chain (R := fun a b => b ∈ rowOf s.graph.levelGraph a) hinv.chain hw
        have hwP : w ∈ s.currentPath := by
          have := (mem_pathSteps hw).1
          rw [List.dropLast_concat] at this
          exact this
        rcases hb with hb | hb
        · rw [hb] at hyrow
          cases hyrow
        · exact hb w (hinv.not_sink w hwP) hxrow
    · rw [if_neg hcur]
      exact ⟨hold, hpair⟩

/-- C30: in a run on a valid bipartite input, any two different paths passed to `augmentFlow`
between two consecutive `createLevelGraph` calls share no node other than the source 0 and
the sink `N + 1`. -/
theorem vertex_disjoint_paths (names : List String) (edgePairs : List (Int × Int))
    (g g1 : Graph) (hvalid : ValidInput names.length edgePairs)
    (hphase : PhaseStart names edgePairs g)
    (hlevel : g.createLevelGraph = Outcome.done (true, g1)) (s : Search)
    (paths : List (List Int)) (hreach : SearchReach (names.length : Int) g1 s paths) :
    paths.Pairwise (fun p q => ∀ x, x ∈ p → x ∈ q → x = 0 ∨ x = (names.length : Int) + 1) := by
  obtain ⟨V, -, -, -, hM, hinit⟩ := phase_context hvalid hphase hlevel
  exact (searchReach_disjoint rfl hinit hM hreach).2

/-- C30 (witness): with the edges A-X and B-Y the first phase passes the paths 0, 1, 3, 5 and
0, 2, 4, 5 to `augmentFlow`; they share the source and the sink only. -/
theorem vertex_disjoint_paths_witness :
    (searchRun 4 8 ⟨twoPairsLevelOne, 0, []⟩ []).map Prod.snd
      = some [[0, 1, 3, 5], [0, 2, 4, 5]] ∧
    [[0, 1, 3, 5], [0, 2, 4, 5]].Pairwise
      (fun (p q : List Int) => ∀ x, x ∈ p → x ∈ q →
        x = 0 ∨ x = (((["A", "B", "X", "Y"].length : Nat) : Int) + 1)) := by
  have h0 : PhaseStart ["A", "B", "X", "Y"] [(1, 3), (2, 4)]
      ⟨[⟨1, 3, false⟩, ⟨2, 4, false⟩],
        [⟨"", 0, 0⟩, ⟨"A", 1, 0⟩, ⟨"B", 2, 0⟩, ⟨"X", 3, 0⟩, ⟨"Y", 4, 0⟩, ⟨"", 5, 0⟩],
        [[1, 2], [3], [4], [5], [5], [-1]], []⟩ :=
    PhaseStart.first
      ⟨[⟨1, 3, false⟩, ⟨2, 4, false⟩],
        [⟨"A", 1, 0⟩, ⟨"B", 2, 0⟩, ⟨"X", 3, 0⟩, ⟨"Y", 4, 0⟩], [], []⟩ _ (by decide) (by decide)
  have hrun : searchRun 4 8 ⟨twoPairsLevelOne, 0, []⟩ []
      = some (⟨{ twoPairsLevelOne with
          edges := [⟨1, 3, true⟩, ⟨2, 4, true⟩]
          residualGraph := [[], [0], [0], [1], [2], [-1, 3, 4]]
          levelGraph := [[], [], [], [], [], [-1]] }, 0, []⟩, [[0, 1, 3, 5], [0, 2, 4, 5]]) := by
    decide
  have hr := searchRun_reach 8 _ _ _ _
    (SearchReach.start ⟨"", 0, 0⟩ rfl : SearchReach 4 twoPairsLevelOne _ _) hrun
  exact ⟨by rw [hrun]; rfl,
    vertex_disjoint_paths ["A", "B", "X", "Y"] [(1, 3), (2, 4)] _ twoPairsLevelOne (by decide) h0
      (by decide) _ _ hr⟩

/-- C29 (witness): with the edges A-X and B-Y the first path passed to `augmentFlow` is
0, 1, 3, 5; it climbs one level per arc and has as many arcs as the sink's level, 3. -/
theorem shortest_augmenting_paths_witness :
    (searchRun 4 4 ⟨twoPairsLevelOne, 0, []⟩ []).map Prod.snd = some [[0, 1, 3, 5]] ∧
    levelOf twoPairsLevelOne.nodes 5 = 3 ∧
    (([0, 1, 3, 5] : List Int).head? = some 0 ∧
      ([0, 1, 3, 5] : List Int).getLast? = some (((["A", "B", "X", "Y"].length : Nat) : Int) + 1) ∧
      ([0, 1, 3, 5] : List Int).Nodup ∧
      (∀ p ∈ pathSteps ([0, 1, 3, 5] : List Int),
        levelOf twoPairsLevelOne.nodes p.2 = levelOf twoPairsLevelOne.nodes p.1 + 1) ∧
      ((([0, 1, 3, 5] : List Int).length : Int) - 1
        = levelOf twoPairsLevelOne.nodes (((["A", "B", "X", "Y"].length : Nat) : Int) + 1))) := by
  have h0 : PhaseStart ["A", "B", "X", "Y"] [(1, 3), (2, 4)]
      ⟨[⟨1, 3, false⟩, ⟨2, 4, false⟩],
        [⟨"", 0, 0⟩, ⟨"A", 1, 0⟩, ⟨"B", 2, 0⟩, ⟨"X", 3, 0⟩, ⟨"Y", 4, 0⟩, ⟨"", 5, 0⟩],
        [[1, 2], [3], [4], [5], [5], [-1]], []⟩ :=
    PhaseStart.first
      ⟨[⟨1, 3, false⟩, ⟨2, 4, false⟩],
        [⟨"A", 1, 0⟩, ⟨"B", 2, 0⟩, ⟨"X", 3, 0⟩, ⟨"Y", 4, 0⟩], [], []⟩ _ (by decide) (by decide)
  have hrun : searchRun 4 4 ⟨twoPairsLevelOne, 0, []⟩ []
      = some (⟨{ twoPairsLevelOne with
          edges := [⟨1, 3, true⟩, ⟨2, 4, false⟩]
          residualGraph := [[2], [0], [4], [1], [5], [-1, 3]]
          levelGraph := [[2], [], [4], [], [5], [-1]] }, 0, []⟩, [[0, 1, 3, 5]]) := by
    decide
  have hr := searchRun_reach 4 _ _ _ _
    (SearchReach.start ⟨"", 0, 0⟩ rfl : SearchReach 4 twoPairsLevelOne _ _) hrun
  exact ⟨by rw [hrun]; rfl, by decide,
    shortest_augmenting_paths ["A", "B", "X", "Y"] [(1, 3), (2, 4)] _ twoPairsLevelOne
      (by decide) h0 (by decide) _ _ hr [0, 1, 3, 5] (by simp)⟩

theorem erase_fold_keeps (steps : List (Int × Int)) : ∀ {lg l : List (List Int)},
    steps.foldlM (fun acc p => eraseStep acc p.1 p.2) lg = some l →
    ∀ u x, x ∈ rowOf lg u → (u, x) ∉ steps → x ∈ rowOf l u := by
  induction steps with
  | nil =>
    intro lg l h u x hx _
    simp only [List.foldlM_nil, Option.pure_def, Option.some.injEq] at h
    rw [← h]
    exact hx
  | cons p rest ih =>
    intro lg l h u x hx hnot
    simp only [List.foldlM_cons, Option.bind_eq_bind] at h
    cases h1 : eraseStep lg p.1 p.2 with
    | none => rw [h1] at h; cases h
    | some l1 =>
      rw [h1] at h
      simp only [Option.some_bind] at h
      obtain ⟨-, hrow, hother⟩ := eraseStep_rows h1
      refine ih h u x ?_ (fun hm => hnot (List.mem_cons_of_mem _ hm))
      by_cases hu : u = p.1
      · rw [hu, hrow]
        have hxp : x ≠ p.2 := by
          intro hx2
          apply hnot
          rw [hu, hx2]
          exact List.mem_cons_self _ _
        rw [hu] at hx
        exact (List.mem_erase_of_ne hxp).mpr hx
      · rw [hother u hu]
        exact hx

/-- After `updateResidualGraph` on the path of an augmentation, no arc of the path is left in
the residual graph. -/
theorem reverse_fold_removed {L N : Nat} {V : Int → Prop} {s : Search} {r : List (List Int)}
    (hinv : SearchInv ((N : Int) + 1) V s) (hM : MatchInv L N s.graph)
    (hr : (pathSteps (s.currentPath ++ [s.currentNode])).foldlM
      (fun acc q => reverseStep acc q.1 q.2) s.graph.residualGraph = some r)
    {u x : Int} (hux : (u, x) ∈ pathSteps (s.currentPath ++ [s.currentNode])) :
    x ∉ rowOf r u := by
  have hnd : (s.currentPath ++ [s.currentNode]).Nodup :=
    hinv.increasing.imp (fun h => ne_of_apply_ne (levelOf s.graph.nodes) (ne_of_lt h))
  have hch : List.Chain' (fun a b => b ∈ rowOf s.graph.residualGraph a)
      (s.currentPath ++ [s.currentNode]) :=
    hinv.chain.imp (fun {a b} h => (hinv.sub a).subset h)
  have huP : u ∈ s.currentPath := by
    have := (mem_pathSteps hux).1
    rw [List.dropLast_concat] at this
    exact this
  have hurange : 0 ≤ u ∧ u ≤ (N : Int) := by
    obtain ⟨h0, hlt⟩ := hinv.range u (hinv.inV u (List.mem_append_left _ huP))
    rw [hinv.sizes, hM.size] at hlt
    have := hinv.not_sink u huP
    push_cast at hlt
    exact ⟨h0, by omega⟩
  have hrownd := hM.row_nodup hurange.1 hurange.2
  have hxrow : x ∈ rowOf s.graph.residualGraph u :=
    pathSteps_chain (R := fun a b => b ∈ rowOf s.graph.residualGraph a) hch hux
  have hxe : x ∉ (rowOf s.graph.residualGraph u).erase x := by
    intro h
    exact (hrownd.mem_erase_iff.mp h).1 rfl
  obtain ⟨-, h2, h3, -⟩ := reverse_fold_rows _ _ _ hnd hch hr u
  by_cases hpred : ∃ a, (a, u) ∈ pathSteps (s.currentPath ++ [s.currentNode])
  · obtain ⟨a, ha⟩ := hpred
    rw [h2 a x ha hux, List.erase_append_left _ hxrow]
    intro h
    rcases List.mem_append.mp h with h1 | h1
    · exact hxe h1
    · rw [List.mem_singleton] at h1
      rw [h1] at hux
      exact pathSteps_no_both hnd ha hux
  · rw [h3 x (fun a ha => hpred ⟨a, ha⟩) hux]
    exact hxe

/-- During a phase the search keeps `BlockInv` for a growing set of removed nodes. -/
theorem searchReach_block {L N : Nat} {V : Int → Prop} {nodeCount : Int} {g1 : Graph}
    (ht : nodeCount + 1 = (N : Int) + 1)
    (hfacts : LevelFacts ((N : Int) + 1) 0 g1 V)
    (hinit : SearchInv ((N : Int) + 1) V ⟨g1, 0, []⟩) (hM : MatchInv L N g1)
    {s : Search} {paths : List (List Int)} (h : SearchReach nodeCount g1 s paths) :
    ∃ Dead, BlockInv ((N : Int) + 1) V g1.nodes s.graph Dead := by
  induction h with
  | start source hsource =>
    refine ⟨fun _ => False, hfacts.closed, ?_, fun v hv => hv.elim, fun v hv => hv.elim,
      fun v hv => hv.elim⟩
    intro u hu hut v hv hlev
    exact Or.inl (hfacts.kept u hu hut v hv hlev)
  | step s s1 paths a rest hprev hrow0 hstep ih =>
    obtain ⟨Dead, hB⟩ := ih
    obtain ⟨hinv, hMs, hnodes⟩ := searchReach_inv ht hinit hM hprev
    rcases searchStep_cases hstep with ⟨hcur, r, l, hr, hl, hs1⟩ | ⟨hcur, hrow, g2, previous, hrem, -, hs1⟩ |
      ⟨hcur, next, rest1, -, hs1⟩
    · -- augmentation
      have hres1 : s1.graph.residualGraph = r := by rw [hs1]
      have hlev1 : s1.graph.levelGraph = l := by rw [hs1]
      have hback : ∀ u v, v ∈ rowOf r u → v ∈ rowOf s.graph.residualGraph u ∨
          (V v ∧ v ≠ (N : Int) + 1 ∧ levelOf g1.nodes u = levelOf g1.nodes v + 1) := by
        intro u v hv
        rcases (reverse_fold _ hr).2.1 u v hv with h1 | ⟨p, hp, hp2, hp1⟩
        · exact Or.inl h1
        · right
          have hvu : (v, u) ∈ pathSteps (s.currentPath ++ [s.currentNode]) := by
            rw [hp1, ← hp2]
            exact hp
          have hvP : v ∈ s.currentPath := by
            have := (mem_pathSteps hvu).1
            rw [List.dropLast_concat] at this
            exact this
          have hV := hinv.inV v (List.mem_append_left _ hvP)
          have hvt := hinv.not_sink v hvP
          have hrow : u ∈ rowOf s.graph.levelGraph v :=
            pathSteps_chain (R := fun a b => b ∈ rowOf s.graph.levelGraph a) hinv.chain hvu
          have hlay := (hinv.layered v hV hvt u hrow).2
          rw [hnodes] at hlay
          exact ⟨hV, hvt, hlay⟩
      refine ⟨Dead, ?_, ?_, hB.dead_not_sink, hB.dead_marked, ?_⟩
      · intro u hu hut v hv
        rw [hres1] at hv
        rcases hback u v hv with h1 | ⟨hV, -, hlev⟩
        · exact hB.closed u hu hut v h1
        · exact ⟨hV, by omega⟩
      · intro u hu hut v hv hlev
        rw [hres1] at hv
        rw [hlev1]
        rcases hback u v hv with h1 | ⟨-, -, hlev2⟩
        · rcases hB.kept u hu hut v h1 hlev with h2 | h2
          · by_cases hstepuv : (u, v) ∈ pathSteps (s.currentPath ++ [s.currentNode])
            · exact absurd hv (reverse_fold_removed hinv hMs hr hstepuv)
            · exact Or.inl (erase_fold_keeps _ hl u v h2 hstepuv)
          · exact Or.inr h2
        · omega
      · intro v hv w hw hlev
        rw [hres1] at hw
        rcases hback v w hw with h1 | ⟨-, -, hlev2⟩
        · exact hB.dead_rows v hv w h1 hlev
        · omega
    · -- retreat
      obtain ⟨-, -, hres, -, hrowc, hrows⟩ := removeNode_rows hrem
      have hres1 : s1.graph.residualGraph = s.graph.residualGraph := by rw [hs1]; exact hres
      have hVc : V s.currentNode := hinv.inV _ (List.mem_append_right _ (List.mem_singleton_self _))
      have hct : s.currentNode ≠ (N : Int) + 1 := fun h => hcur (h.trans ht.symm)
      have hcrange := hinv.range _ hVc
      have hrowc0 : rowOf s.graph.levelGraph s.currentNode = [] := by
        have := getLevelGraphAt_eq hcrange.1 hcrange.2
        rw [hrow] at this
        exact (Option.some.inj this).symm
      refine ⟨fun v => Dead v ∨ v = s.currentNode, ?_, ?_, ?_, ?_, ?_⟩
      · intro u hu hut v hv
        rw [hres1] at hv
        exact hB.closed u hu hut v hv
      · intro u hu hut v hv hlev
        rw [hres1] at hv
        by_cases hvc : v = s.currentNode
        · exact Or.inr (Or.inr hvc)
        · rcases hB.kept u hu hut v hv hlev with h2 | h2
          · left
            by_cases huc : u = s.currentNode
            · rw [huc, hrowc0] at h2
              cases h2
            · rw [hs1]
              show v ∈ rowOf g2.levelGraph u
              rw [hrows u huc]
              exact (List.mem_erase_of_ne hvc).mpr h2
          · exact Or.inr (Or.inl h2)
      · rintro v (hv | hv)
        · exact hB.dead_not_sink v hv
        · rw [hv]; exact hct
      · rintro v (hv | hv)
        · exact hB.dead_marked v hv
        · rw [hv]; exact hVc
      · rintro v (hv | hv) w hw hlev
        · rw [hres1] at hw
          exact Or.inl (hB.dead_rows v hv w hw hlev)
        · rw [hres1, hv] at hw
          rw [hv] at hlev
          rcases hB.kept _ hVc hct w hw hlev with h2 | h2
          · rw [hrowc0] at h2
            cases h2
          · exact Or.inl h2
    · -- advance
      have hg : s1.graph = s.graph := by rw [hs1]
      rw [hg]
      exact ⟨Dead, hB⟩

/-- The graph with which the inner loop ends is the graph of a state of the search at which
the source has no level-graph arc left. -/
theorem searchLoop_reach {nodeCount : Int} {g1 g2 : Graph} : ∀ (fuel : Nat) (s : Search)
    (paths : List (List Int)), SearchReach nodeCount g1 s paths →
    searchLoop nodeCount fuel s = Outcome.done g2 →
    ∃ s2 paths2, SearchReach nodeCount g1 s2 paths2 ∧ s2.graph = g2 ∧
      s2.graph.getLevelGraphAt 0 = some [] := by
  intro fuel
  induction fuel with
  | zero =>
    intro s paths _ h
    rw [searchLoop] at h
    cases h
  | succ fuel ih =>
    intro s paths hreach h
    rw [searchLoop] at h
    cases hrow : s.graph.getLevelGraphAt 0 with
    | none => rw [hrow] at h; cases h
    | some row =>
      rw [hrow] at h
      cases row with
      | nil =>
        simp only [Outcome.done.injEq] at h
        exact ⟨s, paths, hreach, h, hrow⟩
      | cons a rest =>
        simp only at h
        cases hstep : searchStep nodeCount s with
        | none => rw [hstep] at h; cases h
        | some s1 =>
          rw [hstep] at h
          exact ih s1 _ (SearchReach.step s s1 paths a rest hreach hrow hstep) h

/-- Once the source has no level-graph arc left, a walk of `n` arcs from the source that
avoids the sink ends at a level below `n`, unless it ends at the source or at a removed
node. -/
theorem walk_blocked {t : Int} {V : Int → Prop} {nodes : List Node} {g : Graph}
    {Dead : Int → Prop} (hB : BlockInv t V nodes g Dead) (hV0 : V 0)
    (hlevel0 : levelOf nodes 0 = 0) (hrow0 : rowOf g.levelGraph 0 = []) :
    ∀ {n : Nat} {a x : Int}, WalkBefore g.residualGraph t n a x → a = 0 →
      V x ∧ levelOf nodes x ≤ (n : Int) ∧ (levelOf nodes x = (n : Int) → x = 0 ∨ Dead x) := by
  intro n a x h
  induction h with
  | nil a =>
    intro ha
    rw [ha]
    exact ⟨hV0, by rw [hlevel0]; rfl, fun _ => Or.inl rfl⟩
  | snoc hwalk hxt hy ih =>
    rename_i n a x y
    intro ha
    obtain ⟨hVx, hle, hend⟩ := ih ha
    obtain ⟨hVy, hly⟩ := hB.closed x hVx hxt y hy
    refine ⟨hVy, by push_cast; omega, ?_⟩
    intro hlev
    push_cast at hlev
    have hx : levelOf nodes x = (n : Int) := by omega
    have hup : levelOf nodes y = levelOf nodes x + 1 := by omega
    right
    rcases hend hx with h0 | hd
    · rw [h0] at hy hup hVx
      rcases hB.kept 0 hVx (by rw [← h0]; exact hxt) y hy hup with h1 | h1
      · rw [hrow0] at h1
        cases h1
      · exact h1
    · exact hB.dead_rows x hd y hy hup

/-- C28: in a run on a valid bipartite input, when two consecutive calls of `createLevelGraph`
both return true, the level that the later call stores for the sink `N + 1` is strictly
greater than the level that the earlier call stored for it. -/
theorem sink_level_grows (names : List String) (edgePairs : List (Int × Int))
    (g g1 g2 g3 : Graph) (source : Node) (fuel : Nat)
    (hvalid : ValidInput names.length edgePairs) (hphase : PhaseStart names edgePairs g)
    (hlevel : g.createLevelGraph = Outcome.done (true, g1))
    (hsource : g1.getNode 0 = some source)
    (hsearch : searchLoop (names.length : Int) fuel ⟨g1, source.index, []⟩ = Outcome.done g2)
    (hnext : g2.createLevelGraph = Outcome.done (true, g3)) :
    levelOf g1.nodes ((names.length : Int) + 1) < levelOf g3.nodes ((names.length : Int) + 1) := by
  obtain ⟨V, hfacts, -, -, hM, hinit⟩ := phase_context hvalid hphase hlevel
  obtain ⟨s2, paths2, hreach, hg2, hrow⟩ :=
    searchLoop_reach fuel _ [] (SearchReach.start source hsource) hsearch
  obtain ⟨Dead, hB⟩ := searchReach_block rfl hfacts hinit hM hreach
  obtain ⟨hinv2, -, -⟩ := searchReach_inv rfl hinit hM hreach
  have hphase2 : PhaseStart names edgePairs g2 :=
    PhaseStart.next g g1 g2 source fuel hphase hlevel hsource hsearch
  obtain ⟨V3, hfacts3, hsink3, -, -, -⟩ := phase_context hvalid hphase2 hnext
  have hres3 : g3.residualGraph = g2.residualGraph := (createLevelGraph_frame hnext).2
  have hge := hfacts3.level_ge _ (hsink3 rfl)
  have hwalk := level_walk hfacts3 (levelOf g3.nodes ((names.length : Int) + 1)).toNat
    ((names.length : Int) + 1) (hsink3 rfl) (by omega)
  rw [hres3, ← hg2] at hwalk
  have hrow0 : rowOf s2.graph.levelGraph 0 = [] := by
    have h0 := hinv2.range 0 hinv2.source
    have := getLevelGraphAt_eq h0.1 h0.2
    rw [hrow] at this
    exact (Option.some.inj this).symm
  obtain ⟨-, hle, hend⟩ := walk_blocked hB hfacts.source hfacts.source_level hrow0 hwalk rfl
  have hne : levelOf g1.nodes ((names.length : Int) + 1)
      ≠ (((levelOf g3.nodes ((names.length : Int) + 1)).toNat : Nat) : Int) := by
    intro heq
    rcases hend heq with h0 | hd
    · omega
    · exact hB.dead_not_sink _ hd rfl
  omega

/-- C28 (witness): in the first scenario the first call of `createLevelGraph` stores level 3
for the sink 5 and the second call, after the phase that augments along 0, 1, 3, 5, stores
level 5. -/
theorem sink_level_grows_witness :
    ValidInput ["A", "B", "X", "Y"].length [(1, 3), (1, 4), (2, 3)] ∧
    PhaseStart ["A", "B", "X", "Y"] [(1, 3), (1, 4), (2, 3)] scenarioOneResidual ∧
    scenarioOnePhaseTwo.createLevelGraph = Outcome.done (true, scenarioOneLevelTwo) ∧
    levelOf scenarioOneLevelTwo.nodes 5 = 5 ∧
    (levelOf ({ scenarioOneResidual with
        nodes := [⟨"", 0, 0⟩, ⟨"A", 1, 1⟩, ⟨"B", 2, 1⟩, ⟨"X", 3, 2⟩, ⟨"Y", 4, 2⟩, ⟨"", 5, 3⟩]
        levelGraph := [[1, 2], [3, 4], [3], [5], [5], [-1]] } : Graph).nodes
        (((["A", "B", "X", "Y"].length : Nat) : Int) + 1)
      < levelOf scenarioOneLevelTwo.nodes (((["A", "B", "X", "Y"].length : Nat) : Int) + 1)) := by
  have h0 : PhaseStart ["A", "B", "X", "Y"] [(1, 3), (1, 4), (2, 3)] scenarioOneResidual :=
    PhaseStart.first scenarioOneLoaded scenarioOneResidual (by decide) (by decide)
  exact ⟨by decide, h0, by decide, by decide,
    sink_level_grows ["A", "B", "X", "Y"] [(1, 3), (1, 4), (2, 3)] scenarioOneResidual
      { scenarioOneResidual with
        nodes := [⟨"", 0, 0⟩, ⟨"A", 1, 1⟩, ⟨"B", 2, 1⟩, ⟨"X", 3, 2⟩, ⟨"Y", 4, 2⟩, ⟨"", 5, 3⟩]
        levelGraph := [[1, 2], [3, 4], [3], [5], [5], [-1]] }
      scenarioOnePhaseTwo scenarioOneLevelTwo ⟨"", 0, 0⟩ 20 (by decide) h0 (by decide)
      (by decide) (by decide) (by decide)⟩

/-- The path of an augmentation, its arcs and the residual graph that `updateResidualGraph`
leaves fit the context `AugCtx`. -/
theorem augCtx_of_search {L N : Nat} {V : Int → Prop} {s : Search} {r : List (List Int)}
    (hinv : SearchInv ((N : Int) + 1) V s) (hM : MatchInv L N s.graph)
    (hcur : s.currentNode = (N : Int) + 1)
    (hr : (pathSteps (s.currentPath ++ [s.currentNode])).foldlM
      (fun acc q => reverseStep acc q.1 q.2) s.graph.residualGraph = some r) :
    AugCtx L N s.graph (pathSteps (s.currentPath ++ [s.currentNode])) r := by
  obtain ⟨p1, rest, hfull, -, -, hsteps⟩ := augment_path_shape hinv hcur
  have hnd : (s.currentPath ++ [s.currentNode]).Nodup := by
    refine List.Pairwise.imp ?_ hinv.increasing
    intro a b hab hc
    rw [hc] at hab
    exact lt_irrefl _ hab
  have hchain : List.Chain' (fun x y => y ∈ rowOf s.graph.residualGraph x)
      (s.currentPath ++ [s.currentNode]) :=
    List.Chain'.imp (fun a b hab => (hinv.sub a).subset hab) hinv.chain
  have hrows := reverse_fold_rows _ _ _ hnd hchain hr
  have hlen := (reverse_fold _ hr).1
  exact
    { inv := hM
      valid := fun x y hxy => pathSteps_chain hchain hxy
      range := fun x y hxy => by
        obtain ⟨hV, hxt, hy0⟩ := hsteps (x, y) hxy
        obtain ⟨h0, hlt⟩ := hinv.range x hV
        rw [hinv.sizes, hM.size] at hlt
        push_cast at hlt
        exact ⟨h0, by omega, hy0⟩
      succ_unique := fun x y y' h1 h2 => pathSteps_succ_unique hnd h1 h2
      pred_unique := fun x x' y h1 h2 => pathSteps_pred_unique hnd h1 h2
      no_both := fun x y h1 => pathSteps_no_both hnd h1
      has_pred := fun x y hxy hx0 => by
        apply pathSteps_has_pred
        have hx := pathSteps_fst_mem hxy
        rw [hfull] at hx ⊢
        rcases List.mem_cons.mp hx with hc | hc
        · exact absurd hc hx0
        · exact hc
      has_succ := fun x y hxy hyt => by
        apply pathSteps_has_succ
        rw [List.dropLast_concat]
        have hy := List.mem_of_mem_tail (mem_pathSteps hxy).2
        rcases List.mem_append.mp hy with hc | hc
        · exact hc
        · rw [List.mem_singleton] at hc
          exact absurd (hc.trans hcur) hyt
      length := hlen
      row_same := fun u => (hrows u).1
      row_inner := fun u => (hrows u).2.1
      row_first := fun u => (hrows u).2.2.1 }

theorem FlowInv.of_eq {L : Nat} {g g1 : Graph} (h : FlowInv L g) (hedges : g1.edges = g.edges)
    (hres : g1.residualGraph = g.residualGraph) : FlowInv L g1 :=
  ⟨fun a b hab => by rw [hres]; exact h.false_arc a b (hedges ▸ hab),
    fun a h1 h2 hfree => by
      rw [hres]
      exact h.free_left a h1 h2 (fun b hb => hfree b (hedges ▸ hb))⟩

section Augment

variable {L N : Nat} {g : Graph} {steps : List (Int × Int)} {r2 : List (List Int)}

/-- A left node on the path of an augmentation carries flow afterwards. -/
theorem AugCtx.left_on_path (c : AugCtx L N g steps r2) {a y : Int} (h : (a, y) ∈ steps)
    (ha1 : 1 ≤ a) (ha2 : a ≤ (L : Int)) :
    HasEdge (g.edges.map (augmentAlong steps)) a y true := by
  rcases c.typing h with ⟨h0, -⟩ | ⟨-, -, hedge⟩ | ⟨hlt, -⟩
  · omega
  · exact c.forward hedge h
  · omega

/-- An augmentation keeps `FlowInv`. -/
theorem AugCtx.flow_after (c : AugCtx L N g steps r2) (hF : FlowInv L g) (nodes : List Node)
    (l : List (List Int)) : FlowInv L ⟨g.edges.map (augmentAlong steps), nodes, r2, l⟩ := by
  constructor
  · intro a b hab
    show b ∈ rowOf r2 a
    obtain ⟨f0, h0, hf⟩ := (hasEdge_augment steps g.edges c.no_both a b false).mp hab
    obtain ⟨ha1, ha2, hb1, hb2⟩ := c.inv.endpoints a b f0 h0
    by_cases h1 : (a, b) ∈ steps
    · rw [if_pos h1] at hf
      cases hf
    · rw [if_neg h1] at hf
      rcases c.inner_cases (u := a) ha1 (by omega) with ⟨hnp, hns, hrow⟩ | ⟨w, y, hw, hy, hrow⟩
      · have h2 : (b, a) ∉ steps := hnp b
        rw [if_neg h2] at hf
        rw [hrow]
        exact hF.false_arc a b (hf ▸ h0)
      · rw [hrow]
        have hby : b ≠ y := fun hc => h1 (hc ▸ hy)
        refine (List.mem_erase_of_ne hby).mpr (List.mem_append.mpr ?_)
        by_cases h2 : (b, a) ∈ steps
        · right
          rw [c.pred_unique _ _ _ h2 hw]
          exact List.mem_singleton_self _
        · rw [if_neg h2] at hf
          exact Or.inl (hF.false_arc a b (hf ▸ h0))
  · intro a ha1 ha2 hfree
    show a ∈ rowOf r2 0
    have hLN := c.inv.left_le
    have hold : ∀ b, ¬ HasEdge g.edges a b true := by
      intro b hb
      obtain ⟨-, -, hb1, hb2⟩ := c.inv.endpoints a b true hb
      by_cases h2 : (b, a) ∈ steps
      · obtain ⟨y, hy⟩ := c.has_succ b a h2 (by omega)
        exact hfree y (c.left_on_path hy ha1 ha2)
      · by_cases h1 : (a, b) ∈ steps
        · exact hfree b (c.forward hb h1)
        · exact hfree b (c.untouched hb h1 h2)
    have hmem := hF.free_left a ha1 ha2 hold
    rcases c.row_zero with ⟨-, hrow⟩ | ⟨y, hy, hrow⟩
    · rw [hrow]
      exact hmem
    · rw [hrow]
      refine (List.mem_erase_of_ne ?_).mpr hmem
      intro hay
      rw [← hay] at hy
      obtain ⟨z, hz⟩ := c.has_succ 0 a hy (by omega)
      exact hfree z (c.left_on_path hz ha1 ha2)

end Augment

/-- The rows of the residual graph that `createResidualGraph` builds for a valid input, read
through `rowOf`. -/
theorem createResidualGraph_rowOf (names : List String) (pairs : List (Int × Int))
    (g1 : Graph) (hvalid : ValidInput names.length pairs)
    (h : (⟨pairs.map (fun p => (⟨p.1, p.2, false⟩ : Edge)), loadedNodes names, [], []⟩ :
      Graph).createResidualGraph = some g1) :
    g1.edges = pairs.map (fun p => (⟨p.1, p.2, false⟩ : Edge)) ∧
    rowOf g1.residualGraph 0
      = (List.range (names.length / 2)).map (fun (k : Nat) => (k : Int) + 1) ∧
    (∀ a : Int, 1 ≤ a → a ≤ (names.length : Int) →
      rowOf g1.residualGraph a
        = (((pairs.map (fun p => (⟨p.1, p.2, false⟩ : Edge))).filter
              (fun e => decide (e.source = a))).map Edge.destination)
          ++ (if names.length / 2 < a.toNat then [(names.length : Int) + 1] else [])) ∧
    rowOf g1.residualGraph ((names.length : Int) + 1) = [-1] := by
  have hrange := validInput_range hvalid
  have hedges : ∀ e ∈ pairs.map (fun p => (⟨p.1, p.2, false⟩ : Edge)),
      1 ≤ e.source ∧ e.source ≤ (names.length : Int) ∧ 1 ≤ e.destination ∧
        e.destination ≤ (names.length : Int) := by
    intro e he
    obtain ⟨p, hp, rfl⟩ := List.mem_map.mp he
    exact hrange p hp
  have hlen0 : (⟨pairs.map (fun p => (⟨p.1, p.2, false⟩ : Edge)), loadedNodes names, [], []⟩ :
      Graph).nodes.length = names.length := loadedNodes_length names
  obtain ⟨-, hedges1, -⟩ := createResidualGraph_resInv names _ g1 hedges h
  obtain ⟨g1', hg1', hrlen, hrow0, hrows, hsink⟩ :=
    createResidualGraph_rows ⟨_, loadedNodes names, [], []⟩ rfl
      (by intro e he; rw [hlen0]; exact hedges e he)
  rw [h] at hg1'
  cases hg1'
  rw [hlen0] at hrlen hrow0 hrows hsink
  simp only at hrows
  refine ⟨hedges1, ?_, ?_, ?_⟩
  · have := rowOf_natCast g1.residualGraph 0
    rw [hrow0] at this
    simpa using this
  · intro a ha1 ha2
    have hcast : a = ((a.toNat : Nat) : Int) := by omega
    have := rowOf_natCast g1.residualGraph a.toNat
    rw [hrows a.toNat (by omega) (by omega), ← hcast] at this
    simpa using this
  · have := rowOf_natCast g1.residualGraph (names.length + 1)
    rw [hsink] at this
    simpa using this

/-- Right after `createResidualGraph` on a valid input no edge carries flow and `FlowInv`
holds. -/
theorem createResidualGraph_flowInv (names : List String) (pairs : List (Int × Int))
    (g1 : Graph) (hvalid : ValidInput names.length pairs)
    (h : (⟨pairs.map (fun p => (⟨p.1, p.2, false⟩ : Edge)), loadedNodes names, [], []⟩ :
      Graph).createResidualGraph = some g1) :
    FlowInv (names.length / 2) g1 ∧ ∀ a b, ¬ HasEdge g1.edges a b true := by
  obtain ⟨hedges, hr0, hrow, -⟩ := createResidualGraph_rowOf names pairs g1 hvalid h
  refine ⟨⟨?_, ?_⟩, ?_⟩
  · intro a b hab
    obtain ⟨ha1, ha2, hb1, hb2⟩ :=
      (createResidualGraph_matchInv names pairs g1 hvalid h).endpoints a b false hab
    have hLN := Nat.div_le_self names.length 2
    rw [hrow a ha1 (by omega)]
    obtain ⟨e, he, hs, hd, -⟩ := hab
    rw [hedges] at he
    exact List.mem_append_left _
      (List.mem_map.mpr ⟨e, List.mem_filter.mpr ⟨he, by simpa using hs⟩, hd⟩)
  · intro a ha1 ha2 _
    rw [hr0]
    exact List.mem_map.mpr ⟨(a - 1).toNat, List.mem_range.mpr (by omega), by omega⟩
  · intro a b hab
    rw [hedges] at hab
    have := ((hasEdge_loaded pairs a b true).mp hab).2
    cases this

theorem searchStep_flow {L N : Nat} {V : Int → Prop} {nodeCount : Int} {s s1 : Search}
    (ht : nodeCount + 1 = (N : Int) + 1)
    (hinv : SearchInv ((N : Int) + 1) V s) (hM : MatchInv L N s.graph)
    (hF : FlowInv L s.graph) (h : searchStep nodeCount s = some s1) : FlowInv L s1.graph := by
  by_cases hcur : s.currentNode = nodeCount + 1
  · obtain ⟨r, l, hr, hl, rfl⟩ := searchStep_augment_some hcur h
    have hctx := augCtx_of_search hinv hM (hcur.trans ht) hr
    have := hctx.flow_after hF s.graph.nodes l
    rw [← augment_fold_map] at this
    exact this
  · obtain ⟨-, hres, hedges, -⟩ := searchStep_move hinv hcur ht h
    exact hF.of_eq hedges hres

theorem searchReach_flow {L N : Nat} {V : Int → Prop} {nodeCount : Int} {g1 : Graph}
    (ht : nodeCount + 1 = (N : Int) + 1)
    (hinit : SearchInv ((N : Int) + 1) V ⟨g1, 0, []⟩) (hM : MatchInv L N g1)
    (hF : FlowInv L g1) {s : Search} {paths : List (List Int)}
    (h : SearchReach nodeCount g1 s paths) : FlowInv L s.graph := by
  induction h with
  | start source hsource => exact hF
  | step s s1 paths a rest hprev hrow0 hstep ih =>
    obtain ⟨hinv, hMs, -⟩ := searchReach_inv ht hinit hM hprev
    exact searchStep_flow ht hinv hMs ih hstep

theorem phaseStart_flowInv {names : List String} {edgePairs : List (Int × Int)} {g : Graph}
    (hvalid : ValidInput names.length edgePairs) (h : PhaseStart names edgePairs g) :
    FlowInv (names.length / 2) g := by
  have hrange := validInput_range hvalid
  induction h with
  | first g0 g1 hload hres =>
    rw [loadGraph_valid names edgePairs hrange] at hload
    cases hload
    exact (createResidualGraph_flowInv names edgePairs g1 hvalid hres).1
  | next g g1 g2 source fuel hphase hlevel hsource hsearch ih =>
    obtain ⟨V, -, -, -, hM, hinit⟩ := phase_context hvalid hphase hlevel
    obtain ⟨hedges1, hres1⟩ := createLevelGraph_frame hlevel
    obtain ⟨s2, paths2, hreach, hg2, -⟩ :=
      searchLoop_reach fuel _ [] (SearchReach.start source hsource) hsearch
    rw [← hg2]
    exact searchReach_flow rfl hinit hM (ih.of_eq hedges1 hres1) hreach

theorem mem_flow_sources (es : List Edge) (a : Int) :
    a ∈ (es.filter (fun e => e.flow)).map Edge.source ↔ ∃ b, HasEdge es a b true := by
  constructor
  · intro h
    obtain ⟨e, he, hs⟩ := List.mem_map.mp h
    obtain ⟨hmem, hflow⟩ := List.mem_filter.mp he
    exact ⟨e.destination, e, hmem, hs, rfl, hflow⟩
  · rintro ⟨b, e, hmem, hs, -, hflow⟩
    exact List.mem_map.mpr ⟨e, List.mem_filter.mpr ⟨hmem, hflow⟩, hs⟩

theorem MatchInv.flow_sources_nodup {L N : Nat} {g : Graph} (h : MatchInv L N g) :
    ((g.edges.filter (fun e => e.flow)).map Edge.source).Nodup := by
  have hnd : g.edges.Nodup := List.Nodup.of_map _ h.pairs_nodup
  refine List.Nodup.map_on ?_ (hnd.filter _)
  intro e he e1 he1 hs
  obtain ⟨hmem, hflow⟩ := List.mem_filter.mp he
  obtain ⟨hmem1, hflow1⟩ := List.mem_filter.mp he1
  have hd : e.destination = e1.destination :=
    h.flow_unique e.source e.destination e1.destination ⟨e, hmem, rfl, rfl, hflow⟩
      ⟨e1, hmem1, hs.symm, rfl, hflow1⟩
  cases e
  cases e1
  simp only at hs hd hflow hflow1
  rw [hs, hd, hflow, hflow1]

section Augment

variable {L N : Nat} {g : Graph} {steps : List (Int × Int)} {r2 : List (List Int)}

/-- An augmentation whose path leaves the source through `a1` adds `a1` to the left nodes
that carry flow and changes nothing else about that set. -/
theorem AugCtx.flow_sources_after (c : AugCtx L N g steps r2) {a1 : Int}
    (h1 : (0, a1) ∈ steps) (a : Int) :
    (∃ b, HasEdge (g.edges.map (augmentAlong steps)) a b true) ↔
      a = a1 ∨ ∃ b, HasEdge g.edges a b true := by
  have hLN := c.inv.left_le
  have ha1 : 1 ≤ a1 ∧ a1 ≤ (L : Int) := by
    rcases c.typing h1 with ⟨-, h2, h3, -⟩ | ⟨h2, -⟩ | ⟨h2, -⟩
    · exact ⟨h2, h3⟩
    · omega
    · omega
  constructor
  · rintro ⟨b, hb⟩
    rcases c.new_true hb with hs | ⟨hold, -, -⟩
    · obtain ⟨f0, h0⟩ := c.old_edge hb
      obtain ⟨e1, e2, -, -⟩ := c.inv.endpoints a b f0 h0
      obtain ⟨w, hw⟩ := c.has_pred a b hs (by omega)
      rcases c.into_left hw e2 with ⟨hw0, -⟩ | ⟨-, -, hflow⟩
      · rw [hw0] at hw
        exact Or.inl (c.succ_unique 0 a a1 hw h1)
      · exact Or.inr ⟨w, hflow⟩
    · exact Or.inr ⟨b, hold⟩
  · rintro (rfl | ⟨b, hb⟩)
    · obtain ⟨z, hz⟩ := c.has_succ 0 a h1 (by omega)
      exact ⟨z, c.left_on_path hz ha1.1 ha1.2⟩
    · obtain ⟨e1, e2, e3, e4⟩ := c.inv.endpoints a b true hb
      by_cases h2 : (b, a) ∈ steps
      · obtain ⟨z, hz⟩ := c.has_succ b a h2 (by omega)
        exact ⟨z, c.left_on_path hz e1 e2⟩
      · by_cases h3 : (a, b) ∈ steps
        · exact ⟨b, c.forward hb h3⟩
        · exact ⟨b, c.untouched hb h3 h2⟩

/-- An augmentation raises the number of edges that carry flow by one. -/
theorem AugCtx.count_after (c : AugCtx L N g steps r2) {a1 : Int} (h1 : (0, a1) ∈ steps)
    (nodes : List Node) (l : List (List Int)) :
    ((g.edges.map (augmentAlong steps)).filter (fun e => e.flow)).length
      = (g.edges.filter (fun e => e.flow)).length + 1 := by
  have hM1 := c.matchInv nodes l
  have hnd1 := hM1.flow_sources_nodup
  have hnd := c.inv.flow_sources_nodup
  have hfresh : a1 ∉ (g.edges.filter (fun e => e.flow)).map Edge.source := by
    rw [mem_flow_sources]
    rintro ⟨b, hb⟩
    rcases c.typing h1 with ⟨-, -, -, hfree⟩ | ⟨h2, -⟩ | ⟨h2, -⟩
    · exact hfree b hb
    · omega
    · have := c.inv.left_le
      omega
  have hperm : (((g.edges.map (augmentAlong steps)).filter (fun e => e.flow)).map
      Edge.source).Perm (a1 :: (g.edges.filter (fun e => e.flow)).map Edge.source) := by
    rw [List.perm_ext_iff_of_nodup hnd1 (List.nodup_cons.mpr ⟨hfresh, hnd⟩)]
    intro a
    rw [mem_flow_sources, List.mem_cons, mem_flow_sources]
    exact c.flow_sources_after h1 a
  have := hperm.length_eq
  simpa using this

end Augment

/-- With `MatchInv` and `FlowInv` the flag of every edge record says which way its arc points
in the residual graph. -/
theorem mirror_of_inv {L N : Nat} {g : Graph} (hM : MatchInv L N g) (hF : FlowInv L g)
    (e : Edge) (he : e ∈ g.edges) :
    (e.flow = false ↔ e.destination ∈ rowOf g.residualGraph e.source) ∧
    (e.flow = true ↔ e.source ∈ rowOf g.residualGraph e.destination) := by
  have hedge : HasEdge g.edges e.source e.destination e.flow := ⟨e, he, rfl, rfl, rfl⟩
  obtain ⟨h1, h2, h3, h4⟩ := hM.endpoints _ _ _ hedge
  have hLN := hM.left_le
  constructor
  · constructor
    · intro hf
      exact hF.false_arc _ _ (hf ▸ hedge)
    · intro hmem
      rcases hM.left_rows e.source h1 h2 _ hmem with ⟨h0, -⟩ | hfalse
      · omega
      · exact hM.functional hedge hfalse
  · constructor
    · intro hf
      rw [hM.flow_row _ _ (hf ▸ hedge)]
      exact List.mem_singleton_self _
    · intro hmem
      rcases hM.right_rows e.destination h3 h4 with hrow | ⟨a, ha⟩
      · rw [hrow, List.mem_singleton] at hmem
        omega
      · rw [hM.flow_row _ _ ha, List.mem_singleton] at hmem
        rw [← hmem] at ha
        exact hM.functional hedge ha

/-- C36: in a run on a valid bipartite input, in the state `createResidualGraph` leaves, in
every state at which a phase starts and in every state of the inner loop (so after every
augmentation step), every edge record has `flow = false` exactly when its destination is in
the residual row of its source, and `flow = true` exactly when its source is in the residual
row of its destination. -/
theorem flow_mirrors_residual (names : List String) (edgePairs : List (Int × Int))
    (g : Graph) (hvalid : ValidInput names.length edgePairs)
    (hphase : PhaseStart names edgePairs g) :
    (∀ e ∈ g.edges,
      (e.flow = false ↔ e.destination ∈ rowOf g.residualGraph e.source) ∧
      (e.flow = true ↔ e.source ∈ rowOf g.residualGraph e.destination)) ∧
    ∀ (g1 : Graph) (s : Search) (paths : List (List Int)),
      g.createLevelGraph = Outcome.done (true, g1) →
      SearchReach (names.length : Int) g1 s paths →
      ∀ e ∈ s.graph.edges,
        (e.flow = false ↔ e.destination ∈ rowOf s.graph.residualGraph e.source) ∧
        (e.flow = true ↔ e.source ∈ rowOf s.graph.residualGraph e.destination) := by
  have hM := phaseStart_matchInv hvalid hphase
  have hF := phaseStart_flowInv hvalid hphase
  refine ⟨mirror_of_inv hM hF, ?_⟩
  intro g1 s paths hlevel hreach
  obtain ⟨V, -, -, -, hM1, hinit⟩ := phase_context hvalid hphase hlevel
  obtain ⟨hedges1, hres1⟩ := createLevelGraph_frame hlevel
  exact mirror_of_inv (searchReach_inv rfl hinit hM1 hreach).2.1
    (searchReach_flow rfl hinit hM1 (hF.of_eq hedges1 hres1) hreach)

/-- C36 (witness): the first scenario after `createResidualGraph`, and after its first
augmentation along 0, 1, 3, 5: the edge A-X carries flow and node 1 is in the row of node 3. -/
theorem flow_mirrors_residual_witness :
    ValidInput ["A", "B", "X", "Y"].length [(1, 3), (1, 4), (2, 3)] ∧
    PhaseStart ["A", "B", "X", "Y"] [(1, 3), (1, 4), (2, 3)] scenarioOneResidual ∧
    (searchRun 4 4 ⟨scenarioOneLevelOne, 0, []⟩ []).map
      (fun r => (r.1.graph.edges, r.1.graph.residualGraph))
      = some ([⟨1, 3, true⟩, ⟨1, 4, false⟩, ⟨2, 3, false⟩],
          [[2], [4, 0], [3], [1], [5], [-1, 3]]) ∧
    ((∀ e ∈ scenarioOneResidual.edges,
      (e.flow = false ↔ e.destination ∈ rowOf scenarioOneResidual.residualGraph e.source) ∧
      (e.flow = true ↔ e.source ∈ rowOf scenarioOneResidual.residualGraph e.destination)) ∧
    ∀ (g1 : Graph) (s : Search) (paths : List (List Int)),
      scenarioOneResidual.createLevelGraph = Outcome.done (true, g1) →
      SearchReach ((["A", "B", "X", "Y"].length : Nat) : Int) g1 s paths →
      ∀ e ∈ s.graph.edges,
        (e.flow = false ↔ e.destination ∈ rowOf s.graph.residualGraph e.source) ∧
        (e.flow = true ↔ e.source ∈ rowOf s.graph.residualGraph e.destination)) := by
  have h0 : PhaseStart ["A", "B", "X", "Y"] [(1, 3), (1, 4), (2, 3)] scenarioOneResidual :=
    PhaseStart.first scenarioOneLoaded scenarioOneResidual (by decide) (by decide)
  exact ⟨by decide, h0, by decide,
    flow_mirrors_residual ["A", "B", "X", "Y"] [(1, 3), (1, 4), (2, 3)] scenarioOneResidual
      (by decide) h0⟩

/-- C31: in a run on a valid bipartite input, every call of `augmentFlow` that the driver
makes (the inner loop stands at the sink `N + 1` and passes its path) returns a graph with
exactly one more edge that carries flow. -/
theorem augmentation_adds_one_unit (names : List String) (edgePairs : List (Int × Int))
    (g g1 : Graph) (s : Search) (paths : List (List Int))
    (hvalid : ValidInput names.length edgePairs) (hphase : PhaseStart names edgePairs g)
    (hlevel : g.createLevelGraph = Outcome.done (true, g1))
    (hreach : SearchReach (names.length : Int) g1 s paths)
    (hcur : s.currentNode = (names.length : Int) + 1) :
    ∃ g2, s.graph.augmentFlow (s.currentPath ++ [s.currentNode]) = some g2 ∧
      matchCount g2 = matchCount s.graph + 1 := by
  obtain ⟨V, -, -, -, hM1, hinit⟩ := phase_context hvalid hphase hlevel
  obtain ⟨hinv, hM, -⟩ := searchReach_inv rfl hinit hM1 hreach
  obtain ⟨p1, rest, hfull, -, -, -⟩ := augment_path_shape hinv hcur
  have hrange : ∀ x ∈ s.currentPath ++ [s.currentNode],
      0 ≤ x ∧ x < (s.graph.residualGraph.length : Int) := by
    intro x hx
    have := hinv.range x (hinv.inV x hx)
    rw [hinv.sizes] at this
    exact this
  have hlen : 2 ≤ (s.currentPath ++ [s.currentNode]).length := by
    rw [hfull]
    simp
  have hsteps : ∀ p ∈ pathSteps (s.currentPath ++ [s.currentNode]),
      (0 ≤ p.1 ∧ p.1 < (s.graph.residualGraph.length : Int)) ∧
      (0 ≤ p.2 ∧ p.2 < (s.graph.residualGraph.length : Int)) := by
    intro p hp
    have hm := mem_pathSteps hp
    exact ⟨hrange _ (List.mem_of_mem_dropLast hm.1), hrange _ (List.mem_of_mem_tail hm.2)⟩
  have hr := reverse_fold_in_range _ s.graph.residualGraph hsteps
  have hctx := augCtx_of_search hinv hM hcur hr
  have h01 : (0, p1) ∈ pathSteps (s.currentPath ++ [s.currentNode]) := by
    rw [hfull, pathSteps_cons_cons]
    exact List.mem_cons_self _ _
  have hcount := hctx.count_after h01 s.graph.nodes s.graph.levelGraph
  have hne : s.currentPath ++ [s.currentNode] ≠ [] := by
    rw [hfull]
    exact List.cons_ne_nil _ _
  refine ⟨_, by unfold Graph.augmentFlow; rw [if_neg hne], ?_⟩
  unfold matchCount
  simp only
  rw [augment_fold_map]
  exact hcount

/-- C31 (witness): in the first scenario the inner loop reaches the sink 5 with the path
0, 1, 3; the call of `augmentFlow` raises the number of flow edges from 0 to 1. -/
theorem augmentation_adds_one_unit_witness :
    ValidInput ["A", "B", "X", "Y"].length [(1, 3), (1, 4), (2, 3)] ∧
    (∃ g2, scenarioOneLevelOne.augmentFlow
          (([0, 1, 3] : List Int) ++ [(((["A", "B", "X", "Y"].length : Nat) : Int) + 1)])
        = some g2 ∧
      matchCount g2 = matchCount scenarioOneLevelOne + 1) := by
  have h0 : PhaseStart ["A", "B", "X", "Y"] [(1, 3), (1, 4), (2, 3)] scenarioOneResidual :=
    PhaseStart.first scenarioOneLoaded scenarioOneResidual (by decide) (by decide)
  have hrun : searchRun 4 3 ⟨scenarioOneLevelOne, 0, []⟩ []
      = some (⟨scenarioOneLevelOne, 5, [0, 1, 3]⟩, []) := by
    decide
  have hr := searchRun_reach 3 _ _ _ _
    (SearchReach.start ⟨"", 0, 0⟩ rfl : SearchReach 4 scenarioOneLevelOne _ _) hrun
  exact ⟨by decide,
    augmentation_adds_one_unit ["A", "B", "X", "Y"] [(1, 3), (1, 4), (2, 3)]
      scenarioOneResidual scenarioOneLevelOne _ _ (by decide) h0 (by decide) hr rfl⟩

theorem levelOf_set_self {nodes : List Node} {i : Int} {nd : Node} (level : Int)
    (h : vget nodes i = some nd) :
    levelOf (nodes.set i.toNat { nd with level := level }) i = level := by
  obtain ⟨h0, hlt⟩ := vget_some_bounds h
  unfold levelOf
  rw [vget_eq_getElem? _ _ h0, List.getElem?_set_self hlt]
  rfl

theorem levelOf_set_ne {nodes : List Node} {i j : Int} (nd : Node) (h0 : 0 ≤ i)
    (hij : j ≠ i) : levelOf (nodes.set i.toNat nd) j = levelOf nodes j := by
  unfold levelOf vget
  by_cases hj : j < 0
  · rw [if_pos hj, if_pos hj]
  · rw [if_neg hj, if_neg hj, List.getElem?_set_ne (by omega)]

/-- On an adjacency with `RankedArcs` the neighbour loop of `createLevelGraph` is defined and
erases nothing. -/
theorem scanAdjacent_ranked {rank : Int → Int} {res : List (List Int)}
    (hres : RankedArcs rank res) {cur : Int} (hc0 : 0 ≤ cur) (hc : cur < (res.length : Int)) :
    ∀ (remaining i : Nat) (s : BfsState), RankedBfs rank res s →
      levelOf s.nodes cur = rank cur → i + remaining = (rowOf res cur).length →
      ∃ s1, scanAdjacent (rank cur) cur remaining i s = some s1 ∧ RankedBfs rank res s1 ∧
        levelOf s1.nodes cur = rank cur := by
  intro remaining
  induction remaining with
  | zero =>
    intro i s hinv hl _
    exact ⟨s, rfl, hinv, hl⟩
  | succ rem ih =>
    intro i s hinv hl hlen
    have hrow : vget s.levelGraph cur = some (rowOf res cur) := by
      rw [hinv.levelGraph_eq]
      exact vget_rowOf_in_range hc0 hc
    have hi : i < (rowOf res cur).length := by omega
    obtain ⟨adj, hget⟩ : ∃ adj, (rowOf res cur)[i]? = some adj :=
      ⟨_, List.getElem?_eq_getElem hi⟩
    have hmem : adj ∈ rowOf res cur := by
      rw [List.getElem?_eq_getElem hi, Option.some.injEq] at hget
      rw [← hget]
      exact List.getElem_mem _
    by_cases hs : adj = SINK_NODE_INDEX
    · refine ⟨{ s with hasPathToSink := true }, ?_, ?_, hl⟩
      · rw [scanAdjacent, hrow]
        simp only [hget, hs, if_true]
      · exact ⟨hinv.levelGraph_eq, hinv.nodes_length, hinv.visited_length, hinv.aligned,
          hinv.visited_level, hinv.queue⟩
    · rcases hres cur hc0 hc adj hmem with h | ⟨ha0, ha, hrank⟩
      · exact absurd h hs
      obtain ⟨b, hb⟩ := vget_in_range (v := s.visited) ha0 (by rw [hinv.visited_length]; exact ha)
      obtain ⟨nd, hnd⟩ := vget_in_range (v := s.nodes) ha0 (by rw [hinv.nodes_length]; exact ha)
      cases b with
      | true =>
        have hlev : nd.level = rank cur + 1 := by
          have := hinv.visited_level adj hb
          unfold levelOf at this
          rw [hnd] at this
          simp only [Option.map_some', Option.getD_some] at this
          omega
        have hstep : scanAdjacent (rank cur) cur (rem + 1) i s
            = scanAdjacent (rank cur) cur rem (i + 1) s := by
          rw [scanAdjacent, hrow]
          simp only [hget, hs, if_false, hb, hnd, hlev, lt_irrefl]
        rw [hstep]
        exact ih (i + 1) s hinv hl (by omega)
      | false =>
        have hvset := vset_in_range (v := s.visited) true ha0
          (by rw [hinv.visited_length]; exact ha)
        have hnset := vset_in_range (v := s.nodes) { nd with level := rank cur + 1 } ha0
          (by rw [hinv.nodes_length]; exact ha)
        have hset : setLevelAt s.nodes adj (rank cur + 1)
            = some (s.nodes.set adj.toNat { nd with level := rank cur + 1 }) := by
          unfold setLevelAt
          rw [hnd]
          exact hnset
        have hget1 : vget (s.nodes.set adj.toNat { nd with level := rank cur + 1 }) adj
            = some { nd with level := rank cur + 1 } := vget_vset_self hnset
        have hstep : scanAdjacent (rank cur) cur (rem + 1) i s
            = scanAdjacent (rank cur) cur rem (i + 1)
                { s with
                  visited := s.visited.set adj.toNat true
                  nodes := s.nodes.set adj.toNat { nd with level := rank cur + 1 }
                  nodeQueue := s.nodeQueue ++ [{ nd with level := rank cur + 1 }] } := by
          rw [scanAdjacent, hrow]
          simp only [hget, hs, if_false, hb, hvset, hset, hget1]
        rw [hstep]
        have hk : s.nodes[adj.toNat]? = some nd := by
          rw [← vget_eq_getElem? _ _ ha0]
          exact hnd
        have hidx : nd.index = adj := by
          have := hinv.aligned adj.toNat nd hk
          omega
        have hlevels : ∀ x, levelOf s.nodes x = rank x →
            levelOf (s.nodes.set adj.toNat { nd with level := rank cur + 1 }) x = rank x := by
          intro x hx
          by_cases hxa : x = adj
          · rw [hxa, levelOf_set_self _ hnd, hrank]
          · rw [levelOf_set_ne _ ha0 hxa]
            exact hx
        refine ih (i + 1) _ ?_ (hlevels cur hl) (by omega)
        refine ⟨hinv.levelGraph_eq, ?_, ?_, aligned_setLevel _ _ _ _ hinv.aligned hk, ?_, ?_⟩
        · show (s.nodes.set adj.toNat _).length = res.length
          rw [List.length_set]
          exact hinv.nodes_length
        · show (s.visited.set adj.toNat true).length = res.length
          rw [List.length_set]
          exact hinv.visited_length
        · intro x hx
          have hx1 : vget (s.visited.set adj.toNat true) x = some true := hx
          show levelOf (s.nodes.set adj.toNat { nd with level := rank cur + 1 }) x = rank x
          by_cases hxa : x = adj
          · rw [hxa, levelOf_set_self _ hnd, hrank]
          · rw [vget_vset_ne hvset hxa] at hx1
            exact hlevels x (hinv.visited_level x hx1)
        · intro q hq
          show 0 ≤ q.index ∧ q.index < (res.length : Int) ∧ q.level = rank q.index ∧
            levelOf (s.nodes.set adj.toNat { nd with level := rank cur + 1 }) q.index
              = rank q.index
          rcases List.mem_append.mp hq with hold | hnew
          · obtain ⟨h1, h2, h3, h4⟩ := hinv.queue q hold
            exact ⟨h1, h2, h3, hlevels _ h4⟩
          · rw [List.mem_singleton] at hnew
            subst hnew
            have hfin : ∀ k, k = adj → 0 ≤ k ∧ k < (res.length : Int) ∧
                rank cur + 1 = rank k ∧
                levelOf (s.nodes.set adj.toNat { nd with level := rank cur + 1 }) k
                  = rank k := by
              intro k hk
              rw [hk]
              exact ⟨ha0, ha, hrank.symm, (levelOf_set_self _ hnd).trans hrank.symm⟩
            exact hfin nd.index hidx

theorem bfsVisit_ranked {rank : Int → Int} {res : List (List Int)}
    (hres : RankedArcs rank res) {s : BfsState} {q : Node} {rest : List Node}
    (hinv : RankedBfs rank res s) (hq : s.nodeQueue = q :: rest) :
    ∃ s1, bfsVisit q rest s = some s1 ∧ RankedBfs rank res s1 := by
  obtain ⟨hq0, hqlt, hqlevel, hqnodes⟩ := hinv.queue q (by rw [hq]; exact List.mem_cons_self _ _)
  have hinv0 : RankedBfs rank res { s with nodeQueue := rest } :=
    ⟨hinv.levelGraph_eq, hinv.nodes_length, hinv.visited_length, hinv.aligned,
      hinv.visited_level,
      fun x hx => hinv.queue x (by rw [hq]; exact List.mem_cons_of_mem _ hx)⟩
  have hrow : vget s.levelGraph q.index = some (rowOf res q.index) := by
    rw [hinv.levelGraph_eq]
    exact vget_rowOf_in_range hq0 hqlt
  obtain ⟨s1, hscan, hinv1, hl1⟩ := scanAdjacent_ranked hres hq0 hqlt (rowOf res q.index).length 0
    { s with nodeQueue := rest } hinv0 hqnodes (by omega)
  have hvset := vset_in_range (v := s1.visited) true hq0
    (by rw [hinv1.visited_length]; exact hqlt)
  refine ⟨{ s1 with visited := s1.visited.set q.index.toNat true }, ?_, ?_⟩
  · unfold bfsVisit
    simp only [hrow, hqlevel, hscan, hvset]
  · refine ⟨hinv1.levelGraph_eq, hinv1.nodes_length, ?_, hinv1.aligned, ?_, hinv1.queue⟩
    · show (s1.visited.set q.index.toNat true).length = res.length
      rw [List.length_set]
      exact hinv1.visited_length
    · intro x hx
      have hx1 : vget (s1.visited.set q.index.toNat true) x = some true := hx
      show levelOf s1.nodes x = rank x
      by_cases hxq : x = q.index
      · rw [hxq]
        exact hl1
      · rw [vget_vset_ne hvset hxq] at hx1
        exact hinv1.visited_level x hx1

theorem bfsLoop_ranked {rank : Int → Int} {res : List (List Int)}
    (hres : RankedArcs rank res) : ∀ (fuel : Nat) (s : BfsState), RankedBfs rank res s →
    bfsLoop fuel s ≠ Outcome.undef ∧
      ∀ s2, bfsLoop fuel s = Outcome.done s2 → s2.levelGraph = res := by
  intro fuel
  induction fuel with
  | zero =>
    intro s hinv
    rw [bfsLoop]
    cases hq : s.nodeQueue with
    | nil =>
      refine ⟨fun h => Outcome.noConfusion h, fun s2 h => ?_⟩
      simp only [Outcome.done.injEq] at h
      rw [← h]
      exact hinv.levelGraph_eq
    | cons q rest => exact ⟨fun h => Outcome.noConfusion h, fun s2 h => Outcome.noConfusion h⟩
  | succ fuel ih =>
    intro s hinv
    rw [bfsLoop]
    cases hq : s.nodeQueue with
    | nil =>
      refine ⟨fun h => Outcome.noConfusion h, fun s2 h => ?_⟩
      simp only [Outcome.done.injEq] at h
      rw [← h]
      exact hinv.levelGraph_eq
    | cons q rest =>
      obtain ⟨s1, hvisit, hinv1⟩ := bfsVisit_ranked hres hinv hq
      simp only [hvisit]
      exact ih s1 hinv1

/-- On a graph whose residual arcs all lead one rank up, with the source's stored level equal
to its rank, `createLevelGraph` completes and erases nothing: the level graph it leaves is the
residual graph. -/
theorem createLevelGraph_ranked {rank : Int → Int} {g : Graph} (hal : Aligned g.nodes)
    (hlen : g.nodes.length = g.residualGraph.length) (hn : g.nodes ≠ [])
    (h0 : levelOf g.nodes 0 = rank 0) (hres : RankedArcs rank g.residualGraph) :
    ∃ b g1, g.createLevelGraph = Outcome.done (b, g1) ∧ g1.levelGraph = g.residualGraph ∧
      g1.residualGraph = g.residualGraph := by
  cases hnodes : g.nodes with
  | nil => exact absurd hnodes hn
  | cons first tl =>
    have hfirst : vget g.nodes 0 = some first := by
      rw [hnodes]
      simp [vget]
    have hidx : first.index = 0 := by
      have := hal 0 first (by rw [hnodes]; simp)
      simpa using this
    have hlevel : first.level = rank 0 := by
      unfold levelOf at h0
      rw [hfirst] at h0
      exact h0
    have hpos : (0 : Int) < (g.residualGraph.length : Int) := by
      rw [← hlen, hnodes]
      simp
    have hinv : RankedBfs rank g.residualGraph
        { nodes := g.nodes, levelGraph := g.residualGraph,
          visited := List.replicate g.nodes.length false, nodeQueue := [first],
          hasPathToSink := false } := by
      refine ⟨rfl, hlen, by simp [hlen], hal, ?_, ?_⟩
      · intro x hx
        exact absurd hx (not_isVisited_replicate _ _)
      · intro q hq
        rw [List.mem_singleton] at hq
        subst hq
        rw [hidx]
        exact ⟨le_refl _, hpos, hlevel, h0⟩
    obtain ⟨hne, hdone⟩ := bfsLoop_ranked hres (g.nodes.length + 1) _ hinv
    unfold Graph.createLevelGraph
    rw [hnodes]
    simp only
    rw [← hnodes]
    cases hb : bfsLoop (g.nodes.length + 1)
        { nodes := g.nodes, levelGraph := g.residualGraph,
          visited := List.replicate g.nodes.length false, nodeQueue := [first],
          hasPathToSink := false } with
    | undef => exact absurd hb hne
    | fuel =>
      exfalso
      refine bfsLoop_enough_fuel (g.nodes.length + 1) _ ?_ hb
      simp
    | done s2 =>
      exact ⟨s2.hasPathToSink, _, rfl, hdone s2 hb, rfl⟩

/-- The residual graph that `createResidualGraph` builds for a valid input leads from every
layer to the next: source, left nodes, right nodes, sink. -/
theorem createResidualGraph_ranked (names : List String) (pairs : List (Int × Int))
    (g1 : Graph) (hvalid : ValidInput names.length pairs)
    (h : (⟨pairs.map (fun p => (⟨p.1, p.2, false⟩ : Edge)), loadedNodes names, [], []⟩ :
      Graph).createResidualGraph = some g1) :
    RankedArcs (layerOf (names.length / 2) names.length) g1.residualGraph := by
  obtain ⟨-, hr0, hrow, hsink⟩ := createResidualGraph_rowOf names pairs g1 hvalid h
  have hsize := (createResidualGraph_matchInv names pairs g1 hvalid h).size
  have hLN := Nat.div_le_self names.length 2
  intro u hu0 hult x hx
  rw [hsize] at hult ⊢
  push_cast at hult ⊢
  by_cases h0 : u = 0
  · rw [h0, hr0] at hx
    obtain ⟨k, hk, rfl⟩ := List.mem_map.mp hx
    rw [List.mem_range] at hk
    right
    rw [h0]
    refine ⟨by omega, by omega, ?_⟩
    unfold layerOf
    rw [if_neg (by omega), if_pos (by omega), if_pos (le_refl _)]
    rfl
  · by_cases hN : u ≤ (names.length : Int)
    · rw [hrow u (by omega) hN] at hx
      right
      rcases List.mem_append.mp hx with hx1 | hx1
      · obtain ⟨e, he, rfl⟩ := List.mem_map.mp hx1
        obtain ⟨hem, hes⟩ := List.mem_filter.mp he
        simp only [decide_eq_true_eq] at hes
        obtain ⟨p, hp, rfl⟩ := List.mem_map.mp hem
        obtain ⟨h1, h2, h3, h4⟩ := hvalid.1 p hp
        simp only at hes ⊢
        refine ⟨by omega, by omega, ?_⟩
        unfold layerOf
        rw [if_neg (by omega), if_neg (by omega), if_pos h4, if_neg (by omega),
          if_pos (by omega)]
        rfl
      · split at hx1
        · rw [List.mem_singleton] at hx1
          rw [hx1]
          refine ⟨by omega, by omega, ?_⟩
          unfold layerOf
          rw [if_neg (by omega), if_neg (by omega), if_neg (by omega), if_neg (by omega),
            if_neg (by omega), if_pos hN]
          rfl
        · cases hx1
    · have hu : u = (names.length : Int) + 1 := by omega
      rw [hu, hsink, List.mem_singleton] at hx
      exact Or.inl hx

/-- C37: for every valid bipartite input, the first call of `createLevelGraph` after
`createResidualGraph` completes and erases no entry: the level graph it leaves is the residual
graph, list for list. -/
theorem first_phase_prunes_nothing (names : List String) (edgePairs : List (Int × Int))
    (g0 g : Graph) (hvalid : ValidInput names.length edgePairs)
    (hload : loadGraph names edgePairs = some g0) (hres : g0.createResidualGraph = some g) :
    ∃ b g1, g.createLevelGraph = Outcome.done (b, g1) ∧ g1.levelGraph = g1.residualGraph ∧
      g1.residualGraph = g.residualGraph := by
  have hphase : PhaseStart names edgePairs g := PhaseStart.first g0 g hload hres
  have hri := phaseStart_resInv hvalid hphase
  rw [loadGraph_valid names edgePairs (validInput_range hvalid)] at hload
  cases hload
  have hranked := createResidualGraph_ranked names edgePairs g hvalid hres
  have hn : g.nodes ≠ [] := by
    intro hc
    have := hri.sink_range
    rw [hc] at this
    simp only [List.length_nil, Nat.cast_zero] at this
    omega
  have h0 : levelOf g.nodes 0 = layerOf (names.length / 2) names.length 0 := by
    rw [phaseStart_source_level hvalid hphase]
    rfl
  obtain ⟨b, g1, hdone, hlg, hrg⟩ :=
    createLevelGraph_ranked hri.aligned hri.sizes.symm hn h0 hranked
  exact ⟨b, g1, hdone, hlg.trans hrg.symm, hrg⟩

/-- C37 (witness): in the first scenario the first call leaves the level graph
[[1, 2], [3, 4], [3], [5], [5], [-1]], which is the residual graph. -/
theorem first_phase_prunes_nothing_witness :
    ValidInput ["A", "B", "X", "Y"].length [(1, 3), (1, 4), (2, 3)] ∧
    scenarioOneResidual.createLevelGraph = Outcome.done (true, scenarioOneLevelOne) ∧
    scenarioOneLevelOne.levelGraph = [[1, 2], [3, 4], [3], [5], [5], [-1]] ∧
    ∃ b g1, scenarioOneResidual.createLevelGraph = Outcome.done (b, g1) ∧
      g1.levelGraph = g1.residualGraph ∧
      g1.residualGraph = scenarioOneResidual.residualGraph :=
  ⟨by decide, by decide, by decide,
    first_phase_prunes_nothing ["A", "B", "X", "Y"] [(1, 3), (1, 4), (2, 3)]
      scenarioOneLoaded scenarioOneResidual (by decide) (by decide) (by decide)⟩

/-- Along a walk from the source that avoids the sink, in an adjacency with `RankedArcs`, the
rank grows by one per arc. -/
theorem ranked_walk {rank : Int → Int} {res : List (List Int)} {t : Int}
    (hres : RankedArcs rank res) (hpos : (0 : Int) < (res.length : Int))
    (hsent : ∀ u, u ≠ t → SINK_NODE_INDEX ∉ rowOf res u) :
    ∀ {n : Nat} {a v : Int}, WalkBefore res t n a v → a = 0 →
      0 ≤ v ∧ v < (res.length : Int) ∧ rank v = rank 0 + (n : Int) := by
  intro n a v h
  induction h with
  | nil a =>
    intro ha
    rw [ha]
    exact ⟨le_refl _, hpos, by simp⟩
  | snoc hwalk hxt hy ih =>
    intro ha
    obtain ⟨h0, hlt, hr⟩ := ih ha
    rcases hres _ h0 hlt _ hy with hs | ⟨hy0, hylt, hyr⟩
    · rw [hs] at hy
      exact absurd hy (hsent _ hxt)
    · refine ⟨hy0, hylt, ?_⟩
      rw [hyr, hr]
      push_cast
      ring

theorem isMatchingPairs_flow {L N : Nat} {g : Graph} (hM : MatchInv L N g) :
    isMatchingPairs ((g.edges.filter (fun e => e.flow)).map
      (fun e => (e.source, e.destination))) = true := by
  unfold isMatchingPairs
  rw [Bool.and_eq_true, decide_eq_true_eq, decide_eq_true_eq, List.map_map, List.map_map]
  refine ⟨hM.flow_sources_nodup, ?_⟩
  have hnd : g.edges.Nodup := List.Nodup.of_map _ hM.pairs_nodup
  refine List.Nodup.map_on ?_ (hnd.filter _)
  intro e he e1 he1 hd
  obtain ⟨hmem, hflow⟩ := List.mem_filter.mp he
  obtain ⟨hmem1, hflow1⟩ := List.mem_filter.mp he1
  simp only [Function.comp_apply] at hd
  have h1 := hM.flow_row e.source e.destination ⟨e, hmem, rfl, rfl, hflow⟩
  have h2 := hM.flow_row e1.source e.destination ⟨e1, hmem1, rfl, hd.symm, hflow1⟩
  rw [h1] at h2
  have hs : e.source = e1.source := by simpa using h2
  cases e
  cases e1
  simp only at hs hd hflow hflow1
  rw [hs, hd, hflow, hflow1]

/-- C38: for every valid bipartite input, when the inner loop of the first phase ends, the
edges that carry flow form a matching, and every edge has the source or the destination of
an edge that carries flow as its own source or destination. -/
theorem first_phase_maximal (names : List String) (edgePairs : List (Int × Int))
    (g0 g g1 g2 : Graph) (source : Node) (fuel : Nat)
    (hvalid : ValidInput names.length edgePairs)
    (hload : loadGraph names edgePairs = some g0) (hres : g0.createResidualGraph = some g)
    (hlevel : g.createLevelGraph = Outcome.done (true, g1))
    (hsource : g1.getNode 0 = some source)
    (hsearch : searchLoop (names.length : Int) fuel ⟨g1, source.index, []⟩ = Outcome.done g2) :
    isMatchingPairs ((g2.edges.filter (fun e => e.flow)).map
      (fun e => (e.source, e.destination))) = true ∧
    ∀ e ∈ g2.edges, ∃ f ∈ g2.edges, f.flow = true ∧
      (f.source = e.source ∨ f.destination = e.destination) := by
  have hphase : PhaseStart names edgePairs g := PhaseStart.first g0 g hload hres
  have hF := phaseStart_flowInv hvalid hphase
  obtain ⟨V, hfacts, hVt, hri1, hM1, hinit⟩ := phase_context hvalid hphase hlevel
  obtain ⟨hedges1, hres1⟩ := createLevelGraph_frame hlevel
  obtain ⟨s2, paths2, hreach, hg2, hrow⟩ :=
    searchLoop_reach fuel _ [] (SearchReach.start source hsource) hsearch
  obtain ⟨Dead, hB⟩ := searchReach_block rfl hfacts hinit hM1 hreach
  obtain ⟨hinv2, hM2, -⟩ := searchReach_inv rfl hinit hM1 hreach
  have hF2 := searchReach_flow rfl hinit hM1 (hF.of_eq hedges1 hres1) hreach
  have hrow0 : rowOf s2.graph.levelGraph 0 = [] := by
    have h0 := hinv2.range 0 hinv2.source
    have := getLevelGraphAt_eq h0.1 h0.2
    rw [hrow] at this
    exact (Option.some.inj this).symm
  -- the sink has level 3 in the first phase
  rw [loadGraph_valid names edgePairs (validInput_range hvalid)] at hload
  cases hload
  have hranked := createResidualGraph_ranked names edgePairs g hvalid hres
  rw [← hres1] at hranked
  have hLN := Nat.div_le_self names.length 2
  have hsink : levelOf g1.nodes ((names.length : Int) + 1) = 3 := by
    have hge := hfacts.level_ge _ (hVt rfl)
    have hwalk := level_walk hfacts (levelOf g1.nodes ((names.length : Int) + 1)).toNat
      ((names.length : Int) + 1) (hVt rfl) (by omega)
    have hpos : (0 : Int) < (g1.residualGraph.length : Int) := by
      rw [hM1.size]
      push_cast
      omega
    obtain ⟨-, -, hr⟩ := ranked_walk hranked hpos hri1.no_sentinel hwalk rfl
    have h3 : layerOf (names.length / 2) names.length ((names.length : Int) + 1) = 3 := by
      unfold layerOf
      rw [if_neg (by omega), if_neg (by omega), if_neg (by omega)]
    have h00 : layerOf (names.length / 2) names.length 0 = 0 := rfl
    rw [h3, h00] at hr
    omega
  rw [← hg2]
  refine ⟨isMatchingPairs_flow hM2, ?_⟩
  intro e he
  by_contra hnone
  push_neg at hnone
  have hE : HasEdge s2.graph.edges e.source e.destination e.flow := ⟨e, he, rfl, rfl, rfl⟩
  obtain ⟨h1, h2, h3, h4⟩ := hM2.endpoints _ _ _ hE
  have hfalse : e.flow = false := by
    cases hf : e.flow with
    | false => rfl
    | true => exact absurd rfl (hnone e he hf).1
  have hfree : ∀ b, ¬ HasEdge s2.graph.edges e.source b true := by
    rintro b ⟨f, hf, hs, -, hflow⟩
    exact (hnone f hf hflow).1 hs
  have ha : e.source ∈ rowOf s2.graph.residualGraph 0 := hF2.free_left _ h1 h2 hfree
  have hb : e.destination ∈ rowOf s2.graph.residualGraph e.source :=
    hF2.false_arc _ _ (hfalse ▸ hE)
  have ht : (names.length : Int) + 1 ∈ rowOf s2.graph.residualGraph e.destination := by
    rcases hM2.right_rows e.destination h3 h4 with hr | ⟨a, f, hf, -, hd, hflow⟩
    · rw [hr]
      exact List.mem_singleton_self _
    · exact absurd hd (hnone f hf hflow).2
  have hwalk : WalkBefore s2.graph.residualGraph ((names.length : Int) + 1) 3 0
      ((names.length : Int) + 1) :=
    WalkBefore.snoc (WalkBefore.snoc (WalkBefore.snoc (WalkBefore.nil 0) (by omega) ha)
      (by omega) hb) (by omega) ht
  obtain ⟨-, -, hend⟩ := walk_blocked hB hfacts.source hfacts.source_level hrow0 hwalk rfl
  rcases hend (by rw [hsink]; rfl) with h0 | hd
  · omega
  · exact hB.dead_not_sink _ hd rfl

/-- C38 (witness): the first phase of the first scenario ends with the single flow edge A-X;
the edges A-Y and B-X each share an endpoint with it. -/
theorem first_phase_maximal_witness :
    ValidInput ["A", "B", "X", "Y"].length [(1, 3), (1, 4), (2, 3)] ∧
    scenarioOnePhaseTwo.edges = [⟨1, 3, true⟩, ⟨1, 4, false⟩, ⟨2, 3, false⟩] ∧
    (isMatchingPairs ((scenarioOnePhaseTwo.edges.filter (fun e => e.flow)).map
      (fun e => (e.source, e.destination))) = true ∧
    ∀ e ∈ scenarioOnePhaseTwo.edges, ∃ f ∈ scenarioOnePhaseTwo.edges, f.flow = true ∧
      (f.source = e.source ∨ f.destination = e.destination)) :=
  ⟨by decide, rfl,
    first_phase_maximal ["A", "B", "X", "Y"] [(1, 3), (1, 4), (2, 3)] scenarioOneLoaded
      scenarioOneResidual scenarioOneLevelOne scenarioOnePhaseTwo ⟨"", 0, 0⟩ 20 (by decide)
      (by decide) (by decide) (by decide) (by decide) (by decide)⟩

/-- C34: in a run on a valid bipartite input, in every state of the inner loop `currentNode`
lies in `0 .. N + 1`, an empty `currentPath` means that `currentNode` is the source, the
retreat branch (loop guard true, `currentNode` not the sink, its level-graph row empty) is
only met with a non-empty `currentPath`, and both indices passed to `getLevelGraphAt`, 0 and
`currentNode`, are in range, so that the call returns the row itself. -/
theorem driver_index_safety (names : List String) (edgePairs : List (Int × Int))
    (g g1 : Graph) (s : Search) (paths : List (List Int))
    (hvalid : ValidInput names.length edgePairs) (hphase : PhaseStart names edgePairs g)
    (hlevel : g.createLevelGraph = Outcome.done (true, g1))
    (hreach : SearchReach (names.length : Int) g1 s paths) :
    (0 ≤ s.currentNode ∧ s.currentNode ≤ (names.length : Int) + 1) ∧
    (s.currentPath = [] → s.currentNode = 0) ∧
    (s.graph.getLevelGraphAt 0 ≠ some [] → s.currentNode ≠ (names.length : Int) + 1 →
      s.graph.getLevelGraphAt s.currentNode = some [] → s.currentPath ≠ []) ∧
    (s.graph.levelGraph.length = names.length + 2 ∧
      s.graph.getLevelGraphAt 0 = s.graph.levelGraph[0]? ∧
      s.graph.getLevelGraphAt s.currentNode = s.graph.levelGraph[s.currentNode.toNat]?) := by
  obtain ⟨V, -, -, -, hM1, hinit⟩ := phase_context hvalid hphase hlevel
  obtain ⟨hinv, hM, -⟩ := searchReach_inv rfl hinit hM1 hreach
  have hlen : s.graph.levelGraph.length = names.length + 2 := by
    rw [hinv.sizes, hM.size]
  have hcur := hinv.range s.currentNode
    (hinv.inV _ (List.mem_append_right _ (List.mem_singleton_self _)))
  rw [hlen] at hcur
  push_cast at hcur
  have hempty : s.currentPath = [] → s.currentNode = 0 := by
    intro hp
    have := hinv.head
    rw [hp] at this
    simpa using this
  refine ⟨⟨hcur.1, by omega⟩, hempty, ?_, hlen, ?_, ?_⟩
  · intro hguard _ hrow hp
    rw [hempty hp] at hrow
    exact hguard hrow
  · have hc : ¬ ((0 : Int) < 0 ∨ (0 : Int) ≥ (s.graph.levelGraph.length : Int)) := by
      rw [hlen]
      rintro (h | h)
      · omega
      · push_cast at h
        omega
    unfold Graph.getLevelGraphAt
    rw [if_neg hc]
    rfl
  · have hc : ¬ (s.currentNode < 0 ∨ s.currentNode ≥ (s.graph.levelGraph.length : Int)) := by
      rw [hlen]
      rintro (h | h)
      · omega
      · push_cast at h
        omega
    unfold Graph.getLevelGraphAt
    rw [if_neg hc]

/-- C34 (witness): the first scenario after three advances: the inner loop stands at the sink
5 with the path 0, 1, 3. -/
theorem driver_index_safety_witness :
    ValidInput ["A", "B", "X", "Y"].length [(1, 3), (1, 4), (2, 3)] ∧
    searchRun 4 3 ⟨scenarioOneLevelOne, 0, []⟩ []
      = some (⟨scenarioOneLevelOne, 5, [0, 1, 3]⟩, []) ∧
    ((0 ≤ (5 : Int) ∧ (5 : Int) ≤ ((["A", "B", "X", "Y"].length : Nat) : Int) + 1) ∧
    (([0, 1, 3] : List Int) = [] → (5 : Int) = 0) ∧
    (scenarioOneLevelOne.getLevelGraphAt 0 ≠ some [] →
      (5 : Int) ≠ ((["A", "B", "X", "Y"].length : Nat) : Int) + 1 →
      scenarioOneLevelOne.getLevelGraphAt 5 = some [] → ([0, 1, 3] : List Int) ≠ []) ∧
    (scenarioOneLevelOne.levelGraph.length = ["A", "B", "X", "Y"].length + 2 ∧
      scenarioOneLevelOne.getLevelGraphAt 0 = scenarioOneLevelOne.levelGraph[0]? ∧
      scenarioOneLevelOne.getLevelGraphAt 5
        = scenarioOneLevelOne.levelGraph[(5 : Int).toNat]?)) := by
  have h0 : PhaseStart ["A", "B", "X", "Y"] [(1, 3), (1, 4), (2, 3)] scenarioOneResidual :=
    PhaseStart.first scenarioOneLoaded scenarioOneResidual (by decide) (by decide)
  have hrun : searchRun 4 3 ⟨scenarioOneLevelOne, 0, []⟩ []
      = some (⟨scenarioOneLevelOne, 5, [0, 1, 3]⟩, []) := by
    decide
  have hr := searchRun_reach 3 _ _ _ _
    (SearchReach.start ⟨"", 0, 0⟩ rfl : SearchReach 4 scenarioOneLevelOne _ _) hrun
  exact ⟨by decide, hrun,
    driver_index_safety ["A", "B", "X", "Y"] [(1, 3), (1, 4), (2, 3)] scenarioOneResidual
      scenarioOneLevelOne _ _ (by decide) h0 (by decide) hr⟩

theorem reverseStep_singleArc {r r2 : List (List Int)} {a b : Int} (hinv : SingleArc r)
    (ha : 0 ≤ a ∧ a < (r.length : Int)) (hb : 0 ≤ b ∧ b < (r.length : Int))
    (h : reverseStep r a b = some r2) : SingleArc r2 ∧ r2.length = r.length := by
  obtain ⟨hspec, hlen⟩ := reverseStep_in_range ha hb
  rw [h, Option.some.injEq] at hspec
  rw [← hspec] at hlen
  refine ⟨?_, hlen⟩
  rcases reverseStep_rows h with ⟨-, rfl⟩ | ⟨hmem, hother, hne, heq⟩
  · exact hinv
  intro u v hu0 hu hv0 hv huv
  rw [hlen] at hu hv
  have hold := hinv u v hu0 hu hv0 hv huv
  by_cases hab : a = b
  · have hrow := heq hab
    have hcount : ∀ w x, x ≠ w → (rowOf r2 w).count x = (rowOf r w).count x := by
      intro w x hxw
      by_cases hwa : w = a
      · rw [hwa, hrow, List.count_append]
        by_cases hxb : x = b
        · exact absurd (hxb.trans (hab.symm.trans hwa.symm)) hxw
        · rw [List.count_erase_of_ne hxb, List.count_singleton, if_neg, Nat.add_zero]
          intro hc
          exact hxw ((beq_iff_eq.mp hc).symm.trans hwa.symm ▸ rfl)
      · rw [hother w hwa (hab ▸ hwa)]
    rw [hcount u v (Ne.symm huv), hcount v u huv]
    exact hold
  · obtain ⟨hrowa, hrowb⟩ := hne hab
    have hca : ∀ x, x ≠ b → (rowOf r2 a).count x = (rowOf r a).count x := by
      intro x hx
      rw [hrowa, List.count_erase_of_ne hx]
    have hcb : ∀ x, x ≠ a → (rowOf r2 b).count x = (rowOf r b).count x := by
      intro x hx
      rw [hrowb, List.count_append, List.count_singleton, if_neg, Nat.add_zero]
      intro hc
      exact hx (beq_iff_eq.mp hc).symm
    have hcab : (rowOf r2 a).count b + 1 = (rowOf r a).count b := by
      rw [hrowa, List.count_erase_self]
      have := List.count_pos_iff.mpr hmem
      omega
    have hcba : (rowOf r2 b).count a = (rowOf r b).count a + 1 := by
      rw [hrowb, List.count_append, List.count_singleton_self]
    have hrest : ∀ w, w ≠ a → w ≠ b → rowOf r2 w = rowOf r w := hother
    by_cases hua : u = a
    · by_cases hvb : v = b
      · rw [hua, hvb] at hold ⊢
        omega
      · have hva : v ≠ a := fun hc => huv (hua.trans hc.symm)
        rw [hua] at hold ⊢
        rw [hca v hvb, hrest v hva hvb]
        exact hold
    · by_cases hub : u = b
      · by_cases hva : v = a
        · rw [hub, hva] at hold ⊢
          omega
        · have hvb : v ≠ b := fun hc => huv (hub.trans hc.symm)
          rw [hub] at hold ⊢
          rw [hcb v hva, hrest v hva hvb]
          exact hold
      · rw [hrest u hua hub]
        by_cases hva : v = a
        · rw [hva] at hold ⊢
          rw [hca u hub]
          exact hold
        · by_cases hvb : v = b
          · rw [hvb] at hold ⊢
            rw [hcb u hua]
            exact hold
          · rw [hrest v hva hvb]
            exact hold

theorem reverse_fold_singleArc (steps : List (Int × Int)) : ∀ (r : List (List Int)),
    SingleArc r →
    (∀ p ∈ steps, (0 ≤ p.1 ∧ p.1 < (r.length : Int)) ∧ (0 ≤ p.2 ∧ p.2 < (r.length : Int))) →
    ∃ r2, steps.foldlM (fun acc p => reverseStep acc p.1 p.2) r = some r2 ∧ SingleArc r2 := by
  induction steps with
  | nil =>
    intro r hinv _
    exact ⟨r, rfl, hinv⟩
  | cons p rest ih =>
    intro r hinv hrange
    obtain ⟨hp1, hp2⟩ := hrange p (List.mem_cons_self _ _)
    obtain ⟨hspec, -⟩ := reverseStep_in_range hp1 hp2
    obtain ⟨hinv1, hlen1⟩ := reverseStep_singleArc hinv hp1 hp2 hspec
    obtain ⟨r2, hfold, hinv2⟩ := ih _ hinv1
      (fun q hq => by rw [hlen1]; exact hrange q (List.mem_cons_of_mem _ hq))
    refine ⟨r2, ?_, hinv2⟩
    simp only [List.foldlM_cons, Option.bind_eq_bind, hspec, Option.some_bind]
    exact hfold

/-- C35: after `createResidualGraph` on a valid bipartite input, any two different node ids
`u`, `v` in `0 .. N + 1` have at most one arc between them in the residual graph (the
occurrences of `v` in row `u` plus those of `u` in row `v` are at most 1); and on every graph
with this property, `updateResidualGraph` on a non-empty path of node ids in range is defined
and keeps the property. -/
theorem single_arc_invariant (names : List String) (edgePairs : List (Int × Int))
    (g0 g : Graph) (hvalid : ValidInput names.length edgePairs)
    (hload : loadGraph names edgePairs = some g0) (hres : g0.createResidualGraph = some g) :
    (g.residualGraph.length = names.length + 2 ∧ SingleArc g.residualGraph) ∧
    ∀ (h : Graph) (path : List Int), SingleArc h.residualGraph → path ≠ [] →
      (∀ x ∈ path, 0 ≤ x ∧ x < (h.residualGraph.length : Int)) →
      ∃ h1, h.updateResidualGraph path = some h1 ∧ SingleArc h1.residualGraph := by
  constructor
  · have hphase : PhaseStart names edgePairs g := PhaseStart.first g0 g hload hres
    have hM := phaseStart_matchInv hvalid hphase
    rw [loadGraph_valid names edgePairs (validInput_range hvalid)] at hload
    cases hload
    have hranked := createResidualGraph_ranked names edgePairs g hvalid hres
    obtain ⟨-, -, -, hsink⟩ := createResidualGraph_rowOf names edgePairs g hvalid hres
    refine ⟨hM.size, ?_⟩
    have hnd : ∀ u : Int, 0 ≤ u → u < (g.residualGraph.length : Int) →
        (rowOf g.residualGraph u).Nodup := by
      intro u hu0 hu
      rw [hM.size] at hu
      push_cast at hu
      by_cases hN : u ≤ (names.length : Int)
      · exact hM.row_nodup hu0 hN
      · have : u = (names.length : Int) + 1 := by omega
        rw [this, hsink]
        exact List.nodup_singleton _
    intro u v hu0 hu hv0 hv huv
    have h1 := List.nodup_iff_count_le_one.mp (hnd u hu0 hu) v
    have h2 := List.nodup_iff_count_le_one.mp (hnd v hv0 hv) u
    by_cases hm : v ∈ rowOf g.residualGraph u
    · have hnot : u ∉ rowOf g.residualGraph v := by
        intro hm2
        rcases hranked u hu0 hu v hm with hs | ⟨-, -, hr1⟩
        · unfold SINK_NODE_INDEX at hs
          omega
        · rcases hranked v hv0 hv u hm2 with hs | ⟨-, -, hr2⟩
          · unfold SINK_NODE_INDEX at hs
            omega
          · omega
      rw [List.count_eq_zero_of_not_mem hnot]
      omega
    · rw [List.count_eq_zero_of_not_mem hm]
      omega
  · intro h path hinv hne hrange
    have hsteps : ∀ p ∈ pathSteps path,
        (0 ≤ p.1 ∧ p.1 < (h.residualGraph.length : Int)) ∧
        (0 ≤ p.2 ∧ p.2 < (h.residualGraph.length : Int)) := by
      intro p hp
      obtain ⟨h1, h2⟩ := pathSteps_mem_path hp
      exact ⟨hrange _ h1, hrange _ h2⟩
    obtain ⟨r2, hfold, hinv2⟩ := reverse_fold_singleArc _ _ hinv hsteps
    refine ⟨{ h with residualGraph := r2 }, ?_, hinv2⟩
    unfold Graph.updateResidualGraph
    rw [if_neg hne, hfold]

/-- C35 (witness): the residual graph of the first scenario, and the augmentation along
0, 1, 3, 5 on it. -/
theorem single_arc_invariant_witness :
    ValidInput ["A", "B", "X", "Y"].length [(1, 3), (1, 4), (2, 3)] ∧
    scenarioOneResidual.residualGraph = [[1, 2], [3, 4], [3], [5], [5], [-1]] ∧
    (scenarioOneResidual.updateResidualGraph [0, 1, 3, 5]).map Graph.residualGraph
      = some [[2], [4, 0], [3], [1], [5], [-1, 3]] ∧
    ((scenarioOneResidual.residualGraph.length = ["A", "B", "X", "Y"].length + 2 ∧
      SingleArc scenarioOneResidual.residualGraph) ∧
    ∀ (h : Graph) (path : List Int), SingleArc h.residualGraph → path ≠ [] →
      (∀ x ∈ path, 0 ≤ x ∧ x < (h.residualGraph.length : Int)) →
      ∃ h1, h.updateResidualGraph path = some h1 ∧ SingleArc h1.residualGraph) :=
  ⟨by decide, rfl, by decide,
    single_arc_invariant ["A", "B", "X", "Y"] [(1, 3), (1, 4), (2, 3)] scenarioOneLoaded
      scenarioOneResidual (by decide) (by decide) (by decide)⟩

/-- What `bfsRun` returns is a state of the breadth-first loop. -/
theorem bfsRun_reach {g : Graph} : ∀ (n : Nat) (s s2 : BfsState), BfsReach g s →
    bfsRun n s = some s2 → BfsReach g s2 := by
  intro n
  induction n with
  | zero =>
    intro s s2 hr h
    rw [bfsRun] at h
    cases h
    exact hr
  | succ n ih =>
    intro s s2 hr h
    rw [bfsRun] at h
    cases hq : s.nodeQueue with
    | nil => rw [hq] at h; cases h
    | cons q rest =>
      rw [hq] at h
      simp only at h
      cases hv : bfsVisit q rest s with
      | none => rw [hv] at h; cases h
      | some s1 =>
        rw [hv] at h
        exact ih s1 s2 (BfsReach.visit s s1 q rest hr hq hv) h

/-- C33 (failing input): on the six-node input the second call of `createLevelGraph` reaches
node 2 with the row 4, 0 and the loop bound 2. The iteration for index 0 erases the entry 4,
which leaves a row of length 1; the iteration for index 1 then reads the row at index 1, past
its end, and the entry 0 is never examined. The read is undefined. -/
theorem neighbour_loop_reads_past_row_end :
    ValidInput failingNames.length failingEdges ∧
    PhaseStart failingNames failingEdges failingAfterPhaseOne ∧
    BfsReach failingAfterPhaseOne failingBfsAtB ∧
    rowOf failingBfsAtB.levelGraph 2 = [4, 0] ∧
    scanAdjacent 5 2 2 0 { failingBfsAtB with nodeQueue := [⟨"", 7, 5⟩] }
      = scanAdjacent 5 2 1 1
          { failingBfsAtB with
            nodeQueue := [⟨"", 7, 5⟩]
            levelGraph := [[3], [5, 6], [0], [4], [1], [2], [7], [-1, 4, 5]] } ∧
    ([0] : List Int)[1]? = none ∧
    scanAdjacent 5 2 1 1
      { failingBfsAtB with
        nodeQueue := [⟨"", 7, 5⟩]
        levelGraph := [[3], [5, 6], [0], [4], [1], [2], [7], [-1, 4, 5]] } = none ∧
    bfsVisit ⟨"B", 2, 5⟩ [⟨"", 7, 5⟩] failingBfsAtB = none ∧
    failingAfterPhaseOne.createLevelGraph = Outcome.undef := by
  have h0 : PhaseStart failingNames failingEdges failingStart :=
    PhaseStart.first
      ⟨failingStart.edges,
        [⟨"A", 1, 0⟩, ⟨"B", 2, 0⟩, ⟨"C", 3, 0⟩, ⟨"X", 4, 0⟩, ⟨"Y", 5, 0⟩, ⟨"Z", 6, 0⟩], [], []⟩
      failingStart (by decide) (by decide)
  have h1 : PhaseStart failingNames failingEdges failingAfterPhaseOne :=
    PhaseStart.next failingStart failingLevelOne failingAfterPhaseOne ⟨"", 0, 0⟩ 13 h0
      (by decide) (by decide) (by decide)
  have hstart := BfsReach.start (g := failingAfterPhaseOne) ⟨"", 0, 0⟩
    [⟨"A", 1, 1⟩, ⟨"B", 2, 1⟩, ⟨"C", 3, 1⟩, ⟨"X", 4, 2⟩, ⟨"Y", 5, 2⟩, ⟨"Z", 6, 2⟩, ⟨"", 7, 3⟩] rfl
  have hreach : BfsReach failingAfterPhaseOne failingBfsAtB :=
    bfsRun_reach 6 _ _ hstart (by decide)
  exact ⟨by decide, h1, hreach, by decide, by decide, by decide, by decide, by decide,
    by decide⟩

theorem sameIds_vget {l l1 : List Node} (h : l1.map Node.index = l.map Node.index) (x : Int) :
    (vget l x = none ∧ vget l1 x = none) ∨
    ∃ nd nd1, vget l x = some nd ∧ vget l1 x = some nd1 ∧ nd1.index = nd.index := by
  unfold vget
  by_cases hx : x < 0
  · left
    simp [hx]
  · rw [if_neg hx, if_neg hx]
    have h1 : (l1.map Node.index)[x.toNat]? = (l.map Node.index)[x.toNat]? := by rw [h]
    rw [List.getElem?_map, List.getElem?_map] at h1
    cases ha : l[x.toNat]? with
    | none =>
      rw [ha] at h1
      cases hb : l1[x.toNat]? with
      | none => exact Or.inl ⟨rfl, rfl⟩
      | some b =>
        rw [hb] at h1
        cases h1
    | some a =>
      rw [ha] at h1
      cases hb : l1[x.toNat]? with
      | none =>
        rw [hb] at h1
        cases h1
      | some b =>
        rw [hb] at h1
        exact Or.inr ⟨a, b, rfl, rfl, Option.some.inj h1⟩

theorem aligned_of_map {nodes : List Node}
    (h : nodes.map Node.index = (List.range nodes.length).map (fun (k : Nat) => (k : Int))) :
    Aligned nodes := by
  intro k nd hk
  have h1 : (nodes.map Node.index)[k]? = some nd.index := by
    rw [List.getElem?_map, hk]
    rfl
  rw [h, List.getElem?_map] at h1
  have hlt : k < nodes.length := (List.getElem?_eq_some_iff.mp hk).1
  rw [List.getElem?_range hlt] at h1
  exact (Option.some.inj h1).symm

/-- The neighbour loop of `createLevelGraph` keeps two related states related, and levels that
agree keep agreeing. -/
theorem scanAdjacent_same (L cur : Int) :
    ∀ (remaining i : Nat) (s t : BfsState), SameBfs s t →
      (scanAdjacent L cur remaining i s = none ∧ scanAdjacent L cur remaining i t = none) ∨
      ∃ s1 t1, scanAdjacent L cur remaining i s = some s1 ∧
        scanAdjacent L cur remaining i t = some t1 ∧ SameBfs s1 t1 ∧
        ∀ x, levelOf t.nodes x = levelOf s.nodes x →
          levelOf t1.nodes x = levelOf s1.nodes x := by
  intro remaining
  induction remaining with
  | zero =>
    intro i s t h
    exact Or.inr ⟨s, t, rfl, rfl, h, fun x hx => hx⟩
  | succ rem ih =>
    intro i s t h
    have hrowt : vget t.levelGraph cur = vget s.levelGraph cur := by rw [h.levelGraph_eq]
    cases hrow : vget s.levelGraph cur with
    | none =>
      rw [hrow] at hrowt
      exact Or.inl ⟨by rw [scanAdjacent, hrow], by rw [scanAdjacent, hrowt]⟩
    | some row =>
      rw [hrow] at hrowt
      cases hget : row[i]? with
      | none =>
        left
        constructor
        · rw [scanAdjacent, hrow]
          simp only [hget]
        · rw [scanAdjacent, hrowt]
          simp only [hget]
      | some adj =>
        by_cases hs : adj = SINK_NODE_INDEX
        · right
          refine ⟨{ s with hasPathToSink := true }, { t with hasPathToSink := true },
            ?_, ?_, ?_, fun x hx => hx⟩
          · rw [scanAdjacent, hrow]
            simp only [hget, hs, if_true]
          · rw [scanAdjacent, hrowt]
            simp only [hget, hs, if_true]
          · exact ⟨h.levelGraph_eq, h.visited_eq, rfl, h.ids, h.aligned, h.levels, h.queue,
              h.queue_levels⟩
        · have hvt : vget t.visited adj = vget s.visited adj := by rw [h.visited_eq]
          cases hb : vget s.visited adj with
          | none =>
            rw [hb] at hvt
            left
            constructor
            · rw [scanAdjacent, hrow]
              simp only [hget, hs, if_false, hb]
            · rw [scanAdjacent, hrowt]
              simp only [hget, hs, if_false, hvt]
          | some b =>
            rw [hb] at hvt
            rcases sameIds_vget h.ids adj with ⟨hn, hnt⟩ | ⟨nd, ndt, hn, hnt, hidx⟩
            · left
              cases b with
              | true =>
                constructor
                · rw [scanAdjacent, hrow]
                  simp only [hget, hs, if_false, hb, hn]
                · rw [scanAdjacent, hrowt]
                  simp only [hget, hs, if_false, hvt, hnt]
              | false =>
                have hset : setLevelAt s.nodes adj (L + 1) = none := by
                  unfold setLevelAt
                  rw [hn]
                have hsett : setLevelAt t.nodes adj (L + 1) = none := by
                  unfold setLevelAt
                  rw [hnt]
                constructor
                · rw [scanAdjacent, hrow]
                  simp only [hget, hs, if_false, hb, vset_of_vget true hb, hset]
                · rw [scanAdjacent, hrowt]
                  simp only [hget, hs, if_false, hvt, vset_of_vget true hvt, hsett]
            · obtain ⟨ha0, -⟩ := vget_some_bounds hn
              cases b with
              | true =>
                have hlev : ndt.level = nd.level := by
                  have := h.levels adj hb
                  rw [levelOf_of_vget hn, levelOf_of_vget hnt] at this
                  exact this
                by_cases hlt : nd.level < L + 1
                · have hlg := vset_of_vget (row.eraseIdx i) hrow
                  have hlgt := vset_of_vget (row.eraseIdx i) hrowt
                  have hstep : scanAdjacent L cur (rem + 1) i s
                      = scanAdjacent L cur rem (i + 1)
                          { s with levelGraph := s.levelGraph.set cur.toNat (row.eraseIdx i) } := by
                    rw [scanAdjacent, hrow]
                    simp only [hget, hs, if_false, hb, hn, hlt, if_true, hlg]
                  have hstept : scanAdjacent L cur (rem + 1) i t
                      = scanAdjacent L cur rem (i + 1)
                          { t with levelGraph := t.levelGraph.set cur.toNat (row.eraseIdx i) } := by
                    rw [scanAdjacent, hrowt]
                    simp only [hget, hs, if_false, hvt, hnt, hlev, hlt, if_true, hlgt]
                  rw [hstep, hstept]
                  refine ih (i + 1) _ _ ⟨?_, h.visited_eq, h.hasPath_eq, h.ids, h.aligned,
                    h.levels, h.queue, h.queue_levels⟩
                  show t.levelGraph.set cur.toNat (row.eraseIdx i)
                    = s.levelGraph.set cur.toNat (row.eraseIdx i)
                  rw [h.levelGraph_eq]
                · have hstep : scanAdjacent L cur (rem + 1) i s
                      = scanAdjacent L cur rem (i + 1) s := by
                    rw [scanAdjacent, hrow]
                    simp only [hget, hs, if_false, hb, hn, hlt]
                  have hstept : scanAdjacent L cur (rem + 1) i t
                      = scanAdjacent L cur rem (i + 1) t := by
                    rw [scanAdjacent, hrowt]
                    simp only [hget, hs, if_false, hvt, hnt, hlev, hlt]
                  rw [hstep, hstept]
                  exact ih (i + 1) s t h
              | false =>
                have hvset := vset_of_vget true hb
                have hvsett := vset_of_vget true hvt
                have hnset := vset_of_vget { nd with level := L + 1 } hn
                have hnsett := vset_of_vget { ndt with level := L + 1 } hnt
                have hset : setLevelAt s.nodes adj (L + 1)
                    = some (s.nodes.set adj.toNat { nd with level := L + 1 }) := by
                  unfold setLevelAt
                  rw [hn]
                  exact hnset
                have hsett : setLevelAt t.nodes adj (L + 1)
                    = some (t.nodes.set adj.toNat { ndt with level := L + 1 }) := by
                  unfold setLevelAt
                  rw [hnt]
                  exact hnsett
                have hget1 : vget (s.nodes.set adj.toNat { nd with level := L + 1 }) adj
                    = some { nd with level := L + 1 } := vget_vset_self hnset
                have hget1t : vget (t.nodes.set adj.toNat { ndt with level := L + 1 }) adj
                    = some { ndt with level := L + 1 } := vget_vset_self hnsett
                have hstep : scanAdjacent L cur (rem + 1) i s
                    = scanAdjacent L cur rem (i + 1)
                        { s with
                          visited := s.visited.set adj.toNat true
                          nodes := s.nodes.set adj.toNat { nd with level := L + 1 }
                          nodeQueue := s.nodeQueue ++ [{ nd with level := L + 1 }] } := by
                  rw [scanAdjacent, hrow]
                  simp only [hget, hs, if_false, hb, hvset, hset, hget1]
                have hstept : scanAdjacent L cur (rem + 1) i t
                    = scanAdjacent L cur rem (i + 1)
                        { t with
                          visited := t.visited.set adj.toNat true
                          nodes := t.nodes.set adj.toNat { ndt with level := L + 1 }
                          nodeQueue := t.nodeQueue ++ [{ ndt with level := L + 1 }] } := by
                  rw [scanAdjacent, hrowt]
                  simp only [hget, hs, if_false, hvt, hvsett, hsett, hget1t]
                rw [hstep, hstept]
                have hk : s.nodes[adj.toNat]? = some nd := by
                  rw [← vget_eq_getElem? _ _ ha0]
                  exact hn
                have hndidx : nd.index = adj := by
                  have := h.aligned adj.toNat nd hk
                  omega
                have hlevels : ∀ x, levelOf t.nodes x = levelOf s.nodes x →
                    levelOf (t.nodes.set adj.toNat { ndt with level := L + 1 }) x
                      = levelOf (s.nodes.set adj.toNat { nd with level := L + 1 }) x := by
                  intro x hx
                  by_cases hxa : x = adj
                  · rw [hxa, levelOf_set_self _ hn, levelOf_set_self _ hnt]
                  · rw [levelOf_set_ne _ ha0 hxa, levelOf_set_ne _ ha0 hxa]
                    exact hx
                have hmid : SameBfs
                    { s with
                      visited := s.visited.set adj.toNat true
                      nodes := s.nodes.set adj.toNat { nd with level := L + 1 }
                      nodeQueue := s.nodeQueue ++ [{ nd with level := L + 1 }] }
                    { t with
                      visited := t.visited.set adj.toNat true
                      nodes := t.nodes.set adj.toNat { ndt with level := L + 1 }
                      nodeQueue := t.nodeQueue ++ [{ ndt with level := L + 1 }] } := by
                  refine ⟨h.levelGraph_eq, ?_, h.hasPath_eq, ?_,
                    aligned_setLevel _ _ _ _ h.aligned hk, ?_, ?_, ?_⟩
                  · show t.visited.set adj.toNat true = s.visited.set adj.toNat true
                    rw [h.visited_eq]
                  · show (t.nodes.set adj.toNat { ndt with level := L + 1 }).map Node.index
                      = (s.nodes.set adj.toNat { nd with level := L + 1 }).map Node.index
                    rw [List.map_set, List.map_set, h.ids]
                    show (s.nodes.map Node.index).set adj.toNat ndt.index
                      = (s.nodes.map Node.index).set adj.toNat nd.index
                    rw [hidx]
                  · intro x hx
                    have hx1 : vget (s.visited.set adj.toNat true) x = some true := hx
                    by_cases hxa : x = adj
                    · show levelOf (t.nodes.set adj.toNat { ndt with level := L + 1 }) x
                        = levelOf (s.nodes.set adj.toNat { nd with level := L + 1 }) x
                      rw [hxa, levelOf_set_self _ hn, levelOf_set_self _ hnt]
                    · rw [vget_vset_ne hvset hxa] at hx1
                      exact hlevels x (h.levels x hx1)
                  · show (t.nodeQueue ++ [{ ndt with level := L + 1 }]).map
                        (fun (q : Node) => (q.index, q.level))
                      = (s.nodeQueue ++ [{ nd with level := L + 1 }]).map
                        (fun (q : Node) => (q.index, q.level))
                    rw [List.map_append, List.map_append, h.queue]
                    show _ ++ [(ndt.index, L + 1)] = _ ++ [(nd.index, L + 1)]
                    rw [hidx]
                  · intro q hq
                    show levelOf (t.nodes.set adj.toNat { ndt with level := L + 1 }) q.index
                      = levelOf (s.nodes.set adj.toNat { nd with level := L + 1 }) q.index
                    rcases List.mem_append.mp hq with hold | hnew
                    · exact hlevels _ (h.queue_levels q hold)
                    · rw [List.mem_singleton] at hnew
                      have hqi : q.index = adj := by
                        rw [hnew]
                        exact hndidx
                      rw [hqi, levelOf_set_self _ hn, levelOf_set_self _ hnt]
                rcases ih (i + 1) _ _ hmid with hnone | ⟨s1, t1, h1, h2, h3, h4⟩
                · exact Or.inl hnone
                · exact Or.inr ⟨s1, t1, h1, h2, h3, fun x hx => h4 x (hlevels x hx)⟩

/-- One iteration of the breadth-first loop keeps two related states related. -/
theorem bfsVisit_same {s t : BfsState} {q qt : Node} {rest restt : List Node}
    (h : SameBfs s t) (hq : s.nodeQueue = q :: rest) (hqt : t.nodeQueue = qt :: restt) :
    (bfsVisit q rest s = none ∧ bfsVisit qt restt t = none) ∨
    ∃ s1 t1, bfsVisit q rest s = some s1 ∧ bfsVisit qt restt t = some t1 ∧ SameBfs s1 t1 := by
  have hqueue := h.queue
  rw [hq, hqt, List.map_cons, List.map_cons, List.cons.injEq, Prod.mk.injEq] at hqueue
  obtain ⟨⟨hidx, hlevel⟩, hrest⟩ := hqueue
  have hql : levelOf t.nodes q.index = levelOf s.nodes q.index :=
    h.queue_levels q (by rw [hq]; exact List.mem_cons_self _ _)
  have h0 : SameBfs { s with nodeQueue := rest } { t with nodeQueue := restt } :=
    ⟨h.levelGraph_eq, h.visited_eq, h.hasPath_eq, h.ids, h.aligned, h.levels, hrest,
      fun x hx => h.queue_levels x (by rw [hq]; exact List.mem_cons_of_mem _ hx)⟩
  have hrowt : vget t.levelGraph q.index = vget s.levelGraph q.index := by
    rw [h.levelGraph_eq]
  unfold bfsVisit
  simp only [hidx, hlevel, hrowt]
  cases hrow : vget s.levelGraph q.index with
  | none => exact Or.inl ⟨rfl, rfl⟩
  | some row =>
    simp only []
    rcases scanAdjacent_same q.level q.index row.length 0 _ _ h0 with
      ⟨hn, hnt⟩ | ⟨s1, t1, hs1, ht1, hsame, hmono⟩
    · rw [hn, hnt]
      exact Or.inl ⟨rfl, rfl⟩
    · rw [hs1, ht1]
      simp only []
      have hvt : vset t1.visited q.index true = vset s1.visited q.index true := by
        rw [hsame.visited_eq]
      rw [hvt]
      cases hv : vset s1.visited q.index true with
      | none => exact Or.inl ⟨rfl, rfl⟩
      | some visited1 =>
        refine Or.inr ⟨_, _, rfl, rfl, hsame.levelGraph_eq, rfl, hsame.hasPath_eq, hsame.ids,
          hsame.aligned, ?_, hsame.queue, hsame.queue_levels⟩
        intro x hx
        have hx1 : vget visited1 x = some true := hx
        show levelOf t1.nodes x = levelOf s1.nodes x
        by_cases hxq : x = q.index
        · rw [hxq]
          exact hmono _ hql
        · rw [vget_vset_ne hv hxq] at hx1
          exact hsame.levels x hx1

/-- The breadth-first loop ends the same way from two related states. -/
theorem bfsLoop_same : ∀ (fuel : Nat) (s t : BfsState), SameBfs s t →
    (bfsLoop fuel s = Outcome.undef ∧ bfsLoop fuel t = Outcome.undef) ∨
    (bfsLoop fuel s = Outcome.fuel ∧ bfsLoop fuel t = Outcome.fuel) ∨
    ∃ s1 t1, bfsLoop fuel s = Outcome.done s1 ∧ bfsLoop fuel t = Outcome.done t1 ∧
      SameBfs s1 t1 := by
  intro fuel
  induction fuel with
  | zero =>
    intro s t h
    have hqueue := h.queue
    cases hq : s.nodeQueue with
    | nil =>
      rw [hq, List.map_nil, List.map_eq_nil_iff] at hqueue
      right
      right
      refine ⟨s, t, ?_, ?_, h⟩
      · rw [bfsLoop, hq]
      · rw [bfsLoop, hqueue]
    | cons q rest =>
      cases hqt : t.nodeQueue with
      | nil =>
        rw [hq, hqt] at hqueue
        cases hqueue
      | cons qt restt =>
        right
        left
        constructor
        · rw [bfsLoop, hq]
        · rw [bfsLoop, hqt]
  | succ fuel ih =>
    intro s t h
    have hqueue := h.queue
    cases hq : s.nodeQueue with
    | nil =>
      rw [hq, List.map_nil, List.map_eq_nil_iff] at hqueue
      right
      right
      refine ⟨s, t, ?_, ?_, h⟩
      · rw [bfsLoop, hq]
      · rw [bfsLoop, hqueue]
    | cons q rest =>
      cases hqt : t.nodeQueue with
      | nil =>
        rw [hq, hqt] at hqueue
        cases hqueue
      | cons qt restt =>
        rcases bfsVisit_same h hq hqt with ⟨hn, hnt⟩ | ⟨s1, t1, hs1, ht1, hsame⟩
        · left
          constructor
          · rw [bfsLoop, hq]
            simp only [hn]
          · rw [bfsLoop, hqt]
            simp only [hnt]
        · have hstep : bfsLoop (fuel + 1) s = bfsLoop fuel s1 := by
            rw [bfsLoop, hq]
            simp only [hs1]
          have hstept : bfsLoop (fuel + 1) t = bfsLoop fuel t1 := by
            rw [bfsLoop, hqt]
            simp only [ht1]
          rw [hstep, hstept]
          exact ih s1 t1 hsame

/-- With node ids equal to positions, `createLevelGraph` gives the same boolean and the same
level graph on two graphs that agree on the residual graph, the node ids and the level of
the source. -/
theorem createLevelGraph_same {g g1 : Graph}
    (hres : g1.residualGraph = g.residualGraph)
    (hids : g1.nodes.map Node.index = g.nodes.map Node.index)
    (hal : Aligned g.nodes)
    (h0 : g.nodes.head?.map Node.level = some 0)
    (h1 : g1.nodes.head?.map Node.level = some 0) :
    levelResult g1.createLevelGraph = levelResult g.createLevelGraph := by
  have hlen : g1.nodes.length = g.nodes.length := by
    have := congrArg List.length hids
    simpa using this
  cases hn : g.nodes with
  | nil =>
    rw [hn] at h0
    cases h0
  | cons first tl =>
    cases hnt : g1.nodes with
    | nil =>
      rw [hnt] at h1
      cases h1
    | cons firstt tlt =>
      rw [hn] at h0
      rw [hnt] at h1
      have hl0 : first.level = 0 := by simpa using h0
      have hl1 : firstt.level = 0 := by simpa using h1
      have hfi : first.index = 0 := by
        have := hal 0 first (by rw [hn]; simp)
        simpa using this
      have hfit : firstt.index = first.index := by
        rw [hn, hnt, List.map_cons, List.map_cons, List.cons.injEq] at hids
        exact hids.1
      have hstart : SameBfs
          { nodes := g.nodes
            levelGraph := g.residualGraph
            visited := List.replicate g.nodes.length false
            nodeQueue := [first]
            hasPathToSink := false }
          { nodes := g1.nodes
            levelGraph := g1.residualGraph
            visited := List.replicate g1.nodes.length false
            nodeQueue := [firstt]
            hasPathToSink := false } := by
        refine ⟨hres, by show List.replicate _ false = List.replicate _ false; rw [hlen], rfl,
          hids, hal, ?_, ?_, ?_⟩
        · intro x hx
          have hx1 : vget (List.replicate g.nodes.length false) x = some true := hx
          obtain ⟨-, hlt⟩ := vget_some_bounds hx1
          rw [vget_eq_getElem? _ _ (vget_some_bounds hx1).1, List.getElem?_eq_getElem hlt,
            List.getElem_replicate] at hx1
          cases hx1
        · show [(firstt.index, firstt.level)] = [(first.index, first.level)]
          rw [hfit, hl0, hl1]
        · intro q hq
          rw [List.mem_singleton] at hq
          show levelOf g1.nodes q.index = levelOf g.nodes q.index
          rw [hq, hfi, hn, hnt]
          simp only [levelOf, vget, lt_irrefl, if_false, Int.toNat_zero, List.getElem?_cons_zero,
            Option.map_some', Option.getD_some]
          rw [hl0, hl1]
      have hcreate : g.createLevelGraph =
          match bfsLoop (g1.nodes.length + 1)
            { nodes := g.nodes
              levelGraph := g.residualGraph
              visited := List.replicate g.nodes.length false
              nodeQueue := [first]
              hasPathToSink := false } with
          | Outcome.done s =>
            Outcome.done (s.hasPathToSink, { g with nodes := s.nodes, levelGraph := s.levelGraph })
          | Outcome.undef => Outcome.undef
          | Outcome.fuel => Outcome.fuel := by
        rw [hlen]
        unfold Graph.createLevelGraph
        split
        · rename_i heq
          rw [hn] at heq
          cases heq
        · rename_i f t heq
          rw [hn] at heq
          cases heq
          rfl
      have hcreatet : g1.createLevelGraph =
          match bfsLoop (g1.nodes.length + 1)
            { nodes := g1.nodes
              levelGraph := g1.residualGraph
              visited := List.replicate g1.nodes.length false
              nodeQueue := [firstt]
              hasPathToSink := false } with
          | Outcome.done s =>
            Outcome.done (s.hasPathToSink, { g1 with nodes := s.nodes, levelGraph := s.levelGraph })
          | Outcome.undef => Outcome.undef
          | Outcome.fuel => Outcome.fuel := by
        unfold Graph.createLevelGraph
        split
        · rename_i heq
          rw [hnt] at heq
          cases heq
        · rename_i f t heq
          rw [hnt] at heq
          cases heq
          rfl
      rw [hcreate, hcreatet]
      rcases bfsLoop_same (g1.nodes.length + 1) _ _ hstart with
        ⟨hu, hut⟩ | ⟨hf, hft⟩ | ⟨s1, t1, hs1, ht1, hsame⟩
      · rw [hu, hut]
      · rw [hf, hft]
      · rw [hs1, ht1]
        show Outcome.done (t1.hasPathToSink, t1.levelGraph)
          = Outcome.done (s1.hasPathToSink, s1.levelGraph)
        rw [hsame.hasPath_eq, hsame.levelGraph_eq]

/-- Claim C39, with the condition the code relies on: on two graph states with the same
residual graph and the same node ids, where every node id is the position of the node in the
node list and the stored level of the source is 0 in both, `createLevelGraph` ends the same
way, returns the same boolean and produces the same level graph, whatever the stored levels of
the other nodes, the node names and the previous level graphs are. -/
theorem stale_state_does_not_leak (g g1 : Graph)
    (hres : g1.residualGraph = g.residualGraph)
    (hids : g1.nodes.map Node.index = g.nodes.map Node.index)
    (hal : Aligned g.nodes)
    (h0 : g.nodes.head?.map Node.level = some 0)
    (h1 : g1.nodes.head?.map Node.level = some 0) :
    levelResult g1.createLevelGraph = levelResult g.createLevelGraph :=
  createLevelGraph_same hres hids hal h0 h1

theorem stale_state_does_not_leak_witness :
    scenarioOneStale.residualGraph = scenarioOnePhaseTwo.residualGraph ∧
    scenarioOneStale.nodes.map Node.index = scenarioOnePhaseTwo.nodes.map Node.index ∧
    scenarioOneStale.nodes.map Node.level ≠ scenarioOnePhaseTwo.nodes.map Node.level ∧
    scenarioOneStale.levelGraph ≠ scenarioOnePhaseTwo.levelGraph ∧
    levelResult scenarioOnePhaseTwo.createLevelGraph
      = Outcome.done (true, [[2], [4], [3], [1], [5], [-1, 3]]) ∧
    levelResult scenarioOneStale.createLevelGraph
      = levelResult scenarioOnePhaseTwo.createLevelGraph :=
  ⟨by decide, by decide, by decide, by decide, by decide,
    stale_state_does_not_leak scenarioOnePhaseTwo scenarioOneStale (by decide) (by decide)
      (aligned_of_map (by decide)) (by decide) (by decide)⟩

/-- Claim C39 as stated fails when a node id is not the position of the node: the two graphs
are built with `addNode`, `addEdge` and `createResidualGraph`, have the same residual graph,
the same node ids and the source level 0, and differ only in the stored level of the node at
position 3; the entry 3 of row 2 is erased for the stale level 0 and kept for the stale
level 5. -/
theorem stale_level_leaks_when_ids_are_not_positions :
    (unalignedInput 0).createResidualGraph = some (unalignedGraph 0) ∧
    (unalignedInput 5).createResidualGraph = some (unalignedGraph 5) ∧
    (unalignedGraph 5).residualGraph = (unalignedGraph 0).residualGraph ∧
    (unalignedGraph 5).nodes.map Node.index = (unalignedGraph 0).nodes.map Node.index ∧
    (unalignedGraph 0).nodes.head?.map Node.level = some 0 ∧
    (unalignedGraph 5).nodes.head?.map Node.level = some 0 ∧
    (unalignedGraph 5).levelGraph = (unalignedGraph 0).levelGraph ∧
    ¬ Aligned (unalignedGraph 0).nodes ∧
    levelResult (unalignedGraph 0).createLevelGraph
      = Outcome.done (true, [[1, 2], [], [], [5], [5], [-1]]) ∧
    levelResult (unalignedGraph 5).createLevelGraph
      = Outcome.done (true, [[1, 2], [], [3], [5], [5], [-1]]) ∧
    levelResult (unalignedGraph 5).createLevelGraph
      ≠ levelResult (unalignedGraph 0).createLevelGraph :=
  ⟨by decide, by decide, by decide, by decide, by decide, by decide, by decide,
    fun h => absurd (h 1 ⟨"A", 3, 0⟩ rfl) (by decide), by decide, by decide, by decide⟩

/-- For a completed run the ghost count of `driverLoop` is the count of `driverCalls`. -/
theorem driverLoop_driverCalls (nodeCount : Int) : ∀ (fuel : Nat) (g : Graph) (calls : Nat)
    (g2 : Graph) (k : Nat), driverLoop nodeCount fuel g calls = Outcome.done (g2, k) →
    k = calls + driverCalls nodeCount fuel g := by
  intro fuel
  induction fuel with
  | zero =>
    intro g calls g2 k h
    rw [driverLoop] at h
    cases h
  | succ f ih =>
    intro g calls g2 k h
    rw [driverLoop] at h
    rw [driverCalls]
    cases hc : g.createLevelGraph with
    | undef => rw [hc] at h; cases h
    | fuel => rw [hc] at h; cases h
    | done r =>
      obtain ⟨b, g1⟩ := r
      rw [hc] at h
      cases b with
      | false =>
        simp only [Outcome.done.injEq, Prod.mk.injEq] at h
        simp only
        omega
      | true =>
        simp only at h ⊢
        cases hn : g1.getNode 0 with
        | none => rw [hn] at h; cases h
        | some source =>
          rw [hn] at h
          simp only at h ⊢
          cases hs : searchLoop nodeCount f ⟨g1, source.index, []⟩ with
          | undef => rw [hs] at h; cases h
          | fuel => rw [hs] at h; cases h
          | done g3 =>
            rw [hs] at h
            simp only at h ⊢
            have := ih g3 (calls + 1) g2 k h
            omega

/-- Every phase that finds a path removes an entry from the residual row of the source, so
the number of `createLevelGraph` calls of a run, completed or not, is bounded by the length
of that row at the start plus one. -/
theorem driverCalls_le {t : Int} {nodeCount : Int} (ht : nodeCount + 1 = t) :
    ∀ (fuel : Nat) (g : Graph), ResInv t g →
      driverCalls nodeCount fuel g ≤ (rowOf g.residualGraph 0).length + 1 := by
  intro fuel
  induction fuel with
  | zero =>
    intro g _
    rw [driverCalls]
    omega
  | succ f ih =>
    intro g hres
    rw [driverCalls]
    cases hc : g.createLevelGraph with
    | undef => simp only; omega
    | fuel => simp only; omega
    | done r =>
      obtain ⟨b, g1⟩ := r
      cases b with
      | false => simp only; omega
      | true =>
        simp only
        obtain ⟨-, hres1, -, hri1, hli1, hpath⟩ := createLevelGraph_spec hres hc
        obtain ⟨source, hsrc, hidx⟩ := getNode_zero hri1
        rw [hsrc]
        simp only [hidx]
        cases hs : searchLoop nodeCount f ⟨g1, 0, []⟩ with
        | undef => simp only; omega
        | fuel => simp only; omega
        | done g3 =>
          simp only
          obtain ⟨V, hV0, hVr, hVl⟩ := hli1.layered
          have hinv : SearchInv t V ⟨g1, 0, []⟩ :=
            { res := hri1
              sizes := hli1.sizes
              sub := hli1.sub
              source := hV0
              range := hVr
              layered := hVl
              chain := List.chain'_singleton _
              increasing := List.pairwise_singleton _ _
              inV := fun x hx => by
                have : x = 0 := by simpa using hx
                rw [this]
                exact hV0
              not_sink := fun x hx => by cases hx
              head := rfl }
          obtain ⟨hres3, -, hlt⟩ := searchLoop_spec ht f _ g3 hinv hs
          have hlt1 := hlt (hpath rfl)
          simp only [hres1] at hlt1
          have := ih g3 hres3
          omega

/-- C4: on a valid bipartite input the driver makes at most `N/2 + 1` calls of
`createLevelGraph` (the left partition has `N/2` nodes), in every run: the calls are counted
by `runCalls` whether the run completes, is cut short by an undefined read or has not ended
within the fuel; for a completed run the count is the one the run itself returns. -/
theorem phase_bound (names : List String) (edgePairs : List (Int × Int)) (fuel : Nat)
    (hvalid : ValidInput names.length edgePairs) :
    runCalls fuel names edgePairs ≤ names.length / 2 + 1 ∧
    ∀ g calls, runMatching fuel names edgePairs = Outcome.done (g, calls) →
      calls = runCalls fuel names edgePairs ∧ calls ≤ names.length / 2 + 1 := by
  have hrange := validInput_range hvalid
  have hbound : runCalls fuel names edgePairs ≤ names.length / 2 + 1 := by
    unfold runCalls
    rw [loadGraph_valid names edgePairs hrange]
    simp only
    cases hc : (⟨edgePairs.map (fun p => (⟨p.1, p.2, false⟩ : Edge)), loadedNodes names, [],
        []⟩ : Graph).createResidualGraph with
    | none => simp only; omega
    | some g1 =>
      simp only
      obtain ⟨hres, -, hlen⟩ := createResidualGraph_resInv names _ g1
        (by
          intro e he
          simp only [List.mem_map] at he
          obtain ⟨p, hp, rfl⟩ := he
          exact hrange p hp)
        hc
      have := driverCalls_le
        (rfl : (names.length : Int) + 1 = (names.length : Int) + 1) fuel g1 hres
      omega
  refine ⟨hbound, ?_⟩
  intro g calls hrun
  have heq : calls = runCalls fuel names edgePairs := by
    unfold runMatching at hrun
    unfold runCalls
    cases hl : loadGraph names edgePairs with
    | none => rw [hl] at hrun; cases hrun
    | some g0 =>
      rw [hl] at hrun
      simp only at hrun ⊢
      cases hc : g0.createResidualGraph with
      | none => rw [hc] at hrun; cases hrun
      | some g1 =>
        rw [hc] at hrun
        simp only at hrun ⊢
        have := driverLoop_driverCalls _ fuel g1 0 g calls hrun
        omega
  exact ⟨heq, by rw [heq]; exact hbound⟩

/-- C4 (witness): the first scenario is a valid input, its run completes with three calls, and
the bound is `4/2 + 1 = 3`; on the six-node input the run is cut short by the undefined read
in its second call, and the bound is `6/2 + 1 = 4`. -/
theorem phase_bound_witness :
    (ValidInput ["A", "B", "X", "Y"].length [(1, 3), (1, 4), (2, 3)] ∧
      runMatching 10 ["A", "B", "X", "Y"] [(1, 3), (1, 4), (2, 3)]
        = Outcome.done (scenarioOneFinal, 3) ∧
      runCalls 10 ["A", "B", "X", "Y"] [(1, 3), (1, 4), (2, 3)] = 3 ∧
      (runCalls 10 ["A", "B", "X", "Y"] [(1, 3), (1, 4), (2, 3)]
          ≤ ["A", "B", "X", "Y"].length / 2 + 1 ∧
        ∀ g calls, runMatching 10 ["A", "B", "X", "Y"] [(1, 3), (1, 4), (2, 3)]
            = Outcome.done (g, calls) →
          calls = runCalls 10 ["A", "B", "X", "Y"] [(1, 3), (1, 4), (2, 3)] ∧
          calls ≤ ["A", "B", "X", "Y"].length / 2 + 1)) ∧
    (ValidInput failingNames.length failingEdges ∧
      runMatching 20 failingNames failingEdges = Outcome.undef ∧
      runCalls 20 failingNames failingEdges = 2 ∧
      runCalls 20 failingNames failingEdges ≤ failingNames.length / 2 + 1) :=
  ⟨⟨by decide, by decide, by decide,
      phase_bound ["A", "B", "X", "Y"] [(1, 3), (1, 4), (2, 3)] 10 (by decide)⟩,
    ⟨by decide, by decide, by decide,
      (phase_bound failingNames failingEdges 20 (by decide)).1⟩⟩

end P3

namespace P2

/-- Two outcomes of `sort` on the same vector are equal when different elements of the vector
have different keys. -/
theorem sortOutput_unique {α : Type} {compare : Point α → Point α → Bool}
    {points sorted sorted1 : List (Point α)}
    (hkeys : ∀ a ∈ points, ∀ b ∈ points, compare b a = false → compare a b = false → a = b)
    (h : IsSortOutput compare points sorted) (h1 : IsSortOutput compare points sorted1) :
    sorted = sorted1 :=
  List.Perm.eq_of_sorted
    (fun a b ha hb hab hba => hkeys a (h.1.mem_iff.mp ha) b (h1.1.mem_iff.mp hb) hab hba)
    h.2 h1.2 (h.1.trans h1.1.symm)

/-- C25 (failing input): on seven points with pairwise different coordinates, for which the
two `sort` calls have one outcome each, `findClosestPairDistance` returns the root of 136, the
distance of (0, 0) and (10, 6), although (10, 6) and (11, 5) lie at the root of 2. The
top-level partition admits only `mid = 3` points to the left list, so (10, 6), the highest of
the four left points, lands in the right list and is never compared with (11, 5). -/
theorem closest_pair_misses_left_half_pair :
    IsSortOutput Point.compareX sevenPoints sevenPoints ∧
    IsSortOutput Point.compareY sevenPoints sevenSortedY ∧
    (∀ sortedPointsX sortedPointsY, IsSortOutput Point.compareX sevenPoints sortedPointsX →
      IsSortOutput Point.compareY sevenPoints sortedPointsY →
      sortedPointsX = sevenPoints ∧ sortedPointsY = sevenSortedY ∧
      findClosestPairDistance sevenPoints sortedPointsX sortedPointsY
        = some (Distance.root 136)) ∧
    CanReturn sevenPoints (some (Distance.root 136)) ∧
    (∀ result, CanReturn sevenPoints result → result = some (Distance.root 136)) ∧
    specClosestPairDistance sevenPoints = Distance.root 2 ∧
    Point.calculateDistance (⟨10, 6, 0⟩ : Point Int) ⟨11, 5, 0⟩ = Distance.root 2 ∧
    (((visitedPoints (setIndexFrom 0 sevenSortedY) 0 6).foldl
        (splitStep ⟨50, 1, 3⟩ 3) ⟨[], [], 0, 0⟩).leftSortedPointsY.map (fun p => (p.x, p.y))
      = [(0, 0), (50, 1), (11, 5)]) ∧
    (((visitedPoints (setIndexFrom 0 sevenSortedY) 0 6).foldl
        (splitStep ⟨50, 1, 3⟩ 3) ⟨[], [], 0, 0⟩).rightSortedPointsY.map (fun p => (p.x, p.y))
      = [(100, 2), (200, 3), (300, 4), (10, 6)]) := by
  have hX : IsSortOutput Point.compareX sevenPoints sevenPoints :=
    And.intro (List.Perm.refl _) (by decide)
  have hY : IsSortOutput Point.compareY sevenPoints sevenSortedY :=
    And.intro (by decide) (by decide)
  have hrun : findClosestPairDistance sevenPoints sevenPoints sevenSortedY
      = some (Distance.root 136) := by decide
  have hall : ∀ sortedPointsX sortedPointsY,
      IsSortOutput Point.compareX sevenPoints sortedPointsX →
      IsSortOutput Point.compareY sevenPoints sortedPointsY →
      sortedPointsX = sevenPoints ∧ sortedPointsY = sevenSortedY ∧
      findClosestPairDistance sevenPoints sortedPointsX sortedPointsY
        = some (Distance.root 136) := by
    intro sx sy hsx hsy
    have h1 : sx = sevenPoints := sortOutput_unique (by decide) hsx hX
    have h2 : sy = sevenSortedY := sortOutput_unique (by decide) hsy hY
    rw [h1, h2]
    exact ⟨rfl, rfl, hrun⟩
  refine ⟨hX, hY, hall, ⟨sevenPoints, sevenSortedY, hX, hY, hrun⟩, ?_, by decide, by decide,
    by decide, by decide⟩
  rintro result ⟨sx, sy, hsx, hsy, hres⟩
  rw [← hres]
  exact (hall sx sy hsx hsy).2.2

theorem getMinimumValue_max {α : Type} [LinearOrderedRing α] (s : α) :
    getMinimumValue (Distance.root s) Distance.max = Distance.root s := rfl

end P2

namespace P1

theorem mem_numbersUpTo {n : Nat} {v : Int} : v ∈ numbersUpTo n ↔ 1 ≤ v ∧ v ≤ (n : Int) := by
  unfold numbersUpTo
  simp only [List.mem_map, List.mem_range]
  constructor
  · rintro ⟨k, hk, rfl⟩
    omega
  · rintro ⟨h1, h2⟩
    exact ⟨(v - 1).toNat, by omega, by omega⟩

theorem numbersUpTo_nodup (n : Nat) : (numbersUpTo n).Nodup := by
  unfold numbersUpTo
  refine List.Nodup.map ?_ (List.nodup_range n)
  intro a b h
  simp only at h
  omega

theorem getPeoplePreference_cons {people : People} {i v : Int} {rest : List Int}
    (h0 : 0 ≤ i) (hlt : i < (people.peoplePreferences.length : Int))
    (hrow : P3.rowOf people.peoplePreferences i = v :: rest) :
    people.getPeoplePreference i
      = (v, { people with peoplePreferences := people.peoplePreferences.set i.toNat rest }) := by
  have hget : people.peoplePreferences[i.toNat]? = some (v :: rest) := by
    have h := P3.vget_rowOf_in_range h0 hlt
    rw [P3.vget_eq_getElem? _ _ h0, hrow] at h
    exact h
  unfold People.getPeoplePreference People.isValidPeopleIndex
  rw [if_pos (by simp [h0, hlt]), hget]

theorem rowOf_set_self {r : List (List Int)} {i : Int} (row : List Int) (h0 : 0 ≤ i)
    (hlt : i < (r.length : Int)) : P3.rowOf (r.set i.toNat row) i = row :=
  P3.rowOf_vset_self (P3.vset_in_range row h0 hlt)

theorem rowOf_set_ne {r : List (List Int)} {i j : Int} (row : List Int) (h0 : 0 ≤ i)
    (hlt : i < (r.length : Int)) (hj : j ≠ i) :
    P3.rowOf (r.set i.toNat row) j = P3.rowOf r j :=
  P3.rowOf_vset_ne (P3.vset_in_range row h0 hlt) hj

theorem sum_length_set : ∀ (r : List (List Int)) (k : Nat) (v : Int) (rest : List Int),
    r[k]? = some (v :: rest) →
    ((r.set k rest).map List.length).sum + 1 = (r.map List.length).sum := by
  intro r
  induction r with
  | nil => intro k v rest h; simp at h
  | cons a r ih =>
    intro k v rest h
    cases k with
    | zero =>
      simp only [List.getElem?_cons_zero, Option.some.injEq] at h
      subst h
      simp only [List.set_cons_zero, List.map_cons, List.sum_cons, List.length_cons]
      omega
    | succ k =>
      simp only [List.getElem?_cons_succ] at h
      have := ih k v rest h
      simp only [List.set_cons_succ, List.map_cons, List.sum_cons]
      omega

/-- A vector of `n` entries none of which is -1, where equal entries sit at equal places and
every entry is a person, holds every person. -/
theorem mem_of_injective_vector {n : Nat} {l : List Int} (hlen : l.length = n)
    (hrange : ∀ m ∈ l, 0 ≤ m ∧ m < (n : Int)) (hnodup : l.Nodup) {c : Int} (h0 : 0 ≤ c)
    (hlt : c < (n : Int)) : c ∈ l := by
  have hsub : l ⊆ (List.range n).map (fun (k : Nat) => (k : Int)) := by
    intro m hm
    obtain ⟨h1, h2⟩ := hrange m hm
    exact List.mem_map.mpr ⟨m.toNat, List.mem_range.mpr (by omega), by omega⟩
  have hperm := (List.subperm_of_subset hnodup hsub).perm_of_length_le (by simp [hlen])
  exact hperm.mem_iff.mpr (List.mem_map.mpr ⟨c.toNat, List.mem_range.mpr (by omega), by omega⟩)

theorem vget_of_mem {l : List Int} {m : Int} (h : m ∈ l) :
    ∃ k : Nat, k < l.length ∧ P3.vget l (k : Int) = some m := by
  obtain ⟨k, hk, hget⟩ := List.getElem_of_mem h
  refine ⟨k, hk, ?_⟩
  rw [P3.vget_natCast, List.getElem?_eq_getElem hk, hget]

/-- The person at the front of the queue still has a pet to propose to: otherwise all `n` pets
would hold `n` different people, none of them this unmatched person. -/
theorem queue_head_has_preference {n : Nat} {original ranks : List (List Int)}
    {people : People} {pets : Pet} {cur : Int} {rest : List Int} {c : Nat}
    (hperm : ∀ i : Int, 0 ≤ i → i < (n : Int) → (P3.rowOf original i).Perm (numbersUpTo n))
    (hinv : MatchingInv n original ranks people pets (cur :: rest) c) :
    0 ≤ cur ∧ cur < (n : Int) ∧ ∃ v L, P3.rowOf people.peoplePreferences cur = v :: L ∧
      1 ≤ v ∧ v ≤ (n : Int) := by
  have hcur : P3.vget people.matchedPet cur = some (-1) :=
    (hinv.queue_mem cur).mp (List.mem_cons_self _ _)
  have hb := P3.vget_some_bounds hcur
  rw [hinv.matchedPet_length] at hb
  have h0 : 0 ≤ cur := hb.1
  have hlt : cur < (n : Int) := by omega
  refine ⟨h0, hlt, ?_⟩
  obtain ⟨before, hsplit, -, hheld⟩ := hinv.proposed cur h0 hlt
  cases hrow : P3.rowOf people.peoplePreferences cur with
  | cons v L =>
    refine ⟨v, L, rfl, ?_⟩
    have hv : v ∈ P3.rowOf original cur := by
      rw [hsplit, hrow]
      simp
    exact mem_numbersUpTo.mp ((hperm cur h0 hlt).mem_iff.mp hv)
  | nil =>
    exfalso
    rw [hrow, List.append_nil] at hsplit
    have hall : ∀ k : Nat, k < n → ∃ m, P3.vget pets.matchedPeople (k : Int) = some m ∧
        m ≠ -1 := by
      intro k hk
      have hmem : ((k : Int) + 1) ∈ before := by
        rw [← hsplit]
        exact (hperm cur h0 hlt).mem_iff.mpr (mem_numbersUpTo.mpr ⟨by omega, by omega⟩)
      obtain ⟨m, hm, hne, -⟩ := hheld _ hmem
      exact ⟨m, by simpa using hm, hne⟩
    have hentry : ∀ m ∈ pets.matchedPeople, ∃ k : Nat, k < n ∧
        P3.vget pets.matchedPeople (k : Int) = some m ∧ m ≠ -1 ∧
        P3.vget people.matchedPet m = some (k : Int) := by
      intro m hm
      obtain ⟨k, hk, hget⟩ := vget_of_mem hm
      rw [hinv.matchedPeople_length] at hk
      obtain ⟨m1, hm1, hne⟩ := hall k hk
      rw [hget] at hm1
      cases hm1
      exact ⟨k, hk, hget, hne, hinv.pet_side _ _ hget hne⟩
    have hrange : ∀ m ∈ pets.matchedPeople, 0 ≤ m ∧ m < (n : Int) := by
      intro m hm
      obtain ⟨k, -, -, -, hmp⟩ := hentry m hm
      have := P3.vget_some_bounds hmp
      rw [hinv.matchedPet_length] at this
      omega
    have hnodup : pets.matchedPeople.Nodup := by
      rw [List.nodup_iff_getElem?_ne_getElem?]
      intro a b hab hb2 heq
      have ha2 : a < pets.matchedPeople.length := by omega
      rw [hinv.matchedPeople_length] at ha2 hb2
      obtain ⟨m, hm, hne⟩ := hall a ha2
      have hma : P3.vget pets.matchedPeople (a : Int) = some m := hm
      have hmb : P3.vget pets.matchedPeople (b : Int) = some m := by
        rw [P3.vget_natCast, ← heq, ← P3.vget_natCast]
        exact hm
      have h1 := hinv.pet_side _ _ hma hne
      have h2 := hinv.pet_side _ _ hmb hne
      rw [h1] at h2
      simp only [Option.some.injEq, Nat.cast_inj] at h2
      omega
    have hmem := mem_of_injective_vector hinv.matchedPeople_length hrange hnodup h0 hlt
    obtain ⟨k, -, -, -, hmp⟩ := hentry cur hmem
    rw [hcur] at hmp
    simp only [Option.some.injEq] at hmp
    omega

theorem Held.update {mq mq1 : List Int} {ranks : List (List Int)} {i v q cur m : Int}
    (h : Held mq ranks i v) (hset : P3.vset mq q cur = some mq1)
    (hold : P3.vget mq q = some m) (hcur : cur ≠ -1)
    (hbetter : m ≠ -1 → rankOf ranks q cur ≤ rankOf ranks q m) : Held mq1 ranks i v := by
  obtain ⟨m1, hm1, hne, hrank⟩ := h
  by_cases hq : v - 1 = q
  · rw [hq] at hm1 hrank
    rw [hold] at hm1
    cases hm1
    exact ⟨cur, by rw [hq]; exact P3.vget_vset_self hset, hcur,
      by rw [hq]; exact le_trans (hbetter hne) hrank⟩
  · exact ⟨m1, by rw [P3.vget_vset_ne hset hq]; exact hm1, hne, hrank⟩

theorem compare_eq {n : Nat} (pets : Pet) {q cur m : Int}
    (hlen : pets.petPreferenceRanks.length = n)
    (hrows : ∀ j : Int, 0 ≤ j → j < (n : Int) → (P3.rowOf pets.petPreferenceRanks j).length = n)
    (hq0 : 0 ≤ q) (hq : q < (n : Int)) (hc0 : 0 ≤ cur) (hc : cur < (n : Int))
    (hm0 : 0 ≤ m) (hm : m < (n : Int)) (hold : P3.vget pets.matchedPeople q = some m) :
    pets.comparePetPreferenceRank q cur
      = some (decide (rankOf pets.petPreferenceRanks q cur < rankOf pets.petPreferenceRanks q m)) := by
  have hrow := P3.vget_rowOf_in_range hq0 (by rw [hlen]; exact hq)
  have hl := hrows q hq0 hq
  obtain ⟨a, ha⟩ := P3.vget_in_range hc0 (by rw [hl]; exact hc)
  obtain ⟨b, hb⟩ := P3.vget_in_range hm0 (by rw [hl]; exact hm)
  unfold Pet.comparePetPreferenceRank Pet.getMatchedPerson rankOf
  rw [hrow, hold]
  simp only [ha, hb, Option.getD_some]

theorem vget_set_self {l : List Int} {i : Int} (x : Int) (h0 : 0 ≤ i)
    (hlt : i < (l.length : Int)) : P3.vget (l.set i.toNat x) i = some x :=
  P3.vget_vset_self (P3.vset_in_range x h0 hlt)

theorem vget_set_ne {l : List Int} {i j : Int} (x : Int) (h0 : 0 ≤ i)
    (hlt : i < (l.length : Int)) (hj : j ≠ i) : P3.vget (l.set i.toNat x) j = P3.vget l j :=
  P3.vget_vset_ne (P3.vset_in_range x h0 hlt) hj

theorem setMatchedPet_eq (people : People) (i q : Int) (h0 : 0 ≤ i)
    (hlt : i < (people.matchedPet.length : Int)) :
    people.setMatchedPet i q
      = some { people with matchedPet := people.matchedPet.set i.toNat q } := by
  unfold People.setMatchedPet
  rw [P3.vset_in_range q h0 hlt]

theorem setMatchedPerson_eq (pets : Pet) (q i : Int) (h0 : 0 ≤ q)
    (hlt : q < (pets.matchedPeople.length : Int)) :
    pets.setMatchedPerson q i
      = some { pets with matchedPeople := pets.matchedPeople.set q.toNat i } := by
  unfold Pet.setMatchedPerson
  rw [P3.vset_in_range i h0 hlt]

theorem proposal_of_inv {n : Nat} {original ranks : List (List Int)} {people : People}
    {pets : Pet} {cur : Int} {rest : List Int} {c : Nat}
    (hperm : ∀ i : Int, 0 ≤ i → i < (n : Int) → (P3.rowOf original i).Perm (numbersUpTo n))
    (hinv : MatchingInv n original ranks people pets (cur :: rest) c) :
    ∃ v L m before, Proposal n original ranks people pets cur v L m before := by
  obtain ⟨h0, hlt, v, L, hrow, hv1, hvn⟩ := queue_head_has_preference hperm hinv
  have hlen : cur < (people.peoplePreferences.length : Int) := by
    rw [hinv.prefs_length]; exact hlt
  obtain ⟨m, hm⟩ := P3.vget_in_range (v := pets.matchedPeople) (i := v - 1) (by omega)
    (by rw [hinv.matchedPeople_length]; omega)
  obtain ⟨before, hsplit, -, hheld⟩ := hinv.proposed cur h0 hlt
  rw [hrow] at hsplit
  have hnodup : (before ++ v :: L).Nodup := by
    rw [← hsplit]
    exact (hperm cur h0 hlt).nodup_iff.mpr (numbersUpTo_nodup n)
  refine ⟨v, L, m, before, h0, hlt, hrow, by omega, by omega, hm,
    (hinv.queue_mem cur).mp (List.mem_cons_self _ _), hsplit, hheld, ?_,
    getPeoplePreference_cons h0 hlen hrow, ?_⟩
  · intro hmem
    exact (List.nodup_append.mp hnodup).2.2 hmem (List.mem_cons_self _ _)
  · apply sum_length_set _ _ v
    have h := P3.vget_rowOf_in_range h0 hlen
    rw [P3.vget_eq_getElem? _ _ h0, hrow] at h
    exact h

theorem inv_reject {n : Nat} {original ranks : List (List Int)} {people : People}
    {pets : Pet} {cur v m : Int} {rest L before : List Int} {c : Nat}
    (hinv : MatchingInv n original ranks people pets (cur :: rest) c)
    (hp : Proposal n original ranks people pets cur v L m before) (hm : m ≠ -1)
    (hrank : ¬ rankOf ranks (v - 1) cur < rankOf ranks (v - 1) m) :
    MatchingInv n original ranks
      { people with peoplePreferences := people.peoplePreferences.set cur.toNat L } pets
      (rest ++ [cur]) (c + 1) := by
  have hlen : cur < (people.peoplePreferences.length : Int) := by
    rw [hinv.prefs_length]; exact hp.cur_lt
  refine ⟨by simp [hinv.prefs_length], hinv.matchedPet_length, hinv.matchedPeople_length,
    hinv.ranks_eq, ?_, hinv.person_side, hinv.pet_side, ?_, ?_, ?_⟩
  · intro i hi0 hin
    by_cases hic : i = cur
    · subst hic
      refine ⟨before ++ [v], ?_, ?_, ?_⟩
      · show P3.rowOf original i = before ++ [v] ++ P3.rowOf (people.peoplePreferences.set i.toNat L) i
        rw [rowOf_set_self L hp.cur_nonneg hlen, hp.split]
        simp
      · intro q hq hne
        have hq1 : P3.vget people.matchedPet i = some q := hq
        rw [hp.unmatched] at hq1
        cases hq1
        exact absurd rfl hne
      · intro w hw
        rcases List.mem_append.mp hw with h | h
        · exact hp.held w h
        · rw [List.mem_singleton] at h
          subst h
          exact ⟨m, hp.holder, hm, not_lt.mp hrank⟩
    · obtain ⟨b, hb1, hb2, hb3⟩ := hinv.proposed i hi0 hin
      refine ⟨b, ?_, hb2, hb3⟩
      show P3.rowOf original i = b ++ P3.rowOf (people.peoplePreferences.set cur.toNat L) i
      rw [rowOf_set_ne L hp.cur_nonneg hlen hic]
      exact hb1
  · have h := hinv.queue_nodup
    rw [List.nodup_cons] at h
    rw [List.nodup_append]
    refine ⟨h.2, List.nodup_singleton _, ?_⟩
    intro x hx hx1
    rw [List.mem_singleton] at hx1
    subst hx1
    exact h.1 hx
  · intro i
    rw [← hinv.queue_mem i]
    simp only [List.mem_append, List.mem_singleton, List.mem_cons]
    tauto
  · have := hp.total
    have := hinv.count
    show c + 1 + ((people.peoplePreferences.set cur.toNat L).map List.length).sum = n * n
    omega

theorem inv_accept {n : Nat} {original ranks : List (List Int)} {people : People}
    {pets : Pet} {cur v m : Int} {rest L before : List Int} {c : Nat}
    (hinv : MatchingInv n original ranks people pets (cur :: rest) c)
    (hp : Proposal n original ranks people pets cur v L m before) (hm : m = -1) :
    MatchingInv n original ranks
      { people with
        peoplePreferences := people.peoplePreferences.set cur.toNat L
        matchedPet := people.matchedPet.set cur.toNat (v - 1) }
      { pets with matchedPeople := pets.matchedPeople.set (v - 1).toNat cur }
      rest (c + 1) := by
  subst hm
  have hlen : cur < (people.peoplePreferences.length : Int) := by
    rw [hinv.prefs_length]; exact hp.cur_lt
  have hlenP : cur < (people.matchedPet.length : Int) := by
    rw [hinv.matchedPet_length]; exact hp.cur_lt
  have hlenQ : v - 1 < (pets.matchedPeople.length : Int) := by
    rw [hinv.matchedPeople_length]; exact hp.pet_lt
  have hc0 := hp.cur_nonneg
  have hq0 := hp.pet_nonneg
  have hsetQ := P3.vset_in_range cur hq0 hlenQ
  have hcur1 : cur ≠ -1 := by omega
  have hheld : ∀ i w, Held pets.matchedPeople ranks i w →
      Held (pets.matchedPeople.set (v - 1).toNat cur) ranks i w :=
    fun i w h => h.update hsetQ hp.holder hcur1 (fun hne => absurd rfl hne)
  refine ⟨by simp [hinv.prefs_length], by simp [hinv.matchedPet_length],
    by simp [hinv.matchedPeople_length], hinv.ranks_eq, ?_, ?_, ?_, ?_, ?_, ?_⟩
  · intro i hi0 hin
    by_cases hic : i = cur
    · subst hic
      refine ⟨before ++ [v], ?_, ?_, ?_⟩
      · show P3.rowOf original i
          = before ++ [v] ++ P3.rowOf (people.peoplePreferences.set i.toNat L) i
        rw [rowOf_set_self L hc0 hlen, hp.split]
        simp
      · intro q hq hne
        have hq1 : P3.vget (people.matchedPet.set i.toNat (v - 1)) i = some q := hq
        rw [vget_set_self _ hc0 hlenP] at hq1
        cases hq1
        simp
      · intro w hw
        rcases List.mem_append.mp hw with h | h
        · exact hheld i w (hp.held w h)
        · rw [List.mem_singleton] at h
          subst h
          exact ⟨i, vget_set_self _ hq0 hlenQ, hcur1, le_refl _⟩
    · obtain ⟨b, hb1, hb2, hb3⟩ := hinv.proposed i hi0 hin
      refine ⟨b, ?_, ?_, fun w hw => hheld i w (hb3 w hw)⟩
      · show P3.rowOf original i = b ++ P3.rowOf (people.peoplePreferences.set cur.toNat L) i
        rw [rowOf_set_ne L hc0 hlen hic]
        exact hb1
      · intro q hq hne
        have hq1 : P3.vget (people.matchedPet.set cur.toNat (v - 1)) i = some q := hq
        rw [vget_set_ne _ hc0 hlenP hic] at hq1
        exact hb2 q hq1 hne
  · intro i q hq hne
    have hq1 : P3.vget (people.matchedPet.set cur.toNat (v - 1)) i = some q := hq
    show P3.vget (pets.matchedPeople.set (v - 1).toNat cur) q = some i
    by_cases hic : i = cur
    · subst hic
      rw [vget_set_self _ hc0 hlenP] at hq1
      cases hq1
      exact vget_set_self _ hq0 hlenQ
    · rw [vget_set_ne _ hc0 hlenP hic] at hq1
      have hold := hinv.person_side i q hq1 hne
      have hqv : q ≠ v - 1 := by
        intro h
        rw [h, hp.holder] at hold
        have hi := (P3.vget_some_bounds hq1).1
        simp only [Option.some.injEq] at hold
        omega
      rw [vget_set_ne _ hq0 hlenQ hqv]
      exact hold
  · intro q i hq hne
    have hq1 : P3.vget (pets.matchedPeople.set (v - 1).toNat cur) q = some i := hq
    show P3.vget (people.matchedPet.set cur.toNat (v - 1)) i = some q
    by_cases hqv : q = v - 1
    · subst hqv
      rw [vget_set_self _ hq0 hlenQ] at hq1
      cases hq1
      exact vget_set_self _ hc0 hlenP
    · rw [vget_set_ne _ hq0 hlenQ hqv] at hq1
      have hold := hinv.pet_side q i hq1 hne
      have hic : i ≠ cur := by
        intro h
        rw [h, hp.unmatched] at hold
        have hq2 := (P3.vget_some_bounds hq1).1
        simp only [Option.some.injEq] at hold
        omega
      rw [vget_set_ne _ hc0 hlenP hic]
      exact hold
  · exact (List.nodup_cons.mp hinv.queue_nodup).2
  · intro i
    show i ∈ rest ↔ P3.vget (people.matchedPet.set cur.toNat (v - 1)) i = some (-1)
    by_cases hic : i = cur
    · subst hic
      rw [vget_set_self _ hc0 hlenP]
      constructor
      · intro h
        exact absurd h (List.nodup_cons.mp hinv.queue_nodup).1
      · intro h
        simp only [Option.some.injEq] at h
        omega
    · rw [vget_set_ne _ hc0 hlenP hic, ← hinv.queue_mem i]
      simp [hic]
  · have := hp.total
    have := hinv.count
    show c + 1 + ((people.peoplePreferences.set cur.toNat L).map List.length).sum = n * n
    omega

theorem inv_replace {n : Nat} {original ranks : List (List Int)} {people : People}
    {pets : Pet} {cur v m : Int} {rest L before : List Int} {c : Nat}
    (hinv : MatchingInv n original ranks people pets (cur :: rest) c)
    (hp : Proposal n original ranks people pets cur v L m before) (hm : m ≠ -1)
    (hrank : rankOf ranks (v - 1) cur < rankOf ranks (v - 1) m) :
    MatchingInv n original ranks
      { people with
        peoplePreferences := people.peoplePreferences.set cur.toNat L
        matchedPet := (people.matchedPet.set m.toNat (-1)).set cur.toNat (v - 1) }
      { pets with matchedPeople := pets.matchedPeople.set (v - 1).toNat cur }
      (rest ++ [m]) (c + 1) := by
  have hlen : cur < (people.peoplePreferences.length : Int) := by
    rw [hinv.prefs_length]; exact hp.cur_lt
  have hlenP : cur < (people.matchedPet.length : Int) := by
    rw [hinv.matchedPet_length]; exact hp.cur_lt
  have hlenQ : v - 1 < (pets.matchedPeople.length : Int) := by
    rw [hinv.matchedPeople_length]; exact hp.pet_lt
  have hc0 := hp.cur_nonneg
  have hq0 := hp.pet_nonneg
  have hmq : P3.vget people.matchedPet m = some (v - 1) := hinv.pet_side _ _ hp.holder hm
  have hmb := P3.vget_some_bounds hmq
  have hm0 : 0 ≤ m := hmb.1
  have hlenM : m < (people.matchedPet.length : Int) := by omega
  have hmc : m ≠ cur := by
    intro h
    rw [h, hp.unmatched] at hmq
    simp only [Option.some.injEq] at hmq
    omega
  have hlenP1 : cur < ((people.matchedPet.set m.toNat (-1)).length : Int) := by
    rw [List.length_set]; exact hlenP
  have hsetQ := P3.vset_in_range cur hq0 hlenQ
  have hcur1 : cur ≠ -1 := by omega
  have hheld : ∀ i w, Held pets.matchedPeople ranks i w →
      Held (pets.matchedPeople.set (v - 1).toNat cur) ranks i w :=
    fun i w h => h.update hsetQ hp.holder hcur1 (fun _ => le_of_lt hrank)
  have hnew : ∀ i, P3.vget ((people.matchedPet.set m.toNat (-1)).set cur.toNat (v - 1)) i
      = if i = cur then some (v - 1) else if i = m then some (-1)
        else P3.vget people.matchedPet i := by
    intro i
    by_cases hic : i = cur
    · rw [if_pos hic, hic]
      exact vget_set_self _ hc0 hlenP1
    · rw [if_neg hic, vget_set_ne _ hc0 hlenP1 hic]
      by_cases him : i = m
      · rw [if_pos him, him]
        exact vget_set_self _ hm0 hlenM
      · rw [if_neg him, vget_set_ne _ hm0 hlenM him]
  refine ⟨by simp [hinv.prefs_length], by simp [hinv.matchedPet_length],
    by simp [hinv.matchedPeople_length], hinv.ranks_eq, ?_, ?_, ?_, ?_, ?_, ?_⟩
  · intro i hi0 hin
    by_cases hic : i = cur
    · subst hic
      refine ⟨before ++ [v], ?_, ?_, ?_⟩
      · show P3.rowOf original i
          = before ++ [v] ++ P3.rowOf (people.peoplePreferences.set i.toNat L) i
        rw [rowOf_set_self L hc0 hlen, hp.split]
        simp
      · intro q hq hne
        have hq1 : P3.vget ((people.matchedPet.set m.toNat (-1)).set i.toNat (v - 1)) i
            = some q := hq
        rw [hnew, if_pos rfl] at hq1
        cases hq1
        simp
      · intro w hw
        rcases List.mem_append.mp hw with h | h
        · exact hheld i w (hp.held w h)
        · rw [List.mem_singleton] at h
          subst h
          exact ⟨i, vget_set_self _ hq0 hlenQ, hcur1, le_refl _⟩
    · obtain ⟨b, hb1, hb2, hb3⟩ := hinv.proposed i hi0 hin
      refine ⟨b, ?_, ?_, fun w hw => hheld i w (hb3 w hw)⟩
      · show P3.rowOf original i = b ++ P3.rowOf (people.peoplePreferences.set cur.toNat L) i
        rw [rowOf_set_ne L hc0 hlen hic]
        exact hb1
      · intro q hq hne
        have hq1 : P3.vget ((people.matchedPet.set m.toNat (-1)).set cur.toNat (v - 1)) i
            = some q := hq
        rw [hnew, if_neg hic] at hq1
        by_cases him : i = m
        · rw [if_pos him] at hq1
          cases hq1
          exact absurd rfl hne
        · rw [if_neg him] at hq1
          exact hb2 q hq1 hne
  · intro i q hq hne
    have hq1 : P3.vget ((people.matchedPet.set m.toNat (-1)).set cur.toNat (v - 1)) i
        = some q := hq
    show P3.vget (pets.matchedPeople.set (v - 1).toNat cur) q = some i
    rw [hnew] at hq1
    by_cases hic : i = cur
    · rw [if_pos hic] at hq1
      cases hq1
      rw [hic]
      exact vget_set_self _ hq0 hlenQ
    · rw [if_neg hic] at hq1
      by_cases him : i = m
      · rw [if_pos him] at hq1
        cases hq1
        exact absurd rfl hne
      · rw [if_neg him] at hq1
        have hold := hinv.person_side i q hq1 hne
        have hqv : q ≠ v - 1 := by
          intro h
          rw [h, hp.holder] at hold
          simp only [Option.some.injEq] at hold
          exact him hold.symm
        rw [vget_set_ne _ hq0 hlenQ hqv]
        exact hold
  · intro q i hq hne
    have hq1 : P3.vget (pets.matchedPeople.set (v - 1).toNat cur) q = some i := hq
    show P3.vget ((people.matchedPet.set m.toNat (-1)).set cur.toNat (v - 1)) i = some q
    rw [hnew]
    by_cases hqv : q = v - 1
    · subst hqv
      rw [vget_set_self _ hq0 hlenQ] at hq1
      cases hq1
      rw [if_pos rfl]
    · rw [vget_set_ne _ hq0 hlenQ hqv] at hq1
      have hold := hinv.pet_side q i hq1 hne
      have hic : i ≠ cur := by
        intro h
        rw [h, hp.unmatched] at hold
        have hq2 := (P3.vget_some_bounds hq1).1
        simp only [Option.some.injEq] at hold
        omega
      have him : i ≠ m := by
        intro h
        rw [h, hmq] at hold
        simp only [Option.some.injEq] at hold
        exact hqv hold.symm
      rw [if_neg hic, if_neg him]
      exact hold
  · have h := hinv.queue_nodup
    rw [List.nodup_cons] at h
    rw [List.nodup_append]
    refine ⟨h.2, List.nodup_singleton _, ?_⟩
    intro x hx hx1
    rw [List.mem_singleton] at hx1
    subst hx1
    have hx2 := (hinv.queue_mem x).mp (List.mem_cons_of_mem _ hx)
    rw [hmq] at hx2
    simp only [Option.some.injEq] at hx2
    omega
  · intro i
    show i ∈ rest ++ [m]
      ↔ P3.vget ((people.matchedPet.set m.toNat (-1)).set cur.toNat (v - 1)) i = some (-1)
    rw [hnew]
    by_cases hic : i = cur
    · rw [if_pos hic, hic]
      constructor
      · intro h
        rcases List.mem_append.mp h with h1 | h1
        · exact absurd h1 (List.nodup_cons.mp hinv.queue_nodup).1
        · rw [List.mem_singleton] at h1
          exact absurd h1.symm hmc
      · intro h
        simp only [Option.some.injEq] at h
        omega
    · rw [if_neg hic]
      by_cases him : i = m
      · rw [if_pos him, him]
        simp
      · rw [if_neg him, ← hinv.queue_mem i]
        simp [hic, him]
  · have := hp.total
    have := hinv.count
    show c + 1 + ((people.peoplePreferences.set cur.toNat L).map List.length).sum = n * n
    omega

/-- Under the invariant an iteration never returns false and never leaves a vector; it makes
one proposal and keeps the invariant. -/
theorem proposeStep_inv {n : Nat} {original ranks : List (List Int)} {people : People}
    {pets : Pet} {cur : Int} {rest : List Int} {c : Nat}
    (hperm : ∀ i : Int, 0 ≤ i → i < (n : Int) → (P3.rowOf original i).Perm (numbersUpTo n))
    (hlen : ranks.length = n)
    (hrows : ∀ j : Int, 0 ≤ j → j < (n : Int) → (P3.rowOf ranks j).length = n)
    (hinv : MatchingInv n original ranks people pets (cur :: rest) c) :
    ∃ people1 pets1 queue, proposeStep people pets cur rest = Step.next people1 pets1 queue ∧
      MatchingInv n original ranks people1 pets1 queue (c + 1) := by
  obtain ⟨v, L, m, before, hp⟩ := proposal_of_inv hperm hinv
  have hv : ¬ v = -1 := by have := hp.pet_nonneg; omega
  have hlenP : cur < (people.matchedPet.length : Int) := by
    rw [hinv.matchedPet_length]; exact hp.cur_lt
  have hlenQ : v - 1 < (pets.matchedPeople.length : Int) := by
    rw [hinv.matchedPeople_length]; exact hp.pet_lt
  have hsetQ := setMatchedPerson_eq pets (v - 1) cur hp.pet_nonneg hlenQ
  by_cases hm : m = -1
  · refine ⟨_, _, _, ?_, inv_accept hinv hp hm⟩
    have hsetP := setMatchedPet_eq
      { people with peoplePreferences := people.peoplePreferences.set cur.toNat L }
      cur (v - 1) hp.cur_nonneg hlenP
    unfold proposeStep
    rw [hp.pop]
    simp only [if_neg hv, Pet.getMatchedPerson, hp.holder, if_pos hm, hsetQ, hsetP]
  · have hmq : P3.vget people.matchedPet m = some (v - 1) := hinv.pet_side _ _ hp.holder hm
    have hmb := P3.vget_some_bounds hmq
    rw [hinv.matchedPet_length] at hmb
    have hcmp := compare_eq pets (by rw [hinv.ranks_eq]; exact hlen)
      (by rw [hinv.ranks_eq]; exact hrows) hp.pet_nonneg hp.pet_lt hp.cur_nonneg hp.cur_lt
      hmb.1 (by omega) hp.holder
    rw [hinv.ranks_eq] at hcmp
    by_cases hrank : rankOf ranks (v - 1) cur < rankOf ranks (v - 1) m
    · refine ⟨_, _, _, ?_, inv_replace hinv hp hm hrank⟩
      have hsetM := setMatchedPet_eq
        { people with peoplePreferences := people.peoplePreferences.set cur.toNat L }
        m (-1) hmb.1 (by rw [hinv.matchedPet_length]; omega)
      have hsetP := setMatchedPet_eq
        { people with
          peoplePreferences := people.peoplePreferences.set cur.toNat L
          matchedPet := people.matchedPet.set m.toNat (-1) }
        cur (v - 1) hp.cur_nonneg (by rw [List.length_set]; exact hlenP)
      unfold proposeStep
      rw [hp.pop]
      simp only [if_neg hv, Pet.getMatchedPerson, hp.holder, if_neg hm, hcmp, hrank,
        decide_True, hsetM, hsetQ, hsetP]
    · refine ⟨_, _, _, ?_, inv_reject hinv hp hm hrank⟩
      unfold proposeStep
      rw [hp.pop]
      simp only [if_neg hv, Pet.getMatchedPerson, hp.holder, if_neg hm, hcmp, hrank,
        decide_False]

theorem fillRanks_length : ∀ (preferences : List Int) (start : List Int) (rank : Int)
    (filled : List Int), fillRanks start rank preferences = some filled →
    filled.length = start.length := by
  intro preferences
  induction preferences with
  | nil =>
    intro start rank filled h
    rw [fillRanks] at h
    cases h
    rfl
  | cons p rest ih =>
    intro start rank filled h
    rw [fillRanks] at h
    cases hset : P3.vset start (p - 1) rank with
    | none => rw [hset] at h; cases h
    | some l =>
      rw [hset] at h
      rw [ih l _ _ h, P3.vset_length hset]

theorem validInstance_rows {n : Nat} {people : People} {pets : Pet}
    (hvalid : ValidInstance n people pets) (j : Int) (h0 : 0 ≤ j) (hlt : j < (n : Int)) :
    (P3.rowOf pets.petPreferenceRanks j).length = n := by
  obtain ⟨lines, -, hlines⟩ := hvalid.ranks
  have hk : j.toNat < pets.petPreferenceRanks.length := by
    rw [hvalid.ranks_length]; omega
  have hrow : P3.rowOf pets.petPreferenceRanks j = pets.petPreferenceRanks[j.toNat] := by
    unfold P3.rowOf
    rw [P3.vget_eq_getElem? _ _ h0, List.getElem?_eq_getElem hk]
    rfl
  have h1 : (lines.map (rankListOf n))[j.toNat]? = some (some pets.petPreferenceRanks[j.toNat]) := by
    rw [hlines, List.getElem?_map, List.getElem?_eq_getElem hk]
    rfl
  rw [List.getElem?_map] at h1
  cases hline : lines[j.toNat]? with
  | none => rw [hline] at h1; cases h1
  | some line =>
    rw [hline] at h1
    simp only [Option.map_some', Option.some.injEq] at h1
    unfold rankListOf at h1
    rw [hrow, fillRanks_length _ _ _ _ h1, List.length_replicate]

theorem vget_replicate {n : Nat} {i x y : Int} (h : P3.vget (List.replicate n x) i = some y) :
    y = x ∧ 0 ≤ i ∧ i < (n : Int) := by
  have hb := P3.vget_some_bounds h
  rw [List.length_replicate] at hb
  rw [P3.vget_eq_getElem? _ _ hb.1, List.getElem?_replicate, if_pos hb.2] at h
  cases h
  exact ⟨rfl, hb.1, by omega⟩

theorem validInstance_inv {n : Nat} {people : People} {pets : Pet}
    (hvalid : ValidInstance n people pets) :
    MatchingInv n people.peoplePreferences pets.petPreferenceRanks people pets
      ((List.range people.peopleCount.toNat).map (fun (i : Nat) => (i : Int))) 0 := by
  have hmp := hvalid.unmatched_people
  have hmq := hvalid.unmatched_pets
  refine ⟨hvalid.preferences_length, by rw [hmp, List.length_replicate],
    by rw [hmq, List.length_replicate], rfl, ?_, ?_, ?_, ?_, ?_, ?_⟩
  · intro i _ _
    refine ⟨[], rfl, ?_, fun v hv => absurd hv (List.not_mem_nil v)⟩
    intro q hq hne
    rw [hmp] at hq
    exact absurd (vget_replicate hq).1 hne
  · intro i q hq hne
    rw [hmp] at hq
    exact absurd (vget_replicate hq).1 hne
  · intro q i hq hne
    rw [hmq] at hq
    exact absurd (vget_replicate hq).1 hne
  · refine List.Nodup.map ?_ (List.nodup_range _)
    intro a b h
    exact Int.ofNat.inj h
  · intro i
    rw [hvalid.people_count, hmp]
    simp only [Int.toNat_ofNat, List.mem_map, List.mem_range]
    constructor
    · rintro ⟨k, hk, rfl⟩
      rw [P3.vget_natCast, List.getElem?_replicate, if_pos hk]
    · intro h
      obtain ⟨-, h0, hlt⟩ := vget_replicate h
      exact ⟨i.toNat, by omega, by omega⟩
  · have hall : ∀ x ∈ people.peoplePreferences.map List.length, x = n := by
      intro x hx
      obtain ⟨row, hrow, rfl⟩ := List.mem_map.mp hx
      rw [(hvalid.preferences_perm row hrow).length_eq]
      simp [numbersUpTo]
    rw [List.sum_eq_card_nsmul _ n hall, List.length_map, hvalid.preferences_length]
    simp

theorem validInstance_perm {n : Nat} {people : People} {pets : Pet}
    (hvalid : ValidInstance n people pets) (i : Int) (h0 : 0 ≤ i) (hlt : i < (n : Int)) :
    (P3.rowOf people.peoplePreferences i).Perm (numbersUpTo n) := by
  apply hvalid.preferences_perm
  have hk : i.toNat < people.peoplePreferences.length := by
    rw [hvalid.preferences_length]; omega
  unfold P3.rowOf
  rw [P3.vget_eq_getElem? _ _ h0, List.getElem?_eq_getElem hk]
  exact List.getElem_mem _

/-- From a state that satisfies the invariant the loop returns true, whatever fuel above the
number of queue entries left it is given, and the invariant holds with an empty queue. -/
theorem matchingLoop_spec {n : Nat} {original ranks : List (List Int)}
    (hperm : ∀ i : Int, 0 ≤ i → i < (n : Int) → (P3.rowOf original i).Perm (numbersUpTo n))
    (hlen : ranks.length = n)
    (hrows : ∀ j : Int, 0 ≤ j → j < (n : Int) → (P3.rowOf ranks j).length = n) :
    ∀ (k : Nat) (people : People) (pets : Pet) (queue : List Int) (c : Nat),
      MatchingInv n original ranks people pets queue c → n * n - c ≤ k →
      ∃ people1 pets1 c1, MatchingInv n original ranks people1 pets1 [] c1 ∧
        ∀ fuel, n * n - c < fuel →
          matchingLoop fuel people pets queue c = P3.Outcome.done (true, people1, pets1, c1) := by
  intro k
  induction k with
  | zero =>
    intro people pets queue c hinv hk
    cases queue with
    | nil =>
      refine ⟨people, pets, c, hinv, ?_⟩
      intro fuel hfuel
      cases fuel with
      | zero => omega
      | succ f => rw [matchingLoop]
    | cons cur rest =>
      obtain ⟨people1, pets1, queue1, -, hinv1⟩ := proposeStep_inv hperm hlen hrows hinv
      have := hinv1.count
      omega
  | succ k ih =>
    intro people pets queue c hinv hk
    cases queue with
    | nil =>
      refine ⟨people, pets, c, hinv, ?_⟩
      intro fuel hfuel
      cases fuel with
      | zero => omega
      | succ f => rw [matchingLoop]
    | cons cur rest =>
      obtain ⟨people1, pets1, queue1, hstep, hinv1⟩ := proposeStep_inv hperm hlen hrows hinv
      have hc := hinv1.count
      obtain ⟨people2, pets2, c2, hinv2, hrun⟩ := ih people1 pets1 queue1 (c + 1) hinv1 (by omega)
      refine ⟨people2, pets2, c2, hinv2, ?_⟩
      intro fuel hfuel
      cases fuel with
      | zero => omega
      | succ f =>
        rw [matchingLoop, hstep]
        exact hrun f (by omega)

/-- On a valid instance `performStableMatching` returns true once its fuel exceeds `n * n`,
and the loop invariant holds for what it leaves, with an empty queue. -/
theorem matching_run {n : Nat} {people : People} {pets : Pet}
    (hvalid : ValidInstance n people pets) :
    ∃ people1 pets1 c1,
      MatchingInv n people.peoplePreferences pets.petPreferenceRanks people1 pets1 [] c1 ∧
      ∀ fuel, n * n < fuel →
        performStableMatching fuel people pets = P3.Outcome.done (true, people1, pets1, c1) := by
  obtain ⟨people1, pets1, c1, hinv, hrun⟩ := matchingLoop_spec (validInstance_perm hvalid)
    hvalid.ranks_length (validInstance_rows hvalid) (n * n) people pets _ 0
    (validInstance_inv hvalid) (by omega)
  exact ⟨people1, pets1, c1, hinv, fun fuel hfuel => hrun fuel (by omega)⟩

theorem matched_of_empty_queue {n : Nat} {original ranks : List (List Int)} {people : People}
    {pets : Pet} {c : Nat} (hinv : MatchingInv n original ranks people pets [] c) (i : Int)
    (h0 : 0 ≤ i) (hlt : i < (n : Int)) :
    ∃ q, P3.vget people.matchedPet i = some q ∧ 0 ≤ q ∧ q < (n : Int) ∧
      P3.vget pets.matchedPeople q = some i := by
  obtain ⟨q, hq⟩ := P3.vget_in_range (v := people.matchedPet) h0
    (by rw [hinv.matchedPet_length]; exact hlt)
  have hne : q ≠ -1 := by
    intro h
    rw [h] at hq
    exact absurd ((hinv.queue_mem i).mpr hq) (List.not_mem_nil i)
  have hside := hinv.person_side i q hq hne
  have hb := P3.vget_some_bounds hside
  rw [hinv.matchedPeople_length] at hb
  exact ⟨q, hq, hb.1, by omega, hside⟩

theorem mem_of_indexOf_lt {a r : List Int} {x y : Int}
    (h : (a ++ x :: r).indexOf y < (a ++ x :: r).indexOf x) : y ∈ a := by
  by_contra hy
  rw [List.indexOf_append_of_not_mem hy] at h
  have hx : (a ++ x :: r).indexOf x ≤ a.length := by
    by_cases hxa : x ∈ a
    · rw [List.indexOf_append_of_mem hxa]
      exact le_of_lt (List.indexOf_lt_length.mpr hxa)
    · rw [List.indexOf_append_of_not_mem hxa, List.indexOf_cons_self]
      exact le_refl _
  omega

/-- C24: for `n` people and `n` pets with permutation preference lists and nobody matched,
`performStableMatching` ends after at most `n * n` proposals, returns true, and leaves a
matching in which every person has a pet in 0..n-1, `matchedPeople[matchedPet[i]] = i`, and
different people have different pets. -/
theorem perfect_matching (n : Nat) (people : People) (pets : Pet)
    (hvalid : ValidInstance n people pets) :
    ∃ people1 pets1 proposals, proposals ≤ n * n ∧
      (∀ fuel, n * n < fuel →
        performStableMatching fuel people pets
          = P3.Outcome.done (true, people1, pets1, proposals)) ∧
      (∀ i : Int, 0 ≤ i → i < (n : Int) → ∃ q, people1.getMatchedPet i = some q ∧ 0 ≤ q ∧
        q < (n : Int) ∧ pets1.getMatchedPerson q = some i) ∧
      (∀ i j : Int, 0 ≤ i → i < (n : Int) → 0 ≤ j → j < (n : Int) → i ≠ j →
        people1.getMatchedPet i ≠ people1.getMatchedPet j) := by
  obtain ⟨people1, pets1, c1, hinv, hrun⟩ := matching_run hvalid
  refine ⟨people1, pets1, c1, ?_, hrun, matched_of_empty_queue hinv, ?_⟩
  · have := hinv.count
    omega
  · intro i j hi0 hi hj0 hj hij heq
    obtain ⟨q, hq, -, -, hside⟩ := matched_of_empty_queue hinv i hi0 hi
    obtain ⟨q1, hq1, -, -, hside1⟩ := matched_of_empty_queue hinv j hj0 hj
    have heq1 : P3.vget people1.matchedPet i = P3.vget people1.matchedPet j := heq
    rw [hq, hq1] at heq1
    cases heq1
    rw [hside] at hside1
    cases hside1
    exact hij rfl

/-- With an empty queue every pet has a master: the people hold `n` different pets out of `n`. -/
theorem pet_matched_of_empty_queue {n : Nat} {original ranks : List (List Int)}
    {people : People} {pets : Pet} {c : Nat}
    (hinv : MatchingInv n original ranks people pets [] c) (q : Int)
    (h0 : 0 ≤ q) (hlt : q < (n : Int)) :
    ∃ m, P3.vget pets.matchedPeople q = some m ∧ 0 ≤ m ∧ m < (n : Int) ∧
      P3.vget people.matchedPet m = some q := by
  have hrange : ∀ v ∈ people.matchedPet, 0 ≤ v ∧ v < (n : Int) := by
    intro v hv
    obtain ⟨k, hk, hget⟩ := vget_of_mem hv
    rw [hinv.matchedPet_length] at hk
    obtain ⟨v1, hv1, hv0, hvn, -⟩ := matched_of_empty_queue hinv (k : Int) (by omega) (by omega)
    rw [hget] at hv1
    cases hv1
    exact ⟨hv0, hvn⟩
  have hnodup : people.matchedPet.Nodup := by
    rw [List.nodup_iff_getElem?_ne_getElem?]
    intro a b hab hb2 heq
    have ha2 : a < people.matchedPet.length := by omega
    rw [hinv.matchedPet_length] at ha2 hb2
    obtain ⟨v, hv, -, -, hside⟩ := matched_of_empty_queue hinv (a : Int) (by omega) (by omega)
    obtain ⟨w, hw, -, -, hside1⟩ := matched_of_empty_queue hinv (b : Int) (by omega) (by omega)
    rw [P3.vget_natCast] at hv hw
    rw [hv, hw] at heq
    cases heq
    rw [hside] at hside1
    simp only [Option.some.injEq, Nat.cast_inj] at hside1
    omega
  have hmem := mem_of_injective_vector hinv.matchedPet_length hrange hnodup h0 hlt
  obtain ⟨k, hk, hget⟩ := vget_of_mem hmem
  rw [hinv.matchedPet_length] at hk
  obtain ⟨v, hv, -, -, hside⟩ := matched_of_empty_queue hinv (k : Int) (by omega) (by omega)
  rw [hget] at hv
  cases hv
  exact ⟨(k : Int), hside, by omega, by omega, hget⟩

/-- C23: under the same preconditions `performStableMatching` returns true, leaves the rank
tables as they were and leaves a matching without a blocking pair: every person `p` holds a pet
`own` in 0..n-1 whose master is `p`, every pet `q` has a master in 0..n-1 who holds `q`, the
ranks of `p` and of the master are entries of the rank table of `q`, and it is not the case
that the original list of `p` has `q` (written `q + 1` in the file) before `own` while `q`
ranks `p` strictly before its master. -/
theorem no_blocking_pair (n : Nat) (people : People) (pets : Pet)
    (hvalid : ValidInstance n people pets) :
    ∃ people1 pets1 proposals,
      performStableMatching (n * n + 1) people pets
        = P3.Outcome.done (true, people1, pets1, proposals) ∧
      pets1.petPreferenceRanks = pets.petPreferenceRanks ∧
      ∀ p q : Int, 0 ≤ p → p < (n : Int) → 0 ≤ q → q < (n : Int) →
        ∃ own master rankP rankMaster,
          people1.getMatchedPet p = some own ∧ 0 ≤ own ∧ own < (n : Int) ∧
          pets1.getMatchedPerson own = some p ∧
          pets1.getMatchedPerson q = some master ∧ 0 ≤ master ∧ master < (n : Int) ∧
          people1.getMatchedPet master = some q ∧
          own + 1 ∈ P3.rowOf people.peoplePreferences p ∧
          q + 1 ∈ P3.rowOf people.peoplePreferences p ∧
          P3.vget (P3.rowOf pets.petPreferenceRanks q) p = some rankP ∧
          P3.vget (P3.rowOf pets.petPreferenceRanks q) master = some rankMaster ∧
          ¬ ((P3.rowOf people.peoplePreferences p).indexOf (q + 1)
                < (P3.rowOf people.peoplePreferences p).indexOf (own + 1) ∧
              rankP < rankMaster) := by
  obtain ⟨people1, pets1, c1, hinv, hrun⟩ := matching_run hvalid
  refine ⟨people1, pets1, c1, hrun _ (by omega), hinv.ranks_eq, ?_⟩
  intro p q hp0 hp hq0 hq
  obtain ⟨own, hown, hown0, hownn, hownside⟩ := matched_of_empty_queue hinv p hp0 hp
  obtain ⟨master, hmaster, hm0, hmn, hmside⟩ := pet_matched_of_empty_queue hinv q hq0 hq
  have hrowlen := validInstance_rows hvalid q hq0 hq
  obtain ⟨rankP, hrankP⟩ := P3.vget_in_range (v := P3.rowOf pets.petPreferenceRanks q) hp0
    (by rw [hrowlen]; exact hp)
  obtain ⟨rankMaster, hrankMaster⟩ :=
    P3.vget_in_range (v := P3.rowOf pets.petPreferenceRanks q) hm0 (by rw [hrowlen]; exact hmn)
  have hperm := validInstance_perm hvalid p hp0 hp
  refine ⟨own, master, rankP, rankMaster, hown, hown0, hownn, hownside, hmaster, hm0, hmn,
    hmside, hperm.mem_iff.mpr (mem_numbersUpTo.mpr ⟨by omega, by omega⟩),
    hperm.mem_iff.mpr (mem_numbersUpTo.mpr ⟨by omega, by omega⟩), hrankP, hrankMaster, ?_⟩
  rintro ⟨hbefore, hrank⟩
  obtain ⟨before, hsplit, hlast, hheld⟩ := hinv.proposed p hp0 hp
  have hl := hlast own hown (by omega)
  obtain ⟨a, ha⟩ : ∃ a, before = a ++ [own + 1] := by
    rw [List.getLast?_eq_some_iff] at hl
    exact hl
  rw [hsplit, ha, List.append_assoc, List.singleton_append] at hbefore
  have hmem : q + 1 ∈ before := by
    rw [ha]
    exact List.mem_append_left _ (mem_of_indexOf_lt hbefore)
  obtain ⟨m, hm, -, hle⟩ := hheld _ hmem
  rw [show q + 1 - 1 = q by ring] at hm hle
  rw [hmaster] at hm
  cases hm
  have h1 : rankOf pets.petPreferenceRanks q p = rankP := by
    unfold rankOf
    rw [hrankP]
    rfl
  have h2 : rankOf pets.petPreferenceRanks q master = rankMaster := by
    unfold rankOf
    rw [hrankMaster]
    rfl
  rw [h1, h2] at hle
  exact absurd hrank (not_lt.mpr hle)

theorem threeInstance_valid : ValidInstance 3 threePeople threePets :=
  ⟨rfl, rfl, rfl, by decide, ⟨[[2, 1, 3], [1, 2, 3], [1, 2, 3]], by decide, by decide⟩, rfl,
    rfl, rfl⟩

/-- C24 (witness): three people and three pets; the run makes 6 proposals and leaves the
pets 1, 0, 2 with the people 0, 1, 2. -/
theorem perfect_matching_witness :
    ValidInstance 3 threePeople threePets ∧
    performStableMatching 10 threePeople threePets
      = P3.Outcome.done (true, ⟨3, [[3], [3, 2], []], [1, 0, 2]⟩,
          ⟨3, [[2, 1, 3], [1, 2, 3], [1, 2, 3]], [1, 0, 2]⟩, 6) ∧
    ∃ people1 pets1 proposals, proposals ≤ 3 * 3 ∧
      (∀ fuel, 3 * 3 < fuel →
        performStableMatching fuel threePeople threePets
          = P3.Outcome.done (true, people1, pets1, proposals)) ∧
      (∀ i : Int, 0 ≤ i → i < ((3 : Nat) : Int) → ∃ q, people1.getMatchedPet i = some q ∧
        0 ≤ q ∧ q < ((3 : Nat) : Int) ∧ pets1.getMatchedPerson q = some i) ∧
      (∀ i j : Int, 0 ≤ i → i < ((3 : Nat) : Int) → 0 ≤ j → j < ((3 : Nat) : Int) → i ≠ j →
        people1.getMatchedPet i ≠ people1.getMatchedPet j) :=
  ⟨threeInstance_valid, by decide, perfect_matching 3 threePeople threePets threeInstance_valid⟩

/-- C23 (witness): in the instance of three people and three pets person 0 ends with pet 1
although its list starts with pet 0: pet 0 ranks its master, person 1, before person 0. -/
theorem no_blocking_pair_witness :
    ValidInstance 3 threePeople threePets ∧
    performStableMatching (3 * 3 + 1) threePeople threePets
      = P3.Outcome.done (true, { threePeople with peoplePreferences := [[3], [3, 2], []]
                                                  matchedPet := [1, 0, 2] },
          { threePets with matchedPeople := [1, 0, 2] }, 6) ∧
    rankOf threePets.petPreferenceRanks 0 1 < rankOf threePets.petPreferenceRanks 0 0 ∧
    ∃ people1 pets1 proposals,
      performStableMatching (3 * 3 + 1) threePeople threePets
        = P3.Outcome.done (true, people1, pets1, proposals) ∧
      pets1.petPreferenceRanks = threePets.petPreferenceRanks ∧
      ∀ p q : Int, 0 ≤ p → p < ((3 : Nat) : Int) → 0 ≤ q → q < ((3 : Nat) : Int) →
        ∃ own master rankP rankMaster,
          people1.getMatchedPet p = some own ∧ 0 ≤ own ∧ own < ((3 : Nat) : Int) ∧
          pets1.getMatchedPerson own = some p ∧
          pets1.getMatchedPerson q = some master ∧ 0 ≤ master ∧ master < ((3 : Nat) : Int) ∧
          people1.getMatchedPet master = some q ∧
          own + 1 ∈ P3.rowOf threePeople.peoplePreferences p ∧
          q + 1 ∈ P3.rowOf threePeople.peoplePreferences p ∧
          P3.vget (P3.rowOf threePets.petPreferenceRanks q) p = some rankP ∧
          P3.vget (P3.rowOf threePets.petPreferenceRanks q) master = some rankMaster ∧
          ¬ ((P3.rowOf threePeople.peoplePreferences p).indexOf (q + 1)
                < (P3.rowOf threePeople.peoplePreferences p).indexOf (own + 1) ∧
              rankP < rankMaster) :=
  ⟨threeInstance_valid, by decide, by decide,
    no_blocking_pair 3 threePeople threePets threeInstance_valid⟩

end P1
